import Mathlib

/-!
# BASSembler6502: a shallow embedding of the two-pass 6502 assembler

Source files embedded here: `BASSembler6502.h` (classes `Opcode`, `MemChunk`,
the regular expressions compiled in the constructor of `BASSembler6502`) and
`BASSembler6502.cpp` (`assemble`, `checkDirectives`, `detectLabelDefinition`,
`assembleLine`, `convertIntoDecimal`, `countChars`, `findChar`,
`initOpcodeTable`).

Conventions of the embedding.

* A C++ `char` is a natural number (its byte code); a `std::string` is a list
  of such codes (`Str`).  `S "LDA"` is the string of a literal.
* `byte` is an unsigned 8-bit and `word` an unsigned 16-bit integer (`types.h`
  is not part of the sources; the sizes are those of the specification).  Both
  are natural numbers, reduced with `% 256` and `% 65536` where the source
  stores into them.  `int` is a mathematical integer wrapped to 32 bits by
  `wrap32` after every arithmetic operation.
* The regular expressions of the source are values of the type `RE`, run by a
  backtracking matcher with the priorities of PCRE (greedy quantifiers, ordered
  alternatives); `fullMatch`, `consume` and `globalReplace` follow the `pcrecpp`
  entry points of the same names.
* A function of the class `BASSembler6502` is a function from the assembler
  state `Asm` to an `Outcome`: the new state with the returned `int`, or the end
  of the process (`exit(-1)` in `MemChunk::addByte`, a null `actChunk`
  dereferenced in `assemble`).
* Two local variables are read by the source while they hold no value (`high`
  in `assembleLine`, `addressNum` in `checkDirectives`); the values they happen
  to hold are the fields of `Uninit`, an explicit parameter.
-/

namespace BASS

set_option maxRecDepth 100000

/-! ## Characters and strings -/

/-- A string of the source program: the list of its byte codes. -/
abbrev Str := List Nat

/-- The string of a literal. -/
def S (s : String) : Str := s.toList.map Char.toNat

/-- The character class of one literal character. -/
def isCh (c : Char) (x : Nat) : Bool := x == c.toNat

/-- The class `\s` of PCRE: space, `\t`, `\n`, vertical tab, `\f`, `\r`. -/
def isSpace (x : Nat) : Bool := x == 32 || (9 ≤ x && x ≤ 13)

/-- The class `\S`. -/
def isNonSpace (x : Nat) : Bool := !isSpace x

/-- The class `.` of PCRE: any character but the newline. -/
def isDot (x : Nat) : Bool := x != 10

/-- The class `[0-9]`, also written `\d`. -/
def isDigit (x : Nat) : Bool := 48 ≤ x && x ≤ 57

/-- The class `[A-Z]`. -/
def isUpper (x : Nat) : Bool := 65 ≤ x && x ≤ 90

/-- The class `[a-z]`. -/
def isLower (x : Nat) : Bool := 97 ≤ x && x ≤ 122

/-- The class `[a-zA-Z]`. -/
def isAlpha (x : Nat) : Bool := isUpper x || isLower x

/-- The class `\w`: letters, digits and the underscore. -/
def isWord (x : Nat) : Bool := isAlpha x || isDigit x || x == 95

/-- The class `[A-Z0-9_!]`. -/
def isLabelChar (x : Nat) : Bool := isUpper x || isDigit x || x == 95 || x == 33

/-- The class `[0-9A-F]`. -/
def isHexUpper (x : Nat) : Bool := isDigit x || (65 ≤ x && x ≤ 70)

/-- The class `[a-f0-9]`. -/
def isHexLower (x : Nat) : Bool := (97 ≤ x && x ≤ 102) || isDigit x

/-- The class `[0-9A-Z]`. -/
def isDigitOrUpper (x : Nat) : Bool := isDigit x || isUpper x

/-- The class `[0-1]`. -/
def isBin (x : Nat) : Bool := x == 48 || x == 49

/-- The class `[0|1]`: the characters `0`, `|` and `1`. -/
def isBinBar (x : Nat) : Bool := x == 48 || x == 124 || x == 49

/-- The class `[<>]`. -/
def isAngle (x : Nat) : Bool := x == 60 || x == 62

/-- The class `[\-|\+]`: the characters `-`, `|` and `+`. -/
def isSign (x : Nat) : Bool := x == 45 || x == 124 || x == 43

/-- The function `::toupper` of the C locale on one character. -/
def toupper (x : Nat) : Nat := if isLower x then x - 32 else x

/-- The function `::tolower` of the C locale on one character. -/
def tolower (x : Nat) : Nat := if isUpper x then x + 32 else x

/-- The source's `std::transform(..., ::toupper)` over a whole string. -/
def upperStr (s : Str) : Str := s.map toupper

/-- The source's `std::transform(..., ::tolower)` over a whole string. -/
def lowerStr (s : Str) : Str := s.map tolower

/-! ## Regular expressions -/

/-- The regular expressions the source uses: quantifiers apply to character
classes only, groups are numbered as in PCRE. -/
inductive RE where
  | eps : RE
  | cls (p : Nat → Bool) : RE
  | star (p : Nat → Bool) : RE
  | seq (a b : RE) : RE
  | alt (a b : RE) : RE
  | group (n : Nat) (a : RE) : RE
  | bol : RE
  | eol : RE
  | eos : RE

/-- The captured groups of a match: the number of a group and its text, the
latest binding first. -/
abbrev Caps := List (Nat × Str)

/-- The text of group `n`, empty when the group took no part in the match. -/
def capGet (c : Caps) (n : Nat) : Str :=
  match c.find? (fun e => e.1 == n) with
  | some e => e.2
  | none => []

/-- A match: the captured groups and the input left after the match. -/
abbrev MatchRes := Caps × Str

/-- The greedy loop of `p*`: take the longest run of characters of `p` and
give characters back one at a time until the continuation `k` succeeds. -/
def starGo (p : Nat → Bool) (k : Str → Option MatchRes) : Str → Option MatchRes
  | [] => k []
  | x :: xs =>
    if p x then
      match starGo p k xs with
      | some r => some r
      | none => k (x :: xs)
    else k (x :: xs)

/-- The backtracking matcher: `matchK r total k s c` matches `r` at the start
of `s` (a suffix of a subject of length `total`) and hands the rest of the
input and the groups to `k`; the first success in PCRE's order is the result. -/
def matchK : RE → Nat → (Str → Caps → Option MatchRes) → Str → Caps → Option MatchRes
  | RE.eps, _, k, s, c => k s c
  | RE.cls p, _, k, s, c =>
    match s with
    | [] => none
    | x :: xs => if p x then k xs c else none
  | RE.star p, _, k, s, c => starGo p (fun t => k t c) s
  | RE.seq a b, total, k, s, c => matchK a total (fun t d => matchK b total k t d) s c
  | RE.alt a b, total, k, s, c =>
    match matchK a total k s c with
    | some r => some r
    | none => matchK b total k s c
  | RE.group n a, total, k, s, c =>
    matchK a total (fun t d => k t ((n, s.take (s.length - t.length)) :: d)) s c
  | RE.bol, total, k, s, c => if s.length == total then k s c else none
  | RE.eol, _, k, s, c => if s == [] || s == [10] then k s c else none
  | RE.eos, _, k, s, c => if s == [] then k s c else none

/-- The expression `p+`. -/
def RE.plus (p : Nat → Bool) : RE := RE.seq (RE.cls p) (RE.star p)

/-- The expression `p?`. -/
def RE.opt (p : Nat → Bool) : RE := RE.alt (RE.cls p) RE.eps

/-- The concatenation of a list of expressions. -/
def RE.cat : List RE → RE
  | [] => RE.eps
  | [r] => r
  | r :: rs => RE.seq r (RE.cat rs)

/-- A match of `r` that starts exactly at the suffix `s` of a subject of
length `total`. -/
def matchAt (r : RE) (total : Nat) (s : Str) : Option MatchRes :=
  matchK r total (fun t c => some (c, t)) s []

/-- A match of `r` at the suffix `s` that is not empty (PCRE's `NOTEMPTY`):
empty matches are refused and the alternatives after them are tried. -/
def matchAtNonEmpty (r : RE) (total : Nat) (s : Str) : Option MatchRes :=
  matchK r total (fun t c => if t.length < s.length then some (c, t) else none) s []

/-- The entry point `RE::FullMatch`: the whole text has to match; the result
is the captured groups. -/
def fullMatch (r : RE) (s : Str) : Option Caps :=
  match matchK r s.length (fun t c => if t == [] then some (c, t) else none) s [] with
  | some (c, _) => some c
  | none => none

/-- The entry point `RE::Consume`: a match anchored at the start of the input;
the result is the captured groups and the input after the match. -/
def consume (r : RE) (s : Str) : Option MatchRes :=
  matchAt r s.length s

/-- An unanchored search from the suffix `s` on: the leftmost match, as the
text skipped before it, the groups and the input after it. -/
def searchFrom (r : RE) (total : Nat) : Str → Option (Str × Caps × Str)
  | [] =>
    match matchAt r total [] with
    | some (c, t) => some ([], c, t)
    | none => none
  | x :: xs =>
    match matchAt r total (x :: xs) with
    | some (c, t) => some ([], c, t)
    | none =>
      match searchFrom r total xs with
      | some (pre, c, t) => some (x :: pre, c, t)
      | none => none

/-- The loop of `RE::GlobalReplace` from the suffix `s` on; `lastEmpty` says
that the previous match was empty, `fuel` bounds the number of rounds.  The
result is the text produced for `s` and the number of replacements. -/
def globalReplaceLoop (r : RE) (rewrite : Caps → Str) (total : Nat) :
    Nat → Bool → Str → Str × Nat
  | 0, _, s => (s, 0)
  | fuel + 1, lastEmpty, s =>
    if lastEmpty then
      match matchAtNonEmpty r total s with
      | some (c, t) =>
        let res := globalReplaceLoop r rewrite total fuel false t
        (rewrite c ++ res.1, res.2 + 1)
      | none =>
        match s with
        | [] => ([], 0)
        | x :: xs =>
          let res := globalReplaceLoop r rewrite total fuel false xs
          (x :: res.1, res.2)
    else
      match searchFrom r total s with
      | none => (s, 0)
      | some (pre, c, t) =>
        let res := globalReplaceLoop r rewrite total fuel (t.length + pre.length == s.length) t
        (pre ++ rewrite c ++ res.1, res.2 + 1)

/-- The entry point `RE::GlobalReplace`: every match is replaced, from left to
right; the text is unchanged when nothing matches. -/
def globalReplace (r : RE) (rewrite : Caps → Str) (s : Str) : Str :=
  (globalReplaceLoop r rewrite s.length (2 * s.length + 2) false s).1

/-! ## Machine integers and the number helpers of the source -/

/-- The value of a C++ `int` after an arithmetic operation: the result wrapped
to 32 bits, two's complement. -/
def wrap32 (x : Int) : Int := (x + 2147483648) % 4294967296 - 2147483648

/-- The loop of `findChar` from index `i` on. -/
def findCharFrom (c : Nat) : Str → Nat → Nat
  | [], _ => 0
  | x :: xs, i => if x == c then i else findCharFrom c xs (i + 1)

/-- The source's `findChar`: the index of the first `c` in `text`, and 0 when
there is none. -/
def findChar (text : Str) (c : Nat) : Int := (findCharFrom c text 0 : Nat)

/-- The source's `countChars`: the number of occurrences of `c` in `text`. -/
def countChars (text : Str) (c : Nat) : Int := ((text.filter (fun x => x == c)).length : Nat)

/-- The result of `std::string::find(pat) != npos`: `pat` occurs in `s`. -/
def hasSub (pat : Str) : Str → Bool
  | [] => pat.isPrefixOf []
  | x :: xs => pat.isPrefixOf (x :: xs) || hasSub pat xs

/-- The digit of a value below 16, as `operator<<` prints it with `hex`. -/
def digitChar (d : Nat) : Nat := if d < 10 then 48 + d else 87 + d

/-- The digits of `n` in base `base`, most significant first, in front of
`acc`; `fuel` bounds the number of digits. -/
def digitsAux (base : Nat) : Nat → Nat → Str → Str
  | 0, _, acc => acc
  | fuel + 1, n, acc =>
    if n / base = 0 then digitChar (n % base) :: acc
    else digitsAux base fuel (n / base) (digitChar (n % base) :: acc)

/-- What `ss << hex << n` prints for an unsigned value below 2^64. -/
def hexStr (n : Nat) : Str := digitsAux 16 16 n []

/-- What `ss << n` prints for an unsigned value below 10^20. -/
def decStr (n : Nat) : Str := digitsAux 10 20 n []

/-- What `ss << value` prints for an `int`. -/
def intDecStr (v : Int) : Str := if v < 0 then 45 :: decStr v.natAbs else decStr v.natAbs

/-- What `ss << hex << value` prints for an `int`: the digits of its 32-bit
unsigned image. -/
def intHexStr (v : Int) : Str := hexStr (v % 4294967296).toNat

/-! ## The regular expressions of the constructor -/

/-- The expression of one literal character. -/
def RE.ch (c : Char) : RE := RE.cls (isCh c)

/-- The pattern `\s*;.*`. -/
def remove_comments : RE := RE.cat [RE.star isSpace, RE.ch ';', RE.star isDot]

/-- The pattern `^\s+(.+)`. -/
def remove_leading_space : RE := RE.cat [RE.bol, RE.plus isSpace, RE.group 1 (RE.plus isDot)]

/-- The pattern `\s+$`. -/
def remove_trailing_space : RE := RE.cat [RE.plus isSpace, RE.eol]

/-- The pattern `\s*\..*`. -/
def searchDirective : RE := RE.cat [RE.star isSpace, RE.ch '.', RE.star isDot]

/-- The pattern `\s*\.(\w+).*`. -/
def extractKeyword : RE :=
  RE.cat [RE.star isSpace, RE.ch '.', RE.group 1 (RE.plus isWord), RE.star isDot]

/-- The pattern `\s*.pc\s*=\s*\$([a-f0-9]+)`; its first dot is not escaped
and stands for any character. -/
def extractMemoryAddress : RE :=
  RE.cat [RE.star isSpace, RE.cls isDot, RE.ch 'p', RE.ch 'c', RE.star isSpace, RE.ch '=',
    RE.star isSpace, RE.ch '$', RE.group 1 (RE.plus isHexLower)]

/-- The pattern `\s*\.\w+\s+(.*)\s*`. -/
def getDataElements : RE :=
  RE.cat [RE.star isSpace, RE.ch '.', RE.plus isWord, RE.plus isSpace,
    RE.group 1 (RE.star isDot), RE.star isSpace]

/-- The group `((%[0|1]+)|(\$[0-9a-f]+)|([0-9]+))` of the two element patterns. -/
def dataElement : RE :=
  RE.group 1 (RE.alt (RE.group 2 (RE.seq (RE.ch '%') (RE.plus isBinBar)))
    (RE.alt (RE.group 3 (RE.seq (RE.ch '$') (RE.plus isHexLower)))
      (RE.group 4 (RE.plus isDigit))))

/-- The pattern `\s*((%[0|1]+)|(\$[0-9a-f]+)|([0-9]+))\s*,\s*`. -/
def getSingleElement : RE :=
  RE.cat [RE.star isSpace, dataElement, RE.star isSpace, RE.ch ',', RE.star isSpace]

/-- The pattern `\s*((%[0|1]+)|(\$[0-9a-f]+)|([0-9]+))\s*`. -/
def getLastElement : RE := RE.cat [RE.star isSpace, dataElement, RE.star isSpace]

/-- The pattern `\s*\.\w+\s+"(.*)"$`. -/
def getDataElements2 : RE :=
  RE.cat [RE.star isSpace, RE.ch '.', RE.plus isWord, RE.plus isSpace, RE.ch '"',
    RE.group 1 (RE.star isDot), RE.ch '"', RE.eol]

/-- The pattern `^\s*$`. -/
def isEmptyLine : RE := RE.cat [RE.bol, RE.star isSpace, RE.eol]

/-- The pattern `^(\S*):\s*(.*)\s*`. -/
def detectLabelDef : RE :=
  RE.cat [RE.bol, RE.group 1 (RE.star isNonSpace), RE.ch ':', RE.star isSpace,
    RE.group 2 (RE.star isDot), RE.star isSpace]

/-- The pattern `[A-Z]+[A-Z0-9_!]*` of a label name. -/
def labelName : RE := RE.seq (RE.plus isUpper) (RE.star isLabelChar)

/-- The pattern `^([A-Z]+[A-Z0-9_!]*):.*`. -/
def detectLabelDefCorrectness : RE :=
  RE.cat [RE.bol, RE.group 1 labelName, RE.ch ':', RE.star isDot]

/-- The pattern `^[A-Z]+[A-Z0-9_!]*:\s*(.*)\s*`. -/
def removeLabelDefinition : RE :=
  RE.cat [RE.bol, labelName, RE.ch ':', RE.star isSpace, RE.group 1 (RE.star isDot),
    RE.star isSpace]

/-- The pattern `\s*([a-zA-Z]{3})\s*(.*)`. -/
def getInstructionElements : RE :=
  RE.cat [RE.star isSpace, RE.group 1 (RE.cat [RE.cls isAlpha, RE.cls isAlpha, RE.cls isAlpha]),
    RE.star isSpace, RE.group 2 (RE.star isDot)]

/-- The pattern `^#[<>]?(.*)`. -/
def checkImmediateAddr : RE :=
  RE.cat [RE.bol, RE.ch '#', RE.opt isAngle, RE.group 1 (RE.star isDot)]

/-- The pattern `^\$?[0-9A-F]+`. -/
def checkZPorAbsolute : RE := RE.cat [RE.bol, RE.opt (isCh '$'), RE.plus isHexUpper]

/-- The group `(\$[0-9A-F]+)` of the operand patterns. -/
def hexOperand : RE := RE.group 1 (RE.seq (RE.ch '$') (RE.plus isHexUpper))

/-- The pattern `(\$[0-9A-F]+)\s*,\s*X`. -/
def checkZPXorAbsoluteX : RE :=
  RE.cat [hexOperand, RE.star isSpace, RE.ch ',', RE.star isSpace, RE.ch 'X']

/-- The pattern `(\$[0-9A-F]+)\s*,\s*Y`. -/
def checkZPYorAbsoluteY : RE :=
  RE.cat [hexOperand, RE.star isSpace, RE.ch ',', RE.star isSpace, RE.ch 'Y']

/-- The pattern `\((\$[0-9A-F]+)\)`. -/
def checkIndirect : RE := RE.cat [RE.ch '(', hexOperand, RE.ch ')']

/-- The pattern `\(\s*(\$[0-9A-F]+)\s*,\s*X\s*\)`. -/
def checkIndexedIndirect : RE :=
  RE.cat [RE.ch '(', RE.star isSpace, hexOperand, RE.star isSpace, RE.ch ',', RE.star isSpace,
    RE.ch 'X', RE.star isSpace, RE.ch ')']

/-- The pattern `\(\s*(\$[0-9A-F]+)\s*\)\s*,\s*Y`. -/
def checkIndirectIndexed : RE :=
  RE.cat [RE.ch '(', RE.star isSpace, hexOperand, RE.star isSpace, RE.ch ')', RE.star isSpace,
    RE.ch ',', RE.star isSpace, RE.ch 'Y']

/-- The pattern `^%([0-1]+)`. -/
def checkIfBin : RE := RE.cat [RE.bol, RE.ch '%', RE.group 1 (RE.plus isBin)]

/-- The pattern `^\$([0-9A-Z]+)`. -/
def checkIfHex : RE := RE.cat [RE.bol, RE.ch '$', RE.group 1 (RE.plus isDigitOrUpper)]

/-- The pattern `^([0-9]+)`. -/
def checkIfDec : RE := RE.cat [RE.bol, RE.group 1 (RE.plus isDigit)]

/-- The pattern `#?([<>]?[A-Z]+[A-Z0-9_!]*)`. -/
def checkSimpleLabelReference : RE :=
  RE.cat [RE.opt (isCh '#'), RE.group 1 (RE.seq (RE.opt isAngle) labelName)]

/-- The pattern `([A-Z]+[A-Z0-9_!]*)\s*,\s*X`. -/
def checkXIndexedLabelReference : RE :=
  RE.cat [RE.group 1 labelName, RE.star isSpace, RE.ch ',', RE.star isSpace, RE.ch 'X']

/-- The pattern `([A-Z]+[A-Z0-9_!]*)\s*,\s*Y`. -/
def checkYIndexedLabelReference : RE :=
  RE.cat [RE.group 1 labelName, RE.star isSpace, RE.ch ',', RE.star isSpace, RE.ch 'Y']

/-- The pattern `\(\s*([A-Z]+[A-Z0-9_!]*)\s*\)`. -/
def checkIndirectLabelReference : RE :=
  RE.cat [RE.ch '(', RE.star isSpace, RE.group 1 labelName, RE.star isSpace, RE.ch ')']

/-- The pattern `\*\s*([\-|\+])\s*([0-9]+)`. -/
def detectAsteriskExpression : RE :=
  RE.cat [RE.ch '*', RE.star isSpace, RE.group 1 (RE.cls isSign), RE.star isSpace,
    RE.group 2 (RE.plus isDigit)]

/-- The pattern `\d+\d*` that `checkDirectives` compiles in place. -/
def inlineDecimal : RE := RE.seq (RE.plus isDigit) (RE.star isDigit)

/-- The pattern `\$([0-9a-f]+)` that `checkDirectives` compiles in place. -/
def inlineHex : RE := RE.seq (RE.ch '$') (RE.group 1 (RE.plus isHexLower))

/-- The pattern `%([0|1]+)` that `checkDirectives` compiles in place. -/
def inlineBin : RE := RE.seq (RE.ch '%') (RE.group 1 (RE.plus isBinBar))

/-- The pattern `(.+)` that `checkDirectives` compiles in place. -/
def inlineAny : RE := RE.group 1 (RE.plus isDot)

/-! ## The class `MemChunk` -/

/-- The class `MemChunk`.  `data` is `none` for the null pointer; otherwise it
is the allocation that `data` points to, one entry for each of its cells, so
the length of the list is the size of the allocation.  A cell that `new` has
made and nothing has written yet holds 0 here; `addByte` writes the cells in
order and every read is of the first `length` cells. -/
structure MemChunk where
  bufferSize : Nat
  startAddress : Nat
  length : Nat
  data : Option (List Nat)
deriving DecidableEq, Repr

/-- The assignment `data[i] = b` at an index `i` inside the allocation; the
callers test the index first, a write past the allocation has no outcome. -/
def bufWrite (buf : List Nat) (i b : Nat) : List Nat := buf.set i b

/-- A buffer of 256 cells whose first cells hold `bs`. -/
def buffer256 (bs : List Nat) : List Nat := bs ++ List.replicate (256 - bs.length) 0

/-- The chunk made by `new MemChunk()` followed by the assignment of
`startAddress`. -/
def MemChunk.fresh (startAddress : Nat) : MemChunk :=
  { bufferSize := 0, startAddress := startAddress, length := 0, data := none }

/-- The bytes of a chunk as `main` reads them: the first `length` cells. -/
def MemChunk.bytes (c : MemChunk) : List Nat := (c.data.getD []).take c.length

/-- The method `MemChunk::addByte`.  The first call makes a buffer of 256
cells; when `length == bufferSize` a buffer of `bufferSize*2` cells takes the
first `bufferSize` cells of the old one, and `bufferSize` is not updated, as in
the source.  `none` is `exit(-1)` or an access past an allocation: the
assignment `data[length++] = newByte` is inside the allocation when `length`
is below its size; past it the call has no outcome. -/
def MemChunk.addByte (c : MemChunk) (newByte : Nat) : Option MemChunk :=
  let c1 : MemChunk :=
    if c.data.isNone then { c with data := some (List.replicate 256 0), bufferSize := 256 } else c
  let old := c1.data.getD []
  let grown : Option (List Nat) :=
    if c1.length == c1.bufferSize then
      if c1.bufferSize * 2 > 65536 then none
      else if old.length < c1.bufferSize then none
      else some (old.take c1.bufferSize ++ List.replicate c1.bufferSize 0)
    else some old
  match grown with
  | none => none
  | some buf =>
    if c1.length < buf.length then
      some { c1 with
        data := some (bufWrite buf c1.length newByte)
        length := (c1.length + 1) % 65536 }
    else none

/-- The method `MemChunk::addWord`: the low byte, then the high byte. -/
def MemChunk.addWord (c : MemChunk) (newWord : Nat) : Option MemChunk :=
  (c.addByte (newWord % 256)).bind (fun c1 => c1.addByte (newWord / 256 % 256))

/-- A sequence of `addByte` calls. -/
def MemChunk.addBytes (c : MemChunk) : List Nat → Option MemChunk
  | [] => some c
  | b :: bs => (c.addByte b).bind (fun c1 => c1.addBytes bs)

/-- The method `MemChunk::finalize`: a buffer of `length` cells takes the
first `length` cells of the old one, unless `length == bufferSize`.  In every
chunk that `addByte` has built `length` is at most the size of the
allocation, so the `memcpy` reads inside it. -/
def MemChunk.finalize (c : MemChunk) : MemChunk :=
  if c.length == c.bufferSize then c
  else { c with data := some ((c.data.getD []).take c.length) }

/-- The method `MemChunk::rewriteByteAtAddress`; `none` is a write through
the null pointer or past the allocation. -/
def MemChunk.rewriteByteAtAddress (c : MemChunk) (newData destAddress : Nat) : Option MemChunk :=
  match c.data with
  | none => none
  | some buf =>
    let offset := (destAddress + 65536 - c.startAddress % 65536) % 65536
    if offset < buf.length then some { c with data := some (bufWrite buf offset newData) }
    else none

/-- The method `MemChunk::rewriteWordAtAddress`; `none` is a write through
the null pointer or past the allocation. -/
def MemChunk.rewriteWordAtAddress (c : MemChunk) (newData destAddress : Nat) : Option MemChunk :=
  match c.data with
  | none => none
  | some buf =>
    let offset := (destAddress + 65536 - c.startAddress % 65536) % 65536
    if offset + 1 < buf.length then
      some { c with data := some (bufWrite (bufWrite buf offset (newData % 256)) (offset + 1)
        (newData / 256 % 256)) }
    else none

/-! ## The opcode table -/

/-- The class `Opcode`: the name and the eleven codes
Imm, ZP, ZPX, ZPY, ABS, ABSX, ABSY, INDX, INDY, IMPL, BRA. -/
structure Opcode where
  name : Str
  codes : List Nat
deriving DecidableEq, Repr

/-- The constructor `Opcode(n, a, ..., k)`. -/
def Opcode.make (n : String) (a b c d e f g h i j k : Nat) : Opcode :=
  { name := S n, codes := [a, b, c, d, e, f, g, h, i, j, k] }

/-- The element `codes[i]`. -/
def Opcode.code (o : Opcode) (i : Nat) : Nat := o.codes.getD i 0

/-- The entries that `initOpcodeTable` stores in `opcodeMap`, in the order of
the assignments. -/
def opcodeTable : List Opcode := [
  Opcode.make "ADC" 0x69 0x65 0x75 0x00 0x6d 0x7d 0x79 0x61 0x71 0x00 0x00,
  Opcode.make "AND" 0x29 0x25 0x35 0x00 0x2d 0x3d 0x39 0x21 0x31 0x00 0x00,
  Opcode.make "ASL" 0x00 0x06 0x16 0x00 0x0e 0x1e 0x00 0x00 0x00 0x0a 0x00,
  Opcode.make "BIT" 0x00 0x24 0x00 0x00 0x2c 0x00 0x00 0x00 0x00 0x00 0x00,
  Opcode.make "BPL" 0x00 0x00 0x00 0x00 0x00 0x00 0x00 0x00 0x00 0x00 0x10,
  Opcode.make "BMI" 0x00 0x00 0x00 0x00 0x00 0x00 0x00 0x00 0x00 0x00 0x30,
  Opcode.make "BVC" 0x00 0x00 0x00 0x00 0x00 0x00 0x00 0x00 0x00 0x00 0x50,
  Opcode.make "BVS" 0x00 0x00 0x00 0x00 0x00 0x00 0x00 0x00 0x00 0x00 0x70,
  Opcode.make "BCC" 0x00 0x00 0x00 0x00 0x00 0x00 0x00 0x00 0x00 0x00 0x90,
  Opcode.make "BCS" 0x00 0x00 0x00 0x00 0x00 0x00 0x00 0x00 0x00 0x00 0xb0,
  Opcode.make "BNE" 0x00 0x00 0x00 0x00 0x00 0x00 0x00 0x00 0x00 0x00 0xd0,
  Opcode.make "BEQ" 0x00 0x00 0x00 0x00 0x00 0x00 0x00 0x00 0x00 0x00 0xf0,
  Opcode.make "CMP" 0xc9 0xc5 0xd5 0x00 0xcd 0xdd 0xd9 0xc1 0xd1 0x00 0x00,
  Opcode.make "CPX" 0xe0 0xe4 0x00 0x00 0xec 0x00 0x00 0x00 0x00 0x00 0x00,
  Opcode.make "CPY" 0xc0 0xc4 0x00 0x00 0xcc 0x00 0x00 0x00 0x00 0x00 0x00,
  Opcode.make "DEC" 0x00 0xc6 0xd6 0x00 0xce 0xde 0x00 0x00 0x00 0x00 0x00,
  Opcode.make "EOR" 0x49 0x45 0x55 0x00 0x4d 0x5d 0x59 0x41 0x51 0x00 0x00,
  Opcode.make "CLC" 0x00 0x00 0x00 0x00 0x00 0x00 0x00 0x00 0x00 0x18 0x00,
  Opcode.make "SEC" 0x00 0x00 0x00 0x00 0x00 0x00 0x00 0x00 0x00 0x38 0x00,
  Opcode.make "CLI" 0x00 0x00 0x00 0x00 0x00 0x00 0x00 0x00 0x00 0x58 0x00,
  Opcode.make "SEI" 0x00 0x00 0x00 0x00 0x00 0x00 0x00 0x00 0x00 0x78 0x00,
  Opcode.make "CLV" 0x00 0x00 0x00 0x00 0x00 0x00 0x00 0x00 0x00 0xb8 0x00,
  Opcode.make "CLD" 0x00 0x00 0x00 0x00 0x00 0x00 0x00 0x00 0x00 0xd8 0x00,
  Opcode.make "SED" 0x00 0x00 0x00 0x00 0x00 0x00 0x00 0x00 0x00 0xf8 0x00,
  Opcode.make "INC" 0x00 0xe6 0xf6 0x00 0xee 0xfe 0x00 0x00 0x00 0x00 0x00,
  Opcode.make "JMP" 0x00 0x00 0x00 0x00 0x4c 0x00 0x00 0x00 0x00 0x00 0x00,
  Opcode.make "JSR" 0x00 0x00 0x00 0x00 0x20 0x00 0x00 0x00 0x00 0x00 0x00,
  Opcode.make "LDA" 0xa9 0xa5 0xb5 0x00 0xad 0xbd 0xb9 0xa1 0xb1 0x00 0x00,
  Opcode.make "LDX" 0xa2 0xa6 0x00 0xb6 0xae 0x00 0xbe 0x00 0x00 0x00 0x00,
  Opcode.make "LDY" 0xa0 0xa4 0xb4 0x00 0xac 0xbc 0x00 0x00 0x00 0x00 0x00,
  Opcode.make "LSR" 0x00 0x46 0x56 0x00 0x4e 0x5e 0x00 0x00 0x00 0x4a 0x00,
  Opcode.make "NOP" 0x00 0x00 0x00 0x00 0x00 0x00 0x00 0x00 0x00 0xea 0x00,
  Opcode.make "ORA" 0x09 0x05 0x15 0x00 0x0d 0x1d 0x19 0x01 0x11 0x00 0x00,
  Opcode.make "TAX" 0x00 0x00 0x00 0x00 0x00 0x00 0x00 0x00 0x00 0xaa 0x00,
  Opcode.make "TXA" 0x00 0x00 0x00 0x00 0x00 0x00 0x00 0x00 0x00 0x8a 0x00,
  Opcode.make "DEX" 0x00 0x00 0x00 0x00 0x00 0x00 0x00 0x00 0x00 0xca 0x00,
  Opcode.make "INX" 0x00 0x00 0x00 0x00 0x00 0x00 0x00 0x00 0x00 0xe8 0x00,
  Opcode.make "TAY" 0x00 0x00 0x00 0x00 0x00 0x00 0x00 0x00 0x00 0xa8 0x00,
  Opcode.make "TYA" 0x00 0x00 0x00 0x00 0x00 0x00 0x00 0x00 0x00 0x98 0x00,
  Opcode.make "DEY" 0x00 0x00 0x00 0x00 0x00 0x00 0x00 0x00 0x00 0x88 0x00,
  Opcode.make "INY" 0x00 0x00 0x00 0x00 0x00 0x00 0x00 0x00 0x00 0xc8 0x00,
  Opcode.make "ROR" 0x00 0x66 0x76 0x00 0x6e 0x7e 0x00 0x00 0x00 0x6a 0x00,
  Opcode.make "ROL" 0x00 0x26 0x36 0x00 0x2e 0x3e 0x00 0x00 0x00 0x2a 0x00,
  Opcode.make "RTI" 0x00 0x00 0x00 0x00 0x00 0x00 0x00 0x00 0x00 0x40 0x00,
  Opcode.make "RTS" 0x00 0x00 0x00 0x00 0x00 0x00 0x00 0x00 0x00 0x60 0x00,
  Opcode.make "SBC" 0xe9 0xe5 0xf5 0x00 0xed 0xfd 0xf9 0xe1 0xf1 0x00 0x00,
  Opcode.make "STA" 0x00 0x85 0x95 0x00 0x8d 0x9d 0x99 0x81 0x91 0x00 0x00,
  Opcode.make "TXS" 0x00 0x00 0x00 0x00 0x00 0x00 0x00 0x00 0x00 0x9a 0x00,
  Opcode.make "TSX" 0x00 0x00 0x00 0x00 0x00 0x00 0x00 0x00 0x00 0xba 0x00,
  Opcode.make "PHA" 0x00 0x00 0x00 0x00 0x00 0x00 0x00 0x00 0x00 0x48 0x00,
  Opcode.make "PLA" 0x00 0x00 0x00 0x00 0x00 0x00 0x00 0x00 0x00 0x68 0x00,
  Opcode.make "PHP" 0x00 0x00 0x00 0x00 0x00 0x00 0x00 0x00 0x00 0x08 0x00,
  Opcode.make "PLP" 0x00 0x00 0x00 0x00 0x00 0x00 0x00 0x00 0x00 0x28 0x00,
  Opcode.make "STX" 0x00 0x86 0x00 0x96 0x8e 0x00 0x00 0x00 0x00 0x00 0x00,
  Opcode.make "STY" 0x00 0x84 0x94 0x00 0x8c 0x00 0x00 0x00 0x00 0x00 0x00]

/-- The read `opcodeMap[opcodeStr]`: the entry of that name, or the entry of
the default constructor, whose name is empty. -/
def opcodeMap (opcodeStr : Str) : Opcode :=
  match opcodeTable.find? (fun o => o.name == opcodeStr) with
  | some o => o
  | none => { name := [], codes := [] }

/-- The string `singleByteInstructions`. -/
def singleByteInstructions : Str :=
  S "CLC SEC CLI SEI CLV CLD SED TAX TXA DEX INX TAY TYA DEY INY RTI RTS TXS TSX PHA PLA PHP PLP NOP"

/-- The string `singleByteInstructionsSpecial`. -/
def singleByteInstructionsSpecial : Str := S "ROL ROR ASL LSR"

/-! ## The state of the assembler -/

/-- The struct `AssemblyError`. -/
structure AssemblyError where
  lineContent : Str
  errorString : Str
  errorStringVerbose : Str
  errorLineNumber : Nat
deriving DecidableEq, Repr

/-- The struct `UnresolvedAddress`.  The pointer `memChunk` is the position
that the chunk it points to takes in `chunks` once it is pushed there (the
pushed copy and the pointed chunk share one buffer).  `isLowPart` is `false`
where the source leaves it unassigned (it is then never read). -/
structure UnresolvedAddress where
  address : Nat
  memChunk : Nat
  isBranch : Bool
  isOneByteAddr : Bool
  isLowPart : Bool
deriving DecidableEq, Repr

/-- The struct `UnresolvedLabel` (its field `realAddress` is never used). -/
structure UnresolvedLabel where
  addresses : List UnresolvedAddress
  line : Nat
deriving DecidableEq, Repr

/-- The values of the two locals that the source reads unassigned: `high` in
`assembleLine` (when `#<` is found) and `addressNum` in `checkDirectives`
(when the address does not fit 32 bits). -/
structure Uninit where
  high : Bool
  addressNum : Nat
deriving DecidableEq, Repr

/-- The member variables of `BASSembler6502` that change during a run.
`labels` and `unresolvedLabels` are the two `std::map`s, as association
lists; `unresolvedLabels` is kept in the order of its keys. -/
structure Asm where
  lines : List Str
  actAddress : Nat
  chunks : List MemChunk
  actChunk : Option MemChunk
  charset : Nat
  labels : List (Str × Nat)
  unresolvedLabels : List (Str × UnresolvedLabel)
  asmError : AssemblyError
deriving DecidableEq, Repr

/-- The constant `PETSCII`. -/
def PETSCII : Nat := 0

/-- The constant `ASCII`. -/
def ASCII : Nat := 1

/-- The constant `SCREENSCII`. -/
def SCREENSCII : Nat := 2

/-- The state that the constructor `BASSembler6502()` leaves. -/
def Asm.init : Asm :=
  { lines := [], actAddress := 0, chunks := [], actChunk := none, charset := ASCII,
    labels := [], unresolvedLabels := [],
    asmError := { lineContent := [], errorString := [], errorStringVerbose := [],
                  errorLineNumber := 0 } }

/-- The read `labels[key]`: the stored address, 0 for a key that is not there
(the entry that `operator[]` then adds holds 0 and changes no later read). -/
def labelsGet (m : List (Str × Nat)) (key : Str) : Nat :=
  match m.find? (fun e => e.1 == key) with
  | some e => e.2
  | none => 0

/-- The assignment `labels[key] = v`. -/
def labelsSet (m : List (Str × Nat)) (key : Str) (v : Nat) : List (Str × Nat) :=
  (key, v) :: m.filter (fun e => !(e.1 == key))

/-- The order of `std::string`: `a < b`. -/
def strLt : Str → Str → Bool
  | _, [] => false
  | [], _ :: _ => true
  | x :: xs, y :: ys => x < y || (x == y && strLt xs ys)

/-- The two statements `unresolvedLabels[key].addresses.push_back(a);
unresolvedLabels[key].line = line;` on the map kept in key order. -/
def unresolvedAdd (key : Str) (a : UnresolvedAddress) (line : Nat) :
    List (Str × UnresolvedLabel) → List (Str × UnresolvedLabel)
  | [] => [(key, { addresses := [a], line := line })]
  | (k, l) :: rest =>
    if k == key then (k, { addresses := l.addresses ++ [a], line := line }) :: rest
    else if strLt key k then (key, { addresses := [a], line := line }) :: (k, l) :: rest
    else (k, l) :: unresolvedAdd key a line rest

/-- A function of the assembler sets the two texts of `asmError`. -/
def Asm.setError (s : Asm) (errorString errorStringVerbose : Str) : Asm :=
  { s with asmError := { s.asmError with errorString := errorString,
                                          errorStringVerbose := errorStringVerbose } }

/-- A function of the assembler sets `asmError.errorString` only. -/
def Asm.setErrorString (s : Asm) (errorString : Str) : Asm :=
  { s with asmError := { s.asmError with errorString := errorString } }

/-- The end of every emitting path: the `addByte` calls on the current chunk
`c`, then `actAddress += n` and `return 0`; `none` when `addByte` exits. -/
def Asm.emit (s : Asm) (c : MemChunk) (bs : List Nat) (n : Nat) : Option (Asm × Int) :=
  match c.addBytes bs with
  | none => none
  | some c1 => some ({ s with actChunk := some c1, actAddress := (s.actAddress + n) % 65536 }, 0)

/-- The source's `convertIntoDecimal`, digit loop: `digits` is the matched text
read from its last character to its first. -/
def convLoop (base : Int) (binary : Bool) : Str → Int → Int → Int
  | [], result, _ => result
  | actChar :: rest, result, baseValue =>
    let result1 :=
      if binary then (if actChar == 49 then wrap32 (result + baseValue) else result)
      else wrap32 (result + wrap32 (findChar (S "0123456789ABCDEF") actChar * baseValue))
    convLoop base binary rest result1 (wrap32 (baseValue * base))

/-- The source's `convertIntoDecimal`. -/
def convertIntoDecimal (valueStr : Str) : Int :=
  match fullMatch checkIfBin valueStr with
  | some c => convLoop 2 true (capGet c 1).reverse 0 1
  | none =>
    match fullMatch checkIfHex valueStr with
    | some c => convLoop 16 false (capGet c 1).reverse 0 1
    | none =>
      match fullMatch checkIfDec valueStr with
      | some c => convLoop 10 false (capGet c 1).reverse 0 1
      | none => -1

/-! ## `checkDirectives` -/

/-- The value of a digit character for `strtol` and `strtoul`. -/
def digitVal (x : Nat) : Nat := if isDigit x then x - 48 else if isLower x then x - 87 else x - 55

/-- The number that a string of digits of base `base` denotes. -/
def digitsValue (base : Nat) (s : Str) : Nat := s.foldl (fun acc x => acc * base + digitVal x) 0

/-- The leading characters of `s` that are digits of base `base`. -/
def leadingDigits (base : Nat) (s : Str) : Str :=
  s.takeWhile (fun x => (isDigit x || isLower x || isUpper x) && digitVal x < base)

/-- The expression `(int)strtol(s, NULL, base)` (and `atoi(s)` for base 10)
on a text without sign or blank, with a 64-bit `long`: the leading digits are
read, a value above `LONG_MAX` is replaced by `LONG_MAX`, and the conversion
to `int` keeps the low 32 bits. -/
def strtolInt (base : Nat) (s : Str) : Int :=
  wrap32 (min (digitsValue base (leadingDigits base s)) 9223372036854775807 : Nat)

/-- The conversion `pcrecpp::Hex(&addressNum)` of `"0x" + address` for a text
`address` of hexadecimal digits: the value when it fits an `unsigned int`,
otherwise nothing is stored. -/
def parseHexUInt (address : Str) : Option Nat :=
  if digitsValue 16 address < 4294967296 then some (digitsValue 16 address) else none

/-- The loop `while(getSingleElement->Consume(&input, &actValue))` of
`checkDirectives`: the values read and the input left. -/
def consumeElements : Nat → Str → List Str × Str
  | 0, input => ([], input)
  | fuel + 1, input =>
    match consume getSingleElement input with
    | some (c, rest) =>
      let r := consumeElements fuel rest
      (capGet c 1 :: r.1, r.2)
    | none => ([], input)

/-- The hint of the first error of the `.text` loop. -/
def textHintBackslash : Str := S "Unrecognized use of backslash character."

/-- The hint of the second error of the `.text` loop. -/
def textHintQuote : Str :=
  S ("Only one string per line is allowed. Additional quotation marks must be escaped "
    ++ "with a backslash character.")

/-- The loop of `checkDirectives` that builds `cleanString` from `dataString`;
an error carries its hint. -/
def cleanText : Str → Except Str Str
  | [] => Except.ok []
  | c :: rest =>
    if c == 92 then
      match rest with
      | [] => Except.error textHintBackslash
      | d :: rest2 =>
        if d == 34 then
          match cleanText rest2 with
          | Except.ok t => Except.ok (34 :: t)
          | Except.error e => Except.error e
        else if d == 92 then
          match cleanText rest2 with
          | Except.ok t => Except.ok (92 :: t)
          | Except.error e => Except.error e
        else Except.error textHintBackslash
    else if c == 34 then Except.error textHintQuote
    else
      match cleanText rest with
      | Except.ok t => Except.ok (c :: t)
      | Except.error e => Except.error e

/-- The string `petsciiChars`; the check mark of the source is the three
bytes of its UTF-8 form. -/
def petsciiChars : Str :=
  S ("                                 !\"#$%&'()*+,-./0123456789:;<=>?@abcdefghijklmno"
    ++ "pqrstuvwxyz[\\]^_`ABCDEFGHIJKLMNOPQRSTUVWXYZ   ~                                 "
    ++ "                          ") ++ [226, 156, 147] ++
  S ("     `ABCDEFGHIJKLMNOPQRSTUVWXYZ   ~                "
    ++ "               ")

/-- The string `screenChars`. -/
def screenChars : Str :=
  S ("@abcdefghijklmnopqrstuvwxyz[\\]^_ !\"#$%&'()*+,-./0123456789:;<=>?@abcdefghijklmno"
    ++ "pqrstuvwxyz[\\]^_`ABCDEFGHIJKLMNOPQRSTUVWXYZ\x7b\\\x7d~ "
    ++ "                                                                                "
    ++ "                                                ")

/-- The byte that the `.text` loop adds for one character, `none` when the
charset is none of the three. -/
def textByte (charset : Nat) (c : Nat) : Option Nat :=
  if charset == SCREENSCII then some ((findChar screenChars c % 256).toNat)
  else if charset == PETSCII then some ((findChar petsciiChars c % 256).toNat)
  else if charset == ASCII then some (c % 256)
  else none

/-- The error of a line that needs an open chunk. -/
def Asm.noChunkError (s : Asm) : Asm :=
  s.setError (S "Instruction reached without address specification")
    (S "Specify a starting address with the .pc directive.")

/-- The hint of the "Invalid number format" error. -/
def numberFormatHint (keyword : Str) : Str :=
  S "Data must be in one of the following three formats:\n"
  ++ (if keyword == S "byte" then
        S ("- decimal: \x7bX\x7d, \x7bX\x7d=>[0,255] (no leading character before numerical "
          ++ "characters)\n")
        ++ S "- hexadecimal: $\x7bY\x7d, Y=>[0,FF] (leading '$')\n"
        ++ S ("- binary: %\x7bZZZZZZZZ\x7d, \x7bZ\x7d=>[0,1], value in decimal must be in "
          ++ "[0,255], (leading '%')")
      else [])
  ++ (if keyword == S "word" then
        S ("- decimal: \x7bX\x7d, \x7bX\x7d=>[0,65535] (no extra leading character before "
          ++ "numerical characters)\n")
        ++ S "- hexadecimal: $\x7bY\x7d, Y=>[0,FFFF] (leading '$')\n"
        ++ S ("- binary: %\x7bZZZZZZZZZZZZZZZZ\x7d, \x7bZ\x7d=>[0,1], value in decimal must "
          ++ "be in [0,65535], (leading '%')")
      else [])
  ++ S ("Different data formats are allowed on a single line. "
    ++ "Comma as delimiting character is obligatory.")

/-- The loop of `checkDirectives` over the values of a `.byte` or `.word`
line, on the current chunk `c`. -/
def dataLoop (keyword : Str) : List Str → Asm → MemChunk → Option (Asm × Int)
  | [], s, c => some ({ s with actChunk := some c }, 0)
  | v :: vs, s, c =>
    let conv : Option Int :=
      match fullMatch inlineDecimal v with
      | some _ => some (strtolInt 10 v)
      | none =>
        match fullMatch inlineHex v with
        | some g => some (strtolInt 16 (capGet g 1))
        | none =>
          match fullMatch inlineBin v with
          | some g => some (strtolInt 2 (capGet g 1))
          | none => none
    match conv with
    | none => some (({ s with actChunk := some c }).setErrorString (S "Internal error (1)"), -1)
    | some valueInDecimal =>
      if keyword == S "byte" then
        if valueInDecimal > 255 || valueInDecimal < 0 then
          some (({ s with actChunk := some c }).setError (S "Value out of range: " ++ v)
            (S "Value must fit into 8 bits. $0-$FF or 0-255 or %0-%11111111."), -1)
        else
          match c.addByte ((valueInDecimal % 256).toNat) with
          | none => none
          | some c1 => dataLoop keyword vs { s with actAddress := (s.actAddress + 1) % 65536 } c1
      else if keyword == S "word" then
        if valueInDecimal > 65535 || valueInDecimal < 0 then
          some (({ s with actChunk := some c }).setError (S "Value out of range: " ++ v)
            (S ("Value must fit into 16 bits. $0-$FFFF or 0-65535 or "
              ++ "%0-%1111111111111111.")), -1)
        else
          match c.addWord ((valueInDecimal % 256).toNat) with
          | none => none
          | some c1 => dataLoop keyword vs { s with actAddress := (s.actAddress + 2) % 65536 } c1
      else dataLoop keyword vs s c

/-- The `.text` part of `checkDirectives`. -/
def directiveText (s : Asm) (line : Str) : Option (Asm × Int) :=
  match fullMatch getDataElements2 line with
  | none =>
    some (s.setError (S "Syntax error")
      (S ("Valid syntax for .text directive: .text \"your text here\"\n"
        ++ "Quotation marks must be escaped out with \\\" format.\n"
        ++ "Note: comments are not allowed after a .text directive.")), -1)
  | some g =>
    match cleanText (capGet g 1) with
    | Except.error hint => some (s.setError (S "Syntax error") hint, -1)
    | Except.ok cleanString =>
      match s.actChunk with
      | none => some (s.noChunkError, -1)
      | some c =>
        s.emit c (cleanString.filterMap (textByte s.charset)) cleanString.length

/-- The `.pc` part of `checkDirectives`, after the comments are removed. -/
def directivePc (u : Uninit) (s : Asm) (line : Str) : Option (Asm × Int) :=
  match fullMatch extractMemoryAddress line with
  | none =>
    some (s.setError (S "Syntax error")
      (S ("correct .pc format: .pc = $\x7bAddr\x7d, "
        ++ "where \x7bAddr\x7d is a hexadecimal number between 0 and FFFF. "
        ++ "White space is allowed before '.pc', and around the equal sign.")), -1)
  | some g =>
    let address := capGet g 1
    let addressNum : Nat :=
      match fullMatch inlineAny (S "0x" ++ address) with
      | some _ => (parseHexUInt address).getD u.addressNum
      | none => u.addressNum
    if addressNum > 65535 then
      some (s.setError (S "Address out of range: $" ++ address)
        (S "Address must be in range $0-$FFFF."), -1)
    else
      let s1 := { s with actAddress := addressNum % 65536 }
      match s1.actChunk with
      | none => some ({ s1 with actChunk := some (MemChunk.fresh s1.actAddress) }, 0)
      | some c =>
        some ({ s1 with chunks := s1.chunks ++ [c.finalize],
                        actChunk := some (MemChunk.fresh s1.actAddress) }, 0)

/-- The `.byte` and `.word` part of `checkDirectives`, after the comments are
removed. -/
def directiveData (s : Asm) (keyword line : Str) : Option (Asm × Int) :=
  let dataString : Str :=
    match fullMatch getDataElements line with
    | some g => capGet g 1
    | none => []
  let r := consumeElements (dataString.length + 1) dataString
  let values : List Str :=
    match consume getLastElement r.2 with
    | some (g, _) => r.1 ++ [capGet g 1]
    | none => r.1
  if countChars line 44 + 1 != (values.length : Int) then
    some (s.setError (S "Invalid number format") (numberFormatHint keyword), -1)
  else
    match s.actChunk with
    | none => some (s.noChunkError, -1)
    | some c => dataLoop keyword values s c

/-- The source's `checkDirectives`.  The result is the new state, the returned
`int` and the text that the reference parameter `line` holds at the end;
`none` when `addByte` exits. -/
def checkDirectives (u : Uninit) (s : Asm) (line : Str) : Option (Asm × Int × Str) :=
  match fullMatch searchDirective line with
  | none => some (s, 1, line)
  | some _ =>
    match fullMatch extractKeyword line with
    | none =>
      some (s.setError (S "Syntax error")
        (S ("'.' must be followed by a valid keyword.\n"
          ++ "Valid keywords are: .pc, .byte, .word, .text, .ascii, .petscii, .screen")),
        -1, line)
    | some g =>
      let keyword := lowerStr (capGet g 1)
      if keyword == S "text" then (directiveText s line).map (fun r => (r.1, r.2, line))
      else if keyword == S "ascii" then some ({ s with charset := ASCII }, 0, line)
      else if keyword == S "petscii" then some ({ s with charset := PETSCII }, 0, line)
      else if keyword == S "screen" then some ({ s with charset := SCREENSCII }, 0, line)
      else
        let line1 := globalReplace remove_comments (fun _ => []) line
        if keyword == S "pc" then (directivePc u s line1).map (fun r => (r.1, r.2, line1))
        else if keyword == S "byte" || keyword == S "word" then
          (directiveData s keyword line1).map (fun r => (r.1, r.2, line1))
        else
          some (s.setError (S "Unrecognized directive '." ++ keyword ++ S "'")
            (S "Recognized keywords: .pc, .byte, .word, .text, .ascii, .petscii, .screen"),
            -1, line1)

/-! ## `detectLabelDefinition` -/

/-- The source's `detectLabelDefinition`. -/
def detectLabelDefinition (s : Asm) (line : Str) : Asm × Int :=
  let line1 := globalReplace remove_comments (fun _ => []) line
  match fullMatch isEmptyLine line1 with
  | some _ => (s, 0)
  | none =>
    let line2 := upperStr line1
    match fullMatch detectLabelDef line2 with
    | some g =>
      let labelCandidate := capGet g 1
      let textAfterLabel := capGet g 2
      match fullMatch detectLabelDefCorrectness line2 with
      | some h =>
        let label := capGet h 1
        if labelsGet s.labels label != 0 then
          (s.setErrorString (S "Label already defined: " ++ label), -1)
        else
          let s1 := { s with labels := labelsSet s.labels label s.actAddress }
          if textAfterLabel == [] then (s1, 0) else (s1, 1)
      | none =>
        (s.setError (S "Incorrect label definition: " ++ labelCandidate)
          (S ("Labels must start with an alphanumeric character. "
            ++ "See documentation for detailed rules.")), -1)
    | none => (s, 1)

/-! ## `assembleLine` -/

/-- The test of `assembleLine` for the eight branch mnemonics. -/
def isBranchName (opcodeStr : Str) : Bool :=
  opcodeStr == S "BCC" || opcodeStr == S "BCS" || opcodeStr == S "BEQ" || opcodeStr == S "BMI"
    || opcodeStr == S "BNE" || opcodeStr == S "BPL" || opcodeStr == S "BVC" || opcodeStr == S "BVS"

/-- The four label patterns of `assembleLine` tried in order: which one
matched (0 `imm`, 1 `indx`, 2 `indy`, 3 `indi`) and the text of its group. -/
def labelForm (operandStr : Str) : Option (Nat × Str) :=
  match fullMatch checkSimpleLabelReference operandStr with
  | some g => some (0, capGet g 1)
  | none =>
    match fullMatch checkXIndexedLabelReference operandStr with
    | some g => some (1, capGet g 1)
    | none =>
      match fullMatch checkYIndexedLabelReference operandStr with
      | some g => some (2, capGet g 1)
      | none =>
        match fullMatch checkIndirectLabelReference operandStr with
        | some g => some (3, capGet g 1)
        | none => none

/-- The block "handle label references" of `assembleLine`: the new state and
the new `operandStr`.  When `#<` is found the source does not assign `high`
and reads it all the same; its value is then `u.high`. -/
def labelReference (u : Uninit) (s : Asm) (opcodeStr operandStr : Str) (lineNumber : Nat) :
    Asm × Str :=
  match labelForm operandStr with
  | none => (s, operandStr)
  | some (form, rawLabel0) =>
    if labelsGet s.labels operandStr == 0 then
      let low := hasSub (S "#<") operandStr
      let high := if low then u.high else hasSub (S "#>") operandStr
      let isOneByteAddr := if low then true else high
      let rawLabel := if isOneByteAddr then operandStr.drop 2 else rawLabel0
      let isLowPart := if high then false else low
      let unresolvedAddress : UnresolvedAddress :=
        { address := (s.actAddress + 1) % 65536, memChunk := s.chunks.length,
          isBranch := isBranchName opcodeStr, isOneByteAddr := isOneByteAddr,
          isLowPart := isLowPart }
      let s1 := { s with
        unresolvedLabels := unresolvedAdd rawLabel unresolvedAddress lineNumber s.unresolvedLabels }
      let fake : Str :=
        if form == 0 then
          (if isOneByteAddr then
            (if isLowPart then S "#<$" ++ hexStr s.actAddress else S "#>$" ++ hexStr s.actAddress)
          else S "$" ++ hexStr s.actAddress)
        else if form == 1 then S "$" ++ hexStr s.actAddress ++ S ",X"
        else if form == 2 then S "$" ++ hexStr s.actAddress ++ S ",Y"
        else S "($" ++ hexStr s.actAddress ++ S ")"
      (s1, upperStr fake)
    else (s, upperStr (S "$" ++ hexStr (labelsGet s.labels operandStr)))

/-- The two blocks of `assembleLine` for `*`: the new `operandStr`, or the
state and `-1` of an error. -/
def asterisk (s : Asm) (operandStr : Str) : Except (Asm × Int) Str :=
  let operandStr1 := if operandStr == S "*" then upperStr (S "$" ++ hexStr s.actAddress)
    else operandStr
  match fullMatch detectAsteriskExpression operandStr1 with
  | none => Except.ok operandStr1
  | some g =>
    let operatorStr := capGet g 1
    let value := convertIntoDecimal (capGet g 2)
    if value > 127 then
      Except.error (s.setError (S "Branch out of range")
        (S "You can only jump +/-127 bytes with a branch instruction."), -1)
    else if operatorStr == S "+" then
      Except.ok (upperStr (S "$" ++ hexStr ((s.actAddress + (value % 65536).toNat) % 65536)))
    else if operatorStr == S "-" then
      Except.ok (upperStr (S "$" ++
        hexStr ((s.actAddress + 65536 - (value % 65536).toNat) % 65536)))
    else Except.error (s.setErrorString (S "Invalid operator"), -1)

/-- The text `Value out of range (v/$h): operand` of `assembleLine`. -/
def valueRangeText (v : Int) (operandStr : Str) : Str :=
  S "Value out of range (" ++ intDecStr v ++ S "/$" ++ intHexStr v ++ S "): " ++ operandStr

/-- The end of `assembleLine`: the implied mode of `ROL ROR ASL LSR`, and the
"Unknown instruction" error. -/
def encodeImplied (s : Asm) (c : MemChunk) (opcode : Opcode) (opcodeStr operandStr : Str) :
    Option (Asm × Int) :=
  if hasSub opcodeStr singleByteInstructionsSpecial && operandStr == [] then
    s.emit c [opcode.code 9] 1
  else some (s.setErrorString (S "Unknown instruction"), -1)

/-- The blocks `checkIndexedIndirect` and `checkIndirectIndexed`. -/
def encodeIndexedIndirect (s : Asm) (c : MemChunk) (opcode : Opcode)
    (opcodeStr operandStr : Str) : Option (Asm × Int) :=
  match fullMatch checkIndexedIndirect operandStr with
  | some g =>
    let address := convertIntoDecimal (capGet g 1)
    if address < 0 || address > 0xff then
      some (s.setError (S "Address out of range or invalid syntax" ++ operandStr)
        (S "Address must fall between $0 and $FF."), -1)
    else s.emit c [opcode.code 7, (address % 256).toNat] 2
  | none =>
    match fullMatch checkIndirectIndexed operandStr with
    | some g =>
      let address := convertIntoDecimal (capGet g 1)
      if address < 0 || address > 0xff then
        some (s.setError (S "Address out of range or invalid syntax" ++ operandStr)
          (S "Address must fall between $0 and $FF."), -1)
      else s.emit c [opcode.code 8, (address % 256).toNat] 2
    | none => encodeImplied s c opcode opcodeStr operandStr

/-- The block `checkIndirect`. -/
def encodeIndirect (s : Asm) (c : MemChunk) (opcode : Opcode) (opcodeStr operandStr : Str) :
    Option (Asm × Int) :=
  match fullMatch checkIndirect operandStr with
  | some g =>
    let address := convertIntoDecimal (capGet g 1)
    if address < 0 || address > 0xffff then
      some (s.setErrorString (S "Address out of range or invalid syntax" ++ operandStr), -1)
    else
      s.emit c [0x6c, (address % 65536).toNat % 256, (address % 65536).toNat / 256 % 256] 3
  | none => encodeIndexedIndirect s c opcode opcodeStr operandStr

/-- One of the blocks `checkZPXorAbsoluteX` and `checkZPYorAbsoluteY` once its
pattern matched: `zp` and `ab` are the two slots of the mode. -/
def encodeIndexed (s : Asm) (c : MemChunk) (opcode : Opcode) (zp ab : Nat)
    (operandValue operandStr : Str) : Option (Asm × Int) :=
  let address := convertIntoDecimal operandValue
  if address < 0 || address > 0xffff then
    some (s.setErrorString (S "Address out of range or invalid syntax" ++ operandStr), -1)
  else if opcode.code zp == 0 && opcode.code ab == 0 then
    some (s.setErrorString (S "Unknown instruction"), -1)
  else if address < 0x100 then s.emit c [opcode.code zp, (address % 256).toNat] 2
  else
    s.emit c [opcode.code ab, (address % 65536).toNat % 256, (address % 65536).toNat / 256 % 256] 3

/-- The blocks `checkZPXorAbsoluteX` and `checkZPYorAbsoluteY`. -/
def encodeXY (s : Asm) (c : MemChunk) (opcode : Opcode) (opcodeStr operandStr : Str) :
    Option (Asm × Int) :=
  match fullMatch checkZPXorAbsoluteX operandStr with
  | some g => encodeIndexed s c opcode 2 5 (capGet g 1) operandStr
  | none =>
    match fullMatch checkZPYorAbsoluteY operandStr with
    | some g => encodeIndexed s c opcode 3 6 (capGet g 1) operandStr
    | none => encodeIndirect s c opcode opcodeStr operandStr

/-- The block `checkZPorAbsolute`: a branch, the zero page or the absolute
mode; the later blocks when the slot of the mode is 0. -/
def encodeZPAbs (s : Asm) (c : MemChunk) (opcode : Opcode) (opcodeStr operandStr : Str) :
    Option (Asm × Int) :=
  match fullMatch checkZPorAbsolute operandStr with
  | some _ =>
    let address := convertIntoDecimal operandStr
    if address == -1 then
      some (s.setErrorString (S "Invalid number type: " ++ operandStr), -1)
    else if address < 0 || address > 0xffff then
      some (s.setError (valueRangeText address operandStr)
        (S "Address value must fall between 0 and 65535/$ffff."), -1)
    else if opcode.code 10 != 0 then
      let diff : Int := address - (s.actAddress : Int) - 2
      if diff.natAbs > 127 then
        some (s.setError (S "Branch out of range")
          (S "You can only jump +/-127 bytes with a branch instruction."), -1)
      else s.emit c [opcode.code 10, (diff % 256).toNat] 2
    else if address < 0x100 then
      if opcode.code 1 != 0 then s.emit c [opcode.code 1, (address % 256).toNat] 2
      else encodeXY s c opcode opcodeStr operandStr
    else
      if opcode.code 4 != 0 then
        s.emit c [opcode.code 4, (address % 65536).toNat % 256,
          (address % 65536).toNat / 256 % 256] 3
      else encodeXY s c opcode opcodeStr operandStr
  | none => encodeXY s c opcode opcodeStr operandStr

/-- The block `checkImmediateAddr` and all the blocks after it. -/
def encode (s : Asm) (c : MemChunk) (opcode : Opcode) (opcodeStr operandStr : Str) :
    Option (Asm × Int) :=
  match fullMatch checkImmediateAddr operandStr with
  | some g =>
    let value0 := convertIntoDecimal (capGet g 1)
    if value0 == -1 then
      some (s.setErrorString (S "Invalid number type: " ++ operandStr), -1)
    else
      let value1 := if hasSub (S "#<") operandStr then value0 % 256 else value0
      let value := if hasSub (S "#>") operandStr then value1 % 65536 / 256 else value1
      if value < 0 || value > 255 then
        some (s.setError (valueRangeText value operandStr)
          (S "Value value must fall between 0 and 255/$ff."), -1)
      else if opcode.code 0 != 0 then s.emit c [opcode.code 0, (value % 256).toNat] 2
      else encodeZPAbs s c opcode opcodeStr operandStr
  | none => encodeZPAbs s c opcode opcodeStr operandStr

/-- The part of `assembleLine` after the line is split into `opcodeStr` and
`operandStr`. -/
def assembleParsed (u : Uninit) (s : Asm) (opcodeStr operandStr : Str) (lineNumber : Nat) :
    Option (Asm × Int) :=
  match s.actChunk with
  | none => some (s.noChunkError, -1)
  | some c =>
    let opcode := opcodeMap opcodeStr
    if opcode.name == [] then
      some (s.setErrorString (S "Unknown instruction " ++ opcodeStr), -1)
    else if hasSub opcodeStr singleByteInstructions then
      if operandStr != [] then
        some (s.setError (S "Unknown instruction")
          (S "This instruction is not supposed to have an operand."), -1)
      else s.emit c [opcode.code 9] 1
    else
      let r := labelReference u s opcodeStr operandStr lineNumber
      match asterisk r.1 r.2 with
      | Except.error e => some e
      | Except.ok operandStr1 => encode r.1 c opcode opcodeStr operandStr1

/-- The source's `assembleLine`; `none` when `addByte` exits. -/
def assembleLine (u : Uninit) (s : Asm) (line : Str) (lineNumber : Nat) : Option (Asm × Int) :=
  let line1 := globalReplace remove_comments (fun _ => []) line
  match fullMatch isEmptyLine line1 with
  | some _ => some (s, 0)
  | none =>
    let line2 := upperStr line1
    let line3 := globalReplace removeLabelDefinition (fun g => capGet g 1) line2
    match fullMatch getInstructionElements line3 with
    | none => some (s, 1)
    | some g => assembleParsed u s (capGet g 1) (capGet g 2) lineNumber

/-! ## `assemble` -/

/-- The lines that `getline` reads from a text. -/
def getlinesAux : Str → Str → List Str
  | [], cur => if cur == [] then [] else [cur.reverse]
  | x :: xs, cur => if x == 10 then cur.reverse :: getlinesAux xs [] else getlinesAux xs (x :: cur)

/-- The lines of `istringstream src(source)`: the C string `source` ends at
its first null character. -/
def getlines (source : Str) : List Str := getlinesAux (source.takeWhile (fun x => x != 0)) []

/-- The body of the `while(getline(src,line))` loop of `assemble` for the line
`raw`, numbered `actLine`: the new state and `0` to go on, or the state and `-1`
of the error return. -/
def processLine (u : Uninit) (s : Asm) (raw : Str) (actLine : Nat) : Option (Asm × Int) :=
  let line0 := globalReplace remove_trailing_space (fun _ => [])
    (globalReplace remove_leading_space (fun g => capGet g 1) raw)
  let s0 := { s with lines := s.lines ++ [line0] }
  match checkDirectives u s0 line0 with
  | none => none
  | some (s1, dirResult, line) =>
    let lab := detectLabelDefinition s1 line
    match assembleLine u lab.1 line actLine with
    | none => none
    | some (s3, asmResult) =>
      if dirResult == 1 && asmResult == 1 && lab.2 == 1 then
        some ({ s3 with asmError := { s3.asmError with
          errorString := S "Syntax error", errorLineNumber := actLine, lineContent := line } }, -1)
      else if dirResult == -1 || asmResult == -1 || lab.2 == -1 then
        some ({ s3 with asmError := { s3.asmError with
          errorLineNumber := actLine, lineContent := line } }, -1)
      else some (s3, 0)

/-- The `while(getline(src,line))` loop of `assemble` over the lines left. -/
def assembleLoop (u : Nat → Uninit) : List Str → Nat → Asm → Option (Asm × Int)
  | [], _, s => some (s, 0)
  | raw :: rest, actLine, s =>
    match processLine (u actLine) s raw actLine with
    | none => none
    | some (s1, r) => if r == 0 then assembleLoop u rest (actLine + 1) s1 else some (s1, r)

/-- The rewrite that the second pass of `assemble` does for one unresolved
address of a label whose address reads `resolvedAddress`. -/
def patchChunk (c : MemChunk) (a : UnresolvedAddress) (resolvedAddress : Nat) :
    Option MemChunk :=
  if a.isOneByteAddr then
    if a.isLowPart then c.rewriteByteAtAddress (resolvedAddress % 256) a.address
    else c.rewriteByteAtAddress (resolvedAddress / 256 % 256) a.address
  else if a.isBranch then
    c.rewriteByteAtAddress
      ((((resolvedAddress : Int) - (a.address : Int) - 1) % 256).toNat) a.address
  else c.rewriteWordAtAddress resolvedAddress a.address

/-- The inner loop of the second pass over the addresses of one label;
`none` is a write through a pointer that is null or not a chunk. -/
def patchAll (resolvedAddress : Nat) : List UnresolvedAddress → List MemChunk →
    Option (List MemChunk)
  | [], chunks => some chunks
  | a :: rest, chunks =>
    match chunks.get? a.memChunk with
    | none => none
    | some c =>
      match patchChunk c a resolvedAddress with
      | none => none
      | some c1 => patchAll resolvedAddress rest (chunks.set a.memChunk c1)

/-- The outer loop of the second pass over `unresolvedLabels`. -/
def resolveLoop : List (Str × UnresolvedLabel) → Asm → Option (Asm × Int)
  | [], s => some (s, 0)
  | (name, uLabel) :: rest, s =>
    match patchAll (labelsGet s.labels name) uLabel.addresses s.chunks with
    | none => none
    | some chunks1 =>
      let s1 := { s with chunks := chunks1 }
      if labelsGet s1.labels name == 0 then
        some ({ s1 with asmError := { s1.asmError with
          errorString := S "Unresolved label definition '" ++ name ++ S "'",
          errorLineNumber := uLabel.line,
          lineContent := s1.lines.getD (uLabel.line - 1) [] } }, -1)
      else resolveLoop rest s1

/-- The source's `assemble` on the assembler state `s`: the final state and
the returned `int`; on `0` the output parameter holds a copy of the `chunks`
of the final state.  `none` when the call does not return: `addByte` exits,
or a null `actChunk` is dereferenced after the loop. -/
def assemble (u : Nat → Uninit) (s : Asm) (source : Str) : Option (Asm × Int) :=
  let s0 := { s with asmError :=
    { lineContent := [], errorString := [], errorStringVerbose := [], errorLineNumber := 0 } }
  match assembleLoop u (getlines source) 1 s0 with
  | none => none
  | some (s1, r) =>
    if r != 0 then some (s1, r)
    else
      match s1.actChunk with
      | none => none
      | some c =>
        let c1 := c.finalize
        let s2 := { s1 with actChunk := some c1, chunks := s1.chunks ++ [c1] }
        resolveLoop s2.unresolvedLabels s2

/-! ## Auxiliary functions of the proofs -/

/-- The digit that one round of the loop of `convertIntoDecimal` adds. -/
def loopDigit (binary : Bool) (x : Nat) : Int :=
  if binary then (if x == 49 then 1 else 0) else findChar (S "0123456789ABCDEF") x

/-- The value of a text read from its last character to its first, with the
digits of `loopDigit`. -/
def leValue (base : Int) (binary : Bool) : Str → Int
  | [] => 0
  | x :: xs => loopDigit binary x + base * leValue base binary xs

/-! ## Notions of the specification that the statements use -/

/-- A hexadecimal digit in either case: `0-9`, `A-F`, `a-f`. -/
def isHexDigit (x : Nat) : Bool := isDigit x || (65 ≤ x && x ≤ 70) || (97 ≤ x && x ≤ 102)

/-- The value of a number text in the three notations of the specification:
`$` and hexadecimal digits, `%` and binary digits, or decimal digits alone. -/
def numberValue (t : Str) : Option Nat :=
  match t with
  | [] => none
  | x :: ds =>
    if x == 36 then (if ds != [] && ds.all isHexDigit then some (digitsValue 16 ds) else none)
    else if x == 37 then (if ds != [] && ds.all isBin then some (digitsValue 2 ds) else none)
    else if (x :: ds).all isDigit then some (digitsValue 10 (x :: ds)) else none

/-- A label name of the specification: `[A-Z][A-Z0-9_!]*`. -/
def isLabelName (name : Str) : Bool :=
  match name with
  | [] => false
  | l :: ls => isUpper l && ls.all isLabelChar

/-- The fix-up that the first pass records for a branch at the address `p`
whose chunk is the one numbered `i`: the byte after the opcode. -/
def branchFixup (p i : Nat) : UnresolvedAddress :=
  { address := (p + 1) % 65536, memChunk := i, isBranch := true, isOneByteAddr := false,
    isLowPart := false }

/-- The chunk `c` with the buffer `buf` in place of its own. -/
def MemChunk.withData (c : MemChunk) (buf : List Nat) : MemChunk := { c with data := some buf }

/-- The result of a run as the caller sees it: the returned `int` and, for
each chunk, its start address and its bytes. -/
def chunksOf (r : Option (Asm × Int)) : Option (Int × List (Nat × List Nat)) :=
  r.map (fun x => (x.2, x.1.chunks.map (fun c => (c.startAddress, c.bytes))))

/-- The error message of a run that returned `-1`. -/
def errorOf (r : Option (Asm × Int)) : Option (Int × Str) :=
  r.map (fun x => (x.2, x.1.asmError.errorString))

/-! ## States and inputs of the examples -/

/-- The two unassigned locals reading `false` and 0. -/
def quiet : Uninit := { high := false, addressNum := 0 }

/-- The state of a fresh assembler after the line `.pc = $...` for the
address `pc`. -/
def opened (pc : Nat) : Asm :=
  { Asm.init with actAddress := pc, actChunk := some (MemChunk.fresh pc) }

/-- The chunk of scenario 3 when `BNE LOOP` is reached: `A2 00 E8` at 0x1000. -/
def loopChunk : MemChunk :=
  { bufferSize := 256, startAddress := 0x1000, length := 3, data := some (buffer256 [0xa2, 0, 0xe8]) }

/-- The state of scenario 3 when `BNE LOOP` is reached. -/
def loopState : Asm :=
  { Asm.init with actAddress := 0x1003, labels := [(S "LOOP", 0x1002)],
                  actChunk := some loopChunk }

/-- The source of scenario 4. -/
def scenario4 : Str := S ".pc = $1000\n  LDA #<TARGET\n  LDA #>TARGET\nTARGET: RTS"

/-- The first fix-up of scenario 4: the low byte at 0x1001. -/
def targetLow : UnresolvedAddress :=
  { address := 0x1001, memChunk := 0, isBranch := false, isOneByteAddr := true, isLowPart := true }

/-- The second fix-up of scenario 4: the high byte at 0x1003. -/
def targetHigh : UnresolvedAddress :=
  { address := 0x1003, memChunk := 0, isBranch := false, isOneByteAddr := true,
    isLowPart := false }

/-- The state of scenario 4 after its line `k`, when the unassigned `high`
reads `false` in line 2. -/
def scenario4State : Nat → Asm
  | 0 => { Asm.init with asmError := Asm.init.asmError }
  | 1 => { opened 0x1000 with lines := [S ".pc = $1000"] }
  | 2 =>
    { Asm.init with
      lines := [S ".pc = $1000", S "LDA #<TARGET"], actAddress := 0x1002,
      actChunk := some { bufferSize := 256, startAddress := 0x1000, length := 2,
                         data := some (buffer256 [0xa9, 0]) },
      unresolvedLabels := [(S "TARGET", { addresses := [targetLow], line := 2 })] }
  | 3 =>
    { Asm.init with
      lines := [S ".pc = $1000", S "LDA #<TARGET", S "LDA #>TARGET"], actAddress := 0x1004,
      actChunk := some { bufferSize := 256, startAddress := 0x1000, length := 4,
                         data := some (buffer256 [0xa9, 0, 0xa9, 0x10]) },
      unresolvedLabels := [(S "TARGET", { addresses := [targetLow, targetHigh], line := 3 })] }
  | _ =>
    { Asm.init with
      lines := [S ".pc = $1000", S "LDA #<TARGET", S "LDA #>TARGET", S "TARGET: RTS"],
      actAddress := 0x1005,
      actChunk := some { bufferSize := 256, startAddress := 0x1000, length := 5,
                         data := some (buffer256 [0xa9, 0, 0xa9, 0x10, 0x60]) },
      labels := [(S "TARGET", 0x1004)],
      unresolvedLabels := [(S "TARGET", { addresses := [targetLow, targetHigh], line := 3 })] }

/-! ## The chunk layout: notions that the statements use -/

/-- The outcome `r` of a step taken with the chunk list `chunks` and the
current chunk `a` keeps the chunk list, and its current chunk is `a` with bytes
appended by `addByte` calls: there is one exactly when there was one. -/
def Extends (chunks : List MemChunk) (a : Option MemChunk) (r : Option (Asm × Int)) : Prop :=
  ∀ s x, r = some (s, x) →
    s.chunks = chunks ∧ s.actChunk.isSome = a.isSome ∧
      ∃ bs, s.actChunk = a.bind (fun c => c.addBytes bs)

/-- The text that `assemble` hands to the line functions for the line `raw`:
the two `GlobalReplace` calls at the top of its loop. -/
def trimLine (raw : Str) : Str :=
  globalReplace remove_trailing_space (fun _ => [])
    (globalReplace remove_leading_space (fun g => capGet g 1) raw)

/-- A `.pc` directive: a line that `checkDirectives` takes for a directive
and whose keyword reads `pc` in lower case. -/
def isPcLine (raw : Str) : Bool :=
  match fullMatch searchDirective (trimLine raw), fullMatch extractKeyword (trimLine raw) with
  | some _, some g => lowerStr (capGet g 1) == S "pc"
  | _, _ => false

/-- The number of `.pc` directives among the lines. -/
def pcCount (lines : List Str) : Nat := (lines.filter isPcLine).length

/-- The address that `checkDirectives` stores in `addressNum` for the text
`line` of a `.pc` directive without its comment, where it stores one. -/
def pcTextAddress (line : Str) : Option Nat :=
  match fullMatch extractMemoryAddress line with
  | some g =>
    match fullMatch inlineAny (S "0x" ++ capGet g 1) with
    | some _ => parseHexUInt (capGet g 1)
    | none => none
  | none => none

/-- The address that the `.pc` line `raw` writes. -/
def pcLineAddress (raw : Str) : Option Nat :=
  pcTextAddress (globalReplace remove_comments (fun _ => []) (trimLine raw))

/-- The first pass of `assemble` on a fresh assembler over the lines `ls`. -/
def firstPass (u : Nat → Uninit) (ls : List Str) : Option (Asm × Int) :=
  assembleLoop u ls 1 Asm.init

/-- The source of scenario 5. -/
def scenario5 : Str := S ".pc=$1000\nNOP\n.pc=$2000\nNOP"

/-- A finalized chunk that holds the one byte of `NOP`. -/
def nopChunk (pc : Nat) : MemChunk :=
  { bufferSize := 256, startAddress := pc, length := 1, data := some [0xea] }

/-- A chunk in use that holds the one byte of `NOP` in its buffer of 256
cells. -/
def nopOpen (pc : Nat) : MemChunk :=
  { bufferSize := 256, startAddress := pc, length := 1, data := some (buffer256 [0xea]) }

/-- The state that `assemble` leaves for scenario 5. -/
def scenario5State : Asm :=
  { Asm.init with
    lines := [S ".pc=$1000", S "NOP", S ".pc=$2000", S "NOP"], actAddress := 0x2001,
    chunks := [nopChunk 0x1000, nopChunk 0x2000], actChunk := some (nopChunk 0x2000) }

/-- A source with a reference to a label defined later, in the zero page. -/
def zeroPageForward : Str := S ".pc = $10\nLDA FWD\nNOP\nFWD: RTS"

/-- The fix-up that the line `LDA FWD` of `zeroPageForward` records: a word
at 0x11. -/
def wordFixup : UnresolvedAddress :=
  { address := 0x11, memChunk := 0, isBranch := false, isOneByteAddr := false,
    isLowPart := false }

/-- The state of the first pass over `zeroPageForward` after its line `k`. -/
def zeroPageForwardState : Nat → Asm
  | 0 => Asm.init
  | 1 => { opened 0x10 with lines := [S ".pc = $10"] }
  | 2 =>
    { Asm.init with
      lines := [S ".pc = $10", S "LDA FWD"], actAddress := 0x12,
      actChunk := some { bufferSize := 256, startAddress := 0x10, length := 2,
                         data := some (buffer256 [0xa5, 0x10]) },
      unresolvedLabels := [(S "FWD", { addresses := [wordFixup], line := 2 })] }
  | 3 =>
    { Asm.init with
      lines := [S ".pc = $10", S "LDA FWD", S "NOP"], actAddress := 0x13,
      actChunk := some { bufferSize := 256, startAddress := 0x10, length := 3,
                         data := some (buffer256 [0xa5, 0x10, 0xea]) },
      unresolvedLabels := [(S "FWD", { addresses := [wordFixup], line := 2 })] }
  | _ =>
    { Asm.init with
      lines := [S ".pc = $10", S "LDA FWD", S "NOP", S "FWD: RTS"], actAddress := 0x14,
      actChunk := some { bufferSize := 256, startAddress := 0x10, length := 4,
                         data := some (buffer256 [0xa5, 0x10, 0xea, 0x60]) },
      labels := [(S "FWD", 0x13)],
      unresolvedLabels := [(S "FWD", { addresses := [wordFixup], line := 2 })] }

/-! ## Data directives and labels: notions that the statements use -/

/-- The result of a run as the caller sees it on an error: the returned
`int`, the message, the line number and the line content of `asmError`. -/
def reportOf (r : Option (Asm × Int)) : Option (Int × Str × Nat × Str) :=
  r.map (fun x => (x.2, x.1.asmError.errorString, x.1.asmError.errorLineNumber,
    x.1.asmError.lineContent))

/-- The value of a number text in the three notations of the data
directives: decimal digits, `$` and lower-case hexadecimal digits, or `%` and
binary digits. -/
def dataValue (v : Str) : Option Nat :=
  match v with
  | [] => none
  | x :: ds =>
    if x == 36 then (if ds != [] && ds.all isHexLower then some (digitsValue 16 ds) else none)
    else if x == 37 then (if ds != [] && ds.all isBin then some (digitsValue 2 ds) else none)
    else if (x :: ds).all isDigit then some (digitsValue 10 (x :: ds)) else none

/-- The line `.keyword v1, ..., vn` of a data directive. -/
def dataLine (keyword : Str) (vs : List Str) : Str :=
  46 :: keyword ++ 32 :: (S ", ").intercalate vs

/-- The `int` that `(int)strtol(...)` gives for a digit text of value `n`:
`strtol` stops at `LONG_MAX` and the cast keeps the low 32 bits. -/
def intOfValue (n : Nat) : Int := wrap32 (min n 9223372036854775807 : Nat)

/-- The program counter after `k` steps of `actAddress++`. -/
def bump : Nat → Nat → Nat
  | 0, a => a
  | k + 1, a => bump k ((a + 1) % 65536)

/-- The body of a string literal that stands for the text `t`: every `"`
and every backslash of `t` with a backslash before it. -/
def escapeText : Str → Str
  | [] => []
  | x :: xs => if x == 34 || x == 92 then 92 :: x :: escapeText xs else x :: escapeText xs

/-- The line `.text "body"`. -/
def textLine (body : Str) : Str := S ".text \"" ++ body ++ [34]

/-- The program-counter invariant of a state: the charset is one of the
three, and when a chunk is open the program counter is the address after its
last byte, modulo 65536. -/
def PcInv (s : Asm) : Prop :=
  (s.charset = ASCII ∨ s.charset = PETSCII ∨ s.charset = SCREENSCII) ∧
  ∀ c, s.actChunk = some c → s.actAddress = (c.startAddress + c.length) % 65536

/-- The state of every outcome that returns has the property `P`. -/
def Keeps (P : Asm → Prop) (r : Option (Asm × Int)) : Prop :=
  ∀ s x, r = some (s, x) → P s

/-- The captured groups with every text in upper case. -/
def upperCaps (c : Caps) : Caps := c.map (fun e => (e.1, upperStr e.2))

/-- A match with its groups and the rest of its input in upper case. -/
def upperRes (r : MatchRes) : MatchRes := (upperCaps r.1, upperStr r.2)

/-- An expression whose character classes do not tell a letter from its
upper-case form. -/
def caseFree : RE → Prop
  | RE.cls p => ∀ x, p (toupper x) = p x
  | RE.star p => ∀ x, p (toupper x) = p x
  | RE.seq a b => caseFree a ∧ caseFree b
  | RE.alt a b => caseFree a ∧ caseFree b
  | RE.group _ a => caseFree a
  | _ => True

/-- A well-formed `.byte` or `.word` directive: the keyword, a blank and one
or more values in the notations of `dataValue`, with `, ` between them. -/
def isDataLine (line : Str) : Prop :=
  ∃ vs : List Str, vs ≠ [] ∧ (∀ v ∈ vs, ∃ n, dataValue v = some n) ∧
    (line = dataLine (S "byte") vs ∨ line = dataLine (S "word") vs)

/-- A well-formed `.text` directive: the text between the quotation marks is
the escaped form of a text, and holds no line feed. -/
def isTextLine (line : Str) : Prop :=
  ∃ t : Str, 10 ∉ escapeText t ∧ line = textLine (escapeText t)

/-- A line that starts with three letters, holds no line feed, and is no
label definition: every colon of it comes after a blank. -/
def isMnemonicLine (line : Str) : Prop :=
  ∃ (a b c : Nat) (rest : Str), isAlpha a = true ∧ isAlpha b = true ∧ isAlpha c = true ∧
    line = a :: b :: c :: rest ∧ 10 ∉ rest ∧
    ∀ p q, line = p ++ 58 :: q → ∃ x ∈ p, isSpace x = true

/-- The state that `assemble` leaves when the line `line`, numbered `k`, is
reached in the state `s` and needs a chunk that is not there. -/
def orderError (s : Asm) (line : Str) (k : Nat) : Asm :=
  { s with
    lines := s.lines ++ [line],
    asmError :=
      { lineContent := line,
        errorString := S "Instruction reached without address specification",
        errorStringVerbose := S "Specify a starting address with the .pc directive.",
        errorLineNumber := k } }

/-- The read `unresolvedLabels.find(key)`: the entry of a label in the table
of the references that wait for their address, where it has one. -/
def entryOf (m : List (Str × UnresolvedLabel)) (key : Str) : Option UnresolvedLabel :=
  (m.find? (fun e => e.1 == key)).map (fun e => e.2)

/-- The entry of the label `name` after the first pass over the first `j`
lines, where that pass returns. -/
def entryAfter (u : Nat → Uninit) (ls : List Str) (j : Nat) (name : Str) :
    Option (Option UnresolvedLabel) :=
  (firstPass u (ls.take j)).map (fun r => entryOf r.1.unresolvedLabels name)

/-- The line numbered `j` references the label `name` before its address is
known: the first pass over that line changes the entry of the label. -/
def recordsRef (u : Nat → Uninit) (ls : List Str) (j : Nat) (name : Str) : Prop :=
  1 ≤ j ∧ j ≤ ls.length ∧ entryAfter u ls (j - 1) name ≠ entryAfter u ls j name

/-- Every recorded reference points to a chunk with a buffer: one of `chunks`,
or the current chunk, which is the next to be pushed there.  A table that is
not empty comes with a current chunk. -/
def FixupsOk (s : Asm) : Prop :=
  (s.unresolvedLabels = [] ∨ s.actChunk.isSome = true) ∧
  ∀ e ∈ s.unresolvedLabels, ∀ a ∈ e.2.addresses,
    (∃ c, s.chunks.get? a.memChunk = some c ∧ c.data.isSome = true) ∨
    (a.memChunk = s.chunks.length ∧ ∃ c, s.actChunk = some c ∧ c.data.isSome = true)

/-- The write that the second pass does for the recorded reference `a` is
inside the buffer of its chunk among `chunks`: one cell for a byte or a
branch, two cells for a word. -/
def inBuffer (chunks : List MemChunk) (a : UnresolvedAddress) : Bool :=
  match chunks.get? a.memChunk with
  | none => false
  | some c =>
    match c.data with
    | none => false
    | some buf =>
      decide ((a.address + 65536 - c.startAddress % 65536) % 65536 +
        (if a.isOneByteAddr || a.isBranch then 0 else 1) < buf.length)

/-- An outcome of an encoding step on the state `s` with the current chunk
`c`: bytes appended to the chunk, or an error and nothing else. -/
def Emits (s : Asm) (c : MemChunk) (r : Option (Asm × Int)) : Prop :=
  ∀ t x, r = some (t, x) →
    (∃ bs c1 pc, bs ≠ [] ∧ c.addBytes bs = some c1 ∧
      t = { s with actChunk := some c1, actAddress := pc }) ∨
    (x = -1 ∧ ∃ e, t = { s with asmError := e })

/-- What a line numbered `k` that passes does to the table of the references:
nothing, or one reference added that points to the current chunk, which then
holds a byte. -/
def RefStep (k : Nat) (s t : Asm) : Prop :=
  t.unresolvedLabels = s.unresolvedLabels ∨
  ∃ key a, t.unresolvedLabels = unresolvedAdd key a k s.unresolvedLabels ∧
    a.memChunk = s.chunks.length ∧ t.chunks = s.chunks ∧
    ∃ c, t.actChunk = some c ∧ c.data.isSome = true

/-- A source with two references to a label that is defined nowhere. -/
def undefinedVal : Str := S ".pc = $2000\nLDA VAL\nSTA VAL"

/-- The reference that a line of `undefinedVal` records: a word at `address`
in the first chunk. -/
def valFixup (address : Nat) : UnresolvedAddress :=
  { address := address, memChunk := 0, isBranch := false, isOneByteAddr := false,
    isLowPart := false }

/-- The entry of `VAL` after the first pass over `undefinedVal`. -/
def valEntry : UnresolvedLabel :=
  { addresses := [valFixup 0x2001, valFixup 0x2004], line := 3 }

/-- The state after the first pass over `undefinedVal`. -/
def undefinedValState : Asm :=
  { Asm.init with
    lines := [S ".pc = $2000", S "LDA VAL", S "STA VAL"], actAddress := 0x2006,
    actChunk := some { bufferSize := 256, startAddress := 0x2000, length := 6,
                       data := some (buffer256 [0xad, 0x00, 0x20, 0x8d, 0x03, 0x20]) },
    unresolvedLabels := [(S "VAL", valEntry)] }

/-! ## Keywords, numbers and addressing modes: notions that the statements use -/

/-- The returned `int` and the error record of a call of `assemble` on the
assembler that an earlier call left, where the earlier call returned.  The
chunk list of such a call is no part of this: the chunks that the earlier
call pushed share their buffers with the chunk that the next `finalize`
replaces, and the model has no shared buffers. -/
def secondCallReport (u : Nat → Uninit) (first : Option (Asm × Int)) (source : Str) :
    Option (Int × Str × Nat × Str) :=
  match first with
  | some (s, _) => reportOf (assemble u s source)
  | none => none

/-- The chunk `c` is the one that a `.pc` line opened at the address `a`,
with the bytes `bs` added to it since, one `addByte` call each. -/
def MemChunk.Holds (c : MemChunk) (a : Nat) (bs : List Nat) : Prop :=
  (MemChunk.fresh a).addBytes bs = some c

/-- The buffer of a chunk that `addByte` has built: absent with no byte, or of
256 cells with up to 256 bytes, or of 512 cells with more; `bufferSize` is 256
once there is a buffer. -/
def MemChunk.Sized (c : MemChunk) : Prop :=
  match c.data with
  | none => c.length = 0
  | some buf =>
    c.bufferSize = 256 ∧ c.length ≤ buf.length ∧
      (buf.length = 256 ∨ (buf.length = 512 ∧ 256 < c.length))

/-- The state of a fresh assembler after the line `.pc = $1000`. -/
def afterPc1000 : Asm :=
  { opened 0x1000 with lines := [S ".pc = $1000"] }

/-- The state after the lines `.pc = $1000` and `LDA #$01`. -/
def afterLda : Asm :=
  { opened 0x1000 with
    lines := [S ".pc = $1000", S "LDA #$01"], actAddress := 0x1002,
    actChunk := some { bufferSize := 256, startAddress := 0x1000, length := 2,
                       data := some (buffer256 [0xa9, 0x01]) } }

/-- The state that `assemble` leaves for `.pc = $1000`, `L: NOP`. -/
def afterLabelRun : Asm :=
  { Asm.init with
    lines := [S ".pc = $1000", S "L: NOP"], actAddress := 0x1001,
    chunks := [nopChunk 0x1000], actChunk := some (nopChunk 0x1000),
    labels := [(S "L", 0x1000)] }

/-- The state of the loop in a second call, on the assembler that
`afterLabelRun` describes, after the line `.pc = $2000`. -/
def afterSecondPc : Asm :=
  { afterLabelRun with
    lines := [S ".pc = $1000", S "L: NOP", S ".pc = $2000"]
    actAddress := 0x2000
    chunks := [nopChunk 0x1000, nopChunk 0x1000]
    actChunk := some (MemChunk.fresh 0x2000) }

/-- The state that a second call leaves, on the assembler that `afterLabelRun`
describes, for `.pc = $2000`, `NOP`. -/
def afterSecondRun : Asm :=
  { afterLabelRun with
    lines := [S ".pc = $1000", S "L: NOP", S ".pc = $2000", S "NOP"]
    actAddress := 0x2001
    chunks := [nopChunk 0x1000, nopChunk 0x1000, nopChunk 0x2000]
    actChunk := some (nopChunk 0x2000) }

/-- The cells of the buffer of its chunk, which starts at `start`, that the
second pass writes for the recorded reference `a`: one cell for a byte or a
branch, two cells for a word. -/
def UnresolvedAddress.cells (a : UnresolvedAddress) (start : Nat) : List Nat :=
  if a.isOneByteAddr || a.isBranch then [(a.address + 65536 - start % 65536) % 65536]
  else [(a.address + 65536 - start % 65536) % 65536,
        (a.address + 65536 - start % 65536) % 65536 + 1]

/-- The rewrite that the second pass does for the reference `x`, with the
address `r` of its label, leaves the value `v` in the cell `q` of a chunk
that starts at `start`. -/
def Writes (x : UnresolvedAddress) (r start q v : Nat) : Prop :=
  ∀ c c1 : MemChunk, c.startAddress = start → q < c.length → patchChunk c x r = some c1 →
    c1.bytes.get? q = some v

/-- The state that `assemble` leaves for `.pc = $1000`, `BNE FWD`, `NOP`,
`FWD: RTS`; the fix-up is done in the chunk of the list. -/
def forwardBranchRun : Asm :=
  { Asm.init with
    lines := [S ".pc = $1000", S "BNE FWD", S "NOP", S "FWD: RTS"]
    actAddress := 0x1004
    chunks := [{ bufferSize := 256, startAddress := 0x1000, length := 4,
                 data := some [0xd0, 0x01, 0xea, 0x60] }]
    actChunk := some { bufferSize := 256, startAddress := 0x1000, length := 4,
                       data := some [0xd0, 0xfe, 0xea, 0x60] }
    labels := [(S "FWD", 0x1003)]
    unresolvedLabels := [(S "FWD", { addresses := [branchFixup 0x1000 0], line := 2 })] }

/-- The character of a digit below 16, with the letters in upper case. -/
def upperDigit (d : Nat) : Nat := if d < 10 then 48 + d else 55 + d

/-- The digits of `n` in base `base` as the specification writes them: most
significant first, without leading zeros, the letters in upper case, and `0`
for the value 0. -/
def digitText (base n : Nat) : Str :=
  if n = 0 then [48] else (Nat.digits base n).reverse.map upperDigit

/-- A text of digits without leading zeros: the text `0`, or a text that does
not start with `0`. -/
def noLeadingZero (ds : Str) : Prop := ds = [48] ∨ ds.head? ≠ some 48

/-- The fix-up that the first pass records for a reference in a 16-bit
operand at the address `p` whose chunk is the one numbered `i`: the two bytes
after the opcode. -/
def addressFixup (p i : Nat) : UnresolvedAddress :=
  { address := (p + 1) % 65536, memChunk := i, isBranch := false, isOneByteAddr := false,
    isLowPart := false }

/-- The state that `assemble` leaves for `.pc = $1000`, `LDA FWD`, `NOP`,
`FWD: RTS`; the fix-up is done in the chunk of the list. -/
def forwardAddressRun : Asm :=
  { Asm.init with
    lines := [S ".pc = $1000", S "LDA FWD", S "NOP", S "FWD: RTS"]
    actAddress := 0x1005
    chunks := [{ bufferSize := 256, startAddress := 0x1000, length := 5,
                 data := some [0xad, 0x04, 0x10, 0xea, 0x60] }]
    actChunk := some { bufferSize := 256, startAddress := 0x1000, length := 5,
                       data := some [0xad, 0x00, 0x10, 0xea, 0x60] }
    labels := [(S "FWD", 0x1004)]
    unresolvedLabels := [(S "FWD", { addresses := [addressFixup 0x1000 0], line := 2 })] }

/-- The state that `assemble` leaves for `.pc = $1000`, `LDA FWD,X`, `NOP`,
`FWD: RTS`; the fix-up is done in the chunk of the list. -/
def forwardIndexedRun : Asm :=
  { Asm.init with
    lines := [S ".pc = $1000", S "LDA FWD,X", S "NOP", S "FWD: RTS"]
    actAddress := 0x1005
    chunks := [{ bufferSize := 256, startAddress := 0x1000, length := 5,
                 data := some [0xbd, 0x04, 0x10, 0xea, 0x60] }]
    actChunk := some { bufferSize := 256, startAddress := 0x1000, length := 5,
                       data := some [0xbd, 0x00, 0x10, 0xea, 0x60] }
    labels := [(S "FWD", 0x1004)]
    unresolvedLabels := [(S "FWD", { addresses := [addressFixup 0x1000 0], line := 2 })] }

/-- The state of an assembler with an empty chunk open at `pc` and the one
label `name` at the address `a`. -/
def openedWith (pc : Nat) (name : Str) (a : Nat) : Asm :=
  { opened pc with labels := [(name, a)] }

/-- The entry of `LDA` in the opcode table. -/
def ldaEntry : Opcode :=
  Opcode.make "LDA" 0xa9 0xa5 0xb5 0x00 0xad 0xbd 0xb9 0xa1 0xb1 0x00 0x00

/-! ## Operands, comments and the opcode table: notions that the statements use -/

/-- The slots of an entry of the opcode table that hold an opcode: the
mnemonic, the number of the slot and the byte, for each of the eleven slots
that is not 0. -/
def Opcode.slots (o : Opcode) : List (Str × Nat × Nat) :=
  (List.range 11).filterMap (fun i => if o.code i != 0 then some (o.name, i, o.code i) else none)

/-- The supported modes of the whole table: the slots that hold an opcode,
over all the mnemonics. -/
def opcodeSlots : List (Str × Nat × Nat) := opcodeTable.flatMap Opcode.slots

/-- The entry of `BNE` in the opcode table. -/
def bneEntry : Opcode :=
  Opcode.make "BNE" 0x00 0x00 0x00 0x00 0x00 0x00 0x00 0x00 0x00 0x00 0xd0

/-- The state `s` with the list of its lines replaced by `X`. -/
def Asm.withLines (s : Asm) (X : List Str) : Asm := { s with lines := X }

/-- An outcome with the list of the lines replaced by `X`. -/
def withLinesR (X : List Str) (r : Option (Asm × Int)) : Option (Asm × Int) :=
  r.map (fun y => (y.1.withLines X, y.2))

/-- An outcome without the texts of the line: the list of the lines and the
line content of the error record are left out. -/
def forgetLine (r : Asm × Int) : Asm × Int :=
  ({ r.1 with lines := [], asmError := { r.1.asmError with lineContent := [] } }, r.2)

/-- The keyword of a directive line is not `text`. -/
def notTextLine (line : Str) : Prop :=
  ∀ g, fullMatch extractKeyword line = some g → lowerStr (capGet g 1) ≠ S "text"

/-- The outcome `r` of a line on the state `s`, whose current chunk holds the
bytes `bs` from the address `a` on: 0 is returned, the current chunk is one
that holds `bs` followed by `more`, the program counter has advanced by the
number of the bytes of `more`, and nothing else of the state has changed. -/
def Appends (s : Asm) (a : Nat) (bs more : List Nat) (r : Option (Asm × Int)) : Prop :=
  ∃ c1 : MemChunk,
    r = some ({ s with actChunk := some c1,
                       actAddress := (s.actAddress + more.length) % 65536 }, 0) ∧
    c1.Holds a (bs ++ more) ∧ c1.startAddress = a ∧ c1.length = bs.length + more.length ∧
    c1.bytes = bs ++ more

theorem starGo_stop (p : Nat → Bool) (k : Str → Option MatchRes) (y : Nat) (ys : Str)
    (h : p y = false) : starGo p k (y :: ys) = k (y :: ys) := by
  simp [starGo, h]

theorem starGo_nil (p : Nat → Bool) (k : Str → Option MatchRes) : starGo p k [] = k [] := rfl

theorem starGo_cons (p : Nat → Bool) (k : Str → Option MatchRes) (x : Nat) (xs : Str) :
    starGo p k (x :: xs) =
      if p x = true then (starGo p k xs).orElse (fun _ => k (x :: xs)) else k (x :: xs) := by
  by_cases hx : p x = true
  · cases hs : starGo p k xs <;> simp [starGo, hx, hs]
  · simp [starGo, hx]

/-- A star in front of a text that starts with no character of its class
takes nothing. -/
theorem starGo_of_head (p : Nat → Bool) (op : Str)
    (h : ∀ y ys, op = y :: ys → p y = false) (k : Str → Option MatchRes) :
    starGo p k op = k op := by
  cases op with
  | nil => rfl
  | cons y ys => exact starGo_stop p k y ys (h y ys rfl)

theorem starGo_append (p : Nat → Bool) (k : Str → Option MatchRes) (xs rest : Str) (r : MatchRes)
    (h : ∀ x ∈ xs, p x = true) (hr : starGo p k rest = some r) :
    starGo p k (xs ++ rest) = some r := by
  induction xs with
  | nil => simpa using hr
  | cons x xs ih =>
    have hx : p x = true := h x (by simp)
    have := ih (fun y hy => h y (by simp [hy]))
    simp [starGo, hx, this]

theorem starGo_all (p : Nat → Bool) (k : Str → Option MatchRes) (xs : Str) (r : MatchRes)
    (h : ∀ x ∈ xs, p x = true) (hr : k [] = some r) : starGo p k xs = some r := by
  have := starGo_append p k xs [] r h (by simpa [starGo] using hr)
  simpa using this

/-- A star over a text of its class takes it all when the rest of the
pattern accepts the end of the text. -/
theorem starGo_all_eq (p : Nat → Bool) (xs : Str) (h : ∀ x ∈ xs, p x = true)
    (k : Str → Option MatchRes) (hk : (k []).isSome = true) : starGo p k xs = k [] := by
  obtain ⟨r, hr⟩ := Option.isSome_iff_exists.mp hk
  rw [hr]
  exact starGo_all p k xs r h hr

theorem starGo_eq_none (p : Nat → Bool) (k : Str → Option MatchRes) (s : Str)
    (h : ∀ pre t, s = pre ++ t → (∀ x ∈ pre, p x = true) → k t = none) :
    starGo p k s = none := by
  induction s with
  | nil => simpa [starGo] using h [] [] rfl (by simp)
  | cons x xs ih =>
    have h0 : k (x :: xs) = none := h [] (x :: xs) rfl (by simp)
    by_cases hx : p x = true
    · have h1 : starGo p k xs = none := by
        apply ih
        intro pre t ht hp
        exact h (x :: pre) t (by simp [ht]) (by
          intro y hy
          rcases List.mem_cons.mp hy with rfl | hy
          · exact hx
          · exact hp y hy)
      simp [starGo, hx, h1, h0]
    · simp [starGo, hx, h0]

/-- A star over characters that a later star also takes, followed by the end
of the text: the two stars take everything. -/
theorem starGo_starGo_all (p q : Nat → Bool) (k : Str → Option MatchRes) (xs : Str)
    (r : MatchRes) (h : ∀ x ∈ xs, q x = true) (hr : k [] = some r) :
    starGo p (starGo q k) xs = some r := by
  induction xs with
  | nil => simpa [starGo] using hr
  | cons x xs ih =>
    have hq : starGo q k (x :: xs) = some r := starGo_all q k (x :: xs) r h hr
    have := ih (fun y hy => h y (by simp [hy]))
    by_cases hx : p x = true
    · simp [starGo, hx, this]
    · rw [starGo_stop p _ x xs (by simpa using hx)]
      exact hq

/-! ## Searching and replacing -/

theorem searchFrom_eq_none (r : RE) (total : Nat) (s : Str)
    (h : ∀ pre t, s = pre ++ t → matchAt r total t = none) : searchFrom r total s = none := by
  induction s with
  | nil => simp [searchFrom, h [] [] rfl]
  | cons x xs ih =>
    have h0 := h [] (x :: xs) rfl
    have h1 : searchFrom r total xs = none :=
      ih (fun pre t ht => h (x :: pre) t (by simp [ht]))
    simp [searchFrom, h0, h1]

theorem globalReplace_eq_self (r : RE) (f : Caps → Str) (s : Str)
    (h : searchFrom r s.length s = none) : globalReplace r f s = s := by
  unfold globalReplace
  have : 2 * s.length + 2 = (2 * s.length + 1) + 1 := by omega
  rw [this]
  simp [globalReplaceLoop, h]

theorem remove_comments_matchAt_none (total : Nat) (t : Str) (h : 59 ∉ t) :
    matchAt remove_comments total t = none := by
  simp only [matchAt, remove_comments, RE.cat, RE.ch, matchK]
  apply starGo_eq_none
  intro pre t1 ht _
  cases t1 with
  | nil => rfl
  | cons y ys =>
    have hy : y ≠ 59 := by
      intro hy
      apply h
      rw [ht, hy]
      simp
    simp [isCh, hy]

/-- A text without `;` has no comment to remove. -/
theorem remove_comments_eq_self (f : Caps → Str) (s : Str) (h : 59 ∉ s) :
    globalReplace remove_comments f s = s := by
  apply globalReplace_eq_self
  apply searchFrom_eq_none
  intro pre t ht
  apply remove_comments_matchAt_none
  intro h1
  apply h
  rw [ht]
  simp [h1]

/-! ## Character classes -/

theorem isUpper_iff (x : Nat) : isUpper x = true ↔ 65 ≤ x ∧ x ≤ 90 := by
  simp [isUpper]

theorem isUpper_facts {x : Nat} (h : isUpper x = true) :
    isSpace x = false ∧ isAlpha x = true ∧ isLabelChar x = true ∧ isLower x = false ∧
    isDot x = true ∧ isAngle x = false ∧ isDigit x = false ∧ x ≠ 59 ∧ x ≠ 58 ∧ x ≠ 35 ∧
    x ≠ 36 ∧ x ≠ 40 ∧ x ≠ 42 ∧ x ≠ 10 ∧ x ≠ 32 := by
  have h1 := (isUpper_iff x).mp h
  simp [isSpace, isAlpha, isLabelChar, isLower, isDot, isAngle, isDigit, h]
  omega

theorem toupper_of_isUpper {x : Nat} (h : isUpper x = true) : toupper x = x := by
  simp [toupper, (isUpper_facts h).2.2.2.1]

/-! ## The split of an instruction line -/

/-- A line that starts with a character that is no blank is not empty. -/
theorem isEmptyLine_none (x : Nat) (xs : Str) (h : isSpace x = false) :
    fullMatch isEmptyLine (x :: xs) = none := by
  have hx : x ≠ 10 := by
    intro h10
    rw [h10] at h
    simp [isSpace] at h
  simp only [fullMatch, isEmptyLine, RE.cat, matchK]
  simp [starGo_stop isSpace _ x xs h, hx]

/-- The pattern of a label definition does not match at a place that is not
the start of the text. -/
theorem removeLabelDefinition_matchAt_ne (total : Nat) (t : Str) (h : t.length ≠ total) :
    matchAt removeLabelDefinition total t = none := by
  simp [matchAt, removeLabelDefinition, RE.cat, matchK, h]

/-- A mnemonic followed by a blank is not a label definition. -/
theorem removeLabelDefinition_matchAt_mnemonic (a b c : Nat) (op : Str) (total : Nat)
    (ha : isUpper a = true) (hb : isUpper b = true) (hc : isUpper c = true) :
    matchAt removeLabelDefinition total (a :: b :: c :: 32 :: op) = none := by
  obtain ⟨-, -, hla, -, -, -, -, -, ha58, -⟩ := isUpper_facts ha
  obtain ⟨-, -, hlb, -, -, -, -, -, hb58, -⟩ := isUpper_facts hb
  obtain ⟨-, -, hlc, -, -, -, -, -, hc58, -⟩ := isUpper_facts hc
  have h32u : isUpper 32 = false := by decide
  have h32l : isLabelChar 32 = false := by decide
  simp [matchAt, removeLabelDefinition, labelName, RE.plus, RE.cat, RE.ch, matchK, starGo, isCh,
    ha, hb, hc, hla, hlb, hlc, ha58, hb58, hc58, h32u, h32l]

theorem removeLabelDefinition_eq_self (f : Caps → Str) (s : Str)
    (h : matchAt removeLabelDefinition s.length s = none) :
    globalReplace removeLabelDefinition f s = s := by
  apply globalReplace_eq_self
  apply searchFrom_eq_none
  intro pre t ht
  cases pre with
  | nil =>
    simp at ht
    rw [← ht]
    exact h
  | cons x xs =>
    apply removeLabelDefinition_matchAt_ne
    rw [ht]
    simp
    omega

/-- The split of `MNE operand` into its two parts. -/
theorem getInstructionElements_operand (a b c : Nat) (op : Str)
    (ha : isUpper a = true) (hb : isUpper b = true) (hc : isUpper c = true)
    (hdot : ∀ x ∈ op, isDot x = true) (hhead : ∀ y ys, op = y :: ys → isSpace y = false) :
    fullMatch getInstructionElements (a :: b :: c :: 32 :: op) = some [(2, op), (1, [a, b, c])] := by
  obtain ⟨hsa, haa, -⟩ := isUpper_facts ha
  obtain ⟨-, hab, -⟩ := isUpper_facts hb
  obtain ⟨-, hac, -⟩ := isUpper_facts hc
  have h32 : isSpace 32 = true := by decide
  have hsp := starGo_of_head isSpace op hhead
  have hdt := starGo_all_eq isDot op hdot
  simp [fullMatch, getInstructionElements, RE.cat, matchK, starGo_cons, hsa, haa, hab, hac, h32,
    hsp, hdt]

theorem wrap32_modEq (a : Int) : wrap32 a ≡ a [ZMOD 4294967296] := by
  unfold wrap32 Int.ModEq
  omega

theorem wrap32_eq_of_modEq {a b : Int} (h : a ≡ b [ZMOD 4294967296]) : wrap32 a = wrap32 b := by
  unfold wrap32
  unfold Int.ModEq at h
  omega

theorem wrap32_of_range {a : Int} (h1 : -2147483648 ≤ a) (h2 : a < 2147483648) : wrap32 a = a := by
  unfold wrap32
  omega

/-! ## `convertIntoDecimal` -/

theorem convLoop_eq (base : Int) (binary : Bool) (rest : Str) (r bv : Int) :
    convLoop base binary rest (wrap32 r) (wrap32 bv)
      = wrap32 (r + bv * leValue base binary rest) := by
  induction rest generalizing r bv with
  | nil => simp [convLoop, leValue]
  | cons x xs ih =>
    have hstep : (if binary = true then
          (if (x == 49) = true then wrap32 (wrap32 r + wrap32 bv) else wrap32 r)
        else wrap32 (wrap32 r + wrap32 (findChar (S "0123456789ABCDEF") x * wrap32 bv)))
        = wrap32 (r + loopDigit binary x * bv) := by
      cases binary with
      | true =>
        by_cases hx : (x == 49) = true
        · simp only [hx, if_true, loopDigit]
          apply wrap32_eq_of_modEq
          have := (wrap32_modEq r).add (wrap32_modEq bv)
          simpa using this
        · simp [hx, loopDigit]
      | false =>
        simp only [loopDigit, Bool.false_eq_true, if_false]
        apply wrap32_eq_of_modEq
        exact (wrap32_modEq r).add
          (((wrap32_modEq _).trans ((Int.ModEq.refl _).mul (wrap32_modEq bv))))
    simp only [convLoop]
    rw [hstep, ih]
    apply wrap32_eq_of_modEq
    have h2 : wrap32 bv * base ≡ bv * base [ZMOD 4294967296] :=
      (wrap32_modEq bv).mul (Int.ModEq.refl base)
    have h3 := (Int.ModEq.refl (r + loopDigit binary x * bv)).add
      (h2.mul (Int.ModEq.refl (leValue base binary xs)))
    simp only [leValue]
    have e : r + bv * (loopDigit binary x + base * leValue base binary xs)
        = r + loopDigit binary x * bv + bv * base * leValue base binary xs := by ring
    rw [e]
    exact h3

theorem digitsValue_append (base : Nat) (xs : Str) (y : Nat) :
    digitsValue base (xs ++ [y]) = digitsValue base xs * base + digitVal y := by
  simp [digitsValue, List.foldl_append]

theorem leValue_reverse (base : Nat) (binary : Bool) (ds : Str)
    (h : ∀ x ∈ ds, loopDigit binary x = (digitVal x : Int)) :
    leValue base binary ds.reverse = (digitsValue base ds : Int) := by
  induction ds using List.reverseRecOn with
  | nil => simp [leValue, digitsValue]
  | append_singleton xs y ih =>
    have h1 := ih (fun x hx => h x (by simp [hx]))
    have h2 := h y (by simp)
    have e : (xs ++ [y]).reverse = y :: xs.reverse := by simp
    rw [e]
    simp only [leValue, h1, h2, digitsValue_append]
    push_cast
    ring

theorem loopDigit_hex : ∀ x < 128, isHexUpper x = true →
    loopDigit false x = (digitVal x : Int) := by
  decide

theorem isHexUpper_lt {x : Nat} (h : isHexUpper x = true) : x < 128 := by
  simp [isHexUpper, isDigit] at h
  omega

theorem loopDigit_bin {x : Nat} (h : isBin x = true) : loopDigit true x = (digitVal x : Int) := by
  simp [isBin] at h
  rcases h with rfl | rfl <;> decide

/-- The loop of `convertIntoDecimal` computes the value of the digits, wrapped
to 32 bits. -/
theorem convLoop_value (base : Nat) (binary : Bool) (ds : Str)
    (h : ∀ x ∈ ds, loopDigit binary x = (digitVal x : Int)) :
    convLoop base binary ds.reverse 0 1 = wrap32 (digitsValue base ds) := by
  have := convLoop_eq base binary ds.reverse 0 1
  rw [leValue_reverse base binary ds h] at this
  simpa [wrap32_of_range] using this

theorem convertIntoDecimal_hex (ds : Str) (hne : ds ≠ []) (h : ∀ x ∈ ds, isHexUpper x = true) :
    convertIntoDecimal (36 :: ds) = wrap32 (digitsValue 16 ds) := by
  have hdu : ∀ x ∈ ds, isDigitOrUpper x = true := by
    intro x hx
    have := h x hx
    simp only [isHexUpper, isDigitOrUpper, isUpper, isDigit, Bool.or_eq_true, Bool.and_eq_true,
      decide_eq_true_eq] at this ⊢
    omega
  cases ds with
  | nil => exact absurd rfl hne
  | cons d ds' =>
    have hd := hdu d (by simp)
    have hall := starGo_all_eq isDigitOrUpper ds' (fun x hx => hdu x (by simp [hx]))
    have hbin : fullMatch checkIfBin (36 :: d :: ds') = none := by
      simp [fullMatch, checkIfBin, RE.cat, RE.ch, matchK, isCh]
    have hhex : fullMatch checkIfHex (36 :: d :: ds') = some [(1, d :: ds')] := by
      simp [fullMatch, checkIfHex, RE.cat, RE.ch, RE.plus, matchK, isCh, hd, hall]
    simp only [convertIntoDecimal, hbin, hhex, capGet, List.find?, beq_self_eq_true]
    exact convLoop_value 16 false (d :: ds')
      (fun x hx => loopDigit_hex x (isHexUpper_lt (h x hx)) (h x hx))

theorem convertIntoDecimal_bin (ds : Str) (hne : ds ≠ []) (h : ∀ x ∈ ds, isBin x = true) :
    convertIntoDecimal (37 :: ds) = wrap32 (digitsValue 2 ds) := by
  cases ds with
  | nil => exact absurd rfl hne
  | cons d ds' =>
    have hd := h d (by simp)
    have hall := starGo_all_eq isBin ds' (fun x hx => h x (by simp [hx]))
    have hbin : fullMatch checkIfBin (37 :: d :: ds') = some [(1, d :: ds')] := by
      simp [fullMatch, checkIfBin, RE.cat, RE.ch, RE.plus, matchK, isCh, hd, hall]
    simp only [convertIntoDecimal, hbin, capGet, List.find?, beq_self_eq_true]
    exact convLoop_value 2 true (d :: ds') (fun x hx => loopDigit_bin (h x hx))

theorem convertIntoDecimal_dec (ds : Str) (hne : ds ≠ []) (h : ∀ x ∈ ds, isDigit x = true) :
    convertIntoDecimal ds = wrap32 (digitsValue 10 ds) := by
  cases ds with
  | nil => exact absurd rfl hne
  | cons d ds' =>
    have hd := h d (by simp)
    have hd' : 48 ≤ d ∧ d ≤ 57 := by simpa [isDigit] using hd
    have h37 : d ≠ 37 := by omega
    have h36 : d ≠ 36 := by omega
    have hall := starGo_all_eq isDigit ds' (fun x hx => h x (by simp [hx]))
    have hbin : fullMatch checkIfBin (d :: ds') = none := by
      simp [fullMatch, checkIfBin, RE.cat, RE.ch, matchK, isCh, h37]
    have hhex : fullMatch checkIfHex (d :: ds') = none := by
      simp [fullMatch, checkIfHex, RE.cat, RE.ch, matchK, isCh, h36]
    have hdec : fullMatch checkIfDec (d :: ds') = some [(1, d :: ds')] := by
      simp [fullMatch, checkIfDec, RE.cat, RE.plus, matchK, hd, hall]
    simp only [convertIntoDecimal, hbin, hhex, hdec, capGet, List.find?, beq_self_eq_true]
    apply convLoop_value 10 false (d :: ds')
    intro x hx
    have hx' := h x hx
    have hx2 : isHexUpper x = true := by simp [isHexUpper, hx']
    exact loopDigit_hex x (isHexUpper_lt hx2) hx2

theorem toupper_hex : ∀ x < 128, isHexDigit x = true →
    isHexUpper (toupper x) = true ∧ digitVal (toupper x) = digitVal x := by
  decide

theorem isHexDigit_lt {x : Nat} (h : isHexDigit x = true) : x < 128 := by
  simp only [isHexDigit, isDigit, Bool.or_eq_true, Bool.and_eq_true, decide_eq_true_eq] at h
  omega

theorem isBin_hex {x : Nat} (h : isBin x = true) : isHexDigit x = true ∧ toupper x = x := by
  simp [isBin] at h
  rcases h with rfl | rfl <;> decide

theorem isDigit_hex {x : Nat} (h : isDigit x = true) : isHexDigit x = true ∧ toupper x = x := by
  have h' : 48 ≤ x ∧ x ≤ 57 := by simpa [isDigit] using h
  constructor
  · simp [isHexDigit, h]
  · have : isLower x = false := by
      simp [isLower]
      omega
    simp [toupper, this]

theorem foldl_digits_map (base : Nat) (f : Nat → Nat) (ds : Str) (acc : Nat)
    (h : ∀ x ∈ ds, digitVal (f x) = digitVal x) :
    List.foldl (fun a x => a * base + digitVal x) acc (ds.map f)
      = List.foldl (fun a x => a * base + digitVal x) acc ds := by
  induction ds generalizing acc with
  | nil => rfl
  | cons d ds ih =>
    simp only [List.map_cons, List.foldl_cons, h d (by simp)]
    exact ih _ (fun x hx => h x (by simp [hx]))

theorem digitsValue_upperStr (base : Nat) (ds : Str) (h : ∀ x ∈ ds, isHexDigit x = true) :
    digitsValue base (upperStr ds) = digitsValue base ds := by
  unfold digitsValue upperStr
  exact foldl_digits_map base toupper ds 0
    (fun x hx => (toupper_hex x (isHexDigit_lt (h x hx)) (h x hx)).2)

theorem upperStr_hex (ds : Str) (h : ∀ x ∈ ds, isHexDigit x = true) :
    ∀ y ∈ upperStr ds, isHexUpper y = true := by
  intro y hy
  simp only [upperStr, List.mem_map] at hy
  obtain ⟨x, hx, rfl⟩ := hy
  exact (toupper_hex x (isHexDigit_lt (h x hx)) (h x hx)).1

theorem upperStr_eq_self (ds : Str) (h : ∀ x ∈ ds, toupper x = x) : upperStr ds = ds := by
  unfold upperStr
  induction ds with
  | nil => rfl
  | cons d ds ih =>
    simp only [List.map_cons, h d (by simp)]
    rw [ih (fun x hx => h x (by simp [hx]))]

/-- A number text of the specification, once in upper case, is converted to
its value by `convertIntoDecimal`; it starts with `$`, `%` or a digit and goes
on with digits. -/
theorem numberValue_upper (t : Str) (v : Nat) (h : numberValue t = some v) :
    convertIntoDecimal (upperStr t) = wrap32 v ∧
    ∃ x xs, upperStr t = x :: xs ∧ (x = 36 ∨ x = 37 ∨ isDigit x = true) ∧
      ∀ y ∈ xs, isHexUpper y = true := by
  cases t with
  | nil => simp [numberValue] at h
  | cons x ds =>
    simp only [numberValue] at h
    by_cases h36 : (x == 36) = true
    · have hx : x = 36 := by simpa using h36
      subst hx
      simp only [beq_self_eq_true, if_true] at h
      split at h
      · rename_i hcond
        simp only [Bool.and_eq_true, bne_iff_ne, ne_eq, List.all_eq_true] at hcond
        obtain ⟨hne, hall⟩ := hcond
        have hv : digitsValue 16 ds = v := by simpa using h
        have hup := upperStr_hex ds hall
        have hne' : upperStr ds ≠ [] := by simpa [upperStr] using hne
        have e : upperStr (36 :: ds) = 36 :: upperStr ds := by
          simp [upperStr, toupper, isLower]
        rw [e, convertIntoDecimal_hex _ hne' hup, digitsValue_upperStr 16 ds hall, hv]
        exact ⟨rfl, 36, upperStr ds, rfl, Or.inl rfl, hup⟩
      · simp at h
    · simp only [h36, Bool.false_eq_true, if_false] at h
      by_cases h37 : (x == 37) = true
      · have hx : x = 37 := by simpa using h37
        subst hx
        simp only [beq_self_eq_true, if_true] at h
        split at h
        · rename_i hcond
          simp only [Bool.and_eq_true, bne_iff_ne, ne_eq, List.all_eq_true] at hcond
          obtain ⟨hne, hall⟩ := hcond
          have hv : digitsValue 2 ds = v := by simpa using h
          have eds : upperStr ds = ds := upperStr_eq_self ds (fun y hy => (isBin_hex (hall y hy)).2)
          have e : upperStr (37 :: ds) = 37 :: ds := by
            have : upperStr (37 :: ds) = 37 :: upperStr ds := by simp [upperStr, toupper, isLower]
            rw [this, eds]
          rw [e, convertIntoDecimal_bin _ hne hall, hv]
          refine ⟨rfl, 37, ds, rfl, Or.inr (Or.inl rfl), ?_⟩
          intro y hy
          have := (isBin_hex (hall y hy)).1
          have h2 := toupper_hex y (isHexDigit_lt this) this
          rw [(isBin_hex (hall y hy)).2] at h2
          exact h2.1
        · simp at h
      · simp only [h37, Bool.false_eq_true, if_false] at h
        split at h
        · rename_i hcond
          simp only [List.all_eq_true] at hcond
          have hv : digitsValue 10 (x :: ds) = v := by simpa using h
          have e : upperStr (x :: ds) = x :: ds :=
            upperStr_eq_self _ (fun y hy => (isDigit_hex (hcond y hy)).2)
          rw [e, convertIntoDecimal_dec _ (by simp) hcond, hv]
          refine ⟨rfl, x, ds, rfl, Or.inr (Or.inr (hcond x (by simp))), ?_⟩
          intro y hy
          have hd := hcond y (by simp [hy])
          simp [isHexUpper, hd]
        · simp at h

/-! ## The first steps of `assembleLine` -/

theorem toupper_isDot {x : Nat} (h : x ≠ 10) : isDot (toupper x) = true := by
  by_cases hl : isLower x = true
  · have : 97 ≤ x ∧ x ≤ 122 := by simpa [isLower] using hl
    simp [toupper, hl, isDot]
    omega
  · simp [toupper, hl, isDot, h]

theorem toupper_isSpace (x : Nat) : isSpace (toupper x) = isSpace x := by
  by_cases hl : isLower x = true
  · have : 97 ≤ x ∧ x ≤ 122 := by simpa [isLower] using hl
    have e1 : isSpace x = false := by
      simp [isSpace]
      omega
    have e2 : isSpace (x - 32) = false := by
      simp [isSpace]
      omega
    simp [toupper, hl, e1, e2]
  · simp [toupper, hl]

theorem upperStr_cons (x : Nat) (xs : Str) : upperStr (x :: xs) = toupper x :: upperStr xs := rfl

/-- A line `MNE operand` reaches the second part of `assembleLine` with its
mnemonic and its operand in upper case. -/
theorem assembleLine_operand (u : Uninit) (s : Asm) (n a b c : Nat) (op : Str)
    (ha : isUpper a = true) (hb : isUpper b = true) (hc : isUpper c = true)
    (h59 : 59 ∉ op) (h10 : 10 ∉ op) (hhead : ∀ y ys, op = y :: ys → isSpace y = false) :
    assembleLine u s (a :: b :: c :: 32 :: op) n = assembleParsed u s [a, b, c] (upperStr op) n := by
  have fa := isUpper_facts ha
  have fb := isUpper_facts hb
  have fc := isUpper_facts hc
  have hno : 59 ∉ a :: b :: c :: 32 :: op := by
    simp only [List.mem_cons, not_or]
    exact ⟨fun h => fa.2.2.2.2.2.2.2.1 h.symm, fun h => fb.2.2.2.2.2.2.2.1 h.symm,
      fun h => fc.2.2.2.2.2.2.2.1 h.symm, by decide, h59⟩
  have hup : upperStr (a :: b :: c :: 32 :: op) = a :: b :: c :: 32 :: upperStr op := by
    simp only [upperStr_cons, toupper_of_isUpper ha, toupper_of_isUpper hb, toupper_of_isUpper hc]
    rfl
  have hdot : ∀ x ∈ upperStr op, isDot x = true := by
    intro x hx
    simp only [upperStr, List.mem_map] at hx
    obtain ⟨y, hy, rfl⟩ := hx
    exact toupper_isDot (fun h => h10 (h ▸ hy))
  have hhead' : ∀ y ys, upperStr op = y :: ys → isSpace y = false := by
    intro y ys h
    cases op with
    | nil => simp [upperStr] at h
    | cons z zs =>
      simp only [upperStr_cons, List.cons.injEq] at h
      rw [← h.1, toupper_isSpace]
      exact hhead z zs rfl
  unfold assembleLine
  simp only [remove_comments_eq_self _ _ hno, isEmptyLine_none a _ fa.1, hup]
  rw [removeLabelDefinition_eq_self _ _
    (removeLabelDefinition_matchAt_mnemonic a b c (upperStr op) _ ha hb hc)]
  simp only [getInstructionElements_operand a b c (upperStr op) ha hb hc hdot hhead']
  rfl

theorem opcodeTable_names : ∀ o ∈ opcodeTable,
    opcodeMap o.name = o ∧ o.name.length = 3 ∧ o.name.all isUpper = true := by
  decide

theorem opcodeTable_addressed : ∀ o ∈ opcodeTable,
    (o.code 0 ≠ 0 ∨ o.code 1 ≠ 0 ∨ o.code 4 ≠ 0 ∨ o.code 10 ≠ 0) →
      hasSub o.name singleByteInstructions = false := by
  decide

/-- The name of an entry of the table is three capital letters. -/
theorem opcodeTable_letters (o : Opcode) (ho : o ∈ opcodeTable) :
    ∃ a b c, o.name = [a, b, c] ∧ isUpper a = true ∧ isUpper b = true ∧ isUpper c = true := by
  obtain ⟨-, hlen, hall⟩ := opcodeTable_names o ho
  match hn : o.name, hlen, hall with
  | [a, b, c], _, hall =>
    simp only [List.all_cons, List.all_nil, Bool.and_true, Bool.and_eq_true] at hall
    exact ⟨a, b, c, rfl, hall.1, hall.2.1, hall.2.2⟩

/-! ## Operands that are numbers -/

theorem labelForm_dollar (xs : Str) : labelForm (36 :: xs) = none := by
  have e1 : isAngle 36 = false := by decide
  have e2 : isUpper 36 = false := by decide
  simp [labelForm, fullMatch, checkSimpleLabelReference, checkXIndexedLabelReference,
    checkYIndexedLabelReference, checkIndirectLabelReference, labelName, RE.cat, RE.opt, RE.ch,
    RE.plus, matchK, isCh, e1, e2]

theorem asterisk_plain (s : Asm) (x : Nat) (xs : Str) (h : x ≠ 42) :
    asterisk s (x :: xs) = Except.ok (x :: xs) := by
  have e : ((x :: xs) == S "*") = false := by
    have : S "*" = [42] := by decide
    rw [this]
    simp [h]
  have e2 : fullMatch detectAsteriskExpression (x :: xs) = none := by
    simp [fullMatch, detectAsteriskExpression, RE.cat, RE.ch, matchK, isCh, h]
  simp [asterisk, e, e2]

/-- The second part of `assembleLine` for a mnemonic that takes an operand
and an operand that is neither a label nor a `*` expression. -/
theorem assembleParsed_addressed (u : Uninit) (s : Asm) (c : MemChunk) (o : Opcode) (op : Str)
    (n : Nat) (ho : o ∈ opcodeTable) (hsb : hasSub o.name singleByteInstructions = false)
    (hc : s.actChunk = some c) (hl : labelForm op = none)
    (ha : asterisk s op = Except.ok op) :
    assembleParsed u s o.name op n = encode s c o o.name op := by
  obtain ⟨hmap, hlen, -⟩ := opcodeTable_names o ho
  have hne : (o.name == []) = false := by
    cases hn : o.name with
    | nil => simp [hn] at hlen
    | cons x xs => rfl
  simp [assembleParsed, hc, hmap, hne, hsb, labelReference, hl, ha]

theorem hasSub_of_not_mem (w z : Nat) (s : Str) (h : z ∉ s) : hasSub [w, z] s = false := by
  induction s with
  | nil => simp [hasSub, List.isPrefixOf]
  | cons x xs ih =>
    have h1 : z ∉ xs := fun hx => h (by simp [hx])
    simp only [hasSub, ih h1, Bool.or_false]
    cases xs with
    | nil => simp [List.isPrefixOf]
    | cons y ys =>
      have : z ≠ y := fun e => h (by simp [e])
      simp [List.isPrefixOf, this]

theorem checkImmediateAddr_dollar (xs : Str) : fullMatch checkImmediateAddr (36 :: xs) = none := by
  simp [fullMatch, checkImmediateAddr, RE.cat, RE.ch, RE.opt, matchK, isCh]

theorem isHexUpper_facts {x : Nat} (h : isHexUpper x = true) :
    isDot x = true ∧ x ≠ 60 ∧ x ≠ 62 ∧ isSpace x = false ∧ x ≠ 59 ∧ x ≠ 10 := by
  simp only [isHexUpper, isDigit, Bool.or_eq_true, Bool.and_eq_true, decide_eq_true_eq] at h
  simp [isDot, isSpace]
  omega

theorem mem_upperStr {z : Nat} {t : Str} (h : z ∈ t) : toupper z ∈ upperStr t := by
  simp only [upperStr, List.mem_map]
  exact ⟨z, h, rfl⟩

/-- A number text of the specification holds no `;`, no newline and no blank. -/
theorem numberValue_chars (t : Str) (v : Nat) (h : numberValue t = some v) :
    59 ∉ t ∧ 10 ∉ t ∧ ∀ y ys, t = y :: ys → isSpace y = false := by
  obtain ⟨-, x, xs, he, hx, hxs⟩ := numberValue_upper t v h
  have key : ∀ z ∈ t, (toupper z = 36 ∨ toupper z = 37 ∨ isDigit (toupper z) = true)
      ∨ isHexUpper (toupper z) = true := by
    intro z hz
    have := mem_upperStr hz
    rw [he] at this
    rcases List.mem_cons.mp this with e | e
    · left
      rw [e]
      exact hx
    · right
      exact hxs _ e
  have bad : ∀ z, toupper z = z → isSpace z = true ∨ z = 59 → z ∉ t := by
    intro z hz hbad hmem
    have := key z hmem
    rw [hz] at this
    rcases this with (h1 | h1 | h1) | h1
    · subst h1
      revert hbad
      decide
    · subst h1
      revert hbad
      decide
    · have h2 : 48 ≤ z ∧ z ≤ 57 := by simpa [isDigit] using h1
      rcases hbad with hb | hb
      · simp [isSpace] at hb
        omega
      · omega
    · have h2 := isHexUpper_facts h1
      rcases hbad with hb | hb
      · rw [h2.2.2.2.1] at hb
        exact absurd hb (by simp)
      · exact h2.2.2.2.2.1 hb
  refine ⟨bad 59 (by decide) (Or.inr rfl), bad 10 (by decide) (Or.inl (by decide)), ?_⟩
  intro y ys hy
  by_contra hsp
  have hsp' : isSpace y = true := by simpa using hsp
  have hup : toupper y = y := by
    have : isLower y = false := by
      simp [isSpace] at hsp'
      simp [isLower]
      omega
    simp [toupper, this]
  exact bad y hup (Or.inl hsp') (by rw [hy]; simp)

theorem checkZPorAbsolute_match (ds : Str) (hne : ds ≠ []) (h : ∀ x ∈ ds, isHexUpper x = true) :
    (fullMatch checkZPorAbsolute (36 :: ds)).isSome = true := by
  cases ds with
  | nil => exact absurd rfl hne
  | cons d ds' =>
    have hd := h d (by simp)
    have hall := starGo_all_eq isHexUpper ds' (fun x hx => h x (by simp [hx]))
    simp [fullMatch, checkZPorAbsolute, RE.cat, RE.ch, RE.opt, RE.plus, matchK, isCh, hd, hall]

/-- The block `checkZPorAbsolute` on `$` and hexadecimal digits of value at
most 0xFFFF: the branch, zero-page and absolute cases. -/
theorem encode_address (s : Asm) (c : MemChunk) (o : Opcode) (ds : Str) (a : Nat)
    (hne : ds ≠ []) (h : ∀ x ∈ ds, isHexUpper x = true)
    (hconv : convertIntoDecimal (36 :: ds) = wrap32 a) (ha : a ≤ 65535) :
    encode s c o o.name (36 :: ds) =
      if o.code 10 != 0 then
        (if ((a : Int) - (s.actAddress : Int) - 2).natAbs > 127 then
          some (s.setError (S "Branch out of range")
            (S "You can only jump +/-127 bytes with a branch instruction."), -1)
        else s.emit c [o.code 10, ((((a : Int) - (s.actAddress : Int) - 2)) % 256).toNat] 2)
      else if a < 256 then
        (if o.code 1 != 0 then s.emit c [o.code 1, a] 2
         else encodeXY s c o o.name (36 :: ds))
      else
        (if o.code 4 != 0 then s.emit c [o.code 4, a % 256, a / 256] 3
         else encodeXY s c o o.name (36 :: ds)) := by
  have hw : wrap32 (a : Int) = a := wrap32_of_range (by omega) (by omega)
  have hm := checkZPorAbsolute_match ds hne h
  obtain ⟨g, hg⟩ := Option.isSome_iff_exists.mp hm
  have hne1 : ¬ ((a : Int) = -1) := by omega
  have hr1 : ¬ ((a : Int) < 0) := by omega
  have hr2 : ¬ ((a : Int) > 65535) := by omega
  have hm1 : ((a : Int) % 256).toNat = a % 256 := by omega
  have hm2 : ((a : Int) % 65536).toNat = a := by omega
  have hlt : ((a : Int) < 256) ↔ a < 256 := by omega
  simp only [encode, checkImmediateAddr_dollar, encodeZPAbs, hg, hconv, hw]
  by_cases hb : (o.code 10 != 0) = true
  · simp [hb, hne1, hr1, hr2]
  · by_cases hz : a < 256
    · have : a % 256 = a := Nat.mod_eq_of_lt hz
      simp [hb, hne1, hr1, hr2, hm1, hlt, hz, this]
    · have e1 : a / 256 % 256 = a / 256 := Nat.mod_eq_of_lt (by omega)
      simp [hb, hne1, hr1, hr2, hm1, hm2, hlt, hz, e1]

/-- The line `M $digits` reaches the block `checkZPorAbsolute`. -/
theorem assembleLine_address (u : Uninit) (s : Asm) (c : MemChunk) (n : Nat) (o : Opcode)
    (ds : Str) (a : Nat) (ho : o ∈ opcodeTable)
    (hsb : hasSub o.name singleByteInstructions = false)
    (hds : numberValue (36 :: ds) = some a) (hc : s.actChunk = some c) :
    assembleLine u s (o.name ++ S " $" ++ ds) n = encode s c o o.name (36 :: upperStr ds)
    ∧ upperStr ds ≠ [] ∧ (∀ x ∈ upperStr ds, isHexUpper x = true)
    ∧ convertIntoDecimal (36 :: upperStr ds) = wrap32 a := by
  obtain ⟨x, y, z, hname, hx, hy, hz⟩ := opcodeTable_letters o ho
  obtain ⟨hconv, x', xs, hup, -, hxs⟩ := numberValue_upper _ a hds
  obtain ⟨h59, h10, hhead⟩ := numberValue_chars _ a hds
  have hup2 : upperStr (36 :: ds) = 36 :: upperStr ds := by
    rw [upperStr_cons]
    rfl
  have hline : o.name ++ S " $" ++ ds = x :: y :: z :: 32 :: (36 :: ds) := by
    have : S " $" = [32, 36] := by decide
    rw [hname, this]
    rfl
  have hxs' : ∀ w ∈ upperStr ds, isHexUpper w = true := by
    rw [hup2] at hup
    simp only [List.cons.injEq] at hup
    rw [hup.2]
    exact hxs
  have hne : upperStr ds ≠ [] := by
    intro h
    have hds' : ds = [] := by simpa [upperStr] using h
    rw [hds'] at hds
    simp [numberValue] at hds
  rw [hline, assembleLine_operand u s n x y z (36 :: ds) hx hy hz h59 h10 hhead, hup2, ← hname,
    assembleParsed_addressed u s c o _ n ho hsb hc (labelForm_dollar _)
      (asterisk_plain s 36 _ (by decide))]
  rw [hup2] at hconv
  exact ⟨rfl, hne, hxs', hconv⟩

theorem digitChar_hex : ∀ d < 16, isHexDigit (digitChar d) = true ∧ digitVal (digitChar d) = d := by
  decide

theorem digitsAux_spec (fuel : Nat) : ∀ (n : Nat) (acc : Str), n < 16 ^ fuel →
    (∀ x ∈ acc, isHexDigit x = true) →
    (∀ x ∈ digitsAux 16 fuel n acc, isHexDigit x = true) ∧
    List.foldl (fun a x => a * 16 + digitVal x) 0 (digitsAux 16 fuel n acc)
      = List.foldl (fun a x => a * 16 + digitVal x) n acc ∧
    (0 < fuel → digitsAux 16 fuel n acc ≠ []) := by
  induction fuel with
  | zero =>
    intro n acc hn hacc
    have : n = 0 := by simpa using hn
    subst this
    exact ⟨hacc, rfl, fun h => absurd h (by omega)⟩
  | succ fuel ih =>
    intro n acc hn hacc
    have hd := digitChar_hex (n % 16) (Nat.mod_lt _ (by omega))
    have hacc' : ∀ x ∈ digitChar (n % 16) :: acc, isHexDigit x = true := by
      intro x hx
      rcases List.mem_cons.mp hx with rfl | hx
      · exact hd.1
      · exact hacc x hx
    by_cases h0 : n / 16 = 0
    · have hlt : n < 16 := by omega
      have hmod : n % 16 = n := Nat.mod_eq_of_lt hlt
      simp only [digitsAux, h0, if_true]
      refine ⟨hacc', ?_, fun _ => by simp⟩
      have hd2 := hd.2
      rw [hmod] at hd2
      simp only [List.foldl_cons, hmod, hd2]
      simp
    · have hn' : n / 16 < 16 ^ fuel := by
        rw [pow_succ] at hn
        omega
      obtain ⟨i1, i2, -⟩ := ih (n / 16) (digitChar (n % 16) :: acc) hn' hacc'
      simp only [digitsAux, h0, if_false]
      refine ⟨i1, ?_, fun _ => ?_⟩
      · rw [i2]
        simp only [List.foldl_cons, hd.2]
        have : n / 16 * 16 + n % 16 = n := by omega
        rw [this]
      · intro hnil
        have hf : 0 < fuel := by
          rcases Nat.eq_zero_or_pos fuel with h | h
          · subst h
            simp at hn'
            exact absurd hn' h0
          · exact h
        exact (ih (n / 16) (digitChar (n % 16) :: acc) hn' hacc').2.2 hf hnil

/-- The text that `hex` prints for a 16-bit address is a number text of the
specification with the value of the address. -/
theorem numberValue_hexStr (t : Nat) (ht : t ≤ 65535) :
    numberValue (36 :: hexStr t) = some t := by
  have hlt : t < 16 ^ 16 := by
    have : (16 : Nat) ^ 16 = 18446744073709551616 := by norm_num
    omega
  obtain ⟨h1, h2, h3⟩ := digitsAux_spec 16 t [] hlt (by simp)
  have hne : (hexStr t != []) = true := by
    simpa [hexStr] using h3 (by omega)
  have hall : (hexStr t).all isHexDigit = true := by
    simpa [hexStr, List.all_eq_true] using h1
  have hval : digitsValue 16 (hexStr t) = t := by
    simpa [hexStr, digitsValue] using h2
  simp [numberValue, hne, hall, hval]

/-! ## Operands that are labels -/

theorem starGo_starGo_all_eq (p q : Nat → Bool) (xs : Str) (h : ∀ x ∈ xs, q x = true)
    (k : Str → Option MatchRes) (hk : (k []).isSome = true) :
    starGo p (fun t => starGo q k t) xs = k [] := by
  obtain ⟨r, hr⟩ := Option.isSome_iff_exists.mp hk
  rw [hr]
  exact starGo_starGo_all p q k xs r h hr

/-- A label name, alone, matches the first label pattern. -/
theorem labelForm_name (l : Nat) (ls : Str) (hl : isUpper l = true)
    (hls : ∀ x ∈ ls, isLabelChar x = true) : labelForm (l :: ls) = some (0, l :: ls) := by
  obtain ⟨-, -, -, -, -, hang, -, -, -, h35, -⟩ := isUpper_facts hl
  have hss := starGo_starGo_all_eq isUpper isLabelChar ls hls
  simp [labelForm, fullMatch, checkSimpleLabelReference, labelName, RE.cat, RE.opt, RE.ch,
    RE.plus, matchK, isCh, hl, hang, h35, hss, capGet]

/-- The operand `$digits` in upper case: its digits and what
`convertIntoDecimal` makes of it. -/
theorem hexOperand_facts (ds : Str) (a : Nat) (hds : numberValue (36 :: ds) = some a) :
    upperStr (36 :: ds) = 36 :: upperStr ds ∧ upperStr ds ≠ [] ∧
    (∀ x ∈ upperStr ds, isHexUpper x = true) ∧
    convertIntoDecimal (36 :: upperStr ds) = wrap32 a := by
  obtain ⟨hconv, x', xs, hup, -, hxs⟩ := numberValue_upper _ a hds
  have hup2 : upperStr (36 :: ds) = 36 :: upperStr ds := by
    rw [upperStr_cons]
    rfl
  have hxs' : ∀ w ∈ upperStr ds, isHexUpper w = true := by
    rw [hup2] at hup
    simp only [List.cons.injEq] at hup
    rw [hup.2]
    exact hxs
  have hne : upperStr ds ≠ [] := by
    intro h
    have hds' : ds = [] := by simpa [upperStr] using h
    rw [hds'] at hds
    simp [numberValue] at hds
  rw [hup2] at hconv
  exact ⟨hup2, hne, hxs', hconv⟩

theorem isLabelChar_facts {x : Nat} (h : isLabelChar x = true) :
    toupper x = x ∧ x ≠ 59 ∧ x ≠ 10 ∧ isSpace x = false := by
  simp only [isLabelChar, isUpper, isDigit, Bool.or_eq_true, Bool.and_eq_true,
    decide_eq_true_eq, beq_iff_eq] at h
  have hl : isLower x = false := by
    simp [isLower]
    omega
  refine ⟨by simp [toupper, hl], by omega, by omega, ?_⟩
  simp [isSpace]
  omega

/-- What `branch_encoding_emit` states for a target `t` at the program counter of
`s`: the two bytes of the branch when the offset is within ±127, the error
otherwise. -/
theorem encode_branch (s : Asm) (c : MemChunk) (o : Opcode) (ds : Str) (t : Nat)
    (hb : o.code 10 ≠ 0) (hne : ds ≠ []) (h : ∀ x ∈ ds, isHexUpper x = true)
    (hconv : convertIntoDecimal (36 :: ds) = wrap32 t) (ht : t ≤ 65535) :
    encode s c o o.name (36 :: ds) =
      if -127 ≤ (t : Int) - ((s.actAddress : Int) + 2) ∧
          (t : Int) - ((s.actAddress : Int) + 2) ≤ 127 then
        s.emit c [o.code 10, (((t : Int) - ((s.actAddress : Int) + 2)) % 256).toNat] 2
      else
        some (s.setError (S "Branch out of range")
          (S "You can only jump +/-127 bytes with a branch instruction."), -1) := by
  rw [encode_address s c o ds t hne h hconv ht]
  have e : (t : Int) - (s.actAddress : Int) - 2 = (t : Int) - ((s.actAddress : Int) + 2) := by ring
  rw [e]
  have hb' : (o.code 10 != 0) = true := by simpa using hb
  simp only [hb', if_true]
  by_cases hr : -127 ≤ (t : Int) - ((s.actAddress : Int) + 2) ∧
      (t : Int) - ((s.actAddress : Int) + 2) ≤ 127
  · have : ¬ ((t : Int) - ((s.actAddress : Int) + 2)).natAbs > 127 := by omega
    rw [if_pos hr, if_neg this]
  · have : ((t : Int) - ((s.actAddress : Int) + 2)).natAbs > 127 := by omega
    rw [if_neg hr, if_pos this]

/-- The branch encoding and its range in terms of `emit`: for every branch
mnemonic (`codes[10]` not zero) at the program counter `pc` of a state with an open
chunk, and a target `t ≤ 0xFFFF` written as `$` and hexadecimal digits or as a
label that is already defined with the non-zero address `t`, let
`offset = t - (pc + 2)`.  When `-127 ≤ offset ≤ 127` the line appends
`codes[10]` and `offset mod 256` and advances the program counter by 2;
otherwise (the offset -128 included) it fails with "Branch out of range". -/
theorem branch_encoding_emit (u : Uninit) (s : Asm) (c : MemChunk) (n : Nat) (o : Opcode)
    (ho : o ∈ opcodeTable) (hb : o.code 10 ≠ 0) (hc : s.actChunk = some c) :
    (∀ ds t, numberValue (36 :: ds) = some t → t ≤ 0xFFFF →
      assembleLine u s (o.name ++ S " $" ++ ds) n =
        if -127 ≤ (t : Int) - ((s.actAddress : Int) + 2) ∧
            (t : Int) - ((s.actAddress : Int) + 2) ≤ 127 then
          s.emit c [o.code 10, (((t : Int) - ((s.actAddress : Int) + 2)) % 256).toNat] 2
        else
          some (s.setError (S "Branch out of range")
            (S "You can only jump +/-127 bytes with a branch instruction."), -1)) ∧
    (∀ name t, isLabelName name = true → labelsGet s.labels name = t → t ≠ 0 → t ≤ 0xFFFF →
      assembleLine u s (o.name ++ 32 :: name) n =
        if -127 ≤ (t : Int) - ((s.actAddress : Int) + 2) ∧
            (t : Int) - ((s.actAddress : Int) + 2) ≤ 127 then
          s.emit c [o.code 10, (((t : Int) - ((s.actAddress : Int) + 2)) % 256).toNat] 2
        else
          some (s.setError (S "Branch out of range")
            (S "You can only jump +/-127 bytes with a branch instruction."), -1)) := by
  have hsb := opcodeTable_addressed o ho (Or.inr (Or.inr (Or.inr hb)))
  constructor
  · intro ds t hds ht
    obtain ⟨e, hne, hxs, hconv⟩ := assembleLine_address u s c n o ds t ho hsb hds hc
    rw [e]
    exact encode_branch s c o _ t hb hne hxs hconv ht
  · intro name t hname hget ht0 ht
    obtain ⟨x, y, z, hxyz, hx, hy, hz⟩ := opcodeTable_letters o ho
    obtain ⟨hmap, hlen, -⟩ := opcodeTable_names o ho
    cases name with
    | nil => simp [isLabelName] at hname
    | cons l ls =>
      simp only [isLabelName, Bool.and_eq_true, List.all_eq_true] at hname
      obtain ⟨hl, hls⟩ := hname
      have hlc : ∀ w ∈ l :: ls, isLabelChar w = true := by
        intro w hw
        rcases List.mem_cons.mp hw with rfl | hw
        · exact (isUpper_facts hl).2.2.1
        · exact hls w hw
      have h59 : 59 ∉ l :: ls := fun h => (isLabelChar_facts (hlc 59 h)).2.1 rfl
      have h10 : 10 ∉ l :: ls := fun h => (isLabelChar_facts (hlc 10 h)).2.2.1 rfl
      have hhead : ∀ w ws, l :: ls = w :: ws → isSpace w = false := by
        intro w ws h
        simp only [List.cons.injEq] at h
        rw [← h.1]
        exact (isUpper_facts hl).1
      have hup : upperStr (l :: ls) = l :: ls :=
        upperStr_eq_self _ (fun w hw => (isLabelChar_facts (hlc w hw)).1)
      have hline : o.name ++ 32 :: (l :: ls) = x :: y :: z :: 32 :: (l :: ls) := by
        rw [hxyz]
        rfl
      obtain ⟨hup2, hne, hxs, hconv⟩ := hexOperand_facts (hexStr t) t (numberValue_hexStr t ht)
      have hS : S "$" = [36] := by decide
      have hne0 : (o.name == []) = false := by rw [hxyz]; rfl
      have hget0 : (labelsGet s.labels (l :: ls) == 0) = false := by
        rw [hget]
        simpa using ht0
      have hparsed : assembleParsed u s o.name (l :: ls) n
          = encode s c o o.name (36 :: upperStr (hexStr t)) := by
        simp only [assembleParsed, hc, hmap, hne0, hsb, labelReference,
          labelForm_name l ls hl hls, hget0]
        simp only [hget, hS, List.singleton_append, hup2, Bool.false_eq_true, ↓reduceIte]
        rw [asterisk_plain s 36 _ (by decide : (36 : Nat) ≠ 42)]
      rw [hline, assembleLine_operand u s n x y z (l :: ls) hx hy hz h59 h10 hhead, hup, ← hxyz,
        hparsed]
      exact encode_branch s c o _ t hb hne hxs hconv ht

/-- C4, counterexample to the claim as stated: at 0x1000 the target 0x0F82
is at the offset -128, which the claim accepts, and `BNE $F82` fails with
"Branch out of range". -/
theorem branch_offset_minus_128_rejected :
    ((0xf82 : Int) - (0x1000 + 2) = -128) ∧
    errorOf (assembleLine quiet (opened 0x1000) (S "BNE $F82") 2)
      = some (-1, S "Branch out of range") ∧
    errorOf (assemble (fun _ => quiet) Asm.init (S ".pc = $1000\nBNE $F82"))
      = some (-1, S "Branch out of range") := by
  decide

/-- C5, the code at a failing input: in `LDA #<TARGET` the local `high` is
read unassigned; when it reads `true` the reference is patched with the
high byte 0x10 of the address 0x1002 of `TARGET`, where the claim has the low
byte 0x02 (which is what is written when it reads `false`); `LDA #>TARGET`
does not depend on it. -/
theorem low_byte_reference_reads_unassigned_high :
    chunksOf (assemble (fun _ => { high := true, addressNum := 0 }) Asm.init
        (S ".pc = $1000\nLDA #<TARGET\nTARGET: RTS")) = some (0, [(0x1000, [0xa9, 0x10, 0x60])])
    ∧ chunksOf (assemble (fun _ => { high := false, addressNum := 0 }) Asm.init
        (S ".pc = $1000\nLDA #<TARGET\nTARGET: RTS")) = some (0, [(0x1000, [0xa9, 0x02, 0x60])])
    ∧ chunksOf (assemble (fun _ => { high := true, addressNum := 0 }) Asm.init
        (S ".pc = $1000\nLDA #>TARGET\nTARGET: RTS")) = some (0, [(0x1000, [0xa9, 0x10, 0x60])])
    ∧ chunksOf (assemble (fun _ => { high := false, addressNum := 0 }) Asm.init
        (S ".pc = $1000\nLDA #>TARGET\nTARGET: RTS")) = some (0, [(0x1000, [0xa9, 0x10, 0x60])]) :=
  ⟨by decide, by decide, by decide, by decide⟩

/-- C6, counterexample to the claim as stated: scenario 4 does not give
`A9 05 A9 10 60`; `TARGET` is at 0x1004 and the bytes are `A9 04 A9 10 60`
when the unassigned `high` reads `false`, `A9 10 A9 10 60` when it reads
`true`. -/
theorem scenario4_low_byte_is_04 :
    chunksOf (assemble (fun _ => { high := false, addressNum := 0 }) Asm.init
        scenario4)
      = some (0, [(0x1000, [0xa9, 0x04, 0xa9, 0x10, 0x60])])
    ∧ chunksOf (assemble (fun _ => { high := true, addressNum := 0 }) Asm.init
        scenario4)
      = some (0, [(0x1000, [0xa9, 0x10, 0xa9, 0x10, 0x60])]) := by
  decide

theorem scenario4_lines :
    getlines scenario4
      = [S ".pc = $1000", S "  LDA #<TARGET", S "  LDA #>TARGET", S "TARGET: RTS"] := by
  decide

theorem scenario4_line1 (v : Uninit) :
    processLine v (scenario4State 0) (S ".pc = $1000") 1 = some (scenario4State 1, 0) := by
  rfl

theorem scenario4_line2 (v : Uninit) (h : v.high = false) :
    processLine v (scenario4State 1) (S "  LDA #<TARGET") 2 = some (scenario4State 2, 0) := by
  cases v with
  | mk hi an =>
    simp only at h
    subst h
    rfl

theorem scenario4_line3 (v : Uninit) :
    processLine v (scenario4State 2) (S "  LDA #>TARGET") 3 = some (scenario4State 3, 0) := by
  rfl

theorem scenario4_line4 (v : Uninit) :
    processLine v (scenario4State 3) (S "TARGET: RTS") 4 = some (scenario4State 4, 0) := by
  rfl

/-- One round of the loop of `assemble` that goes on. -/
theorem assembleLoop_step (u : Nat → Uninit) (raw : Str) (rest : List Str) (k k1 : Nat)
    (s s1 : Asm) (hk : k1 = k + 1) (h : processLine (u k) s raw k = some (s1, 0)) :
    assembleLoop u (raw :: rest) k s = assembleLoop u rest k1 s1 := by
  subst hk
  simp [assembleLoop, h]

/-- The end of `assemble` after a first pass without error. -/
theorem assemble_of_loop (u : Nat → Uninit) (s s1 : Asm) (source : Str)
    (h : assembleLoop u (getlines source) 1
      { s with asmError := { lineContent := [], errorString := [], errorStringVerbose := [],
                             errorLineNumber := 0 } } = some (s1, 0)) :
    assemble u s source =
      match s1.actChunk with
      | none => none
      | some c =>
        resolveLoop s1.unresolvedLabels
          { s1 with actChunk := some c.finalize, chunks := s1.chunks ++ [c.finalize] } := by
  unfold assemble
  simp only [h]
  rfl

/-- C6 (amended). Scenario 4: when the unassigned local `high` reads `false`
in the line `LDA #<TARGET`, assembling the four lines succeeds and returns one
chunk at 0x1000 with the bytes `A9 04 A9 10 60` (`TARGET` is at 0x1004). -/
theorem scenario4_bytes (u : Nat → Uninit) (h : (u 2).high = false) :
    chunksOf (assemble u Asm.init scenario4)
      = some (0, [(0x1000, [0xa9, 0x04, 0xa9, 0x10, 0x60])]) := by
  have hloop : assembleLoop u (getlines scenario4) 1 (scenario4State 0)
      = some (scenario4State 4, 0) := by
    rw [scenario4_lines,
      assembleLoop_step u _ _ 1 2 _ _ rfl (scenario4_line1 (u 1)),
      assembleLoop_step u _ _ 2 3 _ _ rfl (scenario4_line2 (u 2) h),
      assembleLoop_step u _ _ 3 4 _ _ rfl (scenario4_line3 (u 3)),
      assembleLoop_step u _ _ 4 5 _ _ rfl (scenario4_line4 (u 4))]
    rfl
  rw [assemble_of_loop u Asm.init (scenario4State 4) scenario4 hloop]
  decide

/-- C6, witness of the amended claim. -/
theorem scenario4_bytes_witness :
    (quiet.high = false) ∧ chunksOf (assemble (fun _ => quiet) Asm.init scenario4)
      = some (0, [(0x1000, [0xa9, 0x04, 0xa9, 0x10, 0x60])]) :=
  ⟨rfl, scenario4_bytes (fun _ => quiet) rfl⟩

theorem opcodeTable_branch : ∀ o ∈ opcodeTable, o.code 10 ≠ 0 → isBranchName o.name = true := by
  decide

theorem isLabelChar_not_angle {x : Nat} (h : isLabelChar x = true) : x ≠ 60 ∧ x ≠ 62 := by
  simp only [isLabelChar, isUpper, isDigit, Bool.or_eq_true, Bool.and_eq_true,
    decide_eq_true_eq, beq_iff_eq] at h
  omega

/-- The first pass on a branch to a label that is not defined yet: the fix-up
that is recorded and the placeholder that is assembled. -/
theorem assembleLine_forward_branch (u : Uninit) (s : Asm) (c : MemChunk) (n : Nat) (o : Opcode)
    (name : Str) (ho : o ∈ opcodeTable) (hb : o.code 10 ≠ 0) (hc : s.actChunk = some c)
    (hname : isLabelName name = true) (hget : labelsGet s.labels name = 0)
    (hpc : s.actAddress ≤ 0xFFFF) :
    assembleLine u s (o.name ++ 32 :: name) n =
      ({ s with unresolvedLabels :=
          unresolvedAdd name (branchFixup s.actAddress s.chunks.length) n s.unresolvedLabels }
        : Asm).emit c [o.code 10, 0xfe] 2 := by
  have hsb := opcodeTable_addressed o ho (Or.inr (Or.inr (Or.inr hb)))
  obtain ⟨x, y, z, hxyz, hx, hy, hz⟩ := opcodeTable_letters o ho
  obtain ⟨hmap, hlen, -⟩ := opcodeTable_names o ho
  cases name with
  | nil => simp [isLabelName] at hname
  | cons l ls =>
    simp only [isLabelName, Bool.and_eq_true, List.all_eq_true] at hname
    obtain ⟨hl, hls⟩ := hname
    have hlc : ∀ w ∈ l :: ls, isLabelChar w = true := by
      intro w hw
      rcases List.mem_cons.mp hw with rfl | hw
      · exact (isUpper_facts hl).2.2.1
      · exact hls w hw
    have h59 : 59 ∉ l :: ls := fun h => (isLabelChar_facts (hlc 59 h)).2.1 rfl
    have h10 : 10 ∉ l :: ls := fun h => (isLabelChar_facts (hlc 10 h)).2.2.1 rfl
    have h60 : 60 ∉ l :: ls := fun h => (isLabelChar_not_angle (hlc 60 h)).1 rfl
    have h62 : 62 ∉ l :: ls := fun h => (isLabelChar_not_angle (hlc 62 h)).2 rfl
    have hhead : ∀ w ws, l :: ls = w :: ws → isSpace w = false := by
      intro w ws h
      simp only [List.cons.injEq] at h
      rw [← h.1]
      exact (isUpper_facts hl).1
    have hup : upperStr (l :: ls) = l :: ls :=
      upperStr_eq_self _ (fun w hw => (isLabelChar_facts (hlc w hw)).1)
    have hline : o.name ++ 32 :: (l :: ls) = x :: y :: z :: 32 :: (l :: ls) := by
      rw [hxyz]
      rfl
    obtain ⟨hup2, hne, hxs, hconv⟩ :=
      hexOperand_facts (hexStr s.actAddress) s.actAddress (numberValue_hexStr _ hpc)
    have hS : S "$" = [36] := by decide
    have hlow : hasSub (S "#<") (l :: ls) = false := by
      have : S "#<" = [35, 60] := by decide
      rw [this]
      exact hasSub_of_not_mem 35 60 _ h60
    have hhigh : hasSub (S "#>") (l :: ls) = false := by
      have : S "#>" = [35, 62] := by decide
      rw [this]
      exact hasSub_of_not_mem 35 62 _ h62
    have hne0 : (o.name == []) = false := by rw [hxyz]; rfl
    have hget0 : (labelsGet s.labels (l :: ls) == 0) = true := by
      rw [hget]
      rfl
    rw [hline, assembleLine_operand u s n x y z (l :: ls) hx hy hz h59 h10 hhead, hup, ← hxyz]
    simp only [assembleParsed, hc, hmap, hne0, hsb, labelReference, labelForm_name l ls hl hls,
      hget0, hlow, hhigh, opcodeTable_branch o ho hb, hS, List.singleton_append, hup2,
      Bool.false_eq_true, ↓reduceIte, beq_self_eq_true]
    rw [asterisk_plain _ 36 _ (by decide : (36 : Nat) ≠ 42)]
    simp only []
    rw [encode_branch _ c o _ s.actAddress hb hne hxs hconv hpc]
    have hr : -127 ≤ (s.actAddress : Int) - ((s.actAddress : Int) + 2) ∧
        (s.actAddress : Int) - ((s.actAddress : Int) + 2) ≤ 127 := by omega
    have hv : (((s.actAddress : Int) - ((s.actAddress : Int) + 2)) % 256).toNat = 0xfe := by omega
    rw [if_pos hr, hv]
    rfl

/-- The second pass on the fix-up of one branch: the byte at the address
after the opcode is rewritten, in the chunk of the branch, and nothing else. -/
theorem patchAll_branch (chunks : List MemChunk) (i p A : Nat) (cf : MemChunk) (buf : List Nat)
    (hp : p < 0xFFFF) (hi : chunks.get? i = some cf) (hd : cf.data = some buf)
    (hoff : (p + 1 + 65536 - cf.startAddress % 65536) % 65536 < buf.length) :
    patchAll A [branchFixup p i] chunks =
      some (chunks.set i (cf.withData
        (buf.set ((p + 1 + 65536 - cf.startAddress % 65536) % 65536)
          (((A : Int) - ((p : Int) + 2)) % 256).toNat))) := by
  have hm : (p + 1) % 65536 = p + 1 := Nat.mod_eq_of_lt (by omega)
  have hv : ((A : Int) - ((p + 1 : Nat) : Int) - 1) = (A : Int) - ((p : Int) + 2) := by
    push_cast
    ring
  simp only [patchAll, branchFixup, hi, patchChunk, Bool.false_eq_true, ↓reduceIte, hm,
    MemChunk.rewriteByteAtAddress, hd, bufWrite, hoff, hv, MemChunk.withData]

/-- C7, counterexample to the claim as stated: the branch at 0x1000 to a label
defined later at 0x0F82 is at the offset -128; the fix-up writes `D0 80`, and the
reference to the same address written as a literal, which the claim says
produces the same bytes, fails with "Branch out of range". -/
theorem forward_branch_minus_128 :
    ((0xf82 : Int) - (0x1000 + 2) = -128) ∧
    chunksOf (assemble (fun _ => quiet) Asm.init (S ".pc = $1000\nBNE BACK\n.pc = $f82\nBACK: NOP"))
      = some (0, [(0x1000, [0xd0, 0x80]), (0xf82, [0xea])]) ∧
    errorOf (assemble (fun _ => quiet) Asm.init (S ".pc = $1000\nBNE $F82"))
      = some (-1, S "Branch out of range") :=
  ⟨by decide, by decide, by decide⟩

/-- C8, the code at a failing input: the branch at 0x1000 to a label defined
later at 0x1090 is at the offset 142; `assemble` returns 0 with the truncated
offset byte 0x8E, where the reference to the literal address fails with
"Branch out of range". -/
theorem forward_branch_not_range_checked :
    ((0x1090 : Int) - (0x1000 + 2) = 142) ∧
    chunksOf (assemble (fun _ => quiet) Asm.init (S ".pc = $1000\nBNE FAR\n.pc = $1090\nFAR: NOP"))
      = some (0, [(0x1000, [0xd0, 0x8e]), (0x1090, [0xea])]) ∧
    errorOf (assemble (fun _ => quiet) Asm.init (S ".pc = $1000\nBNE $1090"))
      = some (-1, S "Branch out of range") :=
  ⟨by decide, by decide, by decide⟩

theorem isHexLower_facts {x : Nat} (h : isHexLower x = true) :
    isDot x = true ∧ x ≠ 59 ∧ isSpace x = false := by
  simp only [isHexLower, isDigit, Bool.or_eq_true, Bool.and_eq_true, decide_eq_true_eq] at h
  simp [isDot, isSpace]
  omega

/-- The three patterns of `checkDirectives` on a line `.pc = $` and lower-case
hexadecimal digits. -/
theorem pc_line_patterns (h : Str) (hne : h ≠ []) (hh : ∀ x ∈ h, isHexLower x = true) :
    (fullMatch searchDirective (S ".pc = $" ++ h)).isSome = true ∧
    fullMatch extractKeyword (S ".pc = $" ++ h) = some [(1, S "pc")] ∧
    fullMatch extractMemoryAddress (S ".pc = $" ++ h) = some [(1, h)] ∧
    (fullMatch inlineAny (S "0x" ++ h)).isSome = true ∧
    globalReplace remove_comments (fun _ => []) (S ".pc = $" ++ h) = S ".pc = $" ++ h := by
  have hS : S ".pc = $" = [46, 112, 99, 32, 61, 32, 36] := by decide
  have hS2 : S "0x" = [48, 120] := by decide
  have hS3 : S "pc" = [112, 99] := by decide
  have hdot : ∀ x ∈ h, isDot x = true := fun x hx => (isHexLower_facts (hh x hx)).1
  have hall := starGo_all_eq isDot h hdot
  have hallh := starGo_all_eq isHexLower
  refine ⟨?_, ?_, ?_, ?_, ?_⟩
  · rw [hS]
    simp [fullMatch, searchDirective, RE.cat, RE.ch, matchK, starGo_cons, isCh, isSpace, isDot,
      hall]
  · rw [hS, hS3]
    simp [fullMatch, extractKeyword, RE.cat, RE.ch, RE.plus, matchK, starGo_cons, isCh, isSpace,
      isDot, isWord, isAlpha, isUpper, isLower, isDigit, hall]
  · rw [hS]
    cases h with
    | nil => exact absurd rfl hne
    | cons d ds =>
      have hd := hh d (by simp)
      have hds := hallh ds (fun x hx => hh x (by simp [hx]))
      simp [fullMatch, extractMemoryAddress, RE.cat, RE.ch, RE.plus, matchK, starGo_cons, isCh,
        isSpace, isDot, hd, hds]
  · rw [hS2]
    simp [fullMatch, inlineAny, RE.plus, matchK, starGo_cons, isDot, hall]
  · apply remove_comments_eq_self
    rw [hS]
    simp only [List.cons_append, List.nil_append, List.mem_cons, not_or]
    refine ⟨by decide, by decide, by decide, by decide, by decide, by decide, by decide, ?_⟩
    intro hx
    exact (isHexLower_facts (hh 59 hx)).2.1 rfl

/-- The `.pc` directive on lower-case digits: for every text `h` of hexadecimal
digits in lower case (`0-9`, `a-f`) whose value `v` fits 32 bits, the line `.pc = $h`
succeeds exactly when `v ≤ 0xFFFF`; then the program counter is `v`, the
chunk that was open (if any) is finalized and pushed, and the current chunk is
a new empty chunk that starts at `v`; when `v > 0xFFFF` the line fails with
"Address out of range: $h" and only the error texts of the state change. -/
theorem pc_directive_range (u : Uninit) (s : Asm) (h : Str) (v : Nat) (hne : h ≠ [])
    (hh : ∀ x ∈ h, isHexLower x = true) (hv : digitsValue 16 h = v) (h32 : v < 4294967296) :
    checkDirectives u s (S ".pc = $" ++ h) =
      if v ≤ 0xFFFF then
        some ({ s with actAddress := v,
                       chunks := s.chunks ++ (s.actChunk.map MemChunk.finalize).toList,
                       actChunk := some (MemChunk.fresh v) }, 0, S ".pc = $" ++ h)
      else
        some (s.setError (S "Address out of range: $" ++ h)
          (S "Address must be in range $0-$FFFF."), -1, S ".pc = $" ++ h) := by
  obtain ⟨h1, h2, h3, h4, h5⟩ := pc_line_patterns h hne hh
  obtain ⟨g1, hg1⟩ := Option.isSome_iff_exists.mp h1
  obtain ⟨g4, hg4⟩ := Option.isSome_iff_exists.mp h4
  have hk : lowerStr (S "pc") = S "pc" := by decide
  have hparse : parseHexUInt h = some v := by
    simp [parseHexUInt, hv, h32]
  have k1 : (S "pc" == S "text") = false := by decide
  have k2 : (S "pc" == S "ascii") = false := by decide
  have k3 : (S "pc" == S "petscii") = false := by decide
  have k4 : (S "pc" == S "screen") = false := by decide
  simp only [checkDirectives, hg1, h2, capGet, List.find?, beq_self_eq_true, hk, k1, k2, k3, k4,
    Bool.false_eq_true, ↓reduceIte, h5, directivePc, h3, hg4, hparse, Option.getD_some]
  by_cases hr : v ≤ 0xFFFF
  · have hm : v % 65536 = v := Nat.mod_eq_of_lt (by omega)
    have hgt : ¬ v > 65535 := by omega
    cases hc : s.actChunk <;> simp [hr, hgt, hm, hc]
  · have hgt : v > 65535 := by omega
    simp [hr, hgt]

/-- An instance of `pc_directive_range`: `.pc = $1000` on a fresh assembler and
`.pc = $10000`, also as whole runs. -/
theorem pc_directive_range_witness :
    checkDirectives quiet Asm.init (S ".pc = $1000") = some (opened 0x1000, 0, S ".pc = $1000")
    ∧ checkDirectives quiet (opened 0x1000) (S ".pc = $10000") =
        some ((opened 0x1000).setError (S "Address out of range: $10000")
          (S "Address must be in range $0-$FFFF."), -1, S ".pc = $10000")
    ∧ chunksOf (assemble (fun _ => quiet) Asm.init (S ".pc = $1000")) = some (0, [(0x1000, [])])
    ∧ errorOf (assemble (fun _ => quiet) Asm.init (S ".pc = $10000"))
        = some (-1, S "Address out of range: $10000") :=
  ⟨(pc_directive_range quiet Asm.init (S "1000") 0x1000 (by decide) (by decide) (by decide)
      (by decide)).trans (by decide),
   (pc_directive_range quiet (opened 0x1000) (S "10000") 0x10000 (by decide) (by decide)
      (by decide) (by decide)).trans (by decide),
   by decide, by decide⟩

/-- C10, the code at a failing input: the address `C000`, written with an
upper-case digit, is at most 0xFFFF and `.pc = $C000` fails with "Syntax
error", where the claim has the line succeed for the digits `A-F` too.  The
hint that goes with the error asks for "a hexadecimal number between 0 and
FFFF", the same address in lower case is accepted, and the operand `$C000` of
an instruction is accepted in upper case. -/
theorem pc_directive_upper_case_rejected :
    (digitsValue 16 (S "C000") ≤ 0xFFFF) ∧
    (checkDirectives quiet Asm.init (S ".pc = $C000")).map
        (fun r => (r.2.1, r.1.asmError.errorString, r.1.asmError.errorStringVerbose))
      = some (-1, S "Syntax error",
          S ("correct .pc format: .pc = $\x7bAddr\x7d, "
            ++ "where \x7bAddr\x7d is a hexadecimal number between 0 and FFFF. "
            ++ "White space is allowed before '.pc', and around the equal sign.")) ∧
    errorOf (assemble (fun _ => quiet) Asm.init (S ".pc = $C000\nNOP"))
      = some (-1, S "Syntax error") ∧
    chunksOf (assemble (fun _ => quiet) Asm.init (S ".pc = $c000\nNOP"))
      = some (0, [(0xc000, [0xea])]) ∧
    chunksOf (assemble (fun _ => quiet) Asm.init (S ".pc = $1000\nLDA $C000"))
      = some (0, [(0x1000, [0xad, 0x00, 0xc0])]) :=
  ⟨by decide, by decide, by decide, by decide, by decide⟩

/-! ## Lines that start with a directive -/

/-- A match of a star is a run of its class followed by a match of the rest
of the pattern. -/
theorem starGo_some (p : Nat → Bool) (k : Str → Option MatchRes) (s : Str) (r : MatchRes)
    (h : starGo p k s = some r) :
    ∃ pre t, s = pre ++ t ∧ (∀ x ∈ pre, p x = true) ∧ k t = some r := by
  induction s with
  | nil => exact ⟨[], [], rfl, by simp, by simpa [starGo] using h⟩
  | cons x xs ih =>
    rw [starGo_cons] at h
    by_cases hx : p x = true
    · simp only [hx, if_true] at h
      cases hs : starGo p k xs with
      | none =>
        rw [hs] at h
        exact ⟨[], x :: xs, rfl, by simp, by simpa using h⟩
      | some r1 =>
        rw [hs] at h
        have hr : r1 = r := by simpa using h
        obtain ⟨pre, t, e, hp, hk⟩ := ih (hr ▸ hs)
        refine ⟨x :: pre, t, by simp [e], ?_, hk⟩
        intro y hy
        rcases List.mem_cons.mp hy with rfl | hy
        · exact hx
        · exact hp y hy
    · simp only [hx] at h
      exact ⟨[], x :: xs, rfl, by simp, by simpa using h⟩

/-- The part of a text `ws ++ '.' :: rest` that is left after a run of blanks
is taken from its start. -/
theorem blanks_dot_split (ws rest pre t : Str) (hws : ∀ x ∈ ws, isSpace x = true)
    (hpre : ∀ x ∈ pre, isSpace x = true) (e : ws ++ 46 :: rest = pre ++ t) :
    ∃ ws1, t = ws1 ++ 46 :: rest ∧ ∀ x ∈ ws1, isSpace x = true := by
  induction ws generalizing pre with
  | nil =>
    cases pre with
    | nil => exact ⟨[], by simpa using e.symm, by simp⟩
    | cons p ps =>
      simp only [List.nil_append, List.cons_append, List.cons.injEq] at e
      have := hpre p (by simp)
      rw [← e.1] at this
      exact absurd this (by decide)
  | cons w ws1 ih =>
    cases pre with
    | nil => exact ⟨w :: ws1, by simpa using e.symm, hws⟩
    | cons p ps =>
      simp only [List.cons_append, List.cons.injEq] at e
      exact ih ps (fun x hx => hws x (by simp [hx])) (fun x hx => hpre x (by simp [hx])) e.2

/-- A line that matches `searchDirective` is a run of blanks, a dot and the
rest. -/
theorem searchDirective_shape (l : Str) (h : (fullMatch searchDirective l).isSome = true) :
    ∃ ws rest, l = ws ++ 46 :: rest ∧ ∀ x ∈ ws, isSpace x = true := by
  simp only [fullMatch, searchDirective, RE.cat, RE.ch, matchK] at h
  split at h
  · rename_i c t0 hs
    obtain ⟨pre, t, e, hp, hk⟩ := starGo_some _ _ _ _ hs
    cases t with
    | nil => simp at hk
    | cons x xs =>
      by_cases hx : isCh '.' x = true
      · have : x = 46 := by simpa [isCh] using hx
        subst this
        exact ⟨pre, xs, e, hp⟩
      · simp [hx] at hk
  · simp at h

theorem searchFrom_some (r : RE) (total : Nat) (s pre t : Str) (c : Caps)
    (h : searchFrom r total s = some (pre, c, t)) :
    ∃ m, s = pre ++ m ∧ matchAt r total m = some (c, t) := by
  induction s generalizing pre with
  | nil =>
    simp only [searchFrom] at h
    cases hm : matchAt r total [] with
    | none => simp [hm] at h
    | some x =>
      obtain ⟨c1, t1⟩ := x
      simp only [hm, Option.some.injEq, Prod.mk.injEq] at h
      obtain ⟨rfl, rfl, rfl⟩ := h
      exact ⟨[], rfl, hm⟩
  | cons x xs ih =>
    simp only [searchFrom] at h
    cases hm : matchAt r total (x :: xs) with
    | some y =>
      obtain ⟨c1, t1⟩ := y
      simp only [hm, Option.some.injEq, Prod.mk.injEq] at h
      obtain ⟨rfl, rfl, rfl⟩ := h
      exact ⟨x :: xs, rfl, hm⟩
    | none =>
      simp only [hm] at h
      cases hs : searchFrom r total xs with
      | none => simp [hs] at h
      | some z =>
        obtain ⟨pre1, c1, t1⟩ := z
        simp only [hs, Option.some.injEq, Prod.mk.injEq] at h
        obtain ⟨rfl, rfl, rfl⟩ := h
        obtain ⟨m, e, hm1⟩ := ih pre1 hs
        exact ⟨m, by simp [e], hm1⟩

theorem remove_comments_matchAt_blanks (total : Nat) (ws rest : Str)
    (hws : ∀ x ∈ ws, isSpace x = true) :
    matchAt remove_comments total (ws ++ 46 :: rest) = none := by
  simp only [matchAt, remove_comments, RE.cat, RE.ch, matchK]
  apply starGo_eq_none
  intro pre t e hp
  obtain ⟨ws1, rfl, h1⟩ := blanks_dot_split ws rest pre t hws hp e
  cases ws1 with
  | nil => simp [isCh]
  | cons w ws2 =>
    have hw := h1 w (by simp)
    have : w ≠ 59 := by
      intro e59
      rw [e59] at hw
      exact absurd hw (by decide)
    simp [isCh, this]

/-- A prefix of `ws ++ '.' :: rest` whose remainder is not of that shape
reaches past the dot. -/
theorem prefix_past_dot (ws rest pre m : Str) (e : ws ++ 46 :: rest = pre ++ m)
    (hm : ∀ ws1, (∀ x ∈ ws1, x ∈ ws) → m ≠ ws1 ++ 46 :: rest) :
    ∃ pre1, pre = ws ++ 46 :: pre1 := by
  induction ws generalizing pre with
  | nil =>
    cases pre with
    | nil => exact absurd (by simpa using e.symm) (hm [] (by simp))
    | cons p ps =>
      simp only [List.nil_append, List.cons_append, List.cons.injEq] at e
      exact ⟨ps, by rw [e.1]; rfl⟩
  | cons w ws1 ih =>
    cases pre with
    | nil => exact absurd (by simpa using e.symm) (hm (w :: ws1) (by simp))
    | cons p ps =>
      simp only [List.cons_append, List.cons.injEq] at e
      obtain ⟨pre1, hp1⟩ := ih ps e.2 (fun ws2 h2 => hm ws2 (fun x hx => by simp [h2 x hx]))
      exact ⟨pre1, by rw [e.1, hp1]; rfl⟩

theorem globalReplaceLoop_search (r : RE) (f : Caps → Str) (total fuel : Nat) (s pre t : Str)
    (c : Caps) (h : searchFrom r total s = some (pre, c, t)) :
    (globalReplaceLoop r f total (fuel + 1) false s).1 =
      pre ++ f c ++
        (globalReplaceLoop r f total fuel (t.length + pre.length == s.length) t).1 := by
  simp only [globalReplaceLoop, Bool.false_eq_true, ↓reduceIte, h]

theorem globalReplaceLoop_search_none (r : RE) (f : Caps → Str) (total fuel : Nat) (s : Str)
    (h : searchFrom r total s = none) :
    (globalReplaceLoop r f total (fuel + 1) false s).1 = s := by
  simp only [globalReplaceLoop, Bool.false_eq_true, ↓reduceIte, h]

/-- Removing the comment of a line that starts with blanks and a dot leaves
the blanks and the dot in place. -/
theorem remove_comments_directive (f : Caps → Str) (ws rest : Str)
    (hws : ∀ x ∈ ws, isSpace x = true) :
    ∃ rest1, globalReplace remove_comments f (ws ++ 46 :: rest) = ws ++ 46 :: rest1 := by
  unfold globalReplace
  have e : 2 * (ws ++ 46 :: rest).length + 2 = (2 * (ws ++ 46 :: rest).length + 1) + 1 := by omega
  rw [e]
  cases hs : searchFrom remove_comments (ws ++ 46 :: rest).length (ws ++ 46 :: rest) with
  | none => exact ⟨rest, globalReplaceLoop_search_none _ _ _ _ _ hs⟩
  | some z =>
    obtain ⟨pre, c, t⟩ := z
    rw [globalReplaceLoop_search _ _ _ _ _ _ _ _ hs]
    obtain ⟨m, e1, hm⟩ := searchFrom_some _ _ _ _ _ _ hs
    obtain ⟨pre1, rfl⟩ := prefix_past_dot ws rest pre m e1 (by
      intro ws1 h1 e2
      rw [e2, remove_comments_matchAt_blanks _ ws1 rest (fun x hx => hws x (h1 x hx))] at hm
      exact absurd hm (by simp))
    simp only [List.append_assoc, List.cons_append]
    exact ⟨_, rfl⟩

theorem isSpace_facts {x : Nat} (h : isSpace x = true) :
    isUpper x = false ∧ isAlpha x = false ∧ x ≠ 46 ∧ x ≠ 59 := by
  have h1 : (9 ≤ x ∧ x ≤ 13) ∨ x = 32 := by
    simp only [isSpace, Bool.or_eq_true, Bool.and_eq_true, decide_eq_true_eq, beq_iff_eq] at h
    omega
  simp only [isUpper, isAlpha, isLower, Bool.or_eq_false_iff, Bool.and_eq_false_iff,
    decide_eq_false_iff_not]
  omega

/-- The head of a text that starts with blanks and a dot. -/
theorem blanks_dot_head (ws rest : Str) (hws : ∀ x ∈ ws, isSpace x = true) :
    ∃ x xs, ws ++ 46 :: rest = x :: xs ∧ isUpper x = false ∧ isAlpha x = false := by
  cases ws with
  | nil => exact ⟨46, rest, rfl, by decide, by decide⟩
  | cons w ws1 =>
    have := isSpace_facts (hws w (by simp))
    exact ⟨w, ws1 ++ 46 :: rest, rfl, this.1, this.2.1⟩

theorem isEmptyLine_directive (ws rest : Str) (hws : ∀ x ∈ ws, isSpace x = true) :
    fullMatch isEmptyLine (ws ++ 46 :: rest) = none := by
  simp only [fullMatch, isEmptyLine, RE.cat, matchK]
  rw [starGo_eq_none]
  · simp
  · intro pre t e hp
    obtain ⟨ws1, rfl, h1⟩ := blanks_dot_split ws rest pre t hws hp e
    cases ws1 <;> simp

theorem removeLabelDefinition_directive (f : Caps → Str) (ws rest : Str)
    (hws : ∀ x ∈ ws, isSpace x = true) :
    globalReplace removeLabelDefinition f (ws ++ 46 :: rest) = ws ++ 46 :: rest := by
  apply removeLabelDefinition_eq_self
  obtain ⟨x, xs, e, hu, -⟩ := blanks_dot_head ws rest hws
  rw [e]
  simp [matchAt, removeLabelDefinition, labelName, RE.plus, RE.cat, matchK, hu]

theorem getInstructionElements_directive (ws rest : Str) (hws : ∀ x ∈ ws, isSpace x = true) :
    fullMatch getInstructionElements (ws ++ 46 :: rest) = none := by
  simp only [fullMatch, getInstructionElements, RE.cat, matchK]
  rw [starGo_eq_none]
  intro pre t e hp
  obtain ⟨ws1, rfl, h1⟩ := blanks_dot_split ws rest pre t hws hp e
  obtain ⟨x, xs, e1, -, ha⟩ := blanks_dot_head ws1 rest h1
  rw [e1]
  simp [ha]

/-- A line that starts with blanks and a dot is left alone by `assembleLine`:
the state is unchanged and the result is 1. -/
theorem assembleLine_directive (u : Uninit) (s : Asm) (n : Nat) (ws rest : Str)
    (hws : ∀ x ∈ ws, isSpace x = true) :
    assembleLine u s (ws ++ 46 :: rest) n = some (s, 1) := by
  obtain ⟨rest1, e1⟩ := remove_comments_directive (fun _ => []) ws rest hws
  have hup : upperStr (ws ++ 46 :: rest1) = upperStr ws ++ 46 :: upperStr rest1 := by
    simp [upperStr, toupper, isLower]
  have hws2 : ∀ x ∈ upperStr ws, isSpace x = true := by
    intro x hx
    obtain ⟨y, hy, rfl⟩ := List.mem_map.mp hx
    rw [toupper_isSpace]
    exact hws y hy
  simp only [assembleLine, e1, isEmptyLine_directive ws rest1 hws, hup,
    removeLabelDefinition_directive _ _ _ hws2, getInstructionElements_directive _ _ hws2]

/-! ## What a line does to the chunk list and to the current chunk -/

theorem addBytes_append (c : MemChunk) (xs ys : List Nat) :
    c.addBytes (xs ++ ys) = (c.addBytes xs).bind (fun c1 => c1.addBytes ys) := by
  induction xs generalizing c with
  | nil => simp [MemChunk.addBytes]
  | cons x xs ih =>
    simp only [List.cons_append, MemChunk.addBytes]
    cases c.addByte x with
    | none => rfl
    | some c1 => simpa using ih c1

theorem extends_same (chunks : List MemChunk) (a : Option MemChunk) (s : Asm) (x : Int)
    (h1 : s.chunks = chunks) (h2 : s.actChunk = a) : Extends chunks a (some (s, x)) := by
  intro s1 x1 e
  simp only [Option.some.injEq, Prod.mk.injEq] at e
  obtain ⟨rfl, rfl⟩ := e
  refine ⟨h1, by rw [h2], [], ?_⟩
  rw [h2]
  cases a <;> simp [MemChunk.addBytes]

theorem extends_emit (s : Asm) (c : MemChunk) (bs : List Nat) (n : Nat) :
    Extends s.chunks (some c) (s.emit c bs n) := by
  intro s1 x1 e
  unfold Asm.emit at e
  cases h : c.addBytes bs with
  | none => simp [h] at e
  | some c1 =>
    simp only [h, Option.some.injEq, Prod.mk.injEq] at e
    obtain ⟨rfl, rfl⟩ := e
    exact ⟨rfl, rfl, bs, by simp [h]⟩

theorem extends_encodeImplied (s : Asm) (c : MemChunk) (o : Opcode) (opc op : Str)
    (hc : s.actChunk = some c) : Extends s.chunks (some c) (encodeImplied s c o opc op) := by
  unfold encodeImplied
  split
  · exact extends_emit _ _ _ _
  · exact extends_same _ _ _ _ rfl hc

theorem extends_encodeIndexedIndirect (s : Asm) (c : MemChunk) (o : Opcode) (opc op : Str)
    (hc : s.actChunk = some c) :
    Extends s.chunks (some c) (encodeIndexedIndirect s c o opc op) := by
  unfold encodeIndexedIndirect
  repeat' first | split | dsimp only
  all_goals first
    | exact extends_emit _ _ _ _
    | exact extends_same _ _ _ _ rfl hc
    | exact extends_encodeImplied _ _ _ _ _ hc

theorem extends_encodeIndirect (s : Asm) (c : MemChunk) (o : Opcode) (opc op : Str)
    (hc : s.actChunk = some c) : Extends s.chunks (some c) (encodeIndirect s c o opc op) := by
  unfold encodeIndirect
  repeat' first | split | dsimp only
  all_goals first
    | exact extends_emit _ _ _ _
    | exact extends_same _ _ _ _ rfl hc
    | exact extends_encodeIndexedIndirect _ _ _ _ _ hc

theorem extends_encodeIndexed (s : Asm) (c : MemChunk) (o : Opcode) (zp ab : Nat) (v op : Str)
    (hc : s.actChunk = some c) : Extends s.chunks (some c) (encodeIndexed s c o zp ab v op) := by
  unfold encodeIndexed
  repeat' first | split | dsimp only
  all_goals first
    | exact extends_emit _ _ _ _
    | exact extends_same _ _ _ _ rfl hc

theorem extends_encodeXY (s : Asm) (c : MemChunk) (o : Opcode) (opc op : Str)
    (hc : s.actChunk = some c) : Extends s.chunks (some c) (encodeXY s c o opc op) := by
  unfold encodeXY
  repeat' first | split | dsimp only
  all_goals first
    | exact extends_encodeIndexed _ _ _ _ _ _ _ hc
    | exact extends_encodeIndirect _ _ _ _ _ hc

theorem extends_encodeZPAbs (s : Asm) (c : MemChunk) (o : Opcode) (opc op : Str)
    (hc : s.actChunk = some c) : Extends s.chunks (some c) (encodeZPAbs s c o opc op) := by
  unfold encodeZPAbs
  repeat' first | split | dsimp only
  all_goals first
    | exact extends_emit _ _ _ _
    | exact extends_same _ _ _ _ rfl hc
    | exact extends_encodeXY _ _ _ _ _ hc

theorem extends_encode (s : Asm) (c : MemChunk) (o : Opcode) (opc op : Str)
    (hc : s.actChunk = some c) : Extends s.chunks (some c) (encode s c o opc op) := by
  unfold encode
  repeat' first | split | dsimp only
  all_goals first
    | exact extends_emit _ _ _ _
    | exact extends_same _ _ _ _ rfl hc
    | exact extends_encodeZPAbs _ _ _ _ _ hc

/-- The block "handle label references" changes neither the chunk list nor
the current chunk. -/
theorem labelReference_chunks (u : Uninit) (s : Asm) (opc op : Str) (n : Nat) :
    (labelReference u s opc op n).1.chunks = s.chunks ∧
    (labelReference u s opc op n).1.actChunk = s.actChunk := by
  unfold labelReference
  repeat' first | split | dsimp only
  all_goals exact ⟨rfl, rfl⟩

theorem asterisk_chunks (s : Asm) (op : Str) (e : Asm × Int)
    (h : asterisk s op = Except.error e) :
    e.1.chunks = s.chunks ∧ e.1.actChunk = s.actChunk := by
  unfold asterisk at h
  simp only at h
  repeat' first | split at h | dsimp only at h
  all_goals first
    | (cases h; done)
    | (cases h; exact ⟨rfl, rfl⟩)

theorem extends_assembleParsed (u : Uninit) (s : Asm) (opc op : Str) (n : Nat) :
    Extends s.chunks s.actChunk (assembleParsed u s opc op n) := by
  unfold assembleParsed
  cases hc : s.actChunk with
  | none => exact extends_same _ _ _ _ rfl hc
  | some c =>
    simp only
    have hl := labelReference_chunks u s opc op n
    repeat' first | split | dsimp only
    all_goals first
      | exact extends_emit _ _ _ _
      | exact extends_same _ _ _ _ rfl hc
      | skip
    · rename_i e he
      have := asterisk_chunks _ _ _ he
      exact extends_same _ _ _ _ (this.1.trans hl.1) (this.2.trans (hl.2.trans hc))
    · rw [← hl.1]
      exact extends_encode _ _ _ _ _ (hl.2.trans hc)

/-- A line changes the chunks through `assembleLine` only by bytes added to
the current chunk. -/
theorem extends_assembleLine (u : Uninit) (s : Asm) (line : Str) (n : Nat) :
    Extends s.chunks s.actChunk (assembleLine u s line n) := by
  unfold assembleLine
  simp only
  repeat' first | split | dsimp only
  all_goals first
    | exact extends_same _ _ _ _ rfl rfl
    | exact extends_assembleParsed _ _ _ _ _

theorem detectLabelDefinition_chunks (s : Asm) (line : Str) :
    (detectLabelDefinition s line).1.chunks = s.chunks ∧
    (detectLabelDefinition s line).1.actChunk = s.actChunk := by
  unfold detectLabelDefinition
  simp only
  repeat' first | split | dsimp only
  all_goals exact ⟨rfl, rfl⟩

theorem extends_none (chunks : List MemChunk) (a : Option MemChunk) : Extends chunks a none := by
  intro s x e
  cases e

theorem extends_step (chunks : List MemChunk) (c c1 : MemChunk) (pre : List Nat)
    (r : Option (Asm × Int)) (h : c.addBytes pre = some c1) (hr : Extends chunks (some c1) r) :
    Extends chunks (some c) r := by
  intro s x e
  obtain ⟨h1, h3, bs, h2⟩ := hr s x e
  exact ⟨h1, h3, pre ++ bs, by simpa [addBytes_append, h] using h2⟩

theorem addBytes_one (c c1 : MemChunk) (b : Nat) (h : c.addByte b = some c1) :
    c.addBytes [b] = some c1 := by
  simp [MemChunk.addBytes, h]

theorem addBytes_word (c c1 : MemChunk) (w : Nat) (h : c.addWord w = some c1) :
    c.addBytes [w % 256, w / 256 % 256] = some c1 := by
  simpa [MemChunk.addBytes, MemChunk.addWord] using h

theorem extends_dataLoop (kw : Str) (vs : List Str) (s : Asm) (c : MemChunk) :
    Extends s.chunks (some c) (dataLoop kw vs s c) := by
  induction vs generalizing s c with
  | nil =>
    unfold dataLoop
    exact extends_same _ _ _ _ rfl rfl
  | cons v vs ih =>
    unfold dataLoop
    dsimp only
    split
    · exact extends_same _ _ _ _ rfl rfl
    · split
      · split
        · exact extends_same _ _ _ _ rfl rfl
        · split
          · exact extends_none _ _
          · rename_i c1 h1
            exact extends_step _ _ _ _ _ (addBytes_one _ _ _ h1) (ih _ c1)
      · split
        · split
          · exact extends_same _ _ _ _ rfl rfl
          · split
            · exact extends_none _ _
            · rename_i c1 h1
              exact extends_step _ _ _ _ _ (addBytes_word _ _ _ h1) (ih _ c1)
        · exact ih s c

theorem extends_directiveText (s : Asm) (line : Str) :
    Extends s.chunks s.actChunk (directiveText s line) := by
  unfold directiveText
  repeat' first | split | dsimp only
  all_goals first
    | exact extends_same _ _ _ _ rfl rfl
    | (rename_i c hc
       rw [hc]
       exact extends_emit _ _ _ _)

theorem extends_directiveData (s : Asm) (kw line : Str) :
    Extends s.chunks s.actChunk (directiveData s kw line) := by
  unfold directiveData
  dsimp only
  split
  · exact extends_same _ _ _ _ rfl rfl
  · split
    · exact extends_same _ _ _ _ rfl rfl
    · rename_i c hc
      rw [hc]
      exact extends_dataLoop _ _ _ _

theorem extends_map (chunks : List MemChunk) (a : Option MemChunk) (r : Option (Asm × Int))
    (l : Str) (h : Extends chunks a r) (s : Asm) (x : Int) (l1 : Str)
    (e : r.map (fun y => (y.1, y.2, l)) = some (s, x, l1)) :
    s.chunks = chunks ∧ s.actChunk.isSome = a.isSome ∧
      ∃ bs, s.actChunk = a.bind (fun c => c.addBytes bs) := by
  cases r with
  | none => simp at e
  | some y =>
    obtain ⟨s0, x0⟩ := y
    simp only [Option.map_some', Option.some.injEq, Prod.mk.injEq] at e
    obtain ⟨rfl, rfl, rfl⟩ := e
    exact h _ _ rfl

/-- A directive other than `.pc` keeps the chunk list and at most appends
bytes to the current chunk. -/
theorem checkDirectives_other (u : Uninit) (s : Asm) (line : Str)
    (hpc : ∀ d g, fullMatch searchDirective line = some d →
      fullMatch extractKeyword line = some g → (lowerStr (capGet g 1) == S "pc") = false)
    (s1 : Asm) (x : Int) (l1 : Str) (e : checkDirectives u s line = some (s1, x, l1)) :
    s1.chunks = s.chunks ∧ s1.actChunk.isSome = s.actChunk.isSome ∧
      ∃ bs, s1.actChunk = s.actChunk.bind (fun c => c.addBytes bs) := by
  have same : ∀ {t : Asm} {y : Int} {l : Str}, some (t, y, l) = some (s1, x, l1) →
      t.chunks = s.chunks → t.actChunk = s.actChunk →
      s1.chunks = s.chunks ∧ s1.actChunk.isSome = s.actChunk.isSome ∧
        ∃ bs, s1.actChunk = s.actChunk.bind (fun c => c.addBytes bs) := by
    intro t y l e1 h1 h2
    simp only [Option.some.injEq, Prod.mk.injEq] at e1
    obtain ⟨rfl, rfl, rfl⟩ := e1
    exact extends_same _ _ _ y h1 h2 _ _ rfl
  unfold checkDirectives at e
  split at e
  · exact same e rfl rfl
  · rename_i d hd
    split at e
    · exact same e rfl rfl
    · rename_i g hg
      have hk := hpc d g hd hg
      dsimp only at e
      simp only [hk, Bool.false_eq_true, ↓reduceIte] at e
      split at e
      · exact extends_map _ _ _ _ (extends_directiveText s line) _ _ _ e
      · split at e
        · exact same e rfl rfl
        · split at e
          · exact same e rfl rfl
          · split at e
            · exact same e rfl rfl
            · split at e
              · exact extends_map _ _ _ _ (extends_directiveData s _ _) _ _ _ e
              · exact same e rfl rfl

/-- A `.pc` directive that does not fail pushes the finalized current chunk,
if there is one, and opens an empty chunk at the address it sets. -/
theorem checkDirectives_pc (u : Uninit) (s : Asm) (line : Str) (d g : Caps)
    (hd : fullMatch searchDirective line = some d)
    (hg : fullMatch extractKeyword line = some g)
    (hk : (lowerStr (capGet g 1) == S "pc") = true)
    (s1 : Asm) (x : Int) (l1 : Str) (e : checkDirectives u s line = some (s1, x, l1))
    (hx : x ≠ -1) :
    l1 = globalReplace remove_comments (fun _ => []) line ∧
    s1.chunks = s.chunks ++ (s.actChunk.map MemChunk.finalize).toList ∧
    s1.actChunk = some (MemChunk.fresh s1.actAddress) ∧
    ∀ a, pcTextAddress (globalReplace remove_comments (fun _ => []) line) = some a →
      s1.actAddress = a := by
  have hk1 : lowerStr (capGet g 1) = S "pc" := by simpa using hk
  have t1 : (S "pc" == S "text") = false := by decide
  have t2 : (S "pc" == S "ascii") = false := by decide
  have t3 : (S "pc" == S "petscii") = false := by decide
  have t4 : (S "pc" == S "screen") = false := by decide
  have t5 : (S "pc" == S "pc") = true := by decide
  unfold checkDirectives at e
  simp only [hd, hg] at e
  rw [hk1] at e
  simp only [t1, t2, t3, t4, t5, Bool.false_eq_true, ↓reduceIte] at e
  cases hp : directivePc u s (globalReplace remove_comments (fun _ => []) line) with
  | none => simp [hp] at e
  | some y =>
    obtain ⟨s0, x0⟩ := y
    simp only [hp, Option.map_some', Option.some.injEq, Prod.mk.injEq] at e
    obtain ⟨rfl, rfl, rfl⟩ := e
    refine ⟨rfl, ?_⟩
    unfold directivePc at hp
    unfold pcTextAddress
    split at hp
    · simp only [Option.some.injEq, Prod.mk.injEq] at hp
      exact absurd hp.2.symm hx
    · rename_i g2 hg2
      dsimp only at hp
      split at hp
      · simp only [Option.some.injEq, Prod.mk.injEq] at hp
        exact absurd hp.2.symm hx
      · rename_i hle
        have haddr : ∀ a, (match fullMatch inlineAny (S "0x" ++ capGet g2 1) with
            | some _ => parseHexUInt (capGet g2 1)
            | none => none) = some a →
            (match fullMatch inlineAny (S "0x" ++ capGet g2 1) with
            | some _ => (parseHexUInt (capGet g2 1)).getD u.addressNum
            | none => u.addressNum) % 65536 = a := by
          intro a ha
          cases hi : fullMatch inlineAny (S "0x" ++ capGet g2 1) with
          | none => simp [hi] at ha
          | some c =>
            simp only [hi] at ha hle
            simp only [hi, ha, Option.getD_some] at hle ⊢
            omega
        split at hp
        · rename_i hnone
          simp only [Option.some.injEq, Prod.mk.injEq] at hp
          obtain ⟨rfl, -⟩ := hp
          refine ⟨by simp [hnone], rfl, ?_⟩
          intro a ha
          simp only [hg2] at ha
          exact haddr a ha
        · rename_i c hsome
          simp only [Option.some.injEq, Prod.mk.injEq] at hp
          obtain ⟨rfl, -⟩ := hp
          refine ⟨by simp [hsome], rfl, ?_⟩
          intro a ha
          simp only [hg2] at ha
          exact haddr a ha

theorem detectLabelDefinition_address (s : Asm) (line : Str) :
    (detectLabelDefinition s line).1.actAddress = s.actAddress := by
  unfold detectLabelDefinition
  simp only
  repeat' first | split | dsimp only
  all_goals rfl

/-- A line that is not a `.pc` directive keeps the chunk list and at most
appends bytes to the current chunk. -/
theorem processLine_other (u : Uninit) (s : Asm) (raw : Str) (n : Nat)
    (hpc : isPcLine raw = false) : Extends s.chunks s.actChunk (processLine u s raw n) := by
  intro s9 x e
  unfold processLine at e
  unfold isPcLine trimLine at hpc
  dsimp only at e
  generalize globalReplace remove_trailing_space (fun _ => [])
    (globalReplace remove_leading_space (fun g => capGet g 1) raw) = line0 at e hpc
  have hpc1 : ∀ d g, fullMatch searchDirective line0 = some d →
      fullMatch extractKeyword line0 = some g → (lowerStr (capGet g 1) == S "pc") = false := by
    intro d g hd hg
    simpa only [hd, hg] using hpc
  cases hcd : checkDirectives u { s with lines := s.lines ++ [line0] } line0 with
  | none => simp [hcd] at e
  | some y =>
    obtain ⟨s1, d, l1⟩ := y
    simp only [hcd] at e
    obtain ⟨c1, i1, bs1, a1⟩ := checkDirectives_other u _ line0 hpc1 s1 d l1 hcd
    have hl := detectLabelDefinition_chunks s1 l1
    cases hal : assembleLine u (detectLabelDefinition s1 l1).1 l1 n with
    | none => simp [hal] at e
    | some z =>
      obtain ⟨s3, a⟩ := z
      simp only [hal] at e
      obtain ⟨c3, i3, bs3, a3⟩ := extends_assembleLine u _ l1 n s3 a hal
      have hs : s9.chunks = s3.chunks ∧ s9.actChunk = s3.actChunk := by
        split at e
        · cases e
          exact ⟨rfl, rfl⟩
        · split at e
          · cases e
            exact ⟨rfl, rfl⟩
          · cases e
            exact ⟨rfl, rfl⟩
      refine ⟨by rw [hs.1, c3, hl.1, c1], by rw [hs.2, i3, hl.2, i1], bs1 ++ bs3, ?_⟩
      rw [hs.2, a3, hl.2, a1]
      cases s.actChunk with
      | none => rfl
      | some c => simp [addBytes_append]

/-- A `.pc` line that the loop passes pushes the finalized current chunk, if
there is one, and opens an empty chunk at the address it sets. -/
theorem processLine_pc (u : Uninit) (s : Asm) (raw : Str) (n : Nat) (s9 : Asm)
    (hpc : isPcLine raw = true) (e : processLine u s raw n = some (s9, 0)) :
    s9.chunks = s.chunks ++ (s.actChunk.map MemChunk.finalize).toList ∧
    s9.actChunk = some (MemChunk.fresh s9.actAddress) ∧
    ∀ a, pcLineAddress raw = some a → s9.actAddress = a := by
  unfold processLine at e
  unfold pcLineAddress
  unfold isPcLine trimLine at hpc
  unfold trimLine
  dsimp only at e
  generalize globalReplace remove_trailing_space (fun _ => [])
    (globalReplace remove_leading_space (fun g => capGet g 1) raw) = line0 at e hpc ⊢
  cases hd : fullMatch searchDirective line0 with
  | none => simp [hd] at hpc
  | some d =>
    cases hg : fullMatch extractKeyword line0 with
    | none => simp [hd, hg] at hpc
    | some g =>
      simp only [hd, hg] at hpc
      cases hcd : checkDirectives u { s with lines := s.lines ++ [line0] } line0 with
      | none => simp [hcd] at e
      | some y =>
        obtain ⟨s1, x, l1⟩ := y
        simp only [hcd] at e
        cases hal : assembleLine u (detectLabelDefinition s1 l1).1 l1 n with
        | none => simp [hal] at e
        | some z =>
          obtain ⟨s3, a⟩ := z
          simp only [hal] at e
          split at e
          · cases e
          · split at e
            · cases e
            · rename_i h1 h2
              have hx : x ≠ -1 := by
                intro hx
                apply h2
                simp [hx]
              obtain ⟨hl1, hch, hact, haddr⟩ :=
                checkDirectives_pc u _ line0 d g hd hg hpc s1 x l1 hcd hx
              obtain ⟨ws, rest, hshape, hws⟩ := searchDirective_shape line0 (by simp [hd])
              obtain ⟨rest1, hrest⟩ := remove_comments_directive (fun _ => []) ws rest hws
              rw [hshape] at hl1
              rw [hrest] at hl1
              rw [hl1, assembleLine_directive u _ n ws rest1 hws] at hal
              simp only [Option.some.injEq, Prod.mk.injEq] at hal e
              obtain ⟨rfl, -⟩ := hal
              obtain ⟨rfl, -⟩ := e
              have hl := detectLabelDefinition_chunks s1 (ws ++ 46 :: rest1)
              have hla := detectLabelDefinition_address s1 (ws ++ 46 :: rest1)
              refine ⟨hl.1.trans hch, ?_, ?_⟩
              · rw [hl.2, hla]
                exact hact
              · intro a0 ha0
                rw [hla]
                exact haddr a0 ha0

/-! ## The loop of `assemble` and the chunk list -/

theorem assembleLoop_cons_ok (u : Nat → Uninit) (raw : Str) (rest : List Str) (k : Nat)
    (s s9 : Asm) (h : assembleLoop u (raw :: rest) k s = some (s9, 0)) :
    ∃ s1, processLine (u k) s raw k = some (s1, 0) ∧
      assembleLoop u rest (k + 1) s1 = some (s9, 0) := by
  simp only [assembleLoop] at h
  cases hp : processLine (u k) s raw k with
  | none => simp [hp] at h
  | some y =>
    obtain ⟨s1, r⟩ := y
    simp only [hp] at h
    by_cases hr : r = 0
    · subst hr
      exact ⟨s1, rfl, by simpa using h⟩
    · have : (r == 0) = false := by simpa using hr
      simp only [this, Bool.false_eq_true, ↓reduceIte, Option.some.injEq, Prod.mk.injEq] at h
      exact absurd h.2 hr

theorem assembleLoop_cons_of (u : Nat → Uninit) (raw : Str) (rest : List Str) (k : Nat)
    (s s1 : Asm) (h : processLine (u k) s raw k = some (s1, 0)) :
    assembleLoop u (raw :: rest) k s = assembleLoop u rest (k + 1) s1 := by
  simp [assembleLoop, h]

/-- A run of the loop that passes has passed every prefix of the lines. -/
theorem assembleLoop_prefix (u : Nat → Uninit) (pre post : List Str) (k : Nat) (s s9 : Asm)
    (h : assembleLoop u (pre ++ post) k s = some (s9, 0)) :
    ∃ sp, assembleLoop u pre k s = some (sp, 0) ∧
      assembleLoop u post (k + pre.length) sp = some (s9, 0) := by
  induction pre generalizing k s with
  | nil => exact ⟨s, by simp [assembleLoop], by simpa using h⟩
  | cons raw pre ih =>
    obtain ⟨s1, hp, hr⟩ := assembleLoop_cons_ok u raw (pre ++ post) k s s9 h
    obtain ⟨sp, h1, h2⟩ := ih (k + 1) s1 hr
    refine ⟨sp, ?_, ?_⟩
    · rw [assembleLoop_cons_of u raw pre k s s1 hp]
      exact h1
    · have : k + (raw :: pre).length = k + 1 + pre.length := by
        simp only [List.length_cons]
        omega
      rw [this]
      exact h2

theorem assembleLoop_append (u : Nat → Uninit) (pre post : List Str) (k : Nat) (s sp : Asm)
    (h : assembleLoop u pre k s = some (sp, 0)) :
    assembleLoop u (pre ++ post) k s = assembleLoop u post (k + pre.length) sp := by
  induction pre generalizing k s with
  | nil =>
    simp only [assembleLoop, Option.some.injEq, Prod.mk.injEq, and_true] at h
    subst h
    simp
  | cons raw pre ih =>
    obtain ⟨s1, hp, hr⟩ := assembleLoop_cons_ok u raw pre k s sp h
    rw [List.cons_append, assembleLoop_cons_of u raw (pre ++ post) k s s1 hp, ih (k + 1) s1 hr]
    have : k + (raw :: pre).length = k + 1 + pre.length := by
      simp only [List.length_cons]
      omega
    rw [this]

theorem pcCount_cons (raw : Str) (ls : List Str) :
    pcCount (raw :: ls) = (if isPcLine raw = true then 1 else 0) + pcCount ls := by
  unfold pcCount
  by_cases h : isPcLine raw = true
  · simp [h]
    omega
  · simp [h]

theorem pcCount_append (pre post : List Str) :
    pcCount (pre ++ post) = pcCount pre + pcCount post := by
  simp [pcCount]

/-- One line of the loop and the number of chunks opened so far. -/
theorem processLine_count (u : Uninit) (s : Asm) (raw : Str) (n : Nat) (s9 : Asm)
    (h : processLine u s raw n = some (s9, 0)) :
    s9.chunks.length + s9.actChunk.toList.length =
      s.chunks.length + s.actChunk.toList.length + (if isPcLine raw = true then 1 else 0) ∧
    (∃ t, s9.chunks = s.chunks ++ t) ∧
    ((isPcLine raw = true ∨ s.actChunk.isSome = true) → s9.actChunk.isSome = true) := by
  by_cases hpc : isPcLine raw = true
  · obtain ⟨h1, h2, -⟩ := processLine_pc u s raw n s9 hpc h
    refine ⟨?_, ⟨_, h1⟩, fun _ => by simp [h2]⟩
    rw [h1, h2]
    cases s.actChunk <;> simp [hpc]
  · have hpc1 : isPcLine raw = false := by simpa using hpc
    obtain ⟨h1, h2, -⟩ := processLine_other u s raw n hpc1 s9 0 h
    refine ⟨?_, ⟨[], by simp [h1]⟩, ?_⟩
    · rw [h1]
      cases h3 : s9.actChunk <;> cases h4 : s.actChunk <;> simp [h3, h4, hpc] at h2 ⊢
    · intro h5
      rcases h5 with h5 | h5
      · exact absurd h5 hpc
      · rw [h2]
        exact h5

/-- The loop and the number of chunks opened so far: each `.pc` line adds one,
the chunks already pushed stay in place, and there is a current chunk once a
`.pc` line has passed. -/
theorem assembleLoop_count (u : Nat → Uninit) (ls : List Str) (k : Nat) (s s9 : Asm)
    (h : assembleLoop u ls k s = some (s9, 0)) :
    s9.chunks.length + s9.actChunk.toList.length =
      s.chunks.length + s.actChunk.toList.length + pcCount ls ∧
    (∃ t, s9.chunks = s.chunks ++ t) ∧
    ((1 ≤ pcCount ls ∨ s.actChunk.isSome = true) → s9.actChunk.isSome = true) := by
  induction ls generalizing k s with
  | nil =>
    simp only [assembleLoop, Option.some.injEq, Prod.mk.injEq, and_true] at h
    subst h
    refine ⟨by simp [pcCount], ⟨[], by simp⟩, ?_⟩
    intro h1
    rcases h1 with h1 | h1
    · simp [pcCount] at h1
    · exact h1
  | cons raw ls ih =>
    obtain ⟨s1, hp, hr⟩ := assembleLoop_cons_ok u raw ls k s s9 h
    obtain ⟨a1, ⟨t1, b1⟩, c1⟩ := processLine_count (u k) s raw k s1 hp
    obtain ⟨a2, ⟨t2, b2⟩, c2⟩ := ih (k + 1) s1 hr
    refine ⟨?_, ⟨t1 ++ t2, by rw [b2, b1, List.append_assoc]⟩, ?_⟩
    · rw [a2, a1, pcCount_cons]
      omega
    · intro h1
      apply c2
      rw [pcCount_cons] at h1
      by_cases hpc : isPcLine raw = true
      · exact Or.inr (c1 (Or.inl hpc))
      · simp only [hpc, Bool.false_eq_true, ↓reduceIte] at h1
        rcases h1 with h1 | h1
        · exact Or.inl (by omega)
        · exact Or.inr (c1 (Or.inr h1))

/-! ## The second pass and the chunk list -/

theorem set_map_same {α β : Type} (f : α → β) (l : List α) (i : Nat) (c c1 : α)
    (h : l[i]? = some c) (hf : f c1 = f c) : (l.set i c1).map f = l.map f := by
  induction l generalizing i with
  | nil => simp
  | cons x xs ih =>
    cases i with
    | zero =>
      simp only [List.getElem?_cons_zero, Option.some.injEq] at h
      subst h
      simp [hf]
    | succ j =>
      simp only [List.getElem?_cons_succ] at h
      simp [ih j h]

theorem patchChunk_layout (c c1 : MemChunk) (a : UnresolvedAddress) (r : Nat)
    (h : patchChunk c a r = some c1) :
    (c1.startAddress, c1.length, c1.bufferSize) = (c.startAddress, c.length, c.bufferSize) := by
  unfold patchChunk MemChunk.rewriteByteAtAddress MemChunk.rewriteWordAtAddress at h
  repeat' first | split at h | dsimp only at h
  all_goals first
    | (cases h; done)
    | (cases h; rfl)

/-- The fix-ups of one label change no start address, no length and no
buffer size. -/
theorem patchAll_layout (r : Nat) (l : List UnresolvedAddress) (chunks chunks1 : List MemChunk)
    (h : patchAll r l chunks = some chunks1) :
    chunks1.map (fun c => (c.startAddress, c.length, c.bufferSize)) =
      chunks.map (fun c => (c.startAddress, c.length, c.bufferSize)) := by
  induction l generalizing chunks with
  | nil =>
    simp only [patchAll, Option.some.injEq] at h
    rw [h]
  | cons a rest ih =>
    unfold patchAll at h
    cases hg : chunks.get? a.memChunk with
    | none =>
      rw [hg] at h
      cases h
    | some c =>
      rw [hg] at h
      dsimp only at h
      cases hp : patchChunk c a r with
      | none =>
        rw [hp] at h
        cases h
      | some c1 =>
        rw [hp] at h
        rw [ih _ h]
        exact set_map_same _ chunks a.memChunk c c1 (by simpa using hg)
          (patchChunk_layout c c1 a r hp)

/-- The second pass changes no start address, no length and no buffer size,
and nothing at all when no label was referenced before its definition. -/
theorem resolveLoop_layout (l : List (Str × UnresolvedLabel)) (t s : Asm) (x : Int)
    (h : resolveLoop l t = some (s, x)) :
    s.chunks.map (fun c => (c.startAddress, c.length, c.bufferSize)) =
      t.chunks.map (fun c => (c.startAddress, c.length, c.bufferSize)) ∧
    s.unresolvedLabels = t.unresolvedLabels ∧ (l = [] → s = t) := by
  induction l generalizing t with
  | nil =>
    simp only [resolveLoop, Option.some.injEq, Prod.mk.injEq] at h
    obtain ⟨rfl, -⟩ := h
    exact ⟨rfl, rfl, fun _ => rfl⟩
  | cons e rest ih =>
    obtain ⟨name, uLabel⟩ := e
    simp only [resolveLoop] at h
    cases hp : patchAll (labelsGet t.labels name) uLabel.addresses t.chunks with
    | none => simp [hp] at h
    | some chunks1 =>
      simp only [hp] at h
      have hl := patchAll_layout _ _ _ _ hp
      split at h
      · simp only [Option.some.injEq, Prod.mk.injEq] at h
        obtain ⟨rfl, -⟩ := h
        exact ⟨hl, rfl, fun e => absurd e (by simp)⟩
      · obtain ⟨h1, h2, -⟩ := ih _ h
        exact ⟨h1.trans hl, h2, fun e => absurd e (by simp)⟩

theorem layout_getElem (l1 l2 : List MemChunk) (i : Nat) (c : MemChunk)
    (h : l1.map (fun c => (c.startAddress, c.length, c.bufferSize)) =
      l2.map (fun c => (c.startAddress, c.length, c.bufferSize)))
    (hc : l2[i]? = some c) :
    ∃ cf, l1[i]? = some cf ∧ cf.startAddress = c.startAddress ∧ cf.length = c.length ∧
      cf.bufferSize = c.bufferSize := by
  have h1 := congrArg (fun l => l[i]?) h
  simp only [List.getElem?_map, hc, Option.map_some'] at h1
  cases h2 : l1[i]? with
  | none => simp [h2] at h1
  | some cf =>
    simp only [h2, Option.map_some', Option.some.injEq, Prod.mk.injEq] at h1
    exact ⟨cf, rfl, h1.1, h1.2.1, h1.2.2⟩

theorem finalize_bytes (c : MemChunk) : c.finalize.bytes = c.bytes := by
  unfold MemChunk.finalize MemChunk.bytes
  split
  · rfl
  · simp [List.take_take]

/-- A successful run of `assemble` on a fresh assembler: the first pass went
through all the lines and left a current chunk, which is pushed finalized
before the fix-ups. -/
theorem assemble_ok (u : Nat → Uninit) (source : Str) (s : Asm)
    (h : assemble u Asm.init source = some (s, 0)) :
    ∃ s1 c, firstPass u (getlines source) = some (s1, 0) ∧ s1.actChunk = some c ∧
      resolveLoop s1.unresolvedLabels
        { s1 with actChunk := some c.finalize, chunks := s1.chunks ++ [c.finalize] } =
        some (s, 0) := by
  unfold assemble at h
  dsimp only at h
  have e0 : ({ Asm.init with asmError :=
      { lineContent := [], errorString := [], errorStringVerbose := [],
        errorLineNumber := 0 } } : Asm) = Asm.init := rfl
  rw [e0] at h
  unfold firstPass
  cases hl : assembleLoop u (getlines source) 1 Asm.init with
  | none => simp [hl] at h
  | some y =>
    obtain ⟨s1, r⟩ := y
    simp only [hl] at h
    by_cases hr : r = 0
    · subst hr
      simp only [bne_self_eq_false, Bool.false_eq_true, ↓reduceIte] at h
      cases hc : s1.actChunk with
      | none => simp [hc] at h
      | some c =>
        simp only [hc] at h
        exact ⟨s1, c, rfl, hc, h⟩
    · have : (r != 0) = true := by simpa using hr
      simp only [this, ↓reduceIte, Option.some.injEq, Prod.mk.injEq] at h
      exact absurd h.2 hr

theorem addByte_startAddress (c c1 : MemChunk) (b : Nat) (h : c.addByte b = some c1) :
    c1.startAddress = c.startAddress := by
  unfold MemChunk.addByte at h
  dsimp only at h
  repeat' first | split at h | dsimp only at h
  all_goals first
    | (cases h; done)
    | (cases h; rfl)

theorem addBytes_startAddress (c c1 : MemChunk) (bs : List Nat) (h : c.addBytes bs = some c1) :
    c1.startAddress = c.startAddress := by
  induction bs generalizing c with
  | nil =>
    simp only [MemChunk.addBytes, Option.some.injEq] at h
    rw [h]
  | cons b bs ih =>
    simp only [MemChunk.addBytes] at h
    cases hb : c.addByte b with
    | none => simp [hb] at h
    | some c2 =>
      simp only [hb, Option.some_bind] at h
      rw [ih c2 h, addByte_startAddress c c2 b hb]

theorem finalize_layout (c : MemChunk) :
    c.finalize.startAddress = c.startAddress ∧ c.finalize.length = c.length := by
  unfold MemChunk.finalize
  split <;> exact ⟨rfl, rfl⟩

/-- The lines of a segment without a `.pc` directive keep the chunk list and
append bytes to the current chunk. -/
theorem assembleLoop_segment (u : Nat → Uninit) (seg : List Str) (k : Nat) (s s9 : Asm)
    (h : assembleLoop u seg k s = some (s9, 0)) (hseg : pcCount seg = 0) :
    s9.chunks = s.chunks ∧ ∃ bs, s9.actChunk = s.actChunk.bind (fun c => c.addBytes bs) := by
  induction seg generalizing k s with
  | nil =>
    simp only [assembleLoop, Option.some.injEq, Prod.mk.injEq, and_true] at h
    subst h
    refine ⟨rfl, [], ?_⟩
    cases s.actChunk <;> simp [MemChunk.addBytes]
  | cons raw seg ih =>
    obtain ⟨s1, hp, hr⟩ := assembleLoop_cons_ok u raw seg k s s9 h
    rw [pcCount_cons] at hseg
    have hpc : isPcLine raw = false := by
      by_cases hb : isPcLine raw = true
      · simp [hb] at hseg
      · simpa using hb
    have hseg1 : pcCount seg = 0 := by omega
    obtain ⟨a1, -, bs1, b1⟩ := processLine_other (u k) s raw k hpc s1 0 hp
    obtain ⟨a2, bs2, b2⟩ := ih (k + 1) s1 hr hseg1
    refine ⟨a2.trans a1, bs1 ++ bs2, ?_⟩
    rw [b2, b1]
    cases s.actChunk with
    | none => rfl
    | some c => simp [addBytes_append]

/-- The first pass up to a line and through it. -/
theorem firstPass_line (u : Nat → Uninit) (pre : List Str) (raw : Str) (post : List Str)
    (s9 : Asm) (h : firstPass u (pre ++ raw :: post) = some (s9, 0)) :
    ∃ sp sq, firstPass u pre = some (sp, 0) ∧ firstPass u (pre ++ [raw]) = some (sq, 0) ∧
      processLine (u (1 + pre.length)) sp raw (1 + pre.length) = some (sq, 0) ∧
      assembleLoop u post (1 + pre.length + 1) sq = some (s9, 0) := by
  unfold firstPass at h ⊢
  obtain ⟨sp, h1, h2⟩ := assembleLoop_prefix u pre (raw :: post) 1 Asm.init s9 h
  obtain ⟨sq, h3, h4⟩ := assembleLoop_cons_ok u raw post _ sp s9 h2
  refine ⟨sp, sq, h1, ?_, h3, h4⟩
  rw [assembleLoop_append u pre [raw] 1 Asm.init sp h1, assembleLoop_cons_of u raw [] _ sp sq h3]
  simp [assembleLoop]

theorem getElem?_append_length {α : Type} (l : List α) (x : α) (t : List α) :
    (l ++ x :: t)[l.length]? = some x := by
  induction l with
  | nil => simp
  | cons y ys ih => simpa using ih

/-- The chunk that the segment of a `.pc` line leaves: the state `sp` where
the segment ends has the current chunk `c`, the lines after it start with a
`.pc` line or there are none, and the run ends in `s1`.  Then `c` finalized is
the chunk of `s1.chunks ++ [last]` at the place `sp.chunks.length`. -/
theorem segment_chunk (u : Nat → Uninit) (post : List Str) (k : Nat) (sp s1 : Asm)
    (c cl : MemChunk) (h : assembleLoop u post k sp = some (s1, 0)) (hc : sp.actChunk = some c)
    (hl : s1.actChunk = some cl) (hpost : ∀ r, post.head? = some r → isPcLine r = true) :
    (s1.chunks ++ [cl.finalize])[sp.chunks.length]? = some c.finalize := by
  cases post with
  | nil =>
    simp only [assembleLoop, Option.some.injEq, Prod.mk.injEq, and_true] at h
    subst h
    rw [hc] at hl
    simp only [Option.some.injEq] at hl
    subst hl
    simp
  | cons r post1 =>
    obtain ⟨s2, hp, hr⟩ := assembleLoop_cons_ok u r post1 k sp s1 h
    obtain ⟨h1, -, -⟩ := processLine_pc (u k) sp r k s2 (hpost r rfl) hp
    obtain ⟨-, ⟨t, ht⟩, -⟩ := assembleLoop_count u post1 (k + 1) s2 s1 hr
    rw [ht, h1, hc]
    simp only [Option.map_some', Option.toList_some, List.append_assoc, List.singleton_append]
    exact getElem?_append_length _ _ _

/-- The chunk layout of every successful run.  A source that a fresh
assembler assembles with result 0 has at least one `.pc` directive, and the
returned list has exactly one chunk for each `.pc` directive.  In the first
pass a `.pc` line opens an empty chunk at the address it sets and any other
line appends bytes to the current chunk.  For the `.pc` line `raw` that follows
the lines `p0`, with the lines `seg` of its segment (up to the next `.pc` line
or the end of the source): the chunk of the returned list numbered by the `.pc`
lines before it starts at the address of `raw` and is the empty chunk at that
address with the bytes `bs` that the lines of `seg` appended: the same length,
and the very bytes when no label was referenced before its definition (the
second pass rewrites bytes in place otherwise). -/
theorem chunk_layout (u : Nat → Uninit) (source : Str) (s : Asm)
    (h : assemble u Asm.init source = some (s, 0)) :
    1 ≤ pcCount (getlines source) ∧ s.chunks.length = pcCount (getlines source) ∧
    (∀ pre raw post, getlines source = pre ++ raw :: post →
      ∃ sp sq, firstPass u pre = some (sp, 0) ∧ firstPass u (pre ++ [raw]) = some (sq, 0) ∧
        (isPcLine raw = true → sq.actChunk = some (MemChunk.fresh sq.actAddress) ∧
          ∀ a, pcLineAddress raw = some a → sq.actAddress = a) ∧
        (isPcLine raw = false →
          ∃ bs, sq.actChunk = sp.actChunk.bind (fun c => c.addBytes bs))) ∧
    (∀ p0 raw seg post, getlines source = (p0 ++ raw :: seg) ++ post → isPcLine raw = true →
      pcCount seg = 0 → (∀ r, post.head? = some r → isPcLine r = true) →
      ∃ sq sp bs c cf, firstPass u (p0 ++ [raw]) = some (sq, 0) ∧
        firstPass u (p0 ++ raw :: seg) = some (sp, 0) ∧
        (∀ a, pcLineAddress raw = some a → sq.actAddress = a) ∧
        (MemChunk.fresh sq.actAddress).addBytes bs = some c ∧ sp.actChunk = some c ∧
        s.chunks[pcCount p0]? = some cf ∧
        cf.startAddress = sq.actAddress ∧ cf.length = c.length ∧
        (s.unresolvedLabels = [] → cf = c.finalize ∧ cf.bytes = c.bytes)) := by
  obtain ⟨s1, cl, hfp, hcl, hres⟩ := assemble_ok u source s h
  obtain ⟨hmap, hunres, hsame⟩ := resolveLoop_layout _ _ _ _ hres
  obtain ⟨hcount, -, -⟩ := assembleLoop_count u (getlines source) 1 Asm.init s1 hfp
  have hinit : Asm.init.chunks.length + Asm.init.actChunk.toList.length = 0 := rfl
  rw [hinit, hcl] at hcount
  simp only [Option.toList_some, List.length_singleton, zero_add] at hcount
  have hlen : s.chunks.length = s1.chunks.length + 1 := by
    have := congrArg List.length hmap
    simpa using this
  refine ⟨by omega, by omega, ?_, ?_⟩
  · intro pre raw post e
    rw [e] at hfp
    obtain ⟨sp, sq, h1, h2, h3, -⟩ := firstPass_line u pre raw post s1 hfp
    refine ⟨sp, sq, h1, h2, ?_, ?_⟩
    · intro hpc
      obtain ⟨-, a2, a3⟩ := processLine_pc _ sp raw _ sq hpc h3
      exact ⟨a2, a3⟩
    · intro hpc
      obtain ⟨-, -, b3⟩ := processLine_other _ sp raw _ hpc sq 0 h3
      exact b3
  · intro p0 raw seg post e hpc hseg hpost
    rw [e] at hfp
    unfold firstPass at hfp
    obtain ⟨sp, h1, h2⟩ := assembleLoop_prefix u (p0 ++ raw :: seg) post 1 Asm.init s1 hfp
    obtain ⟨s0, sq, -, h4, h5, h6⟩ := firstPass_line u p0 raw seg sp h1
    obtain ⟨a1, a2, a3⟩ := processLine_pc _ s0 raw _ sq hpc h5
    obtain ⟨b1, bs, b2⟩ := assembleLoop_segment u seg _ sq sp h6 hseg
    rw [a2, Option.some_bind] at b2
    -- the current chunk where the segment ends
    obtain ⟨-, -, hsome⟩ := assembleLoop_count u seg _ sq sp h6
    have hsp : sp.actChunk.isSome = true := hsome (Or.inr (by simp [a2]))
    obtain ⟨c, hc⟩ := Option.isSome_iff_exists.mp hsp
    rw [hc] at b2
    -- the number of chunks pushed before the segment
    obtain ⟨hq, -, -⟩ := assembleLoop_count u (p0 ++ [raw]) 1 Asm.init sq h4
    rw [hinit, a2, pcCount_append, pcCount_cons] at hq
    simp only [Option.toList_some, List.length_singleton, hpc, ↓reduceIte, pcCount,
      List.filter_nil, List.length_nil, zero_add, add_zero] at hq
    have hidx : sp.chunks.length = (List.filter isPcLine p0).length := by
      rw [b1]
      omega
    have hget := segment_chunk u post _ sp s1 c cl h2 hc hcl hpost
    rw [hidx] at hget
    obtain ⟨cf, g1, g2, g3, -⟩ := layout_getElem s.chunks _ _ _ hmap hget
    refine ⟨sq, sp, bs, c, cf, h4, h1, a3, b2.symm, hc, g1, ?_, ?_, ?_⟩
    · rw [g2, (finalize_layout c).1, addBytes_startAddress _ c bs b2.symm]
      rfl
    · rw [g3, (finalize_layout c).2]
    · intro hu
      have e1 : s1.unresolvedLabels = [] := by
        rw [← hu, hunres]
      have e2 := hsame e1
      rw [e2] at g1
      have e3 : cf = c.finalize := by
        have := g1.symm.trans hget
        simpa using this
      exact ⟨e3, by rw [e3, finalize_bytes]⟩

/-- Scenario 5: `.pc=$1000`, `NOP`, `.pc=$2000`, `NOP` gives two chunks, at
0x1000 and at 0x2000, each the one byte EA. -/
theorem chunk_layout_witness :
    assemble (fun _ => quiet) Asm.init scenario5 = some (scenario5State, 0) ∧
    chunksOf (assemble (fun _ => quiet) Asm.init scenario5) =
      some (0, [(0x1000, [0xea]), (0x2000, [0xea])]) ∧
    (getlines scenario5).map pcLineAddress = [some 0x1000, none, some 0x2000, none] ∧
    pcCount (getlines scenario5) = 2 ∧
    scenario5State.chunks.length = pcCount (getlines scenario5) :=
  ⟨by decide, by decide, by decide, by decide,
    (chunk_layout (fun _ => quiet) scenario5 scenario5State (by decide)).2.1⟩

theorem zeroPageForward_lines :
    getlines zeroPageForward = [S ".pc = $10", S "LDA FWD", S "NOP", S "FWD: RTS"] := by
  decide

theorem zeroPageForward_line1 (v : Uninit) :
    processLine v (zeroPageForwardState 0) (S ".pc = $10") 1
      = some (zeroPageForwardState 1, 0) := by
  rfl

theorem zeroPageForward_line2 (v : Uninit) :
    processLine v (zeroPageForwardState 1) (S "LDA FWD") 2
      = some (zeroPageForwardState 2, 0) := by
  rfl

theorem zeroPageForward_line3 (v : Uninit) :
    processLine v (zeroPageForwardState 2) (S "NOP") 3 = some (zeroPageForwardState 3, 0) := by
  rfl

theorem zeroPageForward_line4 (v : Uninit) :
    processLine v (zeroPageForwardState 3) (S "FWD: RTS") 4
      = some (zeroPageForwardState 4, 0) := by
  rfl

/-- C9 (chunk layout) at `.pc = $10`, `LDA FWD`, `NOP`, `FWD: RTS`.  The first
pass appends `A5 10` for the reference (the zero-page form, chosen from the
program counter that stands in for the label), `EA` for `NOP` and `60` for
`RTS`.  The second pass writes the address of `FWD` as a word at 0x11, and the
returned chunk is `A5 13 00 60`: the byte of the line `NOP` is overwritten, so
the bytes of the chunk are not the bytes of its lines. -/
theorem zero_page_reference_overwrites_next_line (u : Nat → Uninit) :
    firstPass u (getlines zeroPageForward) = some (zeroPageForwardState 4, 0) ∧
    (zeroPageForwardState 4).actChunk.map MemChunk.bytes = some [0xa5, 0x10, 0xea, 0x60] ∧
    chunksOf (assemble u Asm.init zeroPageForward)
      = some (0, [(0x10, [0xa5, 0x13, 0x00, 0x60])]) := by
  have hloop : assembleLoop u (getlines zeroPageForward) 1 (zeroPageForwardState 0)
      = some (zeroPageForwardState 4, 0) := by
    rw [zeroPageForward_lines,
      assembleLoop_step u _ _ 1 2 _ _ rfl (zeroPageForward_line1 (u 1)),
      assembleLoop_step u _ _ 2 3 _ _ rfl (zeroPageForward_line2 (u 2)),
      assembleLoop_step u _ _ 3 4 _ _ rfl (zeroPageForward_line3 (u 3)),
      assembleLoop_step u _ _ 4 5 _ _ rfl (zeroPageForward_line4 (u 4))]
    rfl
  refine ⟨hloop, by decide, ?_⟩
  rw [assemble_of_loop u Asm.init (zeroPageForwardState 4) zeroPageForward hloop]
  decide

/-! ## The data directives and the labels at concrete inputs -/

/-- C13, the code at a failing input: `.word $1234` appends `34 00`, not
`34 12`: the value is cast to a byte before `addWord` splits it, so the high
byte is always 0 (`.word 4660` likewise). -/
theorem word_directive_drops_high_byte :
    chunksOf (assemble (fun _ => quiet) Asm.init (S ".pc = $1000\n.word $1234"))
      = some (0, [(0x1000, [0x34, 0x00])]) ∧
    chunksOf (assemble (fun _ => quiet) Asm.init (S ".pc = $1000\n.word 4660"))
      = some (0, [(0x1000, [0x34, 0x00])]) ∧
    (MemChunk.fresh 0x1000).addWord 0x1234 = some
      { bufferSize := 256, startAddress := 0x1000, length := 2, data := some (buffer256 [0x34, 0x12]) } := by
  decide

/-- C16, the code at a failing input: a label bound to the address 0 reads as
not defined, so its second definition passes: `.pc = $0`, `A: NOP`, `A: NOP`
returns 0 with the chunk `EA EA`, and so does a label defined twice before any
`.pc`; at 0x1000 the second definition fails with "Label already defined: A". -/
theorem label_redefined_at_address_0 :
    chunksOf (assemble (fun _ => quiet) Asm.init (S ".pc = $0\nA: NOP\nA: NOP"))
      = some (0, [(0, [0xea, 0xea])]) ∧
    chunksOf (assemble (fun _ => quiet) Asm.init (S "A:\nA:\n.pc = $1000\nNOP"))
      = some (0, [(0x1000, [0xea])]) ∧
    reportOf (assemble (fun _ => quiet) Asm.init (S ".pc = $1000\nA: NOP\nA: NOP"))
      = some (-1, S "Label already defined: A", 3, S "A: NOP") := by
  decide

/-- C18, the code at a failing input: `START` is defined once, at the address
0, and `JMP START` fails with "Unresolved label definition 'START'", whether the
definition comes before the reference or after it. -/
theorem label_at_address_0_unresolved :
    reportOf (assemble (fun _ => quiet) Asm.init
        (S ".pc = $0\nSTART: NOP\n.pc = $1000\nJMP START"))
      = some (-1, S "Unresolved label definition 'START'", 4, S "JMP START") ∧
    reportOf (assemble (fun _ => quiet) Asm.init
        (S ".pc = $1000\nJMP START\n.pc = $0\nSTART: NOP"))
      = some (-1, S "Unresolved label definition 'START'", 2, S "JMP START") := by
  decide

/-! ## Runs of a class before the rest of the input -/

/-- A greedy star over a run of its class that ends where the class ends:
the continuation gets the rest when it succeeds there. -/
theorem starGo_run (p : Nat → Bool) (xs rest : Str) (h : ∀ x ∈ xs, p x = true)
    (hrest : ∀ y ys, rest = y :: ys → p y = false) (k : Str → Option MatchRes)
    (hk : (k rest).isSome = true) : starGo p k (xs ++ rest) = k rest := by
  obtain ⟨r, hr⟩ := Option.isSome_iff_exists.mp hk
  rw [hr]
  apply starGo_append p k xs rest r h
  rw [starGo_of_head p rest hrest k]
  exact hr

/-- A greedy star over a run of its class fails when the continuation fails
after every part of the run. -/
theorem starGo_run_none (p : Nat → Bool) (xs rest : Str)
    (hrest : ∀ y ys, rest = y :: ys → p y = false) (k : Str → Option MatchRes)
    (hk : ∀ pre t, xs = pre ++ t → k (t ++ rest) = none) : starGo p k (xs ++ rest) = none := by
  induction xs with
  | nil =>
    rw [List.nil_append, starGo_of_head p rest hrest k]
    exact hk [] [] rfl
  | cons x xs ih =>
    rw [List.cons_append, starGo_cons]
    have h1 : starGo p k (xs ++ rest) = none :=
      ih (fun pre t e => hk (x :: pre) t (by rw [e]; rfl))
    have h2 : k (x :: (xs ++ rest)) = none := hk [] (x :: xs) rfl
    rw [h1, h2]
    split <;> rfl

theorem take_sub_length (v rest : Str) :
    (v ++ rest).take ((v ++ rest).length - rest.length) = v := by
  simp

/-! ## One element of a data directive -/

/-- The element pattern on `%` and binary digits. -/
theorem dataElement_bin (total : Nat) (K : Str → Caps → Option MatchRes) (c : Caps)
    (b : Nat) (bs rest : Str) (hb : isBinBar b = true) (hbs : ∀ x ∈ bs, isBinBar x = true)
    (hrest : ∀ y ys, rest = y :: ys → isBinBar y = false)
    (hK : (K rest ((1, 37 :: b :: bs) :: (2, 37 :: b :: bs) :: c)).isSome = true) :
    matchK dataElement total K (37 :: b :: (bs ++ rest)) c
      = K rest ((1, 37 :: b :: bs) :: (2, 37 :: b :: bs) :: c) := by
  have ht := take_sub_length (37 :: b :: bs) rest
  simp only [List.cons_append] at ht
  simp only [dataElement, matchK, RE.ch, RE.plus, isCh, hb]
  have hs := starGo_run isBinBar bs rest hbs hrest
    (fun t => K t ((1, List.take ((37 :: b :: (bs ++ rest)).length - t.length)
        (37 :: b :: (bs ++ rest))) ::
      (2, List.take ((37 :: b :: (bs ++ rest)).length - t.length)
        (37 :: b :: (bs ++ rest))) :: c))
    (by simpa only [ht] using hK)
  simp only [ht] at hs
  simp only [show ((37 : Nat) == Char.toNat '%') = true from by decide, if_true, hs]
  obtain ⟨r, hr⟩ := Option.isSome_iff_exists.mp hK
  simp only [hr]

/-- The element pattern on `$` and lower-case hexadecimal digits. -/
theorem dataElement_hex (total : Nat) (K : Str → Caps → Option MatchRes) (c : Caps)
    (b : Nat) (bs rest : Str) (hb : isHexLower b = true) (hbs : ∀ x ∈ bs, isHexLower x = true)
    (hrest : ∀ y ys, rest = y :: ys → isHexLower y = false)
    (hK : (K rest ((1, 36 :: b :: bs) :: (3, 36 :: b :: bs) :: c)).isSome = true) :
    matchK dataElement total K (36 :: b :: (bs ++ rest)) c
      = K rest ((1, 36 :: b :: bs) :: (3, 36 :: b :: bs) :: c) := by
  have ht := take_sub_length (36 :: b :: bs) rest
  simp only [List.cons_append] at ht
  simp only [dataElement, matchK, RE.ch, RE.plus, isCh, hb]
  have hs := starGo_run isHexLower bs rest hbs hrest
    (fun t => K t ((1, List.take ((36 :: b :: (bs ++ rest)).length - t.length)
        (36 :: b :: (bs ++ rest))) ::
      (3, List.take ((36 :: b :: (bs ++ rest)).length - t.length)
        (36 :: b :: (bs ++ rest))) :: c))
    (by simpa only [ht] using hK)
  simp only [ht] at hs
  simp only [show ((36 : Nat) == Char.toNat '%') = false from by decide,
    show ((36 : Nat) == Char.toNat '$') = true from by decide, Bool.false_eq_true, if_false,
    if_true, hs]
  obtain ⟨r, hr⟩ := Option.isSome_iff_exists.mp hK
  simp only [hr]

theorem isDigit_facts {x : Nat} (h : isDigit x = true) :
    (x == Char.toNat '%') = false ∧ (x == Char.toNat '$') = false ∧ isSpace x = false ∧
    isHexLower x = true ∧ isDot x = true ∧ x ≠ 44 ∧ x ≠ 59 ∧ x ≠ 10 ∧ isWord x = true := by
  have h1 : 48 ≤ x ∧ x ≤ 57 := by simpa [isDigit] using h
  have e1 : Char.toNat '%' = 37 := by decide
  have e2 : Char.toNat '$' = 36 := by decide
  rw [e1, e2]
  simp only [isSpace, isHexLower, isDot, isDigit, isWord, isAlpha, isUpper, isLower,
    beq_eq_false_iff_ne, Bool.or_eq_false_iff, Bool.and_eq_false_iff, Bool.or_eq_true,
    Bool.and_eq_true, decide_eq_true_eq, decide_eq_false_iff_not, bne_iff_ne, ne_eq,
    beq_iff_eq]
  omega

/-- The element pattern on decimal digits. -/
theorem dataElement_dec (total : Nat) (K : Str → Caps → Option MatchRes) (c : Caps)
    (b : Nat) (bs rest : Str) (hb : isDigit b = true) (hbs : ∀ x ∈ bs, isDigit x = true)
    (hrest : ∀ y ys, rest = y :: ys → isDigit y = false)
    (hK : (K rest ((1, b :: bs) :: (4, b :: bs) :: c)).isSome = true) :
    matchK dataElement total K (b :: (bs ++ rest)) c
      = K rest ((1, b :: bs) :: (4, b :: bs) :: c) := by
  have ht := take_sub_length (b :: bs) rest
  simp only [List.cons_append] at ht
  obtain ⟨f1, f2, -⟩ := isDigit_facts hb
  simp only [dataElement, matchK, RE.ch, RE.plus, isCh, hb, f1, f2]
  have hs := starGo_run isDigit bs rest hbs hrest
    (fun t => K t ((1, List.take ((b :: (bs ++ rest)).length - t.length)
        (b :: (bs ++ rest))) ::
      (4, List.take ((b :: (bs ++ rest)).length - t.length)
        (b :: (bs ++ rest))) :: c))
    (by simpa only [ht] using hK)
  simp only [ht] at hs
  simp only [Bool.false_eq_true, if_false, if_true, hs]

/-- The element pattern fails on `%` and binary digits when what follows it
fails wherever the digits may be cut. -/
theorem dataElement_bin_none (total : Nat) (K : Str → Caps → Option MatchRes) (c : Caps)
    (b : Nat) (bs : Str) (hK : ∀ pre t d, bs = pre ++ t → K t d = none) :
    matchK dataElement total K (37 :: b :: bs) c = none := by
  simp only [dataElement, matchK, RE.ch, RE.plus, isCh]
  have hs : ∀ k2 : Str → Caps, starGo isBinBar (fun t => K t (k2 t)) bs = none := by
    intro k2
    apply starGo_eq_none
    intro pre t e _
    exact hK pre t _ e
  simp only [show ((37 : Nat) == Char.toNat '%') = true from by decide,
    show ((37 : Nat) == Char.toNat '$') = false from by decide,
    show isDigit 37 = false from by decide, Bool.false_eq_true, if_false, if_true]
  rw [hs]
  simp

theorem dataElement_hex_none (total : Nat) (K : Str → Caps → Option MatchRes) (c : Caps)
    (b : Nat) (bs : Str) (hK : ∀ pre t d, bs = pre ++ t → K t d = none) :
    matchK dataElement total K (36 :: b :: bs) c = none := by
  simp only [dataElement, matchK, RE.ch, RE.plus, isCh]
  have hs : ∀ k2 : Str → Caps, starGo isHexLower (fun t => K t (k2 t)) bs = none := by
    intro k2
    apply starGo_eq_none
    intro pre t e _
    exact hK pre t _ e
  simp only [show ((36 : Nat) == Char.toNat '%') = false from by decide,
    show ((36 : Nat) == Char.toNat '$') = true from by decide,
    show isDigit 36 = false from by decide, Bool.false_eq_true, if_false, if_true]
  rw [hs]
  simp

theorem dataElement_dec_none (total : Nat) (K : Str → Caps → Option MatchRes) (c : Caps)
    (b : Nat) (bs : Str) (hb : isDigit b = true)
    (hK : ∀ pre t d, bs = pre ++ t → K t d = none) :
    matchK dataElement total K (b :: bs) c = none := by
  obtain ⟨f1, f2, -⟩ := isDigit_facts hb
  simp only [dataElement, matchK, RE.ch, RE.plus, isCh, f1, f2, hb]
  have hs : ∀ k2 : Str → Caps, starGo isDigit (fun t => K t (k2 t)) bs = none := by
    intro k2
    apply starGo_eq_none
    intro pre t e _
    exact hK pre t _ e
  simp only [Bool.false_eq_true, if_false, if_true]
  rw [hs]

theorem isBin_facts {x : Nat} (h : isBin x = true) :
    isBinBar x = true ∧ isDigit x = true ∧ digitVal x < 2 := by
  have h1 : x = 48 ∨ x = 49 := by simpa [isBin] using h
  rcases h1 with rfl | rfl <;> decide

theorem isHexLower_more {x : Nat} (h : isHexLower x = true) :
    isSpace x = false ∧ x ≠ 44 ∧ x ≠ 59 ∧ x ≠ 10 ∧ isDot x = true ∧ isDigit 36 = false ∧
    digitVal x < 16 ∧ (isDigit x || isLower x || isUpper x) = true := by
  have h1 : (97 ≤ x ∧ x ≤ 102) ∨ (48 ≤ x ∧ x ≤ 57) := by
    simpa [isHexLower, isDigit] using h
  refine ⟨?_, ?_, ?_, ?_, ?_, by decide, ?_, ?_⟩
  · simp only [isSpace, Bool.or_eq_false_iff, Bool.and_eq_false_iff, beq_eq_false_iff_ne,
      decide_eq_false_iff_not]
    omega
  · omega
  · omega
  · omega
  · simp only [isDot, bne_iff_ne, ne_eq]
    omega
  · unfold digitVal
    rcases h1 with h1 | h1
    · have e1 : isDigit x = false := by
        simp only [isDigit, Bool.and_eq_false_iff, decide_eq_false_iff_not]
        omega
      have e2 : isLower x = true := by
        simp only [isLower, Bool.and_eq_true, decide_eq_true_eq]
        omega
      simp only [e1, e2, Bool.false_eq_true, if_false, if_true]
      omega
    · have e1 : isDigit x = true := by
        simp only [isDigit, Bool.and_eq_true, decide_eq_true_eq]
        omega
      simp only [e1, if_true]
      omega
  · simp only [isDigit, isLower, isUpper, Bool.or_eq_true, Bool.and_eq_true, decide_eq_true_eq]
    omega

/-- The three shapes of a number text of a data directive. -/
theorem dataValue_shape (v : Str) (n : Nat) (h : dataValue v = some n) :
    (∃ b bs, v = 37 :: b :: bs ∧ isBin b = true ∧ (∀ x ∈ bs, isBin x = true) ∧
      n = digitsValue 2 (b :: bs)) ∨
    (∃ b bs, v = 36 :: b :: bs ∧ isHexLower b = true ∧ (∀ x ∈ bs, isHexLower x = true) ∧
      n = digitsValue 16 (b :: bs)) ∨
    (∃ b bs, v = b :: bs ∧ isDigit b = true ∧ (∀ x ∈ bs, isDigit x = true) ∧
      n = digitsValue 10 (b :: bs)) := by
  cases v with
  | nil => simp [dataValue] at h
  | cons x ds =>
    unfold dataValue at h
    by_cases h36 : (x == 36) = true
    · have hx : x = 36 := by simpa using h36
      subst hx
      simp only [beq_self_eq_true, if_true] at h
      cases ds with
      | nil => simp at h
      | cons b bs =>
        right
        left
        by_cases hall : (b :: bs).all isHexLower = true
        · have hne : (b :: bs != []) = true := by simp
          simp only [hall, hne, Bool.and_self, if_true, Option.some.injEq] at h
          simp only [List.all_cons, Bool.and_eq_true, List.all_eq_true] at hall
          exact ⟨b, bs, rfl, hall.1, hall.2, h.symm⟩
        · simp [hall] at h
    · simp only [h36, Bool.false_eq_true, if_false] at h
      by_cases h37 : (x == 37) = true
      · have hx : x = 37 := by simpa using h37
        subst hx
        simp only [beq_self_eq_true, if_true] at h
        cases ds with
        | nil => simp at h
        | cons b bs =>
          left
          by_cases hall : (b :: bs).all isBin = true
          · have hne : (b :: bs != []) = true := by simp
            simp only [hall, hne, Bool.and_self, if_true, Option.some.injEq] at h
            simp only [List.all_cons, Bool.and_eq_true, List.all_eq_true] at hall
            exact ⟨b, bs, rfl, hall.1, hall.2, h.symm⟩
          · simp [hall] at h
      · simp only [h37, Bool.false_eq_true, if_false] at h
        right
        right
        by_cases hall : (x :: ds).all isDigit = true
        · simp only [hall, if_true, Option.some.injEq] at h
          simp only [List.all_cons, Bool.and_eq_true, List.all_eq_true] at hall
          exact ⟨x, ds, rfl, hall.1, hall.2, h.symm⟩
        · simp [hall] at h

/-- The characters of a number text: no blank, no comma, no `;`, no newline. -/
theorem dataValue_chars (v : Str) (n : Nat) (h : dataValue v = some n) :
    v ≠ [] ∧ ∀ x ∈ v, isSpace x = false ∧ x ≠ 44 ∧ x ≠ 59 ∧ x ≠ 10 ∧ isDot x = true := by
  have f36 : isSpace 36 = false ∧ (36 : Nat) ≠ 44 ∧ (36 : Nat) ≠ 59 ∧ (36 : Nat) ≠ 10 ∧
      isDot 36 = true := by decide
  have f37 : isSpace 37 = false ∧ (37 : Nat) ≠ 44 ∧ (37 : Nat) ≠ 59 ∧ (37 : Nat) ≠ 10 ∧
      isDot 37 = true := by decide
  have fh : ∀ x, isHexLower x = true →
      isSpace x = false ∧ x ≠ 44 ∧ x ≠ 59 ∧ x ≠ 10 ∧ isDot x = true := by
    intro x hx
    obtain ⟨a1, a2, a3, a4, a5, -⟩ := isHexLower_more hx
    exact ⟨a1, a2, a3, a4, a5⟩
  have fd : ∀ x, isDigit x = true →
      isSpace x = false ∧ x ≠ 44 ∧ x ≠ 59 ∧ x ≠ 10 ∧ isDot x = true :=
    fun x hx => fh x (isDigit_facts hx).2.2.2.1
  have fb : ∀ x, isBin x = true →
      isSpace x = false ∧ x ≠ 44 ∧ x ≠ 59 ∧ x ≠ 10 ∧ isDot x = true :=
    fun x hx => fd x (isBin_facts hx).2.1
  rcases dataValue_shape v n h with ⟨b, bs, rfl, hb, hbs, -⟩ | ⟨b, bs, rfl, hb, hbs, -⟩ |
    ⟨b, bs, rfl, hb, hbs, -⟩
  · refine ⟨by simp, ?_⟩
    intro x hx
    simp only [List.mem_cons] at hx
    rcases hx with rfl | rfl | hx
    · exact f37
    · exact fb _ hb
    · exact fb x (hbs x hx)
  · refine ⟨by simp, ?_⟩
    intro x hx
    simp only [List.mem_cons] at hx
    rcases hx with rfl | rfl | hx
    · exact f36
    · exact fh _ hb
    · exact fh x (hbs x hx)
  · refine ⟨by simp, ?_⟩
    intro x hx
    simp only [List.mem_cons] at hx
    rcases hx with rfl | hx
    · exact fd _ hb
    · exact fd x (hbs x hx)

/-- The element pattern takes a whole number text that a comma, a blank or
the end of the input follows. -/
theorem dataElement_value (v : Str) (n : Nat) (h : dataValue v = some n) (rest : Str)
    (hrest : ∀ y ys, rest = y :: ys → y = 44 ∨ isSpace y = true) :
    ∃ g, ∀ (total : Nat) (K : Str → Caps → Option MatchRes) (c : Caps),
      (K rest ((1, v) :: (g, v) :: c)).isSome = true →
      matchK dataElement total K (v ++ rest) c = K rest ((1, v) :: (g, v) :: c) := by
  have hr : ∀ y ys, rest = y :: ys →
      isBinBar y = false ∧ isHexLower y = false ∧ isDigit y = false := by
    intro y ys e
    rcases hrest y ys e with rfl | hy
    · decide
    · have h1 : y = 32 ∨ (9 ≤ y ∧ y ≤ 13) := by simpa [isSpace] using hy
      simp only [isBinBar, isHexLower, isDigit, Bool.or_eq_false_iff, Bool.and_eq_false_iff,
        beq_eq_false_iff_ne, decide_eq_false_iff_not]
      omega
  rcases dataValue_shape v n h with ⟨b, bs, rfl, hb, hbs, -⟩ | ⟨b, bs, rfl, hb, hbs, -⟩ |
    ⟨b, bs, rfl, hb, hbs, -⟩
  · exact ⟨2, fun total K c hK =>
      dataElement_bin total K c b bs rest (isBin_facts hb).1
        (fun x hx => (isBin_facts (hbs x hx)).1) (fun y ys e => (hr y ys e).1) hK⟩
  · exact ⟨3, fun total K c hK =>
      dataElement_hex total K c b bs rest hb hbs (fun y ys e => (hr y ys e).2.1) hK⟩
  · exact ⟨4, fun total K c hK =>
      dataElement_dec total K c b bs rest hb hbs (fun y ys e => (hr y ys e).2.2) hK⟩

/-- The element pattern fails on a number text at the end of the input when
what follows it fails wherever the text may be cut. -/
theorem dataElement_value_none (v : Str) (n : Nat) (h : dataValue v = some n) (total : Nat)
    (K : Str → Caps → Option MatchRes) (c : Caps)
    (hK : ∀ pre t d, v = pre ++ t → pre ≠ [] → K t d = none) :
    matchK dataElement total K v c = none := by
  rcases dataValue_shape v n h with ⟨b, bs, rfl, hb, hbs, -⟩ | ⟨b, bs, rfl, hb, hbs, -⟩ |
    ⟨b, bs, rfl, hb, hbs, -⟩
  · exact dataElement_bin_none total K c b bs
      (fun pre t d e => hK (37 :: b :: pre) t d (by rw [e]; rfl) (by simp))
  · exact dataElement_hex_none total K c b bs
      (fun pre t d e => hK (36 :: b :: pre) t d (by rw [e]; rfl) (by simp))
  · exact dataElement_dec_none total K c b bs hb
      (fun pre t d e => hK (b :: pre) t d (by rw [e]; rfl) (by simp))

/-! ## The elements of a data directive -/

/-- The part `\s*,\s*` of `getSingleElement` on a comma, a blank and the next
element. -/
theorem comma_blank (total : Nat) (next : Str) (d : Caps)
    (hnext : ∀ y ys, next = y :: ys → isSpace y = false) :
    matchK (RE.cat [RE.star isSpace, RE.ch ',', RE.star isSpace]) total
      (fun t c => some (c, t)) (44 :: 32 :: next) d = some (d, next) := by
  have h := starGo_of_head isSpace next hnext
  simp [RE.cat, RE.ch, matchK, starGo_cons, isCh, isSpace, h]

/-- The part `\s*,\s*` of `getSingleElement` fails inside a number text and at
its end. -/
theorem comma_blank_none (total : Nat) (t : Str) (d : Caps)
    (k : Str → Caps → Option MatchRes)
    (ht : ∀ x ∈ t, isSpace x = false ∧ x ≠ 44) :
    matchK (RE.cat [RE.star isSpace, RE.ch ',', RE.star isSpace]) total k t d = none := by
  cases t with
  | nil => simp [RE.cat, RE.ch, matchK, starGo]
  | cons x xs =>
    obtain ⟨h1, h2⟩ := ht x (by simp)
    simp [RE.cat, RE.ch, matchK, starGo_cons, isCh, h1, h2]

theorem getSingleElement_eq (total : Nat) (k : Str → Caps → Option MatchRes) (s : Str)
    (c : Caps) :
    matchK getSingleElement total k s c =
      starGo isSpace (fun t => matchK dataElement total
        (fun t1 d => matchK (RE.cat [RE.star isSpace, RE.ch ',', RE.star isSpace]) total k t1 d)
        t c) s := rfl

/-- The pattern `getSingleElement` consumes a number text, a comma and a
blank. -/
theorem consume_single (v : Str) (n : Nat) (h : dataValue v = some n) (next : Str)
    (hnext : ∀ y ys, next = y :: ys → isSpace y = false) :
    ∃ g, consume getSingleElement (v ++ 44 :: 32 :: next) = some ([(1, v), (g, v)], next) := by
  obtain ⟨hne, hchars⟩ := dataValue_chars v n h
  obtain ⟨g, hg⟩ := dataElement_value v n h (44 :: 32 :: next)
    (fun y ys e => Or.inl (by simpa using (List.cons.inj e).1.symm))
  refine ⟨g, ?_⟩
  unfold consume matchAt
  rw [getSingleElement_eq, starGo_of_head]
  · rw [hg]
    · exact comma_blank _ next _ hnext
    · rw [comma_blank _ next _ hnext]
      rfl
  · intro y ys e
    cases v with
    | nil => exact absurd rfl hne
    | cons x xs =>
      simp only [List.cons_append, List.cons.injEq] at e
      rw [← e.1]
      exact (hchars x (by simp)).1

/-- The pattern `getSingleElement` does not match a number text that nothing
follows. -/
theorem consume_single_none (v : Str) (n : Nat) (h : dataValue v = some n) :
    consume getSingleElement v = none := by
  obtain ⟨hne, hchars⟩ := dataValue_chars v n h
  unfold consume matchAt
  rw [getSingleElement_eq, starGo_of_head]
  · apply dataElement_value_none v n h
    intro pre t d e _
    apply comma_blank_none
    intro x hx
    have := hchars x (by rw [e]; simp [hx])
    exact ⟨this.1, this.2.1⟩
  · intro y ys e
    rw [e] at hchars
    exact (hchars y (by simp)).1

/-- The pattern `getLastElement` consumes a number text that nothing
follows. -/
theorem consume_last (v : Str) (n : Nat) (h : dataValue v = some n) :
    ∃ g, consume getLastElement v = some ([(1, v), (g, v)], []) := by
  obtain ⟨hne, hchars⟩ := dataValue_chars v n h
  obtain ⟨g, hg⟩ := dataElement_value v n h [] (fun y ys e => by cases e)
  refine ⟨g, ?_⟩
  have e1 : ∀ (total : Nat) (k : Str → Caps → Option MatchRes) (s : Str) (c : Caps),
      matchK getLastElement total k s c =
        starGo isSpace (fun t => matchK dataElement total
          (fun t1 d => starGo isSpace (fun t2 => k t2 d) t1) t c) s := fun _ _ _ _ => rfl
  unfold consume matchAt
  rw [e1, starGo_of_head]
  · have := hg v.length (fun t1 d => starGo isSpace (fun t2 => some (d, t2)) t1) []
      (by simp [starGo])
    rw [List.append_nil] at this
    rw [this]
    simp [starGo]
  · intro y ys e
    rw [e] at hchars
    exact (hchars y (by simp)).1

/-! ## The list of values of a data directive -/

theorem intercalate_single (v : Str) : (S ", ").intercalate [v] = v := by
  simp [List.intercalate, List.intersperse]

theorem intercalate_cons (v w : Str) (ws : List Str) :
    (S ", ").intercalate (v :: w :: ws) = v ++ 44 :: 32 :: (S ", ").intercalate (w :: ws) := by
  have e : S ", " = [44, 32] := by decide
  simp [List.intercalate, List.intersperse, e]

theorem intercalate_head (w : Str) (ws : List Str) (p : Nat → Prop) (hw : w ≠ [])
    (h : ∀ x ∈ w, p x) : ∀ y ys, (S ", ").intercalate (w :: ws) = y :: ys → p y := by
  intro y ys e
  cases w with
  | nil => exact absurd rfl hw
  | cons x xs =>
    cases ws with
    | nil =>
      rw [intercalate_single] at e
      rw [← (List.cons.inj e).1]
      exact h x (by simp)
    | cons w2 ws2 =>
      rw [intercalate_cons] at e
      rw [← (List.cons.inj e).1]
      exact h x (by simp)

/-- The loop over `getSingleElement` reads every value but the last one. -/
theorem consumeElements_list (vs : List Str) (last : Str)
    (h : ∀ v ∈ vs ++ [last], ∃ n, dataValue v = some n) :
    ∀ fuel, vs.length < fuel →
      consumeElements fuel ((S ", ").intercalate (vs ++ [last])) = (vs, last) := by
  induction vs with
  | nil =>
    intro fuel hf
    obtain ⟨n, hn⟩ := h last (by simp)
    cases fuel with
    | zero => omega
    | succ f =>
      simp only [List.nil_append, intercalate_single, consumeElements,
        consume_single_none last n hn]
  | cons v vs ih =>
    intro fuel hf
    obtain ⟨n, hn⟩ := h v (by simp)
    have h2 : ∀ w ∈ vs ++ [last], ∃ n, dataValue w = some n :=
      fun w hw => h w (by simp only [List.cons_append, List.mem_cons]; exact Or.inr hw)
    cases fuel with
    | zero => omega
    | succ f =>
      have hf2 : vs.length < f := by
        simp only [List.length_cons] at hf
        omega
      obtain ⟨w, ws, e⟩ : ∃ w ws, vs ++ [last] = w :: ws := by
        cases vs with
        | nil => exact ⟨last, [], rfl⟩
        | cons a as => exact ⟨a, as ++ [last], rfl⟩
      obtain ⟨m, hm⟩ := h2 w (by rw [e]; simp)
      obtain ⟨hwne, hwch⟩ := dataValue_chars w m hm
      have hnext := intercalate_head w ws (fun x => isSpace x = false) hwne
        (fun x hx => (hwch x hx).1)
      obtain ⟨g, hg⟩ := consume_single v n hn _ hnext
      have ih2 := ih h2 f hf2
      rw [e] at ih2
      simp only [List.cons_append, e, intercalate_cons, consumeElements, hg, ih2]
      simp [capGet]

theorem commas_intercalate (vs : List Str) (last : Str)
    (h : ∀ v ∈ vs ++ [last], 44 ∉ v) :
    countChars ((S ", ").intercalate (vs ++ [last])) 44 = (vs.length : Int) := by
  induction vs with
  | nil =>
    have := h last (by simp)
    simp only [List.nil_append, intercalate_single, countChars, List.length_nil,
      Nat.cast_zero, Nat.cast_eq_zero, List.length_eq_zero, List.filter_eq_nil_iff]
    intro x hx
    simp only [beq_iff_eq]
    intro e
    exact this (e ▸ hx)
  | cons v vs ih =>
    have h2 : ∀ w ∈ vs ++ [last], 44 ∉ w :=
      fun w hw => h w (by simp only [List.cons_append, List.mem_cons]; exact Or.inr hw)
    obtain ⟨w, ws, e⟩ : ∃ w ws, vs ++ [last] = w :: ws := by
      cases vs with
      | nil => exact ⟨last, [], rfl⟩
      | cons a as => exact ⟨a, as ++ [last], rfl⟩
    have ih2 := ih h2
    rw [e] at ih2
    have hv := h v (by simp)
    have hv0 : (List.filter (fun x => x == 44) v) = [] := by
      rw [List.filter_eq_nil_iff]
      intro x hx
      simp only [beq_iff_eq]
      intro e1
      exact hv (e1 ▸ hx)
    unfold countChars at ih2 ⊢
    simp only [List.cons_append, e, intercalate_cons, List.filter_append, hv0, List.nil_append,
      List.length_cons]
    have e44 : List.filter (fun x => x == 44) (44 :: 32 :: (S ", ").intercalate (w :: ws))
        = 44 :: List.filter (fun x => x == 44) ((S ", ").intercalate (w :: ws)) := by
      simp [List.filter_cons]
    rw [e44]
    simp only [List.length_cons, Nat.cast_add, Nat.cast_one, add_left_inj]
    exact_mod_cast ih2

/-! ## The line of a directive with an argument -/

theorem isWord_facts {x : Nat} (h : isWord x = true) :
    isDot x = true ∧ isSpace x = false ∧ x ≠ 59 ∧ x ≠ 44 ∧ x ≠ 10 := by
  have h1 : (65 ≤ x ∧ x ≤ 90) ∨ (97 ≤ x ∧ x ≤ 122) ∨ (48 ≤ x ∧ x ≤ 57) ∨ x = 95 := by
    simp only [isWord, isAlpha, isUpper, isLower, isDigit, Bool.or_eq_true, Bool.and_eq_true,
      decide_eq_true_eq, beq_iff_eq] at h
    omega
  simp only [isDot, isSpace, bne_iff_ne, ne_eq, Bool.or_eq_false_iff, Bool.and_eq_false_iff,
    beq_eq_false_iff_ne, decide_eq_false_iff_not]
  omega

/-- The three patterns of `checkDirectives` on a line `.keyword argument`: a
directive, its keyword and its argument. -/
theorem directive_line_patterns (k0 : Nat) (ks ds : Str) (hk0 : isWord k0 = true)
    (hks : ∀ x ∈ ks, isWord x = true) (hhead : ∀ y ys, ds = y :: ys → isSpace y = false)
    (hdot : ∀ x ∈ ds, isDot x = true) :
    (fullMatch searchDirective (46 :: k0 :: (ks ++ 32 :: ds))).isSome = true ∧
    fullMatch extractKeyword (46 :: k0 :: (ks ++ 32 :: ds)) = some [(1, k0 :: ks)] ∧
    fullMatch getDataElements (46 :: k0 :: (ks ++ 32 :: ds)) = some [(1, ds)] := by
  have hall : ∀ x ∈ k0 :: (ks ++ 32 :: ds), isDot x = true := by
    intro x hx
    simp only [List.mem_cons, List.mem_append] at hx
    rcases hx with rfl | hx | rfl | hx
    · exact (isWord_facts hk0).1
    · exact (isWord_facts (hks x hx)).1
    · decide
    · exact hdot x hx
  have hrest : ∀ x ∈ 32 :: ds, isDot x = true := fun x hx => hall x (by simp [hx])
  have h1 := starGo_all_eq isDot (k0 :: (ks ++ 32 :: ds)) hall
  have h2 := starGo_all_eq isDot (32 :: ds) hrest
  have h3 := starGo_all_eq isDot ds hdot
  have h4 := starGo_of_head isSpace ds hhead
  have h5 := starGo_run isWord ks (32 :: ds) hks (fun y ys e => by
    rw [← (List.cons.inj e).1]
    decide)
  have ht := take_sub_length (k0 :: ks) (32 :: ds)
  simp only [List.cons_append] at ht
  refine ⟨?_, ?_, ?_⟩
  · simp [fullMatch, searchDirective, RE.cat, RE.ch, matchK, starGo_cons, isCh, isSpace, h1]
  · simp only [fullMatch, extractKeyword, RE.cat, RE.ch, RE.plus, matchK, isCh]
    rw [starGo_cons]
    simp only [show isSpace 46 = false from by decide, Bool.false_eq_true, if_false,
      show ((46 : Nat) == Char.toNat '.') = true from by decide, if_true, hk0]
    rw [h5]
    · rw [h2]
      · simp only [List.length_cons, List.length_append, Nat.add_sub_cancel, beq_self_eq_true,
          if_true, Option.some.injEq, List.cons.injEq, Prod.mk.injEq, true_and, and_true]
        have e2 : ks.length + (ds.length + 1) + 1 - (ds.length + 1) = (k0 :: ks).length := by
          simp only [List.length_cons]
          omega
        rw [e2]
        exact List.take_left (k0 :: ks) (32 :: ds)
      · simp
    · rw [h2]
      · simp
      · simp
  · simp only [fullMatch, getDataElements, RE.cat, RE.ch, RE.plus, matchK, isCh]
    rw [starGo_cons]
    simp only [show isSpace 46 = false from by decide, Bool.false_eq_true, if_false,
      show ((46 : Nat) == Char.toNat '.') = true from by decide, if_true, hk0]
    rw [h5]
    · simp only [show isSpace 32 = true from by decide, if_true]
      rw [h4, h3]
      · simp [starGo]
      · simp [starGo]
    · simp only [show isSpace 32 = true from by decide, if_true]
      rw [h4, h3]
      · simp [starGo]
      · simp [starGo]

/-! ## The conversion of the values of a data directive -/

theorem leadingDigits_all (base : Nat) (s : Str)
    (h : ∀ x ∈ s, ((isDigit x || isLower x || isUpper x) && decide (digitVal x < base)) = true) :
    leadingDigits base s = s := by
  unfold leadingDigits
  rw [List.takeWhile_eq_self_iff]
  exact h

theorem intOfValue_small (n : Nat) (h : n < 2147483648) : intOfValue n = (n : Int) := by
  unfold intOfValue
  have e : min n 9223372036854775807 = n := by omega
  rw [e]
  unfold wrap32
  omega

theorem strtolInt_dec (b : Nat) (bs : Str) (hb : isDigit b = true)
    (hbs : ∀ x ∈ bs, isDigit x = true) :
    strtolInt 10 (b :: bs) = intOfValue (digitsValue 10 (b :: bs)) := by
  unfold strtolInt intOfValue
  rw [leadingDigits_all]
  intro x hx
  have hd : isDigit x = true := by
    rcases List.mem_cons.mp hx with rfl | hx
    · exact hb
    · exact hbs x hx
  have h1 : 48 ≤ x ∧ x ≤ 57 := by simpa [isDigit] using hd
  simp only [hd, Bool.true_or, Bool.true_and, decide_eq_true_eq, digitVal, if_true]
  omega

theorem strtolInt_hex (b : Nat) (bs : Str) (hb : isHexLower b = true)
    (hbs : ∀ x ∈ bs, isHexLower x = true) :
    strtolInt 16 (b :: bs) = intOfValue (digitsValue 16 (b :: bs)) := by
  unfold strtolInt intOfValue
  rw [leadingDigits_all]
  intro x hx
  have hd : isHexLower x = true := by
    rcases List.mem_cons.mp hx with rfl | hx
    · exact hb
    · exact hbs x hx
  obtain ⟨-, -, -, -, -, -, h7, h8⟩ := isHexLower_more hd
  simp only [h8, Bool.true_and, decide_eq_true_eq]
  exact h7

theorem strtolInt_bin (b : Nat) (bs : Str) (hb : isBin b = true)
    (hbs : ∀ x ∈ bs, isBin x = true) :
    strtolInt 2 (b :: bs) = intOfValue (digitsValue 2 (b :: bs)) := by
  unfold strtolInt intOfValue
  rw [leadingDigits_all]
  intro x hx
  have hd : isBin x = true := by
    rcases List.mem_cons.mp hx with rfl | hx
    · exact hb
    · exact hbs x hx
  obtain ⟨-, h2, h3⟩ := isBin_facts hd
  simp only [h2, Bool.true_or, Bool.true_and, decide_eq_true_eq]
  exact h3

/-- The three in-place patterns of the loop over the values and the
conversion that follows each, on a number text of value `n`. -/
theorem inline_patterns (v : Str) (n : Nat) (h : dataValue v = some n) :
    (∃ g, fullMatch inlineDecimal v = some g ∧ strtolInt 10 v = intOfValue n) ∨
    (fullMatch inlineDecimal v = none ∧
      ∃ g, fullMatch inlineHex v = some g ∧ strtolInt 16 (capGet g 1) = intOfValue n) ∨
    (fullMatch inlineDecimal v = none ∧ fullMatch inlineHex v = none ∧
      ∃ g, fullMatch inlineBin v = some g ∧ strtolInt 2 (capGet g 1) = intOfValue n) := by
  rcases dataValue_shape v n h with ⟨b, bs, rfl, hb, hbs, rfl⟩ | ⟨b, bs, rfl, hb, hbs, rfl⟩ |
    ⟨b, bs, rfl, hb, hbs, rfl⟩
  · have hall := starGo_all_eq isBinBar bs (fun x hx => (isBin_facts (hbs x hx)).1)
    have hbb := (isBin_facts hb).1
    have e1 : fullMatch inlineDecimal (37 :: b :: bs) = none := by
      simp [fullMatch, inlineDecimal, RE.plus, matchK, isDigit]
    have e2 : fullMatch inlineHex (37 :: b :: bs) = none := by
      simp [fullMatch, inlineHex, RE.plus, RE.ch, matchK, isCh]
    have e3 : fullMatch inlineBin (37 :: b :: bs) = some [(1, b :: bs)] := by
      simp [fullMatch, inlineBin, RE.plus, RE.ch, matchK, isCh, hbb, hall]
    exact Or.inr (Or.inr ⟨e1, e2, _, e3, by
      simp only [capGet, List.find?, beq_self_eq_true]
      exact strtolInt_bin b bs hb hbs⟩)
  · have hall := starGo_all_eq isHexLower bs hbs
    have e1 : fullMatch inlineDecimal (36 :: b :: bs) = none := by
      simp [fullMatch, inlineDecimal, RE.plus, matchK, isDigit]
    have e2 : fullMatch inlineHex (36 :: b :: bs) = some [(1, b :: bs)] := by
      simp [fullMatch, inlineHex, RE.plus, RE.ch, matchK, isCh, hb, hall]
    exact Or.inr (Or.inl ⟨e1, _, e2, by
      simp only [capGet, List.find?, beq_self_eq_true]
      exact strtolInt_hex b bs hb hbs⟩)
  · have hall := starGo_starGo_all_eq isDigit isDigit bs hbs
    have e1 : (fullMatch inlineDecimal (b :: bs)).isSome = true := by
      simp [fullMatch, inlineDecimal, RE.plus, matchK, hb, hall]
    obtain ⟨g, hg⟩ := Option.isSome_iff_exists.mp e1
    exact Or.inl ⟨g, hg, strtolInt_dec b bs hb hbs⟩

/-! ## The loop over the values of `.byte` -/

theorem bump_eq (k a : Nat) (hk : 0 < k) : bump k a = (a + k) % 65536 := by
  induction k generalizing a with
  | zero => omega
  | succ k ih =>
    unfold bump
    cases k with
    | zero => rfl
    | succ j =>
      rw [ih _ (by omega)]
      omega

/-- One round of the loop over the values of a `.byte` line. -/
theorem dataLoop_byte_cons (v : Str) (vs : List Str) (s : Asm) (c : MemChunk) (n : Nat)
    (h : dataValue v = some n) :
    dataLoop (S "byte") (v :: vs) s c =
      if (decide (intOfValue n > 255) || decide (intOfValue n < 0)) = true then
        some (({ s with actChunk := some c } : Asm).setError (S "Value out of range: " ++ v)
          (S "Value must fit into 8 bits. $0-$FF or 0-255 or %0-%11111111."), -1)
      else
        (c.addByte ((intOfValue n % 256).toNat)).bind (fun c1 =>
          dataLoop (S "byte") vs { s with actAddress := (s.actAddress + 1) % 65536 } c1) := by
  rw [dataLoop]
  simp only [show (S "byte" == S "byte") = true from by decide, if_true]
  rcases inline_patterns v n h with ⟨g, e1, e2⟩ | ⟨e1, g, e2, e3⟩ | ⟨e1, e2, g, e3, e4⟩
  all_goals first
    | simp only [e1, e2, e3, e4]
    | simp only [e1, e2, e3]
    | simp only [e1, e2]
  all_goals
    by_cases hcond : (decide (intOfValue n > 255) || decide (intOfValue n < 0)) = true
    · simp only [hcond, if_true]
    · simp only [hcond, Bool.false_eq_true, if_false]
      cases c.addByte ((intOfValue n % 256).toNat) <;> rfl

/-- The loop over the values of a `.byte` line that are all at most 255: the
bytes are appended in order and the program counter advances once for each. -/
theorem dataLoop_byte_ok (vs : List Str) : ∀ (ns : List Nat) (s : Asm) (c : MemChunk),
    vs.map dataValue = ns.map some → (∀ n ∈ ns, n ≤ 255) →
    dataLoop (S "byte") vs s c =
      (c.addBytes ns).map (fun c1 =>
        (({ s with actChunk := some c1, actAddress := bump ns.length s.actAddress } : Asm),
          (0 : Int))) := by
  induction vs with
  | nil =>
    intro ns s c hv _
    cases ns with
    | nil => simp [dataLoop, MemChunk.addBytes, bump]
    | cons n ns => simp at hv
  | cons v vs ih =>
    intro ns s c hv hle
    cases ns with
    | nil => simp at hv
    | cons n ns =>
      simp only [List.map_cons, List.cons.injEq] at hv
      have hn : n ≤ 255 := hle n (by simp)
      have e1 : intOfValue n = (n : Int) := intOfValue_small n (by omega)
      rw [dataLoop_byte_cons v vs s c n hv.1, e1]
      have e2 : (decide ((n : Int) > 255) || decide ((n : Int) < 0)) = false := by
        simp only [Bool.or_eq_false_iff, decide_eq_false_iff_not]
        omega
      have e3 : ((n : Int) % 256).toNat = n := by omega
      simp only [e2, Bool.false_eq_true, if_false, e3, MemChunk.addBytes]
      cases hb : c.addByte n with
      | none => rfl
      | some c1 =>
        simp only [Option.some_bind]
        rw [ih ns _ c1 hv.2 (fun m hm => hle m (by simp [hm]))]
        rfl

/-- The loop over the values of a `.byte` line stops at the first value above
255, after the bytes before it. -/
theorem dataLoop_byte_bad (pre : List Str) : ∀ (nsp : List Nat) (v : Str) (n : Nat)
    (post : List Str) (s : Asm) (c : MemChunk),
    pre.map dataValue = nsp.map some → (∀ m ∈ nsp, m ≤ 255) → dataValue v = some n →
    255 < n → n < 2147483648 →
    dataLoop (S "byte") (pre ++ v :: post) s c =
      (c.addBytes nsp).map (fun c1 =>
        ((({ s with actChunk := some c1, actAddress := bump nsp.length s.actAddress } : Asm)).setError
          (S "Value out of range: " ++ v)
          (S "Value must fit into 8 bits. $0-$FF or 0-255 or %0-%11111111."), (-1 : Int))) := by
  induction pre with
  | nil =>
    intro nsp v n post s c hv _ hn h1 h2
    cases nsp with
    | cons m ms => simp at hv
    | nil =>
      have e1 : intOfValue n = (n : Int) := intOfValue_small n h2
      rw [List.nil_append, dataLoop_byte_cons v post s c n hn, e1]
      have e2 : (decide ((n : Int) > 255) || decide ((n : Int) < 0)) = true := by
        simp only [Bool.or_eq_true, decide_eq_true_eq]
        omega
      simp only [e2, if_true, MemChunk.addBytes, Option.map_some', bump, List.length_nil]
  | cons w pre ih =>
    intro nsp v n post s c hv hle hn h1 h2
    cases nsp with
    | nil => simp at hv
    | cons m ms =>
      simp only [List.map_cons, List.cons.injEq] at hv
      have hm : m ≤ 255 := hle m (by simp)
      have e1 : intOfValue m = (m : Int) := intOfValue_small m (by omega)
      rw [List.cons_append, dataLoop_byte_cons w _ s c m hv.1, e1]
      have e2 : (decide ((m : Int) > 255) || decide ((m : Int) < 0)) = false := by
        simp only [Bool.or_eq_false_iff, decide_eq_false_iff_not]
        omega
      have e3 : ((m : Int) % 256).toNat = m := by omega
      simp only [e2, Bool.false_eq_true, if_false, e3, MemChunk.addBytes]
      cases hb : c.addByte m with
      | none => rfl
      | some c1 =>
        simp only [Option.some_bind]
        rw [ih ms v n post _ c1 hv.2 (fun k hk => hle k (by simp [hk])) hn h1 h2]
        rfl

/-! ## The `.byte` and `.word` part of `checkDirectives` -/

theorem length_intercalate (vs : List Str) (last : Str) :
    vs.length ≤ ((S ", ").intercalate (vs ++ [last])).length := by
  induction vs with
  | nil => simp
  | cons v vs ih =>
    obtain ⟨w, ws, e⟩ : ∃ w ws, vs ++ [last] = w :: ws := by
      cases vs with
      | nil => exact ⟨last, [], rfl⟩
      | cons a as => exact ⟨a, as ++ [last], rfl⟩
    rw [e] at ih
    simp only [List.cons_append, e, intercalate_cons, List.length_append, List.length_cons]
    omega

theorem intercalate_forall (p : Nat → Prop) (h44 : p 44) (h32 : p 32) (vs : List Str)
    (last : Str) (h : ∀ v ∈ vs ++ [last], ∀ x ∈ v, p x) :
    ∀ x ∈ (S ", ").intercalate (vs ++ [last]), p x := by
  induction vs with
  | nil =>
    intro x hx
    rw [List.nil_append, intercalate_single] at hx
    exact h last (by simp) x hx
  | cons v vs ih =>
    obtain ⟨w, ws, e⟩ : ∃ w ws, vs ++ [last] = w :: ws := by
      cases vs with
      | nil => exact ⟨last, [], rfl⟩
      | cons a as => exact ⟨a, as ++ [last], rfl⟩
    have ih2 := ih (fun u hu => h u (by
      simp only [List.cons_append, List.mem_cons]
      exact Or.inr hu))
    rw [e] at ih2
    intro x hx
    rw [List.cons_append, e, intercalate_cons] at hx
    simp only [List.mem_append, List.mem_cons] at hx
    rcases hx with hx | rfl | rfl | hx
    · exact h v (by simp) x hx
    · exact h44
    · exact h32
    · exact ih2 x hx

/-- The values that `checkDirectives` reads from a line `.keyword v1, ..., vn`
and its test on their number: the list of the values, with the loop over them
when a chunk is open and the order error when none is. -/
theorem directiveData_list (s : Asm) (kw : Str) (k0 : Nat) (ks : Str) (vs : List Str)
    (hk0 : isWord k0 = true) (hks : ∀ x ∈ ks, isWord x = true) (hne : vs ≠ [])
    (hv : ∀ v ∈ vs, ∃ n, dataValue v = some n) :
    (∀ c, s.actChunk = some c →
      directiveData s kw (46 :: k0 :: (ks ++ 32 :: (S ", ").intercalate vs))
        = dataLoop kw vs s c) ∧
    (s.actChunk = none →
      directiveData s kw (46 :: k0 :: (ks ++ 32 :: (S ", ").intercalate vs))
        = some (s.noChunkError, -1)) := by
  obtain ⟨init, last, rfl⟩ : ∃ init last, vs = init ++ [last] := by
    rcases List.eq_nil_or_concat vs with h | ⟨i, l, h⟩
    · exact absurd h hne
    · exact ⟨i, l, by simpa using h⟩
  obtain ⟨w, ws, e⟩ : ∃ w ws, init ++ [last] = w :: ws := by
    cases init with
    | nil => exact ⟨last, [], rfl⟩
    | cons a as => exact ⟨a, as ++ [last], rfl⟩
  obtain ⟨m, hm⟩ := hv w (by rw [e]; simp)
  obtain ⟨hwne, hwch⟩ := dataValue_chars w m hm
  have hchars : ∀ v ∈ init ++ [last], ∀ x ∈ v, x ≠ 44 ∧ isDot x = true := by
    intro v hvm x hx
    obtain ⟨n, hn⟩ := hv v hvm
    have := (dataValue_chars v n hn).2 x hx
    exact ⟨this.2.1, this.2.2.2.2⟩
  have hhead : ∀ y ys, (S ", ").intercalate (init ++ [last]) = y :: ys → isSpace y = false := by
    rw [e]
    exact intercalate_head w ws (fun x => isSpace x = false) hwne (fun x hx => (hwch x hx).1)
  have hdot : ∀ x ∈ (S ", ").intercalate (init ++ [last]), isDot x = true :=
    intercalate_forall (fun x => isDot x = true) (by decide) (by decide) init last
      (fun v hvm x hx => (hchars v hvm x hx).2)
  obtain ⟨-, -, hgd⟩ := directive_line_patterns k0 ks _ hk0 hks hhead hdot
  have hcons := consumeElements_list init last hv
    (((S ", ").intercalate (init ++ [last])).length + 1)
    (by have := length_intercalate init last; omega)
  obtain ⟨nl, hnl⟩ := hv last (by simp)
  obtain ⟨g, hg⟩ := consume_last last nl hnl
  have hcount : countChars (46 :: k0 :: (ks ++ 32 :: (S ", ").intercalate (init ++ [last]))) 44
      = (init.length : Int) := by
    rw [← commas_intercalate init last (fun v hvm hx => (hchars v hvm 44 hx).1 rfl)]
    unfold countChars
    have hk0n : (k0 == 44) = false := by simpa using (isWord_facts hk0).2.2.2.1
    have hksn : List.filter (fun x => x == 44) ks = [] := by
      rw [List.filter_eq_nil_iff]
      intro x hx
      simpa using (isWord_facts (hks x hx)).2.2.2.1
    simp [List.filter_cons, List.filter_append, hk0n, hksn]
  have hlen : (countChars (46 :: k0 :: (ks ++ 32 :: (S ", ").intercalate (init ++ [last]))) 44
      + 1 != (((init ++ [last]).length : Nat) : Int)) = false := by
    rw [hcount]
    simp
  constructor
  · intro c hc
    unfold directiveData
    simp only [hgd, capGet, List.find?, beq_self_eq_true, hcons, hg, hlen, Bool.false_eq_true,
      if_false, hc]
  · intro hc
    unfold directiveData
    simp only [hgd, capGet, List.find?, beq_self_eq_true, hcons, hg, hlen, Bool.false_eq_true,
      if_false, hc]

theorem dataLine_byte (vs : List Str) :
    dataLine (S "byte") vs = 46 :: 98 :: ([121, 116, 101] ++ 32 :: (S ", ").intercalate vs) := by
  have e : S "byte" = [98, 121, 116, 101] := by decide
  simp [dataLine, e]

theorem dataLine_word (vs : List Str) :
    dataLine (S "word") vs = 46 :: 119 :: ([111, 114, 100] ++ 32 :: (S ", ").intercalate vs) := by
  have e : S "word" = [119, 111, 114, 100] := by decide
  simp [dataLine, e]

/-- The facts about a line of values that `checkDirectives` goes through before
its `.byte` and `.word` part. -/
theorem data_line_facts (k0 : Nat) (ks : Str) (vs : List Str)
    (hk0 : isWord k0 = true) (hks : ∀ x ∈ ks, isWord x = true) (hne : vs ≠ [])
    (hv : ∀ v ∈ vs, ∃ n, dataValue v = some n) :
    (fullMatch searchDirective (46 :: k0 :: (ks ++ 32 :: (S ", ").intercalate vs))).isSome
      = true ∧
    fullMatch extractKeyword (46 :: k0 :: (ks ++ 32 :: (S ", ").intercalate vs))
      = some [(1, k0 :: ks)] ∧
    globalReplace remove_comments (fun _ => [])
      (46 :: k0 :: (ks ++ 32 :: (S ", ").intercalate vs))
      = 46 :: k0 :: (ks ++ 32 :: (S ", ").intercalate vs) := by
  obtain ⟨init, last, rfl⟩ : ∃ init last, vs = init ++ [last] := by
    rcases List.eq_nil_or_concat vs with h | ⟨i, l, h⟩
    · exact absurd h hne
    · exact ⟨i, l, by simpa using h⟩
  obtain ⟨w, ws, e⟩ : ∃ w ws, init ++ [last] = w :: ws := by
    cases init with
    | nil => exact ⟨last, [], rfl⟩
    | cons a as => exact ⟨a, as ++ [last], rfl⟩
  obtain ⟨m, hm⟩ := hv w (by rw [e]; simp)
  obtain ⟨hwne, hwch⟩ := dataValue_chars w m hm
  have hhead : ∀ y ys, (S ", ").intercalate (init ++ [last]) = y :: ys → isSpace y = false := by
    rw [e]
    exact intercalate_head w ws (fun x => isSpace x = false) hwne (fun x hx => (hwch x hx).1)
  have hall : ∀ x ∈ (S ", ").intercalate (init ++ [last]), isDot x = true ∧ x ≠ 59 :=
    intercalate_forall (fun x => isDot x = true ∧ x ≠ 59) (by decide) (by decide) init last
      (fun v hvm x hx => by
        obtain ⟨n, hn⟩ := hv v hvm
        have := (dataValue_chars v n hn).2 x hx
        exact ⟨this.2.2.2.2, this.2.2.1⟩)
  obtain ⟨h1, h2, -⟩ := directive_line_patterns k0 ks _ hk0 hks hhead
    (fun x hx => (hall x hx).1)
  refine ⟨h1, h2, ?_⟩
  apply remove_comments_eq_self
  simp only [List.mem_cons, List.mem_append, not_or]
  refine ⟨by decide, ?_, ?_, by decide, ?_⟩
  · intro e1
    exact (isWord_facts hk0).2.2.1 e1.symm
  · intro hx
    exact (isWord_facts (hks 59 hx)).2.2.1 rfl
  · intro hx
    exact (hall 59 hx).2 rfl

/-- The directive `.byte` on a list of values: `checkDirectives` reaches the
loop over the values when a chunk is open, and the order error when none is. -/
theorem checkDirectives_byte (u : Uninit) (s : Asm) (vs : List Str) (hne : vs ≠ [])
    (hv : ∀ v ∈ vs, ∃ n, dataValue v = some n) :
    (∀ c, s.actChunk = some c →
      checkDirectives u s (dataLine (S "byte") vs) =
        (dataLoop (S "byte") vs s c).map (fun r => (r.1, r.2, dataLine (S "byte") vs))) ∧
    (s.actChunk = none →
      checkDirectives u s (dataLine (S "byte") vs) =
        some (s.noChunkError, -1, dataLine (S "byte") vs)) := by
  have hk0 : isWord 98 = true := by decide
  have hks : ∀ x ∈ [121, 116, 101], isWord x = true := by decide
  obtain ⟨h1, h2, h3⟩ := data_line_facts 98 [121, 116, 101] vs hk0 hks hne hv
  obtain ⟨g, hg⟩ := Option.isSome_iff_exists.mp h1
  obtain ⟨d1, d2⟩ := directiveData_list s (S "byte") 98 [121, 116, 101] vs hk0 hks hne hv
  have hkw : lowerStr (capGet [(1, [98, 121, 116, 101])] 1) = S "byte" := by decide
  have t1 : (S "byte" == S "text") = false := by decide
  have t2 : (S "byte" == S "ascii") = false := by decide
  have t3 : (S "byte" == S "petscii") = false := by decide
  have t4 : (S "byte" == S "screen") = false := by decide
  have t5 : (S "byte" == S "pc") = false := by decide
  have t6 : (S "byte" == S "byte") = true := by decide
  rw [dataLine_byte]
  constructor
  · intro c hc
    unfold checkDirectives
    simp only [hg, h2, hkw, t1, t2, t3, t4, t5, t6, h3, Bool.false_eq_true, if_false,
      Bool.true_or, if_true, d1 c hc]
  · intro hc
    unfold checkDirectives
    simp only [hg, h2, hkw, t1, t2, t3, t4, t5, t6, h3, Bool.false_eq_true, if_false,
      Bool.true_or, if_true, d2 hc, Option.map_some']

/-- The directive `.word` on a list of values, likewise. -/
theorem checkDirectives_word (u : Uninit) (s : Asm) (vs : List Str) (hne : vs ≠ [])
    (hv : ∀ v ∈ vs, ∃ n, dataValue v = some n) :
    (∀ c, s.actChunk = some c →
      checkDirectives u s (dataLine (S "word") vs) =
        (dataLoop (S "word") vs s c).map (fun r => (r.1, r.2, dataLine (S "word") vs))) ∧
    (s.actChunk = none →
      checkDirectives u s (dataLine (S "word") vs) =
        some (s.noChunkError, -1, dataLine (S "word") vs)) := by
  have hk0 : isWord 119 = true := by decide
  have hks : ∀ x ∈ [111, 114, 100], isWord x = true := by decide
  obtain ⟨h1, h2, h3⟩ := data_line_facts 119 [111, 114, 100] vs hk0 hks hne hv
  obtain ⟨g, hg⟩ := Option.isSome_iff_exists.mp h1
  obtain ⟨d1, d2⟩ := directiveData_list s (S "word") 119 [111, 114, 100] vs hk0 hks hne hv
  have hkw : lowerStr (capGet [(1, [119, 111, 114, 100])] 1) = S "word" := by decide
  have t1 : (S "word" == S "text") = false := by decide
  have t2 : (S "word" == S "ascii") = false := by decide
  have t3 : (S "word" == S "petscii") = false := by decide
  have t4 : (S "word" == S "screen") = false := by decide
  have t5 : (S "word" == S "pc") = false := by decide
  have t6 : (S "word" == S "word") = true := by decide
  rw [dataLine_word]
  constructor
  · intro c hc
    unfold checkDirectives
    simp only [hg, h2, hkw, t1, t2, t3, t4, t5, t6, h3, Bool.false_eq_true, if_false,
      Bool.or_true, if_true, d1 c hc]
  · intro hc
    unfold checkDirectives
    simp only [hg, h2, hkw, t1, t2, t3, t4, t5, t6, h3, Bool.false_eq_true, if_false,
      Bool.or_true, if_true, d2 hc, Option.map_some']

/-! ## The directive `.byte` -/

/-- The directive `.byte` on a list of values below 2^31 in the three
notations, with an open chunk.  When every value is at most 255 the line
appends the values in order, one byte each, and advances the program counter
by their number; otherwise it appends the values before the first one above
255 and fails with "Value out of range: " and the text of that value. -/
theorem byte_directive (u : Uninit) (s : Asm) (c : MemChunk) (vs : List Str) (ns : List Nat)
    (hc : s.actChunk = some c) (hne : vs ≠ []) (hv : vs.map dataValue = ns.map some) :
    ((∀ n ∈ ns, n ≤ 255) →
      checkDirectives u s (dataLine (S "byte") vs) =
        (s.emit c ns ns.length).map (fun r => (r.1, r.2, dataLine (S "byte") vs))) ∧
    (∀ pre v post nsp n, vs = pre ++ v :: post → pre.map dataValue = nsp.map some →
      (∀ m ∈ nsp, m ≤ 255) → dataValue v = some n → 255 < n → n < 2147483648 →
      checkDirectives u s (dataLine (S "byte") vs) =
        (c.addBytes nsp).map (fun c1 =>
          ((({ s with actChunk := some c1, actAddress := bump nsp.length s.actAddress }
              : Asm)).setError (S "Value out of range: " ++ v)
            (S "Value must fit into 8 bits. $0-$FF or 0-255 or %0-%11111111."), (-1 : Int),
            dataLine (S "byte") vs))) := by
  have hv2 : ∀ v ∈ vs, ∃ n, dataValue v = some n := by
    intro v hvm
    have h1 : dataValue v ∈ vs.map dataValue := List.mem_map_of_mem _ hvm
    rw [hv] at h1
    obtain ⟨n, -, hn⟩ := List.mem_map.mp h1
    exact ⟨n, hn.symm⟩
  have hcd := (checkDirectives_byte u s vs hne hv2).1 c hc
  constructor
  · intro hle
    rw [hcd, dataLoop_byte_ok vs ns s c hv hle]
    have hlen : 0 < ns.length := by
      have := congrArg List.length hv
      simp only [List.length_map] at this
      rw [← this]
      exact List.length_pos.mpr hne
    unfold Asm.emit
    cases c.addBytes ns with
    | none => rfl
    | some c1 =>
      simp only [Option.map_some', bump_eq ns.length s.actAddress hlen]
  · intro pre v post nsp n e hpre hle hvn h1 h2
    rw [hcd, e, dataLoop_byte_bad pre nsp v n post s c hpre hle hvn h1 h2]
    cases c.addBytes nsp <;> rfl

theorem dataLine_single (v : Str) : dataLine (S "byte") [v] = S ".byte " ++ v := by
  have e1 : S "byte" = [98, 121, 116, 101] := by decide
  have e2 : S ".byte " = [46, 98, 121, 116, 101, 32] := by decide
  simp [dataLine, intercalate_single, e1, e2]

/-- The directive `.byte` on one value at most 255. -/
theorem byte_single (u : Uninit) (s : Asm) (c : MemChunk) (v : Str) (n : Nat)
    (hc : s.actChunk = some c) (hv : dataValue v = some n) (hn : n ≤ 255) :
    checkDirectives u s (S ".byte " ++ v) =
      (s.emit c [n] 1).map (fun r => (r.1, r.2, S ".byte " ++ v)) := by
  have := (byte_directive u s c [v] [n] hc (by simp) (by simp [hv])).1 (by simpa using hn)
  rw [dataLine_single] at this
  exact this

/-- C11, the code at a failing input: the value is read through `strtol` and
a cast to `int` before the test of its range, so `$100000001` (4294967297) is
read as 1 and `.byte $100000001` succeeds with the byte 01, where a value
above 255 has to fail; `.byte 256` fails, and `.byte 1, $02, %11` gives
`01 02 03`. -/
theorem byte_value_wraps_to_int :
    dataValue (S "$100000001") = some 4294967297 ∧
    chunksOf (assemble (fun _ => quiet) Asm.init (S ".pc = $1000\n.byte $100000001"))
      = some (0, [(0x1000, [0x01])]) ∧
    errorOf (assemble (fun _ => quiet) Asm.init (S ".pc = $1000\n.byte 256"))
      = some (-1, S "Value out of range: 256") ∧
    chunksOf (assemble (fun _ => quiet) Asm.init (S ".pc=$1000\n.byte 1, $02, %11"))
      = some (0, [(0x1000, [0x01, 0x02, 0x03])]) := by
  decide

/-- The three notations of `.byte`, with lower-case digits, denote the same
value: with an open chunk each of the lines `.byte 123`, `.byte $7b` and `.byte %01111011`
appends exactly the byte 0x7B and advances the program counter by 1; and for
every `n ≤ 255`, `.byte` followed by `$` and lower-case hexadecimal digits of
value `n` appends the byte `n`. -/
theorem byte_notations (u : Uninit) (s : Asm) (c : MemChunk) (hc : s.actChunk = some c) :
    checkDirectives u s (S ".byte 123") =
      (s.emit c [0x7b] 1).map (fun r => (r.1, r.2, S ".byte 123")) ∧
    checkDirectives u s (S ".byte $7b") =
      (s.emit c [0x7b] 1).map (fun r => (r.1, r.2, S ".byte $7b")) ∧
    checkDirectives u s (S ".byte %01111011") =
      (s.emit c [0x7b] 1).map (fun r => (r.1, r.2, S ".byte %01111011")) ∧
    ∀ (h : Str) (n : Nat), h ≠ [] → (∀ x ∈ h, isHexLower x = true) → digitsValue 16 h = n →
      n ≤ 255 →
      checkDirectives u s (S ".byte $" ++ h) =
        (s.emit c [n] 1).map (fun r => (r.1, r.2, S ".byte $" ++ h)) := by
  refine ⟨?_, ?_, ?_, ?_⟩
  · exact byte_single u s c (S "123") 0x7b hc (by decide) (by decide)
  · exact byte_single u s c (S "$7b") 0x7b hc (by decide) (by decide)
  · exact byte_single u s c (S "%01111011") 0x7b hc (by decide) (by decide)
  · intro h n hne hh hd hn
    have hv : dataValue (36 :: h) = some n := by
      cases h with
      | nil => exact absurd rfl hne
      | cons b bs =>
        have hall : (b :: bs).all isHexLower = true := by
          rw [List.all_eq_true]
          exact hh
        have hne2 : (b :: bs != []) = true := by simp
        unfold dataValue
        simp only [beq_self_eq_true, if_true, hall, hne2, Bool.and_self, hd]
    have := byte_single u s c (36 :: h) n hc hv hn
    have e : S ".byte $" ++ h = S ".byte " ++ 36 :: h := by
      have e1 : S ".byte $" = [46, 98, 121, 116, 101, 32, 36] := by decide
      have e2 : S ".byte " = [46, 98, 121, 116, 101, 32] := by decide
      rw [e1, e2]
      rfl
    rw [e]
    exact this

/-- An instance of `byte_notations`: the three lines at 0x1000, `.byte $0c`,
and a whole run. -/
theorem byte_notations_witness :
    checkDirectives quiet (opened 0x1000) (S ".byte 123") =
      ((opened 0x1000).emit (MemChunk.fresh 0x1000) [0x7b] 1).map
        (fun r => (r.1, r.2, S ".byte 123")) ∧
    checkDirectives quiet (opened 0x1000) (S ".byte $" ++ S "0c") =
      ((opened 0x1000).emit (MemChunk.fresh 0x1000) [12] 1).map
        (fun r => (r.1, r.2, S ".byte $" ++ S "0c")) ∧
    chunksOf (assemble (fun _ => quiet) Asm.init
        (S ".pc = $1000\n.byte 123\n.byte $7b\n.byte %01111011"))
      = some (0, [(0x1000, [0x7b, 0x7b, 0x7b])]) :=
  ⟨(byte_notations quiet (opened 0x1000) (MemChunk.fresh 0x1000) rfl).1,
   (byte_notations quiet (opened 0x1000) (MemChunk.fresh 0x1000) rfl).2.2.2 (S "0c") 12
      (by decide) (by decide) (by decide) (by decide),
   by decide⟩

/-- C12, the code at a failing input: `.byte $7B`, with the upper-case digit
that the claim writes, returns 0 and appends the byte 07, not 7B (the pattern
of an element takes `$7` and the rest of the text is dropped, and the count of
the elements, which is there to find such a text, is right); `.byte $7b`
appends 7B; `.byte $AB` fails with "Invalid number format", and the hint that
goes with that error gives the range of the hexadecimal form as `[0,FF]`. -/
theorem byte_upper_case_hex_misread :
    chunksOf (assemble (fun _ => quiet) Asm.init (S ".pc = $1000\n.byte $7B"))
      = some (0, [(0x1000, [0x07])]) ∧
    chunksOf (assemble (fun _ => quiet) Asm.init (S ".pc = $1000\n.byte $7b"))
      = some (0, [(0x1000, [0x7b])]) ∧
    errorOf (assemble (fun _ => quiet) Asm.init (S ".pc = $1000\n.byte $AB"))
      = some (-1, S "Invalid number format") ∧
    (assemble (fun _ => quiet) Asm.init (S ".pc = $1000\n.byte $AB")).map
        (fun r => hasSub (S "- hexadecimal: $\x7bY\x7d, Y=>[0,FF] (leading '$')")
          r.1.asmError.errorStringVerbose)
      = some true := by
  decide

/-! ## The directive `.text` -/

/-- The loop that cleans the body of a string literal gives back the text
that the body stands for. -/
theorem cleanText_escape (t : Str) : cleanText (escapeText t) = Except.ok t := by
  induction t with
  | nil => rfl
  | cons x xs ih =>
    by_cases h : (x == 34 || x == 92) = true
    · have e : escapeText (x :: xs) = 92 :: x :: escapeText xs := by
        simp only [escapeText, h, if_true]
      rw [e]
      have h1 : x = 34 ∨ x = 92 := by simpa using h
      rcases h1 with rfl | rfl
      · simp [cleanText, ih]
      · simp [cleanText, ih]
    · have e : escapeText (x :: xs) = x :: escapeText xs := by
        simp only [escapeText, h, Bool.false_eq_true, if_false]
      rw [e]
      have h1 : x ≠ 34 ∧ x ≠ 92 := by simpa using h
      rw [cleanText.eq_def]
      simp [ih, h1.1, h1.2]

/-- An error of the loop that cleans the body of a string literal carries one
of its two hints. -/
theorem cleanText_error : ∀ (n : Nat) (s e : Str), s.length ≤ n →
    cleanText s = Except.error e → e = textHintBackslash ∨ e = textHintQuote := by
  intro n
  induction n with
  | zero =>
    intro s e hl h
    cases s with
    | nil => simp [cleanText] at h
    | cons x xs => simp at hl
  | succ n ih =>
    intro s e hl h
    cases s with
    | nil => simp [cleanText] at h
    | cons x xs =>
      have hl2 : xs.length ≤ n := by
        simp only [List.length_cons] at hl
        omega
      unfold cleanText at h
      split at h
      · split at h
        · exact Or.inl (by simpa using h.symm)
        · rename_i d rest2
          have hl3 : rest2.length ≤ n := by
            simp only [List.length_cons] at hl2
            omega
          split at h
          · split at h
            · simp at h
            · rename_i e2 he2
              simp only [Except.error.injEq] at h
              rw [← h]
              exact ih rest2 e2 hl3 he2
          · split at h
            · split at h
              · simp at h
              · rename_i e2 he2
                simp only [Except.error.injEq] at h
                rw [← h]
                exact ih rest2 e2 hl3 he2
            · exact Or.inl (by simpa using h.symm)
      · split at h
        · exact Or.inr (by simpa using h.symm)
        · split at h
          · simp at h
          · rename_i e2 he2
            simp only [Except.error.injEq] at h
            rw [← h]
            exact ih xs e2 hl2 he2

/-- A greedy star over a run of its class gives the last character back when
the continuation fails at the end and succeeds before the last character. -/
theorem starGo_backoff (p : Nat → Bool) (xs : Str) (y : Nat) (h : ∀ x ∈ xs, p x = true)
    (hy : p y = true) (k : Str → Option MatchRes) (h0 : k [] = none)
    (h1 : (k [y]).isSome = true) : starGo p k (xs ++ [y]) = k [y] := by
  obtain ⟨r, hr⟩ := Option.isSome_iff_exists.mp h1
  induction xs with
  | nil => simp [starGo, hy, h0]
  | cons x xs ih =>
    rw [List.cons_append, starGo_cons, ih (fun z hz => h z (by simp [hz])), hr]
    simp [h x (by simp)]

theorem textLine_eq (body : Str) :
    textLine body = 46 :: 116 :: ([101, 120, 116] ++ 32 :: (34 :: (body ++ [34]))) := by
  have e : S ".text \"" = [46, 116, 101, 120, 116, 32, 34] := by decide
  simp [textLine, e]

/-- The patterns of `checkDirectives` on a line `.text "body"`. -/
theorem text_line_patterns (body : Str) (hnl : 10 ∉ body) :
    (fullMatch searchDirective (textLine body)).isSome = true ∧
    fullMatch extractKeyword (textLine body) = some [(1, S "text")] ∧
    fullMatch getDataElements2 (textLine body) = some [(1, body)] := by
  have hdot : ∀ x ∈ body, isDot x = true := by
    intro x hx
    simp only [isDot, bne_iff_ne, ne_eq]
    intro e
    exact hnl (e ▸ hx)
  have hdot2 : ∀ x ∈ 34 :: (body ++ [34]), isDot x = true := by
    intro x hx
    simp only [List.mem_cons, List.mem_append, List.mem_singleton, List.not_mem_nil,
      or_false] at hx
    rcases hx with rfl | hx | rfl
    · decide
    · exact hdot x hx
    · decide
  obtain ⟨h1, h2, -⟩ := directive_line_patterns 116 [101, 120, 116] (34 :: (body ++ [34]))
    (by decide) (by decide) (fun y ys e => by rw [← (List.cons.inj e).1]; decide) hdot2
  rw [textLine_eq]
  refine ⟨h1, h2, ?_⟩
  have hb := starGo_backoff isDot body 34 hdot (by decide)
  have ht : List.take (body.length + 1 - 1) (body ++ [34]) = body := by simp
  simp only [fullMatch, getDataElements2, RE.cat, RE.ch, RE.plus, matchK, isCh,
    List.cons_append, List.nil_append]
  simp [starGo_cons, isSpace, isWord, isAlpha, isUpper, isLower, isDigit]
  rw [hb]
  · simp
  · rfl
  · simp

/-- A greedy star gives one character back when the continuation fails after
the whole run and succeeds before its last character. -/
theorem starGo_backoff_rest (p : Nat → Bool) (xs : Str) (y : Nat) (rest : Str)
    (h : ∀ x ∈ xs, p x = true) (hy : p y = true)
    (hrest : ∀ z zs, rest = z :: zs → p z = false) (k : Str → Option MatchRes)
    (h0 : k rest = none) (h1 : (k (y :: rest)).isSome = true) :
    starGo p k (xs ++ y :: rest) = k (y :: rest) := by
  obtain ⟨r, hr⟩ := Option.isSome_iff_exists.mp h1
  induction xs with
  | nil =>
    rw [List.nil_append, starGo_cons, starGo_of_head p rest hrest k, h0]
    simp [hy]
  | cons x xs ih =>
    rw [List.cons_append, starGo_cons, ih (fun z hz => h z (by simp [hz])), hr]
    simp [h x (by simp)]

/-- Two greedy stars in a row, the class of the first within the class of the
second, over a run of the second class. -/
theorem starGo_starGo_run (p q : Nat → Bool) (xs rest : Str) (hpq : ∀ x, p x = true → q x = true)
    (h : ∀ x ∈ xs, q x = true) (hrest : ∀ z zs, rest = z :: zs → q z = false)
    (k : Str → Option MatchRes) (hk : (k rest).isSome = true) :
    starGo p (fun t => starGo q k t) (xs ++ rest) = k rest := by
  have hq := starGo_run q
  have hrestp : ∀ z zs, rest = z :: zs → p z = false := by
    intro z zs e
    cases hp : p z with
    | false => rfl
    | true =>
      have := hpq z hp
      rw [hrest z zs e] at this
      exact absurd this (by simp)
  induction xs with
  | nil =>
    rw [List.nil_append, starGo_of_head p rest hrestp, starGo_of_head q rest hrest]
  | cons x xs ih =>
    have ih2 := ih (fun z hz => h z (by simp [hz]))
    have hx := hq (x :: xs) rest h hrest k hk
    rw [List.cons_append, starGo_cons, ih2]
    rw [List.cons_append] at hx
    obtain ⟨r, hr⟩ := Option.isSome_iff_exists.mp hk
    by_cases hp : p x = true
    · simp [hp, hr]
    · simp only [hp, Bool.false_eq_true, if_false]
      exact hx

theorem take_prefix (v rest : Str) (n : Nat) (hn : n = v.length) :
    (v ++ rest).take n = v := by
  rw [hn]
  exact List.take_left v rest

theorem isLabelChar_more {x : Nat} (h : isLabelChar x = true) :
    isNonSpace x = true ∧ isSpace x = false ∧ x ≠ 58 ∧ x ≠ 59 ∧ x ≠ 10 ∧ isDot x = true ∧
    toupper x = x := by
  have h1 : (65 ≤ x ∧ x ≤ 90) ∨ (48 ≤ x ∧ x ≤ 57) ∨ x = 95 ∨ x = 33 := by
    simp only [isLabelChar, isUpper, isDigit, Bool.or_eq_true, Bool.and_eq_true,
      decide_eq_true_eq, beq_iff_eq] at h
    omega
  have hl : isLower x = false := by
    simp only [isLower, Bool.and_eq_false_iff, decide_eq_false_iff_not]
    omega
  have hs : isSpace x = false := by
    simp only [isSpace, Bool.or_eq_false_iff, Bool.and_eq_false_iff, beq_eq_false_iff_ne,
      decide_eq_false_iff_not]
    omega
  refine ⟨by simp [isNonSpace, hs], hs, by omega, by omega, by omega, ?_, ?_⟩
  · simp only [isDot, bne_iff_ne, ne_eq]
    omega
  · simp [toupper, hl]

/-- The pattern `detectLabelDef` on a label name and a colon. -/
theorem detectLabelDef_alone (l : Nat) (ls : Str) (hl : isUpper l = true)
    (hls : ∀ x ∈ ls, isLabelChar x = true) :
    fullMatch detectLabelDef (l :: (ls ++ [58])) = some [(2, []), (1, l :: ls)] := by
  have hl2 : isLabelChar l = true := (isUpper_facts hl).2.2.1
  have hns : ∀ x ∈ l :: ls, isNonSpace x = true := by
    intro x hx
    rcases List.mem_cons.mp hx with rfl | hx
    · exact (isLabelChar_more hl2).1
    · exact (isLabelChar_more (hls x hx)).1
  have hb := starGo_backoff isNonSpace (l :: ls) 58 hns (by decide)
  simp only [List.cons_append] at hb
  simp only [fullMatch, detectLabelDef, RE.cat, RE.ch, matchK, isCh]
  simp only [List.length_cons, List.length_append, List.length_nil, beq_self_eq_true, if_true]
  rw [hb]
  · simp [starGo]
  · rfl
  · simp [starGo]

/-- The pattern `detectLabelDef` on a label name, a colon, a blank and the
text of an instruction. -/
theorem detectLabelDef_instr (l : Nat) (ls : Str) (y : Nat) (ys : Str) (hl : isUpper l = true)
    (hls : ∀ x ∈ ls, isLabelChar x = true) (hy : isSpace y = false)
    (hdot : ∀ x ∈ y :: ys, isDot x = true) :
    fullMatch detectLabelDef (l :: (ls ++ 58 :: 32 :: y :: ys))
      = some [(2, y :: ys), (1, l :: ls)] := by
  have hl2 : isLabelChar l = true := (isUpper_facts hl).2.2.1
  have hns : ∀ x ∈ l :: ls, isNonSpace x = true := by
    intro x hx
    rcases List.mem_cons.mp hx with rfl | hx
    · exact (isLabelChar_more hl2).1
    · exact (isLabelChar_more (hls x hx)).1
  have hb := starGo_backoff_rest isNonSpace (l :: ls) 58 (32 :: y :: ys) hns (by decide)
    (fun z zs e => by rw [← (List.cons.inj e).1]; decide)
  have hall := starGo_all_eq isDot (y :: ys) hdot
  have hsp := starGo_of_head isSpace (y :: ys)
    (fun z zs e => by rw [← (List.cons.inj e).1]; exact hy)
  simp only [List.cons_append] at hb
  simp only [fullMatch, detectLabelDef, RE.cat, RE.ch, matchK, isCh]
  simp only [List.length_cons, List.length_append, beq_self_eq_true, if_true]
  have e1 : (32 : Nat) :: y :: ys = [32] ++ (y :: ys) := rfl
  rw [hb]
  · simp only [show ((58 : Nat) == Char.toNat ':') = true from by decide, if_true]
    rw [starGo_cons]
    simp only [show isSpace 32 = true from by decide, if_true]
    rw [hsp, hall]
    · simp [starGo]
      exact take_prefix (l :: ls) _ _ (by simp only [List.length_cons]; omega)
    · simp [starGo]
  · rfl
  · simp only [show ((58 : Nat) == Char.toNat ':') = true from by decide, if_true]
    rw [starGo_cons]
    simp only [show isSpace 32 = true from by decide, if_true]
    rw [hsp, hall]
    · simp [starGo]
    · simp [starGo]

/-- The pattern `detectLabelDefCorrectness` on a label name, a colon and the
rest of the line. -/
theorem detectLabelDefCorrectness_name (l : Nat) (ls rest : Str) (hl : isUpper l = true)
    (hls : ∀ x ∈ ls, isLabelChar x = true) (hdot : ∀ x ∈ rest, isDot x = true) :
    fullMatch detectLabelDefCorrectness (l :: (ls ++ 58 :: rest)) = some [(1, l :: ls)] := by
  have hss := starGo_starGo_run isUpper isLabelChar ls (58 :: rest)
    (fun x hx => (isUpper_facts hx).2.2.1) hls
    (fun z zs e => by rw [← (List.cons.inj e).1]; decide)
  have hall := starGo_all_eq isDot rest hdot
  have ht := take_sub_length (l :: ls) (58 :: rest)
  simp only [List.cons_append] at ht
  simp only [fullMatch, detectLabelDefCorrectness, labelName, RE.cat, RE.ch, RE.plus, matchK,
    isCh, hl]
  simp only [List.length_cons, List.length_append, beq_self_eq_true, if_true]
  rw [hss]
  · simp only [show ((58 : Nat) == Char.toNat ':') = true from by decide, if_true]
    rw [hall]
    · simp
      exact take_prefix (l :: ls) _ _ (by simp only [List.length_cons]; omega)
    · simp
  · simp only [show ((58 : Nat) == Char.toNat ':') = true from by decide, if_true]
    rw [hall]
    · simp
    · simp

theorem upperStr_append (a b : Str) : upperStr (a ++ b) = upperStr a ++ upperStr b := by
  simp [upperStr]

theorem toupper_eq_59 (x : Nat) : toupper x = 59 → x = 59 := by
  unfold toupper
  by_cases h : isLower x = true
  · have h1 : 97 ≤ x ∧ x ≤ 122 := by simpa [isLower] using h
    simp only [h, if_true]
    omega
  · simp only [h, Bool.false_eq_true, if_false]
    exact id

theorem labelsGet_labelsSet (m : List (Str × Nat)) (key : Str) (v : Nat) :
    labelsGet (labelsSet m key v) key = v := by
  simp [labelsGet, labelsSet]

/-- The shape of a name whose upper-case form is a label name. -/
theorem labelName_shape (name : Str) (h : isLabelName (upperStr name) = true) :
    ∃ l ls, upperStr name = l :: ls ∧ isUpper l = true ∧ (∀ x ∈ ls, isLabelChar x = true) ∧
      (∃ a as, name = a :: as ∧ isSpace a = false) ∧ 59 ∉ name := by
  cases name with
  | nil => simp [upperStr, isLabelName] at h
  | cons a as =>
    rw [upperStr_cons] at h ⊢
    simp only [isLabelName, Bool.and_eq_true, List.all_eq_true] at h
    refine ⟨toupper a, upperStr as, rfl, h.1, h.2, ⟨a, as, rfl, ?_⟩, ?_⟩
    · rw [← toupper_isSpace]
      exact (isUpper_facts h.1).1
    · intro hm
      have hall : ∀ x ∈ a :: as, isLabelChar (toupper x) = true := by
        intro x hx
        rcases List.mem_cons.mp hx with rfl | hx
        · exact (isUpper_facts h.1).2.2.1
        · exact h.2 _ (by
            simp only [upperStr, List.mem_map]
            exact ⟨x, hx, rfl⟩)
      have := hall 59 hm
      revert this
      decide

/-- The part of `detectLabelDefinition` before the label is looked up, on a
line that starts with a label name and a colon. -/
theorem detectLabelDefinition_start (s : Asm) (name rest : Str)
    (hname : isLabelName (upperStr name) = true) (h59 : 59 ∉ rest) :
    detectLabelDefinition s (name ++ 58 :: rest) =
      match fullMatch detectLabelDef (upperStr name ++ 58 :: upperStr rest) with
      | some g =>
        match fullMatch detectLabelDefCorrectness (upperStr name ++ 58 :: upperStr rest) with
        | some h =>
          if labelsGet s.labels (capGet h 1) != 0 then
            (s.setErrorString (S "Label already defined: " ++ capGet h 1), -1)
          else
            if capGet g 2 == [] then
              ({ s with labels := labelsSet s.labels (capGet h 1) s.actAddress }, 0)
            else ({ s with labels := labelsSet s.labels (capGet h 1) s.actAddress }, 1)
        | none =>
          (s.setError (S "Incorrect label definition: " ++ capGet g 1)
            (S ("Labels must start with an alphanumeric character. "
              ++ "See documentation for detailed rules.")), -1)
      | none => (s, 1) := by
  obtain ⟨l, ls, -, -, -, ⟨a, as, rfl, ha⟩, hn59⟩ := labelName_shape name hname
  have hrc : globalReplace remove_comments (fun _ => []) ((a :: as) ++ 58 :: rest)
      = (a :: as) ++ 58 :: rest := by
    apply remove_comments_eq_self
    simp only [List.mem_append, List.mem_cons, not_or]
    simp only [List.mem_cons, not_or] at hn59
    exact ⟨⟨hn59.1, hn59.2⟩, by decide, h59⟩
  have hup : upperStr ((a :: as) ++ 58 :: rest) = upperStr (a :: as) ++ 58 :: upperStr rest := by
    rw [upperStr_append, upperStr_cons]
    rfl
  unfold detectLabelDefinition
  simp only [hrc, hup]
  rw [List.cons_append, isEmptyLine_none a _ ha]
  try rfl

/-! ## The program counter and the current chunk -/

theorem addByte_length (c c1 : MemChunk) (b : Nat) (h : c.addByte b = some c1) :
    c1.length = (c.length + 1) % 65536 := by
  unfold MemChunk.addByte at h
  dsimp only at h
  repeat' first | split at h | dsimp only at h
  all_goals first
    | (cases h; done)
    | (cases h; rfl)

theorem addBytes_length (c c1 : MemChunk) (bs : List Nat) (h : c.addBytes bs = some c1) :
    (c1.startAddress + c1.length) % 65536 = (c.startAddress + c.length + bs.length) % 65536 := by
  induction bs generalizing c with
  | nil =>
    simp only [MemChunk.addBytes, Option.some.injEq] at h
    rw [h]
    rfl
  | cons b bs ih =>
    simp only [MemChunk.addBytes] at h
    cases hb : c.addByte b with
    | none => simp [hb] at h
    | some c2 =>
      simp only [hb, Option.some_bind] at h
      rw [ih c2 h, addByte_startAddress c c2 b hb, addByte_length c c2 b hb]
      simp only [List.length_cons]
      omega

theorem keeps_none (P : Asm → Prop) : Keeps P none := by
  intro s x e
  cases e

theorem keeps_some (P : Asm → Prop) (s : Asm) (x : Int) (h : P s) : Keeps P (some (s, x)) := by
  intro s1 x1 e
  simp only [Option.some.injEq, Prod.mk.injEq] at e
  rw [← e.1]
  exact h

/-- A state that differs from one with the invariant in none of the three
fields of the invariant has it too. -/
theorem pcInv_same (s t : Asm) (h : PcInv s) (h1 : t.charset = s.charset)
    (h2 : t.actAddress = s.actAddress) (h3 : t.actChunk = s.actChunk) : PcInv t := by
  unfold PcInv at h ⊢
  rw [h1, h2, h3]
  exact h

/-- The end of every emitting path keeps the invariant when the program
counter advances by the number of the bytes. -/
theorem pcInv_emit (s : Asm) (c : MemChunk) (bs : List Nat) (n : Nat)
    (hcs : s.charset = ASCII ∨ s.charset = PETSCII ∨ s.charset = SCREENSCII)
    (hpc : s.actAddress = (c.startAddress + c.length) % 65536) (hn : n = bs.length) :
    Keeps PcInv (s.emit c bs n) := by
  intro s1 x e
  unfold Asm.emit at e
  cases h : c.addBytes bs with
  | none => simp [h] at e
  | some c1 =>
    simp only [h, Option.some.injEq, Prod.mk.injEq] at e
    obtain ⟨rfl, -⟩ := e
    refine ⟨hcs, ?_⟩
    intro c2 hc2
    simp only [Option.some.injEq] at hc2
    subst hc2
    have := addBytes_length c c1 bs h
    simp only
    rw [this, hpc, hn]
    omega

theorem pcInv_emit_of (s : Asm) (c : MemChunk) (bs : List Nat) (n : Nat) (h : PcInv s)
    (hc : s.actChunk = some c) (hn : n = bs.length) : Keeps PcInv (s.emit c bs n) :=
  pcInv_emit s c bs n h.1 (h.2 c hc) hn

theorem pcInv_encodeImplied (s : Asm) (c : MemChunk) (o : Opcode) (opc op : Str)
    (h : PcInv s) (hc : s.actChunk = some c) : Keeps PcInv (encodeImplied s c o opc op) := by
  unfold encodeImplied
  split
  · exact pcInv_emit_of _ _ _ _ h hc rfl
  · exact keeps_some _ _ _ (pcInv_same s _ h rfl rfl rfl)

theorem pcInv_encodeIndexedIndirect (s : Asm) (c : MemChunk) (o : Opcode) (opc op : Str)
    (h : PcInv s) (hc : s.actChunk = some c) :
    Keeps PcInv (encodeIndexedIndirect s c o opc op) := by
  unfold encodeIndexedIndirect
  repeat' first | split | dsimp only
  all_goals first
    | exact pcInv_emit_of _ _ _ _ h hc rfl
    | exact keeps_some _ _ _ (pcInv_same s _ h rfl rfl rfl)
    | exact pcInv_encodeImplied _ _ _ _ _ h hc

theorem pcInv_encodeIndirect (s : Asm) (c : MemChunk) (o : Opcode) (opc op : Str)
    (h : PcInv s) (hc : s.actChunk = some c) : Keeps PcInv (encodeIndirect s c o opc op) := by
  unfold encodeIndirect
  repeat' first | split | dsimp only
  all_goals first
    | exact pcInv_emit_of _ _ _ _ h hc rfl
    | exact keeps_some _ _ _ (pcInv_same s _ h rfl rfl rfl)
    | exact pcInv_encodeIndexedIndirect _ _ _ _ _ h hc

theorem pcInv_encodeIndexed (s : Asm) (c : MemChunk) (o : Opcode) (zp ab : Nat) (v op : Str)
    (h : PcInv s) (hc : s.actChunk = some c) :
    Keeps PcInv (encodeIndexed s c o zp ab v op) := by
  unfold encodeIndexed
  repeat' first | split | dsimp only
  all_goals first
    | exact pcInv_emit_of _ _ _ _ h hc rfl
    | exact keeps_some _ _ _ (pcInv_same s _ h rfl rfl rfl)

theorem pcInv_encodeXY (s : Asm) (c : MemChunk) (o : Opcode) (opc op : Str)
    (h : PcInv s) (hc : s.actChunk = some c) : Keeps PcInv (encodeXY s c o opc op) := by
  unfold encodeXY
  repeat' first | split | dsimp only
  all_goals first
    | exact pcInv_encodeIndexed _ _ _ _ _ _ _ h hc
    | exact pcInv_encodeIndirect _ _ _ _ _ h hc

theorem pcInv_encodeZPAbs (s : Asm) (c : MemChunk) (o : Opcode) (opc op : Str)
    (h : PcInv s) (hc : s.actChunk = some c) : Keeps PcInv (encodeZPAbs s c o opc op) := by
  unfold encodeZPAbs
  repeat' first | split | dsimp only
  all_goals first
    | exact pcInv_emit_of _ _ _ _ h hc rfl
    | exact keeps_some _ _ _ (pcInv_same s _ h rfl rfl rfl)
    | exact pcInv_encodeXY _ _ _ _ _ h hc

theorem pcInv_encode (s : Asm) (c : MemChunk) (o : Opcode) (opc op : Str)
    (h : PcInv s) (hc : s.actChunk = some c) : Keeps PcInv (encode s c o opc op) := by
  unfold encode
  repeat' first | split | dsimp only
  all_goals first
    | exact pcInv_emit_of _ _ _ _ h hc rfl
    | exact keeps_some _ _ _ (pcInv_same s _ h rfl rfl rfl)
    | exact pcInv_encodeZPAbs _ _ _ _ _ h hc

theorem labelReference_same (u : Uninit) (s : Asm) (opc op : Str) (n : Nat) :
    (labelReference u s opc op n).1.charset = s.charset ∧
    (labelReference u s opc op n).1.actAddress = s.actAddress ∧
    (labelReference u s opc op n).1.actChunk = s.actChunk ∧
    (labelReference u s opc op n).1.chunks = s.chunks ∧
    (labelReference u s opc op n).1.labels = s.labels := by
  unfold labelReference
  repeat' first | split | dsimp only
  all_goals exact ⟨rfl, rfl, rfl, rfl, rfl⟩

theorem asterisk_same (s : Asm) (op : Str) (e : Asm × Int)
    (h : asterisk s op = Except.error e) :
    e.1.charset = s.charset ∧ e.1.actAddress = s.actAddress ∧ e.1.actChunk = s.actChunk := by
  unfold asterisk at h
  simp only at h
  repeat' first | split at h | dsimp only at h
  all_goals first
    | (cases h; done)
    | (cases h; exact ⟨rfl, rfl, rfl⟩)

theorem pcInv_assembleParsed (u : Uninit) (s : Asm) (opc op : Str) (n : Nat) (h : PcInv s) :
    Keeps PcInv (assembleParsed u s opc op n) := by
  unfold assembleParsed
  cases hc : s.actChunk with
  | none => exact keeps_some _ _ _ (pcInv_same s _ h rfl rfl rfl)
  | some c =>
    simp only
    have hl := labelReference_same u s opc op n
    have hinv2 : PcInv (labelReference u s opc op n).1 := pcInv_same s _ h hl.1 hl.2.1 hl.2.2.1
    repeat' first | split | dsimp only
    all_goals first
      | exact pcInv_emit_of _ _ _ _ h hc rfl
      | exact keeps_some _ _ _ (pcInv_same s _ h rfl rfl rfl)
      | skip
    · rename_i e he
      have := asterisk_same _ _ _ he
      exact keeps_some _ _ _ (pcInv_same _ _ hinv2 this.1 this.2.1 this.2.2)
    · exact pcInv_encode _ _ _ _ _ hinv2 (hl.2.2.1.trans hc)

theorem pcInv_assembleLine (u : Uninit) (s : Asm) (line : Str) (n : Nat) (h : PcInv s) :
    Keeps PcInv (assembleLine u s line n) := by
  unfold assembleLine
  simp only
  repeat' first | split | dsimp only
  all_goals first
    | exact keeps_some _ _ _ h
    | exact pcInv_assembleParsed _ _ _ _ _ h

theorem detectLabelDefinition_same (s : Asm) (line : Str) :
    (detectLabelDefinition s line).1.charset = s.charset ∧
    (detectLabelDefinition s line).1.actAddress = s.actAddress ∧
    (detectLabelDefinition s line).1.actChunk = s.actChunk := by
  unfold detectLabelDefinition
  simp only
  repeat' first | split | dsimp only
  all_goals exact ⟨rfl, rfl, rfl⟩

theorem addWord_length (c c1 : MemChunk) (w : Nat) (h : c.addWord w = some c1) :
    (c1.startAddress + c1.length) % 65536 = (c.startAddress + c.length + 2) % 65536 := by
  have e : c.addWord w = c.addBytes [w % 256, w / 256 % 256] := by
    unfold MemChunk.addWord
    simp only [MemChunk.addBytes]
    cases c.addByte (w % 256) with
    | none => rfl
    | some c2 =>
      simp only [Option.some_bind]
      cases c2.addByte (w / 256 % 256) <;> rfl
  rw [e] at h
  exact addBytes_length c c1 _ h

theorem pcInv_dataLoop (keyword : Str) (vs : List Str) (s : Asm) (c : MemChunk)
    (hcs : s.charset = ASCII ∨ s.charset = PETSCII ∨ s.charset = SCREENSCII)
    (hpc : s.actAddress = (c.startAddress + c.length) % 65536) :
    Keeps PcInv (dataLoop keyword vs s c) := by
  have hinv : PcInv { s with actChunk := some c } := by
    refine ⟨hcs, ?_⟩
    intro c2 hc2
    simp only [Option.some.injEq] at hc2
    subst hc2
    exact hpc
  induction vs generalizing s c with
  | nil =>
    unfold dataLoop
    exact keeps_some _ _ _ hinv
  | cons v vs ih =>
    unfold dataLoop
    dsimp only
    repeat' first | split | dsimp only
    all_goals first
      | exact keeps_none _
      | exact keeps_some _ _ _ (pcInv_same _ _ hinv rfl rfl rfl)
      | exact ih s c hcs hpc hinv
      | skip
    · rename_i c1 hc1
      have h1 := addByte_length c c1 _ hc1
      have h2 := addByte_startAddress c c1 _ hc1
      have hpc1 : (s.actAddress + 1) % 65536 = (c1.startAddress + c1.length) % 65536 := by
        rw [h1, h2, hpc]
        omega
      refine ih { s with actAddress := (s.actAddress + 1) % 65536 } c1 hcs hpc1 ?_
      refine ⟨hcs, ?_⟩
      intro c2 hc2
      simp only [Option.some.injEq] at hc2
      subst hc2
      exact hpc1
    · rename_i c1 hc1
      have h1 := addWord_length c c1 _ hc1
      have hpc1 : (s.actAddress + 2) % 65536 = (c1.startAddress + c1.length) % 65536 := by
        rw [h1, hpc]
        omega
      refine ih { s with actAddress := (s.actAddress + 2) % 65536 } c1 hcs hpc1 ?_
      refine ⟨hcs, ?_⟩
      intro c2 hc2
      simp only [Option.some.injEq] at hc2
      subst hc2
      exact hpc1

theorem length_filterMap_textByte (cs : Nat) (t : Str)
    (hcs : cs = ASCII ∨ cs = PETSCII ∨ cs = SCREENSCII) :
    (t.filterMap (textByte cs)).length = t.length := by
  induction t with
  | nil => rfl
  | cons x xs ih =>
    have hx : ∃ b, textByte cs x = some b := by
      rcases hcs with h | h | h <;> subst h <;> simp [textByte, ASCII, PETSCII, SCREENSCII]
    obtain ⟨b, hb⟩ := hx
    simp only [List.filterMap_cons, hb, List.length_cons, ih]

theorem pcInv_directiveText (s : Asm) (line : Str) (h : PcInv s) :
    Keeps PcInv (directiveText s line) := by
  unfold directiveText
  repeat' first | split | dsimp only
  all_goals first
    | exact keeps_some _ _ _ (pcInv_same s _ h rfl rfl rfl)
    | skip
  rename_i c hc
  exact pcInv_emit_of _ _ _ _ h hc (length_filterMap_textByte _ _ h.1).symm

theorem pcInv_directiveData (s : Asm) (keyword line : Str) (h : PcInv s) :
    Keeps PcInv (directiveData s keyword line) := by
  unfold directiveData
  dsimp only
  split
  · exact keeps_some _ _ _ (pcInv_same s _ h rfl rfl rfl)
  · cases hc : s.actChunk with
    | none => exact keeps_some _ _ _ (pcInv_same s _ h rfl rfl rfl)
    | some c => exact pcInv_dataLoop _ _ _ _ h.1 (h.2 c hc)

theorem pcInv_directivePc (u : Uninit) (s : Asm) (line : Str) (h : PcInv s) :
    Keeps PcInv (directivePc u s line) := by
  unfold directivePc
  repeat' first | split | dsimp only
  all_goals first
    | exact keeps_some _ _ _ (pcInv_same s _ h rfl rfl rfl)
    | skip
  all_goals
    apply keeps_some
    refine ⟨h.1, ?_⟩
    intro c2 hc2
    simp only [Option.some.injEq] at hc2
    subst hc2
    simp [MemChunk.fresh]

theorem keeps_map (P : Asm → Prop) (r : Option (Asm × Int)) (l : Str) (h : Keeps P r)
    (s : Asm) (x : Int) (l1 : Str) (e : r.map (fun r => (r.1, r.2, l)) = some (s, x, l1)) :
    P s := by
  cases r with
  | none => cases e
  | some y =>
    obtain ⟨t, z⟩ := y
    simp only [Option.map_some', Option.some.injEq, Prod.mk.injEq] at e
    obtain ⟨rfl, -, -⟩ := e
    exact h t z rfl

theorem pcInv_checkDirectives (u : Uninit) (s : Asm) (line : Str) (h : PcInv s)
    (s1 : Asm) (x : Int) (l1 : Str) (e : checkDirectives u s line = some (s1, x, l1)) :
    PcInv s1 := by
  have same : ∀ {t : Asm} {y : Int} {l : Str}, some (t, y, l) = some (s1, x, l1) →
      PcInv t → PcInv s1 := by
    intro t y l e1 ht
    simp only [Option.some.injEq, Prod.mk.injEq] at e1
    rw [← e1.1]
    exact ht
  unfold checkDirectives at e
  repeat' first | split at e | dsimp only at e
  all_goals first
    | exact same e h
    | exact same e (pcInv_same s _ h rfl rfl rfl)
    | exact keeps_map _ _ _ (pcInv_directiveText s _ h) _ _ _ e
    | exact keeps_map _ _ _ (pcInv_directivePc u s _ h) _ _ _ e
    | exact keeps_map _ _ _ (pcInv_directiveData s _ _ h) _ _ _ e
    | exact same e ⟨Or.inl rfl, h.2⟩
    | exact same e ⟨Or.inr (Or.inl rfl), h.2⟩
    | exact same e ⟨Or.inr (Or.inr rfl), h.2⟩

theorem pcInv_processLine (u : Uninit) (s : Asm) (raw : Str) (n : Nat) (h : PcInv s) :
    Keeps PcInv (processLine u s raw n) := by
  intro s9 x e
  unfold processLine at e
  dsimp only at e
  generalize globalReplace remove_trailing_space (fun _ => [])
    (globalReplace remove_leading_space (fun g => capGet g 1) raw) = line0 at e
  have h0 : PcInv { s with lines := s.lines ++ [line0] } := pcInv_same s _ h rfl rfl rfl
  cases hcd : checkDirectives u { s with lines := s.lines ++ [line0] } line0 with
  | none => simp [hcd] at e
  | some y =>
    obtain ⟨s1, d, l1⟩ := y
    simp only [hcd] at e
    have h1 := pcInv_checkDirectives u _ line0 h0 s1 d l1 hcd
    have hl := detectLabelDefinition_same s1 l1
    have h2 : PcInv (detectLabelDefinition s1 l1).1 := pcInv_same s1 _ h1 hl.1 hl.2.1 hl.2.2
    cases hal : assembleLine u (detectLabelDefinition s1 l1).1 l1 n with
    | none => simp [hal] at e
    | some z =>
      obtain ⟨s3, a⟩ := z
      simp only [hal] at e
      have h3 := pcInv_assembleLine u _ l1 n h2 s3 a hal
      split at e
      · cases e
        exact pcInv_same s3 _ h3 rfl rfl rfl
      · split at e
        · cases e
          exact pcInv_same s3 _ h3 rfl rfl rfl
        · cases e
          exact h3

theorem pcInv_assembleLoop (u : Nat → Uninit) (ls : List Str) (k : Nat) (s : Asm)
    (h : PcInv s) : Keeps PcInv (assembleLoop u ls k s) := by
  induction ls generalizing k s with
  | nil =>
    unfold assembleLoop
    exact keeps_some _ _ _ h
  | cons raw rest ih =>
    unfold assembleLoop
    cases hp : processLine (u k) s raw k with
    | none => exact keeps_none _
    | some y =>
      obtain ⟨s1, r⟩ := y
      have h1 := pcInv_processLine (u k) s raw k h s1 r hp
      simp only
      split
      · exact ih _ _ h1
      · exact keeps_some _ _ _ h1

/-- In every state that the first pass reaches, the program counter is the
address after the last byte of the current chunk, modulo 65536. -/
theorem pcInv_firstPass (u : Nat → Uninit) (ls : List Str) : Keeps PcInv (firstPass u ls) := by
  unfold firstPass
  refine pcInv_assembleLoop u ls 1 _ ⟨Or.inl rfl, ?_⟩
  intro c hc
  cases hc

/-! ## Label definitions -/

theorem upperStr_dots (t : Str) (h10 : 10 ∉ t) : ∀ x ∈ upperStr t, isDot x = true := by
  intro x hx
  simp only [upperStr, List.mem_map] at hx
  obtain ⟨z, hz, rfl⟩ := hx
  apply toupper_isDot
  intro e
  exact h10 (e ▸ hz)

/-- What `detectLabelDefinition` does on a line `NAME:` or `NAME: instruction`
whose name is valid and reads 0 in `labels`. -/
theorem detectLabelDefinition_bind (s : Asm) (name instr : Str)
    (hname : isLabelName (upperStr name) = true)
    (hnew : labelsGet s.labels (upperStr name) = 0)
    (hinstr : instr = [] ∨ ∃ y ys, instr = 32 :: y :: ys ∧ isSpace y = false)
    (h59 : 59 ∉ instr) (h10 : 10 ∉ instr) :
    detectLabelDefinition s (name ++ 58 :: instr) =
      ({ s with labels := labelsSet s.labels (upperStr name) s.actAddress },
        if instr = [] then 0 else 1) := by
  rw [detectLabelDefinition_start s name instr hname h59]
  obtain ⟨l, ls, hu, hl, hls, -, -⟩ := labelName_shape name hname
  rw [hu] at hnew ⊢
  have hdots := upperStr_dots instr h10
  have e2 := detectLabelDefCorrectness_name l ls (upperStr instr) hl hls hdots
  have hcap1 : capGet [((1 : Nat), l :: ls)] 1 = l :: ls := by simp [capGet]
  rcases hinstr with rfl | ⟨y, ys, rfl, hy⟩
  · have e1 := detectLabelDef_alone l ls hl hls
    have hcap2 : capGet [((2 : Nat), ([] : Str)), (1, l :: ls)] 2 = [] := by simp [capGet]
    simp only [List.cons_append] at e1 e2 ⊢
    have hun : upperStr [] = [] := rfl
    rw [hun] at e2 ⊢
    simp only [e1, e2, hcap1, hcap2, hnew]
    simp
  · have hy2 : isSpace (toupper y) = false := by rw [toupper_isSpace]; exact hy
    have hup : upperStr (32 :: y :: ys) = 32 :: toupper y :: upperStr ys := rfl
    rw [hup] at hdots e2 ⊢
    have e1 := detectLabelDef_instr l ls (toupper y) (upperStr ys) hl hls hy2
      (fun x hx => hdots x (List.mem_cons_of_mem _ hx))
    have hcap2 : capGet [((2 : Nat), toupper y :: upperStr ys), (1, l :: ls)] 2
        = toupper y :: upperStr ys := by simp [capGet]
    simp only [List.cons_append] at e1 e2 ⊢
    simp only [e1, e2, hcap1, hcap2, hnew]
    simp

/-- The pattern `removeLabelDefinition` at the start of a line that is a label
name and a colon: the whole line, with nothing in group 1. -/
theorem removeLabelDefinition_matchAt_label (l : Nat) (ls : Str) (hl : isUpper l = true)
    (hls : ∀ x ∈ ls, isLabelChar x = true) :
    matchAt removeLabelDefinition (l :: (ls ++ [58])).length (l :: (ls ++ [58]))
      = some ([(1, [])], []) := by
  have hss := starGo_starGo_run isUpper isLabelChar ls [58]
    (fun x hx => (isUpper_facts hx).2.2.1) hls
    (fun z zs e => by rw [← (List.cons.inj e).1]; decide)
  simp only [matchAt, removeLabelDefinition, labelName, RE.cat, RE.ch, RE.plus, matchK,
    isCh, hl]
  simp only [beq_self_eq_true, if_true]
  rw [hss]
  · simp [starGo]
  · simp [starGo]

/-- Removing the label definition of a line that is a label name and a colon
leaves the empty text. -/
theorem removeLabelDefinition_label (l : Nat) (ls : Str) (hl : isUpper l = true)
    (hls : ∀ x ∈ ls, isLabelChar x = true) :
    globalReplace removeLabelDefinition (fun g => capGet g 1) (l :: (ls ++ [58])) = [] := by
  have hm := removeLabelDefinition_matchAt_label l ls hl hls
  have hs : searchFrom removeLabelDefinition (l :: (ls ++ [58])).length (l :: (ls ++ [58]))
      = some ([], [(1, [])], []) := by
    simp only [searchFrom, hm]
  have hnil : searchFrom removeLabelDefinition (l :: (ls ++ [58])).length [] = none := by
    simp [searchFrom, matchAt, removeLabelDefinition, RE.cat, matchK]
  unfold globalReplace
  have e : 2 * (l :: (ls ++ [58])).length + 2 = (2 * (l :: (ls ++ [58])).length) + 1 + 1 := by
    omega
  rw [e, globalReplaceLoop_search _ _ _ _ _ _ _ _ hs]
  have hb : (([] : Str).length + ([] : Str).length == (l :: (ls ++ [58])).length) = false := by
    simp
  rw [hb, globalReplaceLoop_search_none _ _ _ _ _ hnil]
  simp [capGet]

/-- A line that is a label name and a colon is no instruction for
`assembleLine`: it returns 1 and changes nothing. -/
theorem assembleLine_label_alone (u : Uninit) (s : Asm) (name : Str) (n : Nat)
    (hname : isLabelName (upperStr name) = true) :
    assembleLine u s (name ++ [58]) n = some (s, 1) := by
  obtain ⟨l, ls, hu, hl, hls, ⟨a, as, rfl, ha⟩, hn59⟩ := labelName_shape name hname
  have hrc : globalReplace remove_comments (fun _ => []) ((a :: as) ++ [58])
      = (a :: as) ++ [58] := by
    apply remove_comments_eq_self
    simp only [List.mem_append, List.mem_singleton, not_or]
    exact ⟨hn59, by decide⟩
  have hup : upperStr ((a :: as) ++ [58]) = l :: (ls ++ [58]) := by
    rw [upperStr_append, hu]
    rfl
  unfold assembleLine
  simp only [hrc, hup, removeLabelDefinition_label l ls hl hls]
  rw [List.cons_append, isEmptyLine_none a _ ha]
  rfl

/-- A line that starts with the first letter of a label name is no directive. -/
theorem searchDirective_label (name rest : Str) (hname : isLabelName (upperStr name) = true) :
    fullMatch searchDirective (name ++ rest) = none := by
  obtain ⟨l, ls, hu, hl, -, ⟨a, as, rfl, ha⟩, -⟩ := labelName_shape name hname
  have ha46 : (a == 46) = false := by
    rw [upperStr_cons] at hu
    have h1 : isUpper (toupper a) = true := by rw [(List.cons.inj hu).1]; exact hl
    cases h : a == 46 with
    | false => rfl
    | true =>
      rw [beq_iff_eq] at h
      subst h
      revert h1
      decide
  simp only [fullMatch, searchDirective, RE.cat, RE.ch, matchK, isCh, List.cons_append]
  rw [starGo_stop isSpace _ a _ ha]
  simp [ha46]

theorem checkDirectives_label (u : Uninit) (s : Asm) (name rest : Str)
    (hname : isLabelName (upperStr name) = true) :
    checkDirectives u s (name ++ rest) = some (s, 1, name ++ rest) := by
  unfold checkDirectives
  rw [searchDirective_label name rest hname]

/-! ## The symbol table through `assembleLine` -/

theorem labels_emit (L : List (Str × Nat)) (s : Asm) (c : MemChunk) (bs : List Nat) (n : Nat)
    (h : s.labels = L) : Keeps (fun t => t.labels = L) (s.emit c bs n) := by
  intro s1 x e
  unfold Asm.emit at e
  cases h1 : c.addBytes bs with
  | none => simp [h1] at e
  | some c1 =>
    simp only [h1, Option.some.injEq, Prod.mk.injEq] at e
    obtain ⟨rfl, -⟩ := e
    exact h

theorem labels_encodeImplied (L : List (Str × Nat)) (s : Asm) (c : MemChunk) (o : Opcode)
    (opc op : Str) (h : s.labels = L) :
    Keeps (fun t => t.labels = L) (encodeImplied s c o opc op) := by
  unfold encodeImplied
  split
  · exact labels_emit L _ _ _ _ h
  · exact keeps_some _ _ _ h

theorem labels_encodeIndexedIndirect (L : List (Str × Nat)) (s : Asm) (c : MemChunk)
    (o : Opcode) (opc op : Str) (h : s.labels = L) :
    Keeps (fun t => t.labels = L) (encodeIndexedIndirect s c o opc op) := by
  unfold encodeIndexedIndirect
  repeat' first | split | dsimp only
  all_goals first
    | exact labels_emit L _ _ _ _ h
    | exact keeps_some _ _ _ h
    | exact labels_encodeImplied L _ _ _ _ _ h

theorem labels_encodeIndirect (L : List (Str × Nat)) (s : Asm) (c : MemChunk) (o : Opcode)
    (opc op : Str) (h : s.labels = L) :
    Keeps (fun t => t.labels = L) (encodeIndirect s c o opc op) := by
  unfold encodeIndirect
  repeat' first | split | dsimp only
  all_goals first
    | exact labels_emit L _ _ _ _ h
    | exact keeps_some _ _ _ h
    | exact labels_encodeIndexedIndirect L _ _ _ _ _ h

theorem labels_encodeIndexed (L : List (Str × Nat)) (s : Asm) (c : MemChunk) (o : Opcode)
    (zp ab : Nat) (v op : Str) (h : s.labels = L) :
    Keeps (fun t => t.labels = L) (encodeIndexed s c o zp ab v op) := by
  unfold encodeIndexed
  repeat' first | split | dsimp only
  all_goals first
    | exact labels_emit L _ _ _ _ h
    | exact keeps_some _ _ _ h

theorem labels_encodeXY (L : List (Str × Nat)) (s : Asm) (c : MemChunk) (o : Opcode)
    (opc op : Str) (h : s.labels = L) :
    Keeps (fun t => t.labels = L) (encodeXY s c o opc op) := by
  unfold encodeXY
  repeat' first | split | dsimp only
  all_goals first
    | exact labels_encodeIndexed L _ _ _ _ _ _ _ h
    | exact labels_encodeIndirect L _ _ _ _ _ h

theorem labels_encodeZPAbs (L : List (Str × Nat)) (s : Asm) (c : MemChunk) (o : Opcode)
    (opc op : Str) (h : s.labels = L) :
    Keeps (fun t => t.labels = L) (encodeZPAbs s c o opc op) := by
  unfold encodeZPAbs
  repeat' first | split | dsimp only
  all_goals first
    | exact labels_emit L _ _ _ _ h
    | exact keeps_some _ _ _ h
    | exact labels_encodeXY L _ _ _ _ _ h

theorem labels_encode (L : List (Str × Nat)) (s : Asm) (c : MemChunk) (o : Opcode)
    (opc op : Str) (h : s.labels = L) :
    Keeps (fun t => t.labels = L) (encode s c o opc op) := by
  unfold encode
  repeat' first | split | dsimp only
  all_goals first
    | exact labels_emit L _ _ _ _ h
    | exact keeps_some _ _ _ h
    | exact labels_encodeZPAbs L _ _ _ _ _ h

theorem asterisk_labels (s : Asm) (op : Str) (e : Asm × Int)
    (h : asterisk s op = Except.error e) : e.1.labels = s.labels := by
  unfold asterisk at h
  simp only at h
  repeat' first | split at h | dsimp only at h
  all_goals first
    | (cases h; done)
    | (cases h; rfl)

theorem labels_assembleParsed (u : Uninit) (s : Asm) (opc op : Str) (n : Nat) :
    Keeps (fun t => t.labels = s.labels) (assembleParsed u s opc op n) := by
  unfold assembleParsed
  cases hc : s.actChunk with
  | none => exact keeps_some _ _ _ rfl
  | some c =>
    simp only
    have hl := (labelReference_same u s opc op n).2.2.2.2
    repeat' first | split | dsimp only
    all_goals first
      | exact labels_emit _ _ _ _ _ rfl
      | exact keeps_some _ _ _ rfl
      | skip
    · rename_i e he
      have := asterisk_labels _ _ _ he
      exact keeps_some _ _ _ (this.trans hl)
    · exact labels_encode _ _ _ _ _ _ hl

/-- The source's `assembleLine` leaves the symbol table as it is. -/
theorem labels_assembleLine (u : Uninit) (s : Asm) (line : Str) (n : Nat) :
    Keeps (fun t => t.labels = s.labels) (assembleLine u s line n) := by
  unfold assembleLine
  simp only
  repeat' first | split | dsimp only
  all_goals first
    | exact keeps_some _ _ _ rfl
    | exact labels_assembleParsed _ _ _ _ _

/-- C15, label binding.  Let the first pass reach the state `s` (return 0 over
the lines `pre`), and let the next line read, without the blanks around it,
`NAME:` or `NAME: instruction`, where the upper-case form of NAME is a label
name that reads 0 in `labels` (as every name does that is not in the table).
Then: the program counter of `s` is the address after the last byte of the
current chunk, `(startAddress + length) mod 65536`; `detectLabelDefinition`
changes nothing but `labels`, where it binds the upper-case name to that
program counter, so it emits no byte and leaves the program counter; whenever
the processing of the line returns, the name reads the program counter that
the line started with; and a line `NAME:` alone returns 0 with nothing else
changed but the line recorded in `lines`. -/
theorem label_binding (u : Nat → Uninit) (pre : List Str) (s : Asm) (raw name instr : Str)
    (hrun : firstPass u pre = some (s, 0))
    (hraw : trimLine raw = name ++ 58 :: instr)
    (hname : isLabelName (upperStr name) = true)
    (hnew : labelsGet s.labels (upperStr name) = 0)
    (hinstr : instr = [] ∨ ∃ y ys, instr = 32 :: y :: ys ∧ isSpace y = false)
    (h59 : 59 ∉ instr) (h10 : 10 ∉ instr) :
    (∀ c, s.actChunk = some c → s.actAddress = (c.startAddress + c.length) % 65536) ∧
    (∀ t : Asm, labelsGet t.labels (upperStr name) = 0 →
      detectLabelDefinition t (name ++ 58 :: instr) =
        ({ t with labels := labelsSet t.labels (upperStr name) t.actAddress },
          if instr = [] then 0 else 1)) ∧
    (∀ t x, processLine (u (1 + pre.length)) s raw (1 + pre.length) = some (t, x) →
      labelsGet t.labels (upperStr name) = s.actAddress) ∧
    (instr = [] → processLine (u (1 + pre.length)) s raw (1 + pre.length) =
      some ({ s with lines := s.lines ++ [name ++ [58]],
                     labels := labelsSet s.labels (upperStr name) s.actAddress }, 0)) := by
  have hbind : ∀ t : Asm, labelsGet t.labels (upperStr name) = 0 →
      detectLabelDefinition t (name ++ 58 :: instr) =
        ({ t with labels := labelsSet t.labels (upperStr name) t.actAddress },
          if instr = [] then 0 else 1) :=
    fun t ht => detectLabelDefinition_bind t name instr hname ht hinstr h59 h10
  have hline0 : globalReplace remove_trailing_space (fun _ => [])
      (globalReplace remove_leading_space (fun g => capGet g 1) raw) = name ++ 58 :: instr := hraw
  refine ⟨(pcInv_firstPass u pre s 0 hrun).2, hbind, ?_, ?_⟩
  · intro t x e
    unfold processLine at e
    simp only [hline0, checkDirectives_label _ _ name (58 :: instr) hname] at e
    have hb0 := hbind { s with lines := s.lines ++ [name ++ 58 :: instr] } hnew
    simp only at hb0
    rw [hb0] at e
    simp only at e
    cases hal : assembleLine (u (1 + pre.length))
        { s with lines := s.lines ++ [name ++ 58 :: instr],
                 labels := labelsSet s.labels (upperStr name) s.actAddress }
        (name ++ 58 :: instr) (1 + pre.length) with
    | none => simp [hal] at e
    | some z =>
      obtain ⟨s3, a⟩ := z
      have h3 := labels_assembleLine _ _ _ _ s3 a hal
      simp only at h3
      simp only [hal] at e
      have ht : t.labels = s3.labels := by
        repeat' split at e
        all_goals
          simp only [Option.some.injEq, Prod.mk.injEq] at e
          rw [← e.1]
      rw [ht, h3]
      exact labelsGet_labelsSet _ _ _
  · intro hi
    subst hi
    unfold processLine
    simp only [hline0, checkDirectives_label _ _ name [58] hname]
    have hb0 := hbind { s with lines := s.lines ++ [name ++ [58]] } hnew
    simp only at hb0
    rw [hb0, assembleLine_label_alone _ _ name _ hname]
    rfl

/-- An instance of `label_binding`: the line `  loop: bne loop` after
`.pc = $1000` and `NOP`. -/
theorem label_binding_witness :
    firstPass (fun _ => quiet) [S ".pc = $1000", S "NOP"] =
      some ({ opened 0x1000 with lines := [S ".pc = $1000", S "NOP"], actAddress := 0x1001,
                                 actChunk := some (nopOpen 0x1000) }, 0) ∧
    trimLine (S "  loop: bne loop") = S "loop" ++ 58 :: S " bne loop" ∧
    ∀ t x, processLine quiet
        { opened 0x1000 with lines := [S ".pc = $1000", S "NOP"], actAddress := 0x1001,
                             actChunk := some (nopOpen 0x1000) }
        (S "  loop: bne loop") 3 = some (t, x) → labelsGet t.labels (S "LOOP") = 0x1001 :=
  ⟨by decide, by decide,
    (label_binding (fun _ => quiet) [S ".pc = $1000", S "NOP"] _ (S "  loop: bne loop")
      (S "loop") (S " bne loop") (by decide) (by decide) (by decide) (by decide)
      (Or.inr ⟨98, S "ne loop", rfl, by decide⟩) (by decide) (by decide)).2.2.1⟩

/-! ## Upper case and the patterns -/

theorem toupper_eq_10 (x : Nat) : (toupper x = 10) ↔ x = 10 := by
  unfold toupper
  by_cases h : isLower x = true
  · have h1 : 97 ≤ x ∧ x ≤ 122 := by simpa [isLower] using h
    simp only [h, if_true]
    omega
  · simp only [h, Bool.false_eq_true, if_false]

theorem upperStr_length (s : Str) : (upperStr s).length = s.length := by
  simp [upperStr]

theorem upperStr_nil_iff (s : Str) : (upperStr s == []) = (s == []) := by
  cases s <;> rfl

theorem upperStr_eq_nl (s : Str) : (upperStr s == [10]) = (s == [10]) := by
  cases s with
  | nil => rfl
  | cons x xs =>
    cases xs with
    | nil =>
      have h := toupper_eq_10 x
      by_cases hx : x = 10
      · subst hx
        rfl
      · have h2 : toupper x ≠ 10 := fun e => hx (h.mp e)
        have e1 : (upperStr [x] == [10]) = false := by
          simp [upperStr, h2]
        have e2 : ([x] == [10]) = false := by
          simp [hx]
        rw [e1, e2]
    | cons y ys =>
      have e1 : (upperStr (x :: y :: ys) == [10]) = false := by
        simp [upperStr]
      have e2 : ((x :: y :: ys) == [10]) = false := by
        simp
      rw [e1, e2]

theorem upperStr_take (s : Str) (n : Nat) : upperStr (s.take n) = (upperStr s).take n := by
  simp [upperStr, List.map_take]

theorem toupper_toupper (x : Nat) : toupper (toupper x) = toupper x := by
  by_cases h : isLower x = true
  · have h1 : 97 ≤ x ∧ x ≤ 122 := by simpa [isLower] using h
    have h2 : isLower (x - 32) = false := by
      simp only [isLower, Bool.and_eq_false_iff, decide_eq_false_iff_not]
      omega
    simp [toupper, h, h2]
  · simp [toupper, h]

theorem upperStr_upperStr (s : Str) : upperStr (upperStr s) = upperStr s := by
  simp [upperStr, toupper_toupper]

theorem starGo_upper (p : Nat → Bool) (hp : ∀ x, p (toupper x) = p x)
    (k1 k2 : Str → Option MatchRes) (hk : ∀ t, k2 (upperStr t) = (k1 t).map upperRes)
    (s : Str) : starGo p k2 (upperStr s) = (starGo p k1 s).map upperRes := by
  induction s with
  | nil => exact hk []
  | cons x xs ih =>
    rw [upperStr_cons, starGo_cons, starGo_cons, hp x]
    by_cases hx : p x = true
    · simp only [hx, if_true, ih]
      cases h1 : starGo p k1 xs with
      | none =>
        simp only [Option.map_none']
        rw [← upperStr_cons]
        exact hk (x :: xs)
      | some r => simp
    · simp only [hx, Bool.false_eq_true, if_false]
      rw [← upperStr_cons]
      exact hk (x :: xs)

/-- A case-free expression matches a text in upper case as it matches the
text, with the groups in upper case. -/
theorem matchK_upper (r : RE) (hr : caseFree r) (total : Nat) :
    ∀ (k1 k2 : Str → Caps → Option MatchRes),
      (∀ t d, k2 (upperStr t) (upperCaps d) = (k1 t d).map upperRes) →
      ∀ (s : Str) (c : Caps),
        matchK r total k2 (upperStr s) (upperCaps c) = (matchK r total k1 s c).map upperRes := by
  induction r with
  | eps =>
    intro k1 k2 hk s c
    simp only [matchK]
    exact hk s c
  | cls p =>
    intro k1 k2 hk s c
    cases s with
    | nil => rfl
    | cons x xs =>
      rw [upperStr_cons]
      simp only [matchK, hr x]
      by_cases hx : p x = true
      · simp only [hx, if_true]
        exact hk xs c
      · simp only [hx, Bool.false_eq_true, if_false, Option.map_none']
  | star p =>
    intro k1 k2 hk s c
    simp only [matchK]
    exact starGo_upper p hr _ _ (fun t => hk t c) s
  | seq a b iha ihb =>
    intro k1 k2 hk s c
    simp only [matchK]
    exact iha hr.1 _ _ (fun t d => ihb hr.2 k1 k2 hk t d) s c
  | alt a b iha ihb =>
    intro k1 k2 hk s c
    simp only [matchK]
    rw [iha hr.1 k1 k2 hk s c, ihb hr.2 k1 k2 hk s c]
    cases matchK a total k1 s c with
    | none => rfl
    | some x => rfl
  | group n a iha =>
    intro k1 k2 hk s c
    simp only [matchK]
    refine iha hr _ _ ?_ s c
    intro t d
    have := hk t ((n, s.take (s.length - t.length)) :: d)
    simp only [upperCaps, List.map_cons] at this ⊢
    rw [upperStr_take] at this
    rw [upperStr_length, upperStr_length]
    exact this
  | bol =>
    intro k1 k2 hk s c
    simp only [matchK, upperStr_length]
    split
    · exact hk s c
    · rfl
  | eol =>
    intro k1 k2 hk s c
    simp only [matchK, upperStr_nil_iff, upperStr_eq_nl]
    split
    · exact hk s c
    · rfl
  | eos =>
    intro k1 k2 hk s c
    simp only [matchK, upperStr_nil_iff]
    split
    · exact hk s c
    · rfl

theorem fullMatch_upper (r : RE) (hr : caseFree r) (s : Str) :
    fullMatch r (upperStr s) = (fullMatch r s).map upperCaps := by
  unfold fullMatch
  have h := matchK_upper r hr s.length
    (fun t c => if t == [] then some (c, t) else none)
    (fun t c => if t == [] then some (c, t) else none)
    (by
      intro t d
      simp only [upperStr_nil_iff]
      split <;> rfl) s []
  rw [upperStr_length]
  have e : upperCaps [] = [] := rfl
  rw [e] at h
  rw [h]
  cases matchK r s.length (fun t c => if t == [] then some (c, t) else none) s [] with
  | none => rfl
  | some x => rfl

theorem matchAt_upper (r : RE) (hr : caseFree r) (total : Nat) (s : Str) :
    matchAt r total (upperStr s) = (matchAt r total s).map upperRes := by
  unfold matchAt
  exact matchK_upper r hr total _ _ (fun t d => rfl) s []

theorem matchAtNonEmpty_upper (r : RE) (hr : caseFree r) (total : Nat) (s : Str) :
    matchAtNonEmpty r total (upperStr s) = (matchAtNonEmpty r total s).map upperRes := by
  unfold matchAtNonEmpty
  refine matchK_upper r hr total _ _ ?_ s []
  intro t d
  simp only [upperStr_length]
  split <;> rfl

theorem searchFrom_upper (r : RE) (hr : caseFree r) (total : Nat) (s : Str) :
    searchFrom r total (upperStr s) =
      (searchFrom r total s).map (fun x => (upperStr x.1, upperCaps x.2.1, upperStr x.2.2)) := by
  induction s with
  | nil =>
    have h : matchAt r total [] = (matchAt r total []).map upperRes := matchAt_upper r hr total []
    show searchFrom r total [] = _
    rw [searchFrom]
    cases hm : matchAt r total [] with
    | none => rfl
    | some x =>
      rw [hm] at h
      simp only [Option.map_some', Option.some.injEq] at h
      simp only [Option.map_some', Option.some.injEq]
      conv_lhs => rw [h]
      rfl
  | cons x xs ih =>
    have h := matchAt_upper r hr total (x :: xs)
    rw [upperStr_cons] at h ⊢
    rw [searchFrom, searchFrom, h, ih]
    cases matchAt r total (x :: xs) with
    | some y => rfl
    | none =>
      simp only [Option.map_none']
      cases searchFrom r total xs with
      | none => rfl
      | some z => rfl

theorem globalReplaceLoop_upper (r : RE) (hr : caseFree r) (f : Caps → Str)
    (hf : ∀ c, f (upperCaps c) = upperStr (f c)) (total fuel : Nat) :
    ∀ (b : Bool) (s : Str),
      globalReplaceLoop r f total fuel b (upperStr s) =
        (upperStr (globalReplaceLoop r f total fuel b s).1,
          (globalReplaceLoop r f total fuel b s).2) := by
  induction fuel with
  | zero =>
    intro b s
    rfl
  | succ fuel ih =>
    intro b s
    cases b with
    | true =>
      simp only [globalReplaceLoop, if_true]
      rw [matchAtNonEmpty_upper r hr total s]
      cases hm : matchAtNonEmpty r total s with
      | some x =>
        obtain ⟨c, t⟩ := x
        simp only [Option.map_some', upperRes, ih false t, hf, upperStr_append]
      | none =>
        simp only [Option.map_none']
        cases s with
        | nil => rfl
        | cons x xs =>
          rw [upperStr_cons]
          simp only [ih false xs]
          rfl
    | false =>
      simp only [globalReplaceLoop, Bool.false_eq_true, if_false]
      rw [searchFrom_upper r hr total s]
      cases hs : searchFrom r total s with
      | none => rfl
      | some x =>
        obtain ⟨pre, c, t⟩ := x
        simp only [Option.map_some', upperStr_length, ih _ t, hf, upperStr_append]

theorem globalReplace_upper (r : RE) (hr : caseFree r) (f : Caps → Str)
    (hf : ∀ c, f (upperCaps c) = upperStr (f c)) (s : Str) :
    globalReplace r f (upperStr s) = upperStr (globalReplace r f s) := by
  unfold globalReplace
  rw [upperStr_length, globalReplaceLoop_upper r hr f hf]

theorem toupper_isDot_eq (x : Nat) : isDot (toupper x) = isDot x := by
  have h := toupper_eq_10 x
  by_cases hx : x = 10
  · subst hx
    rfl
  · have h2 : toupper x ≠ 10 := fun e => hx (h.mp e)
    have e1 : (toupper x != 10) = true := by simp [h2]
    have e2 : (x != 10) = true := by simp [hx]
    simp only [isDot, e1, e2]

theorem toupper_isSemicolon (x : Nat) : isCh ';' (toupper x) = isCh ';' x := by
  by_cases hx : x = 59
  · subst hx
    rfl
  · have h2 : toupper x ≠ 59 := fun e => hx (toupper_eq_59 x e)
    have e1 : (';' : Char).toNat = 59 := rfl
    simp [isCh, e1, hx, h2]

theorem caseFree_remove_comments : caseFree remove_comments := by
  simp only [remove_comments, RE.cat, RE.ch, caseFree]
  exact ⟨toupper_isSpace, toupper_isSemicolon, toupper_isDot_eq⟩

theorem caseFree_isEmptyLine : caseFree isEmptyLine := by
  simp only [isEmptyLine, RE.cat, caseFree]
  exact ⟨trivial, toupper_isSpace, trivial⟩

/-- Removing the comment commutes with the change to upper case. -/
theorem remove_comments_upper (l : Str) :
    globalReplace remove_comments (fun _ => []) (upperStr l) =
      upperStr (globalReplace remove_comments (fun _ => []) l) :=
  globalReplace_upper remove_comments caseFree_remove_comments _ (fun _ => rfl) l

/-- C20, instruction lines are case-insensitive.  For every line `l`, every
assembler state `s`, every line number and every value of the unassigned
locals, `detectLabelDefinition` and `assembleLine` applied to `l` give the same
outcome (the same returned value and the same new state, so the same bytes and
the same changes of the tables and of the error) as applied to `l` with every
ASCII letter in upper case. -/
theorem instruction_lines_case_insensitive (u : Uninit) (s : Asm) (l : Str) (n : Nat) :
    detectLabelDefinition s l = detectLabelDefinition s (upperStr l) ∧
    assembleLine u s l n = assembleLine u s (upperStr l) n := by
  have he := fullMatch_upper isEmptyLine caseFree_isEmptyLine
    (globalReplace remove_comments (fun _ => []) l)
  constructor
  · unfold detectLabelDefinition
    simp only [remove_comments_upper, upperStr_upperStr, he]
    cases fullMatch isEmptyLine (globalReplace remove_comments (fun _ => []) l) with
    | none => rfl
    | some g => rfl
  · unfold assembleLine
    simp only [remove_comments_upper, upperStr_upperStr, he]
    cases fullMatch isEmptyLine (globalReplace remove_comments (fun _ => []) l) with
    | none => rfl
    | some g => rfl

/-! ## Lines reached before any `.pc` directive -/

/-- A comment on a line without a line feed reaches the end of the line. -/
theorem remove_comments_rest (total : Nat) (m : Str) (c : Caps) (t : Str) (h10 : 10 ∉ m)
    (h : matchAt remove_comments total m = some (c, t)) : t = [] := by
  simp only [matchAt, remove_comments, RE.cat, RE.ch, matchK] at h
  obtain ⟨pre, t1, e, -, hk⟩ := starGo_some _ _ _ _ h
  cases t1 with
  | nil => simp at hk
  | cons y ys =>
    by_cases hy : isCh ';' y = true
    · simp only [hy, if_true] at hk
      have hd : ∀ x ∈ ys, isDot x = true := by
        intro x hx
        have hne : x ≠ 10 := by
          intro e10
          apply h10
          rw [e, ← e10]
          simp [hx]
        simp [isDot, hne]
      rw [starGo_all_eq isDot ys hd] at hk
      · simp only [Option.some.injEq, Prod.mk.injEq] at hk
        exact hk.2.symm
      · rfl
    · simp [hy] at hk

theorem remove_comments_loop_nil (f : Caps → Str) (total fuel : Nat) (b : Bool) :
    (globalReplaceLoop remove_comments f total fuel b []).1 = [] := by
  cases fuel with
  | zero => rfl
  | succ n =>
    cases b <;>
      simp [globalReplaceLoop, matchAtNonEmpty, searchFrom, matchAt, remove_comments, RE.cat,
        RE.ch, matchK, starGo]

/-- Removing the comment of a line without a line feed cuts the line where its
comment starts. -/
theorem remove_comments_cut (s : Str) (h10 : 10 ∉ s) :
    globalReplace remove_comments (fun _ => []) s = s ∨
    ∃ m c t, s = globalReplace remove_comments (fun _ => []) s ++ m ∧
      matchAt remove_comments s.length m = some (c, t) := by
  unfold globalReplace
  have e : 2 * s.length + 2 = (2 * s.length + 1) + 1 := by omega
  rw [e]
  cases hs : searchFrom remove_comments s.length s with
  | none => exact Or.inl (globalReplaceLoop_search_none _ _ _ _ _ hs)
  | some z =>
    obtain ⟨pre, c, t⟩ := z
    right
    rw [globalReplaceLoop_search _ _ _ _ _ _ _ _ hs]
    obtain ⟨m, e1, hm⟩ := searchFrom_some _ _ _ _ _ _ hs
    have h10m : 10 ∉ m := by
      intro hx
      apply h10
      rw [e1]
      simp [hx]
    have ht := remove_comments_rest _ m c t h10m hm
    subst ht
    rw [remove_comments_loop_nil]
    simp only [List.append_nil]
    exact ⟨m, c, [], e1, hm⟩

theorem remove_comments_matchAt_head (total : Nat) (x : Nat) (xs : Str)
    (hs : isSpace x = false) (h59 : x ≠ 59) :
    matchAt remove_comments total (x :: xs) = none := by
  simp only [matchAt, remove_comments, RE.cat, RE.ch, matchK]
  rw [starGo_stop isSpace _ x xs hs]
  simp [isCh, h59]

/-- The text of a line that starts with three letters, without its comment:
the three letters and a part of the rest. -/
theorem remove_comments_letters (a b c : Nat) (rest : Str)
    (ha : isAlpha a = true) (hb : isAlpha b = true) (hc : isAlpha c = true)
    (h10 : 10 ∉ rest) :
    ∃ rest1 m, globalReplace remove_comments (fun _ => []) (a :: b :: c :: rest)
      = a :: b :: c :: rest1 ∧ rest = rest1 ++ m := by
  have hal : ∀ x, isAlpha x = true → isSpace x = false ∧ x ≠ 59 ∧ x ≠ 10 := by
    intro x hx
    have h1 : (65 ≤ x ∧ x ≤ 90) ∨ (97 ≤ x ∧ x ≤ 122) := by
      simp only [isAlpha, isUpper, isLower, Bool.or_eq_true, Bool.and_eq_true,
        decide_eq_true_eq] at hx
      exact hx
    refine ⟨?_, by omega, by omega⟩
    simp only [isSpace, Bool.or_eq_false_iff, Bool.and_eq_false_iff, beq_eq_false_iff_ne,
      decide_eq_false_iff_not]
    omega
  have h10s : 10 ∉ a :: b :: c :: rest := by
    simp only [List.mem_cons, not_or]
    exact ⟨fun e => (hal a ha).2.2 e.symm, fun e => (hal b hb).2.2 e.symm,
      fun e => (hal c hc).2.2 e.symm, h10⟩
  rcases remove_comments_cut (a :: b :: c :: rest) h10s with h | ⟨m, cp, t, e, hm⟩
  · exact ⟨rest, [], h, by simp⟩
  · generalize globalReplace remove_comments (fun _ => []) (a :: b :: c :: rest) = out at e
    have na := remove_comments_matchAt_head (a :: b :: c :: rest).length a (b :: c :: rest)
      (hal a ha).1 (hal a ha).2.1
    have nb := remove_comments_matchAt_head (a :: b :: c :: rest).length b (c :: rest)
      (hal b hb).1 (hal b hb).2.1
    have nc := remove_comments_matchAt_head (a :: b :: c :: rest).length c rest
      (hal c hc).1 (hal c hc).2.1
    cases out with
    | nil =>
      simp only [List.nil_append] at e
      rw [← e, na] at hm
      cases hm
    | cons o1 out =>
      simp only [List.cons_append, List.cons.injEq] at e
      obtain ⟨rfl, e⟩ := e
      cases out with
      | nil =>
        simp only [List.nil_append] at e
        rw [← e, nb] at hm
        cases hm
      | cons o2 out =>
        simp only [List.cons_append, List.cons.injEq] at e
        obtain ⟨rfl, e⟩ := e
        cases out with
        | nil =>
          simp only [List.nil_append] at e
          rw [← e, nc] at hm
          cases hm
        | cons o3 out =>
          simp only [List.cons_append, List.cons.injEq] at e
          obtain ⟨rfl, e⟩ := e
          exact ⟨out, m, rfl, e⟩

/-- The pattern `detectLabelDef` does not match a text in which every colon
comes after a blank. -/
theorem detectLabelDef_none (t : Str)
    (h : ∀ a b, t = a ++ 58 :: b → ∃ x ∈ a, isSpace x = true) :
    fullMatch detectLabelDef t = none := by
  simp only [fullMatch, detectLabelDef, RE.cat, RE.ch, matchK, beq_self_eq_true, if_true]
  rw [starGo_eq_none]
  intro pre t1 e hp
  cases t1 with
  | nil => rfl
  | cons y ys =>
    by_cases hy : isCh ':' y = true
    · have e58 : y = 58 := by simpa [isCh] using hy
      subst e58
      obtain ⟨x, hx, hs⟩ := h pre ys e
      have := hp x hx
      simp [isNonSpace, hs] at this
    · simp [hy]

theorem upperStr_split (s a b : Str) (h : upperStr s = a ++ 58 :: b) :
    ∃ a0 b0, s = a0 ++ 58 :: b0 ∧ upperStr a0 = a := by
  induction a generalizing s with
  | nil =>
    cases s with
    | nil => cases h
    | cons x xs =>
      rw [upperStr_cons] at h
      simp only [List.nil_append, List.cons.injEq] at h
      have hx : x = 58 := by
        have h1 := h.1
        unfold toupper at h1
        by_cases hl : isLower x = true
        · have h2 : 97 ≤ x ∧ x ≤ 122 := by simpa [isLower] using hl
          simp only [hl, if_true] at h1
          omega
        · simpa [hl] using h1
      subst hx
      exact ⟨[], xs, rfl, rfl⟩
  | cons y ys ih =>
    cases s with
    | nil => cases h
    | cons x xs =>
      rw [upperStr_cons] at h
      simp only [List.cons_append, List.cons.injEq] at h
      obtain ⟨a0, b0, e, hu⟩ := ih xs h.2
      exact ⟨x :: a0, b0, by rw [e]; rfl, by rw [upperStr_cons, hu, h.1]⟩

/-- In a text `p ++ ' ' :: rest` whose part `p` holds no colon, every colon
comes after a blank. -/
theorem colon_after_blank (p rest : Str) (h58 : 58 ∉ p) :
    ∀ a b, p ++ 32 :: rest = a ++ 58 :: b → ∃ x ∈ a, isSpace x = true := by
  induction p with
  | nil =>
    intro a b e
    cases a with
    | nil =>
      simp only [List.nil_append, List.cons.injEq] at e
      exact absurd e.1 (by decide)
    | cons y ys =>
      simp only [List.nil_append, List.cons_append, List.cons.injEq] at e
      exact ⟨y, by simp, by rw [← e.1]; decide⟩
  | cons x xs ih =>
    intro a b e
    simp only [List.mem_cons, not_or] at h58
    cases a with
    | nil =>
      simp only [List.nil_append, List.cons_append, List.cons.injEq] at e
      exact absurd e.1.symm h58.1
    | cons y ys =>
      simp only [List.cons_append, List.cons.injEq] at e
      obtain ⟨z, hz, hs⟩ := ih h58.2 ys b e.2
      exact ⟨z, by simp [hz], hs⟩

/-- The property that every colon comes after a blank goes over from a text
to the upper-case form of each of its prefixes. -/
theorem colon_after_blank_upper (line line1 m : Str) (hm : line = line1 ++ m)
    (h : ∀ a b, line = a ++ 58 :: b → ∃ x ∈ a, isSpace x = true) :
    ∀ a b, upperStr line1 = a ++ 58 :: b → ∃ x ∈ a, isSpace x = true := by
  intro a b e
  obtain ⟨a0, b0, e0, hu⟩ := upperStr_split line1 a b e
  obtain ⟨x, hx, hs⟩ := h a0 (b0 ++ m) (by rw [hm, e0]; simp)
  refine ⟨toupper x, ?_, ?_⟩
  · rw [← hu]
    simp only [upperStr, List.mem_map]
    exact ⟨x, hx, rfl⟩
  · rw [toupper_isSpace]
    exact hs

/-- The source's `detectLabelDefinition` leaves the state as it is on a line in
which every colon comes after a blank. -/
theorem detectLabelDefinition_unchanged (t : Asm) (line : Str) (h10 : 10 ∉ line)
    (h : ∀ a b, line = a ++ 58 :: b → ∃ x ∈ a, isSpace x = true) :
    detectLabelDefinition t line = (t, 0) ∨ detectLabelDefinition t line = (t, 1) := by
  have hpre : ∃ m, line = globalReplace remove_comments (fun _ => []) line ++ m := by
    rcases remove_comments_cut line h10 with e | ⟨m, _, _, e, _⟩
    · exact ⟨[], by rw [e]; simp⟩
    · exact ⟨m, e⟩
  obtain ⟨m, hm⟩ := hpre
  unfold detectLabelDefinition
  generalize globalReplace remove_comments (fun _ => []) line = line1 at hm
  simp only
  cases fullMatch isEmptyLine line1 with
  | some g => exact Or.inl rfl
  | none =>
    right
    have hn : fullMatch detectLabelDef (upperStr line1) = none :=
      detectLabelDef_none _ (colon_after_blank_upper line line1 m hm h)
    simp only [hn]

theorem searchDirective_head (x : Nat) (xs : Str) (hs : isSpace x = false) (h46 : x ≠ 46) :
    fullMatch searchDirective (x :: xs) = none := by
  simp only [fullMatch, searchDirective, RE.cat, RE.ch, matchK, isCh]
  rw [starGo_stop isSpace _ x _ hs]
  simp [h46]

theorem removeLabelDefinition_no_colon (total : Nat) (t : Str)
    (h : ∀ a b, t = a ++ 58 :: b → ∃ x ∈ a, isSpace x = true) :
    matchAt removeLabelDefinition total t = none := by
  simp only [matchAt, removeLabelDefinition, labelName, RE.cat, RE.ch, RE.plus, matchK]
  split
  · cases t with
    | nil => rfl
    | cons x xs =>
      simp only
      split
      · rename_i hx
        apply starGo_eq_none
        intro pre t1 e hp
        apply starGo_eq_none
        intro pre2 t2 e2 hp2
        cases t2 with
        | nil => rfl
        | cons y ys =>
          by_cases hy : y = 58
          · subst hy
            obtain ⟨z, hz, hs⟩ := h (x :: (pre ++ pre2)) ys (by rw [e, e2]; simp)
            have hl : isLabelChar z = true := by
              simp only [List.mem_cons, List.mem_append] at hz
              rcases hz with rfl | hz | hz
              · exact (isUpper_facts hx).2.2.1
              · exact (isUpper_facts (hp z hz)).2.2.1
              · exact hp2 z hz
            have h1 : (65 ≤ z ∧ z ≤ 90) ∨ (48 ≤ z ∧ z ≤ 57) ∨ z = 95 ∨ z = 33 := by
              simp only [isLabelChar, isUpper, isDigit, Bool.or_eq_true, Bool.and_eq_true,
                decide_eq_true_eq, beq_iff_eq] at hl
              omega
            have h2 : (9 ≤ z ∧ z ≤ 13) ∨ z = 32 := by
              simp only [isSpace, Bool.or_eq_true, Bool.and_eq_true, decide_eq_true_eq,
                beq_iff_eq] at hs
              omega
            omega
          · simp [isCh, hy]
      · rfl
  · rfl

/-- A star followed by a pattern matches where the pattern alone does. -/
theorem starGo_isSome (p : Nat → Bool) (k : Str → Option MatchRes) (s : Str)
    (h : (k s).isSome = true) : (starGo p k s).isSome = true := by
  cases s with
  | nil => exact h
  | cons x xs =>
    rw [starGo_cons]
    by_cases hx : p x = true
    · simp only [hx, if_true]
      cases starGo p k xs with
      | none => exact h
      | some r => rfl
    · simp only [hx, Bool.false_eq_true, if_false]
      exact h

/-- The pattern `getInstructionElements` matches every text that starts with
three letters and holds no line feed. -/
theorem getInstructionElements_letters (a b c : Nat) (rest : Str)
    (ha : isAlpha a = true) (hb : isAlpha b = true) (hc : isAlpha c = true)
    (h10 : 10 ∉ rest) :
    (fullMatch getInstructionElements (a :: b :: c :: rest)).isSome = true := by
  have hsa : isSpace a = false := by
    have h1 : (65 ≤ a ∧ a ≤ 90) ∨ (97 ≤ a ∧ a ≤ 122) := by
      simp only [isAlpha, isUpper, isLower, Bool.or_eq_true, Bool.and_eq_true,
        decide_eq_true_eq] at ha
      exact ha
    simp only [isSpace, Bool.or_eq_false_iff, Bool.and_eq_false_iff, beq_eq_false_iff_ne,
      decide_eq_false_iff_not]
    omega
  simp only [fullMatch, getInstructionElements, RE.cat, matchK]
  rw [starGo_stop isSpace _ a _ hsa]
  simp only [ha, hb, hc, if_true]
  have hd : ∀ x ∈ rest, isDot x = true := by
    intro x hx
    have hne : x ≠ 10 := fun e => h10 (e ▸ hx)
    simp [isDot, hne]
  have hk := starGo_isSome isSpace
    (fun t =>
      starGo isDot
        (fun t_1 =>
          if (t_1 == []) = true then
            some
              ([(2, List.take (List.length t - List.length t_1) t),
                  (1, List.take ((a :: b :: c :: rest).length - List.length rest)
                    (a :: b :: c :: rest))],
                t_1)
          else none)
        t) rest (by
      simp only
      rw [starGo_all_eq isDot rest hd]
      · rfl
      · rfl)
  obtain ⟨r, hr⟩ := Option.isSome_iff_exists.mp hk
  rw [hr]
  rfl

theorem isAlpha_facts {x : Nat} (h : isAlpha x = true) :
    isSpace x = false ∧ x ≠ 46 ∧ x ≠ 10 ∧ x ≠ 58 ∧ isAlpha (toupper x) = true := by
  have h1 : (65 ≤ x ∧ x ≤ 90) ∨ (97 ≤ x ∧ x ≤ 122) := by
    simp only [isAlpha, isUpper, isLower, Bool.or_eq_true, Bool.and_eq_true,
      decide_eq_true_eq] at h
    exact h
  refine ⟨?_, by omega, by omega, by omega, ?_⟩
  · simp only [isSpace, Bool.or_eq_false_iff, Bool.and_eq_false_iff, beq_eq_false_iff_ne,
      decide_eq_false_iff_not]
    omega
  · by_cases hl : isLower x = true
    · have h2 : 97 ≤ x ∧ x ≤ 122 := by simpa [isLower] using hl
      rw [toupper, if_pos hl]
      simp only [isAlpha, isUpper, isLower, Bool.or_eq_true, Bool.and_eq_true,
        decide_eq_true_eq]
      omega
    · rw [toupper, if_neg hl]
      exact h

theorem not_mem_upperStr_10 (t : Str) (h : 10 ∉ t) : 10 ∉ upperStr t := by
  intro hx
  simp only [upperStr, List.mem_map] at hx
  obtain ⟨z, hz, e⟩ := hx
  rw [(toupper_eq_10 z).mp e] at hz
  exact h hz

/-- A line that starts with three letters and is no label definition, in a
state without a chunk: `assembleLine` fails with the order error. -/
theorem assembleLine_letters_nochunk (u : Uninit) (t : Asm) (a b c : Nat) (rest : Str) (n : Nat)
    (ha : isAlpha a = true) (hb : isAlpha b = true) (hc : isAlpha c = true)
    (h10 : 10 ∉ rest)
    (hcol : ∀ p q, a :: b :: c :: rest = p ++ 58 :: q → ∃ x ∈ p, isSpace x = true)
    (hch : t.actChunk = none) :
    assembleLine u t (a :: b :: c :: rest) n = some (t.noChunkError, -1) := by
  obtain ⟨rest1, m, e1, hr⟩ := remove_comments_letters a b c rest ha hb hc h10
  have hm : a :: b :: c :: rest = (a :: b :: c :: rest1) ++ m := by rw [hr]; rfl
  have hcol2 := colon_after_blank_upper _ _ m hm hcol
  have hup : upperStr (a :: b :: c :: rest1)
      = toupper a :: toupper b :: toupper c :: upperStr rest1 := rfl
  have h10r : 10 ∉ upperStr rest1 := by
    apply not_mem_upperStr_10
    intro hx
    apply h10
    rw [hr]
    simp [hx]
  have hrl := removeLabelDefinition_eq_self (fun g => capGet g 1) _
    (removeLabelDefinition_no_colon (upperStr (a :: b :: c :: rest1)).length _ hcol2)
  have hg := getInstructionElements_letters (toupper a) (toupper b) (toupper c) (upperStr rest1)
    (isAlpha_facts ha).2.2.2.2 (isAlpha_facts hb).2.2.2.2 (isAlpha_facts hc).2.2.2.2 h10r
  obtain ⟨g, hg1⟩ := Option.isSome_iff_exists.mp hg
  unfold assembleLine
  simp only [e1, isEmptyLine_none a _ (isAlpha_facts ha).1, hrl]
  rw [hup, hg1]
  simp only [assembleParsed, hch]

/-- A line that starts with three letters and is no label definition, reached
in a state without a chunk. -/
theorem processLine_mnemonic_nochunk (u : Uninit) (s : Asm) (raw : Str) (k : Nat)
    (hch : s.actChunk = none) (hline : isMnemonicLine (trimLine raw)) :
    processLine u s raw k = some (orderError s (trimLine raw) k, -1) := by
  obtain ⟨a, b, c, rest, ha, hb, hc, e, h10, hcol⟩ := hline
  have hline0 : globalReplace remove_trailing_space (fun _ => [])
      (globalReplace remove_leading_space (fun g => capGet g 1) raw) = a :: b :: c :: rest := e
  rw [e] at hcol ⊢
  have h10l : 10 ∉ a :: b :: c :: rest := by
    simp only [List.mem_cons, not_or]
    exact ⟨fun x => (isAlpha_facts ha).2.2.1 x.symm, fun x => (isAlpha_facts hb).2.2.1 x.symm,
      fun x => (isAlpha_facts hc).2.2.1 x.symm, h10⟩
  unfold processLine
  simp only [hline0]
  have hcd : ∀ t : Asm, checkDirectives u t (a :: b :: c :: rest)
      = some (t, 1, a :: b :: c :: rest) := by
    intro t
    unfold checkDirectives
    rw [searchDirective_head a _ (isAlpha_facts ha).1 (isAlpha_facts ha).2.1]
  rw [hcd]
  simp only
  rcases detectLabelDefinition_unchanged
      { s with lines := s.lines ++ [a :: b :: c :: rest] } (a :: b :: c :: rest) h10l hcol
    with hd | hd
  all_goals
    rw [hd]
    simp only
    rw [assembleLine_letters_nochunk u { s with lines := s.lines ++ [a :: b :: c :: rest] }
      a b c rest k ha hb hc h10 hcol hch]
    rfl

theorem processLine_directive_nochunk (u : Uninit) (s : Asm) (raw : Str) (k : Nat)
    (kw rest : Str) (hline : trimLine raw = 46 :: (kw ++ 32 :: rest)) (h58 : 58 ∉ kw)
    (h10 : 10 ∉ 46 :: (kw ++ 32 :: rest))
    (hcd : checkDirectives u { s with lines := s.lines ++ [46 :: (kw ++ 32 :: rest)] }
        (46 :: (kw ++ 32 :: rest))
      = some (({ s with lines := s.lines ++ [46 :: (kw ++ 32 :: rest)] }).noChunkError, -1,
          46 :: (kw ++ 32 :: rest))) :
    processLine u s raw k = some (orderError s (trimLine raw) k, -1) := by
  have hline0 : globalReplace remove_trailing_space (fun _ => [])
      (globalReplace remove_leading_space (fun g => capGet g 1) raw)
      = 46 :: (kw ++ 32 :: rest) := hline
  have hcol : ∀ p q, 46 :: (kw ++ 32 :: rest) = p ++ 58 :: q → ∃ x ∈ p, isSpace x = true := by
    have := colon_after_blank (46 :: kw) rest (by
      simp only [List.mem_cons, not_or]
      exact ⟨by decide, h58⟩)
    simpa using this
  rw [hline]
  unfold processLine
  simp only [hline0, hcd]
  have hal := fun t => assembleLine_directive u t k [] (kw ++ 32 :: rest) (by simp)
  simp only [List.nil_append] at hal
  rcases detectLabelDefinition_unchanged
      ({ s with lines := s.lines ++ [46 :: (kw ++ 32 :: rest)] }).noChunkError
      (46 :: (kw ++ 32 :: rest)) h10 hcol with hd | hd
  all_goals
    rw [hd]
    simp only
    rw [hal]
    rfl

theorem dataLine_no_lf (kw : Str) (vs : List Str) (hkw : 10 ∉ kw) (hne : vs ≠ [])
    (hv : ∀ v ∈ vs, ∃ n, dataValue v = some n) : 10 ∉ 46 :: (kw ++ 32 :: (S ", ").intercalate vs) := by
  obtain ⟨init, last, rfl⟩ : ∃ init last, vs = init ++ [last] := by
    rcases List.eq_nil_or_concat vs with h | ⟨i, l, h⟩
    · exact absurd h hne
    · exact ⟨i, l, by simpa using h⟩
  have hall : ∀ x ∈ (S ", ").intercalate (init ++ [last]), x ≠ 10 :=
    intercalate_forall (fun x => x ≠ 10) (by decide) (by decide) init last
      (fun v hvm x hx => by
        obtain ⟨n, hn⟩ := hv v hvm
        exact ((dataValue_chars v n hn).2 x hx).2.2.2.1)
  simp only [List.mem_cons, List.mem_append, not_or]
  exact ⟨by decide, hkw, by decide, fun hx => hall 10 hx rfl⟩

theorem processLine_data_nochunk (u : Uninit) (s : Asm) (raw : Str) (k : Nat)
    (hch : s.actChunk = none) (hline : isDataLine (trimLine raw)) :
    processLine u s raw k = some (orderError s (trimLine raw) k, -1) := by
  obtain ⟨vs, hne, hv, e | e⟩ := hline
  · have e1 : trimLine raw = 46 :: (S "byte" ++ 32 :: (S ", ").intercalate vs) := e
    exact processLine_directive_nochunk u s raw k (S "byte") _ e1 (by decide)
      (dataLine_no_lf (S "byte") vs (by decide) hne hv)
      ((checkDirectives_byte u _ vs hne hv).2 hch)
  · have e1 : trimLine raw = 46 :: (S "word" ++ 32 :: (S ", ").intercalate vs) := e
    exact processLine_directive_nochunk u s raw k (S "word") _ e1 (by decide)
      (dataLine_no_lf (S "word") vs (by decide) hne hv)
      ((checkDirectives_word u _ vs hne hv).2 hch)

/-- A well-formed `.text` directive in a state without a chunk:
`checkDirectives` fails with the order error. -/
theorem checkDirectives_text_nochunk (u : Uninit) (s : Asm) (t : Str)
    (h10 : 10 ∉ escapeText t) (hch : s.actChunk = none) :
    checkDirectives u s (textLine (escapeText t))
      = some (s.noChunkError, -1, textLine (escapeText t)) := by
  obtain ⟨h1, h2, h3⟩ := text_line_patterns (escapeText t) h10
  obtain ⟨g, hg⟩ := Option.isSome_iff_exists.mp h1
  have hkw : lowerStr (capGet [(1, S "text")] 1) = S "text" := by decide
  unfold checkDirectives
  simp only [hg, h2, hkw, beq_self_eq_true, if_true]
  unfold directiveText
  simp only [h3, show capGet [((1 : Nat), escapeText t)] 1 = escapeText t from by simp [capGet],
    cleanText_escape, hch, Option.map_some']

theorem processLine_text_nochunk (u : Uninit) (s : Asm) (raw : Str) (k : Nat)
    (hch : s.actChunk = none) (hline : isTextLine (trimLine raw)) :
    processLine u s raw k = some (orderError s (trimLine raw) k, -1) := by
  obtain ⟨t, h10, e⟩ := hline
  have e0 : textLine (escapeText t) = 46 :: (S "text" ++ 32 :: (34 :: (escapeText t ++ [34]))) := by
    rw [textLine_eq]
    have e1 : S "text" = [116, 101, 120, 116] := by decide
    rw [e1]
    rfl
  have h10l : 10 ∉ 46 :: (S "text" ++ 32 :: (34 :: (escapeText t ++ [34]))) := by
    simp only [List.mem_cons, List.mem_append, not_or, List.mem_singleton, List.not_mem_nil,
      or_false]
    exact ⟨by decide, by decide, by decide, by decide, h10, by decide⟩
  have hcd := checkDirectives_text_nochunk u
    { s with lines := s.lines ++ [textLine (escapeText t)] } t h10 hch
  rw [e0] at hcd
  exact processLine_directive_nochunk u s raw k (S "text") _ (e.trans e0) (by decide) h10l hcd

/-- C19, order error.  Let the first pass get through the lines `pre`, none of
which is a `.pc` directive, and let the next line be, without the blanks around
it, a well-formed `.byte`, `.word` or `.text` directive or a line that starts
with three letters (and is no label definition).  Then no chunk is open and no
byte was emitted; the first pass stops at that line with -1, the message
'Instruction reached without address specification', the number and the text
of the line, and still no chunk; and so does `assemble` on a fresh assembler
for every source text with these lines. -/
theorem order_error (u : Nat → Uninit) (pre post : List Str) (s : Asm) (raw : Str)
    (hrun : firstPass u pre = some (s, 0)) (hpc : pcCount pre = 0)
    (hline : isDataLine (trimLine raw) ∨ isTextLine (trimLine raw) ∨
      isMnemonicLine (trimLine raw)) :
    firstPass u (pre ++ raw :: post)
      = some (orderError s (trimLine raw) (1 + pre.length), -1) ∧
    (orderError s (trimLine raw) (1 + pre.length)).chunks = [] ∧
    (orderError s (trimLine raw) (1 + pre.length)).actChunk = none ∧
    (orderError s (trimLine raw) (1 + pre.length)).asmError.errorString
      = S "Instruction reached without address specification" ∧
    ∀ src, getlines src = pre ++ raw :: post →
      assemble u Asm.init src = some (orderError s (trimLine raw) (1 + pre.length), -1) := by
  obtain ⟨hchunks, bs, hact⟩ := assembleLoop_segment u pre 1 Asm.init s hrun hpc
  have hch : s.actChunk = none := hact
  have hp : processLine (u (1 + pre.length)) s raw (1 + pre.length)
      = some (orderError s (trimLine raw) (1 + pre.length), -1) := by
    rcases hline with h | h | h
    · exact processLine_data_nochunk _ s raw _ hch h
    · exact processLine_text_nochunk _ s raw _ hch h
    · exact processLine_mnemonic_nochunk _ s raw _ hch h
  have hfp : firstPass u (pre ++ raw :: post)
      = some (orderError s (trimLine raw) (1 + pre.length), -1) := by
    unfold firstPass at hrun ⊢
    rw [assembleLoop_append u pre (raw :: post) 1 Asm.init s hrun]
    simp only [assembleLoop, hp]
    rfl
  refine ⟨hfp, hchunks, hch, rfl, ?_⟩
  intro src hsrc
  unfold assemble
  have e0 : ({ Asm.init with asmError :=
      { lineContent := [], errorString := [], errorStringVerbose := [],
        errorLineNumber := 0 } } : Asm) = Asm.init := rfl
  rw [e0, hsrc]
  unfold firstPass at hfp
  simp only [hfp]
  rfl

/-- An instance of `order_error`: an instruction on the second line of a
source whose only `.pc` directive comes after it. -/
theorem order_error_witness :
    firstPass (fun _ => quiet) [S "; data"] = some ({ Asm.init with lines := [S "; data"] }, 0) ∧
    pcCount [S "; data"] = 0 ∧
    trimLine (S "  LDA #$01 ; load: a") = S "LDA #$01 ; load: a" ∧
    assemble (fun _ => quiet) Asm.init (S "; data\n  LDA #$01 ; load: a\n.pc = $1000") =
      some (orderError { Asm.init with lines := [S "; data"] }
        (trimLine (S "  LDA #$01 ; load: a")) 2, -1) := by
  have ht : trimLine (S "  LDA #$01 ; load: a") = S "LDA #$01 ; load: a" := by decide
  have hm : isMnemonicLine (trimLine (S "  LDA #$01 ; load: a")) := by
    rw [ht]
    exact ⟨76, 68, 65, S " #$01 ; load: a", by decide, by decide, by decide, by decide,
      by decide, colon_after_blank (S "LDA") (S "#$01 ; load: a") (by decide)⟩
  exact ⟨by decide, by decide, ht,
    (order_error (fun _ => quiet) [S "; data"] [S ".pc = $1000"] _ (S "  LDA #$01 ; load: a")
      (by decide) (by decide) (Or.inr (Or.inr hm))).2.2.2.2 _ (by decide)⟩

/-! ## The references that the first pass records -/

theorem emits_emit (s : Asm) (c : MemChunk) (bs : List Nat) (n : Nat) (hbs : bs ≠ []) :
    Emits s c (s.emit c bs n) := by
  intro t x e
  unfold Asm.emit at e
  cases h : c.addBytes bs with
  | none => simp [h] at e
  | some c1 =>
    simp only [h, Option.some.injEq, Prod.mk.injEq] at e
    exact Or.inl ⟨bs, c1, _, hbs, h, e.1.symm⟩

theorem emits_error (s : Asm) (c : MemChunk) (er : AssemblyError) :
    Emits s c (some ({ s with asmError := er }, -1)) := by
  intro t y e
  simp only [Option.some.injEq, Prod.mk.injEq] at e
  exact Or.inr ⟨e.2.symm, er, e.1.symm⟩

theorem emits_encodeImplied (s : Asm) (c : MemChunk) (o : Opcode) (opc op : Str) :
    Emits s c (encodeImplied s c o opc op) := by
  unfold encodeImplied
  split
  · exact emits_emit _ _ _ _ (by simp)
  · exact emits_error _ _ _

theorem emits_encodeIndexedIndirect (s : Asm) (c : MemChunk) (o : Opcode) (opc op : Str) :
    Emits s c (encodeIndexedIndirect s c o opc op) := by
  unfold encodeIndexedIndirect
  repeat' first | split | dsimp only
  all_goals first
    | exact emits_emit _ _ _ _ (by simp)
    | exact emits_error _ _ _
    | exact emits_encodeImplied _ _ _ _ _

theorem emits_encodeIndirect (s : Asm) (c : MemChunk) (o : Opcode) (opc op : Str) :
    Emits s c (encodeIndirect s c o opc op) := by
  unfold encodeIndirect
  repeat' first | split | dsimp only
  all_goals first
    | exact emits_emit _ _ _ _ (by simp)
    | exact emits_error _ _ _
    | exact emits_encodeIndexedIndirect _ _ _ _ _

theorem emits_encodeIndexed (s : Asm) (c : MemChunk) (o : Opcode) (zp ab : Nat) (v op : Str) :
    Emits s c (encodeIndexed s c o zp ab v op) := by
  unfold encodeIndexed
  repeat' first | split | dsimp only
  all_goals first
    | exact emits_emit _ _ _ _ (by simp)
    | exact emits_error _ _ _

theorem emits_encodeXY (s : Asm) (c : MemChunk) (o : Opcode) (opc op : Str) :
    Emits s c (encodeXY s c o opc op) := by
  unfold encodeXY
  repeat' first | split | dsimp only
  all_goals first
    | exact emits_encodeIndexed _ _ _ _ _ _ _
    | exact emits_encodeIndirect _ _ _ _ _

theorem emits_encodeZPAbs (s : Asm) (c : MemChunk) (o : Opcode) (opc op : Str) :
    Emits s c (encodeZPAbs s c o opc op) := by
  unfold encodeZPAbs
  repeat' first | split | dsimp only
  all_goals first
    | exact emits_emit _ _ _ _ (by simp)
    | exact emits_error _ _ _
    | exact emits_encodeXY _ _ _ _ _

theorem emits_encode (s : Asm) (c : MemChunk) (o : Opcode) (opc op : Str) :
    Emits s c (encode s c o opc op) := by
  unfold encode
  repeat' first | split | dsimp only
  all_goals first
    | exact emits_emit _ _ _ _ (by simp)
    | exact emits_error _ _ _
    | exact emits_encodeZPAbs _ _ _ _ _

/-- The state that the block "handle label references" leaves: the state it
found, or that state with one reference added, which points to the current
chunk. -/
theorem labelReference_shape (u : Uninit) (s : Asm) (opc op : Str) (n : Nat) :
    (labelReference u s opc op n).1 = s ∨
    ∃ key a, (labelReference u s opc op n).1 =
        { s with unresolvedLabels := unresolvedAdd key a n s.unresolvedLabels } ∧
      a.memChunk = s.chunks.length := by
  unfold labelReference
  repeat' first | split | dsimp only
  all_goals first
    | exact Or.inl rfl
    | exact Or.inr ⟨_, _, rfl, rfl⟩

theorem asterisk_error (s : Asm) (op : Str) (e : Asm × Int)
    (h : asterisk s op = Except.error e) :
    e.2 = -1 ∧ ∃ er, e.1 = { s with asmError := er } := by
  unfold asterisk at h
  simp only at h
  repeat' first | split at h | dsimp only at h
  all_goals first
    | (cases h; done)
    | (cases h; exact ⟨rfl, _, rfl⟩)

/-- The outcomes of the part of `assembleLine` after the line is split. -/
theorem assembleParsed_outcome (u : Uninit) (s : Asm) (opc op : Str) (n : Nat)
    (t : Asm) (x : Int) (h : assembleParsed u s opc op n = some (t, x)) :
    ∃ s1, (s1 = s ∨ ∃ key a,
        s1 = { s with unresolvedLabels := unresolvedAdd key a n s.unresolvedLabels } ∧
        a.memChunk = s.chunks.length) ∧
      ((∃ c bs c1 pc, s.actChunk = some c ∧ bs ≠ [] ∧ c.addBytes bs = some c1 ∧
          t = { s1 with actChunk := some c1, actAddress := pc }) ∨
        (x = -1 ∧ ∃ er, t = { s1 with asmError := er })) := by
  unfold assembleParsed at h
  have hcases : s.actChunk = none ∨ ∃ c, s.actChunk = some c := by
    cases s.actChunk with
    | none => exact Or.inl rfl
    | some c => exact Or.inr ⟨c, rfl⟩
  rcases hcases with hc | ⟨c, hc⟩
  · simp only [hc, Option.some.injEq, Prod.mk.injEq] at h
    exact ⟨s, Or.inl rfl, Or.inr ⟨h.2.symm, _, h.1.symm⟩⟩
  · simp only [hc] at h
    have viaS : Emits s c (some (t, x)) →
        ∃ s1, (s1 = s ∨ ∃ key a,
            s1 = { s with unresolvedLabels := unresolvedAdd key a n s.unresolvedLabels } ∧
            a.memChunk = s.chunks.length) ∧
          ((∃ c0 bs c1 pc, s.actChunk = some c0 ∧ bs ≠ [] ∧ c0.addBytes bs = some c1 ∧
              t = { s1 with actChunk := some c1, actAddress := pc }) ∨
            (x = -1 ∧ ∃ er, t = { s1 with asmError := er })) := by
      intro he
      rcases he t x rfl with ⟨bs, c1, pc, hbs, hadd, ht⟩ | ⟨hx, er, ht⟩
      · exact ⟨s, Or.inl rfl, Or.inl ⟨c, bs, c1, pc, hc, hbs, hadd, ht⟩⟩
      · exact ⟨s, Or.inl rfl, Or.inr ⟨hx, er, ht⟩⟩
    split at h
    · exact viaS (h ▸ emits_error s c _)
    · split at h
      · split at h
        · exact viaS (h ▸ emits_error s c _)
        · exact viaS (h ▸ emits_emit s c _ _ (by simp))
      · have hl := labelReference_shape u s opc op n
        split at h
        · rename_i e he
          obtain ⟨hx, er, hs⟩ := asterisk_error _ _ _ he
          simp only [Option.some.injEq] at h
          subst h
          exact ⟨_, hl, Or.inr ⟨hx, er, hs⟩⟩
        · have he := emits_encode (labelReference u s opc op n).1 c (opcodeMap opc) opc _ t x h
          rcases he with ⟨bs, c1, pc, hbs, hadd, ht⟩ | ⟨hx, er, ht⟩
          · exact ⟨_, hl, Or.inl ⟨c, bs, c1, pc, hc, hbs, hadd, ht⟩⟩
          · exact ⟨_, hl, Or.inr ⟨hx, er, ht⟩⟩

theorem table_emit (L : List Str) (M : List (Str × UnresolvedLabel)) (s : Asm) (c : MemChunk)
    (bs : List Nat) (n : Nat) (h : s.lines = L ∧ s.unresolvedLabels = M) :
    Keeps (fun t => t.lines = L ∧ t.unresolvedLabels = M) (s.emit c bs n) := by
  intro t x e
  unfold Asm.emit at e
  cases h1 : c.addBytes bs with
  | none => simp [h1] at e
  | some c1 =>
    simp only [h1, Option.some.injEq, Prod.mk.injEq] at e
    obtain ⟨rfl, -⟩ := e
    exact h

theorem table_dataLoop (L : List Str) (M : List (Str × UnresolvedLabel)) (keyword : Str)
    (vs : List Str) (s : Asm) (c : MemChunk) (h : s.lines = L ∧ s.unresolvedLabels = M) :
    Keeps (fun t => t.lines = L ∧ t.unresolvedLabels = M) (dataLoop keyword vs s c) := by
  induction vs generalizing s c with
  | nil =>
    unfold dataLoop
    exact keeps_some _ _ _ h
  | cons v vs ih =>
    unfold dataLoop
    dsimp only
    repeat' first | split | dsimp only
    all_goals first
      | exact keeps_none _
      | exact keeps_some _ _ _ h
      | exact ih _ _ h

theorem table_directiveText (s : Asm) (line : Str) :
    Keeps (fun t => t.lines = s.lines ∧ t.unresolvedLabels = s.unresolvedLabels)
      (directiveText s line) := by
  unfold directiveText
  repeat' first | split | dsimp only
  all_goals first
    | exact keeps_some _ _ _ ⟨rfl, rfl⟩
    | exact table_emit _ _ _ _ _ _ ⟨rfl, rfl⟩

theorem table_directiveData (s : Asm) (keyword line : Str) :
    Keeps (fun t => t.lines = s.lines ∧ t.unresolvedLabels = s.unresolvedLabels)
      (directiveData s keyword line) := by
  unfold directiveData
  dsimp only
  split
  · exact keeps_some _ _ _ ⟨rfl, rfl⟩
  · cases s.actChunk with
    | none => exact keeps_some _ _ _ ⟨rfl, rfl⟩
    | some c => exact table_dataLoop _ _ _ _ _ _ ⟨rfl, rfl⟩

theorem table_directivePc (u : Uninit) (s : Asm) (line : Str) :
    Keeps (fun t => t.lines = s.lines ∧ t.unresolvedLabels = s.unresolvedLabels)
      (directivePc u s line) := by
  unfold directivePc
  repeat' first | split | dsimp only
  all_goals exact keeps_some _ _ _ ⟨rfl, rfl⟩

/-- The source's `checkDirectives` leaves `lines` and the table of the
references as they are, and hands on the line, with or without its comment. -/
theorem table_checkDirectives (u : Uninit) (s : Asm) (line : Str)
    (s1 : Asm) (x : Int) (l1 : Str) (e : checkDirectives u s line = some (s1, x, l1)) :
    (s1.lines = s.lines ∧ s1.unresolvedLabels = s.unresolvedLabels) ∧
    (l1 = line ∨ l1 = globalReplace remove_comments (fun _ => []) line) := by
  have same : ∀ {t : Asm} {y : Int} {l : Str}, some (t, y, l) = some (s1, x, l1) →
      (t.lines = s.lines ∧ t.unresolvedLabels = s.unresolvedLabels) →
      (l = line ∨ l = globalReplace remove_comments (fun _ => []) line) →
      (s1.lines = s.lines ∧ s1.unresolvedLabels = s.unresolvedLabels) ∧
      (l1 = line ∨ l1 = globalReplace remove_comments (fun _ => []) line) := by
    intro t y l e1 ht hl
    simp only [Option.some.injEq, Prod.mk.injEq] at e1
    obtain ⟨rfl, -, rfl⟩ := e1
    exact ⟨ht, hl⟩
  have viaMap : ∀ (r : Option (Asm × Int)) (l : Str),
      Keeps (fun t => t.lines = s.lines ∧ t.unresolvedLabels = s.unresolvedLabels) r →
      (l = line ∨ l = globalReplace remove_comments (fun _ => []) line) →
      r.map (fun r => (r.1, r.2, l)) = some (s1, x, l1) →
      (s1.lines = s.lines ∧ s1.unresolvedLabels = s.unresolvedLabels) ∧
      (l1 = line ∨ l1 = globalReplace remove_comments (fun _ => []) line) := by
    intro r l hk hl e1
    cases r with
    | none => cases e1
    | some y =>
      obtain ⟨t, z⟩ := y
      simp only [Option.map_some', Option.some.injEq, Prod.mk.injEq] at e1
      obtain ⟨rfl, -, rfl⟩ := e1
      exact ⟨hk t z rfl, hl⟩
  unfold checkDirectives at e
  repeat' first | split at e | dsimp only at e
  all_goals first
    | exact same e ⟨rfl, rfl⟩ (Or.inl rfl)
    | exact same e ⟨rfl, rfl⟩ (Or.inr rfl)
    | exact viaMap _ _ (table_directiveText s _) (Or.inl rfl) e
    | exact viaMap _ _ (table_directivePc u s _) (Or.inr rfl) e
    | exact viaMap _ _ (table_directiveData s _ _) (Or.inr rfl) e

theorem table_detectLabelDefinition (s : Asm) (line : Str) :
    (detectLabelDefinition s line).1.lines = s.lines ∧
    (detectLabelDefinition s line).1.unresolvedLabels = s.unresolvedLabels := by
  unfold detectLabelDefinition
  simp only
  repeat' first | split | dsimp only
  all_goals exact ⟨rfl, rfl⟩

theorem addByte_data (c c1 : MemChunk) (b : Nat) (h : c.addByte b = some c1) :
    c1.data.isSome = true := by
  unfold MemChunk.addByte at h
  dsimp only at h
  repeat' first | split at h | dsimp only at h
  all_goals first
    | (cases h; done)
    | (cases h; rfl)

theorem addBytes_data (c c1 : MemChunk) (bs : List Nat) (h : c.addBytes bs = some c1) :
    (bs ≠ [] ∨ c.data.isSome = true) → c1.data.isSome = true := by
  induction bs generalizing c with
  | nil =>
    intro hd
    simp only [MemChunk.addBytes, Option.some.injEq] at h
    rcases hd with hd | hd
    · exact absurd rfl hd
    · rw [← h]
      exact hd
  | cons b bs ih =>
    intro _
    simp only [MemChunk.addBytes] at h
    cases hb : c.addByte b with
    | none => simp [hb] at h
    | some c2 =>
      simp only [hb, Option.some_bind] at h
      exact ih c2 h (Or.inr (addByte_data c c2 b hb))

/-- The outcomes of the source's `assembleLine`: nothing changed, or the
outcome of its part after the split of the line. -/
theorem assembleLine_outcome (u : Uninit) (s : Asm) (line : Str) (n : Nat)
    (t : Asm) (x : Int) (h : assembleLine u s line n = some (t, x)) :
    t = s ∨
    ∃ s1, (s1 = s ∨ ∃ key a,
        s1 = { s with unresolvedLabels := unresolvedAdd key a n s.unresolvedLabels } ∧
        a.memChunk = s.chunks.length) ∧
      ((∃ c bs c1 pc, s.actChunk = some c ∧ bs ≠ [] ∧ c.addBytes bs = some c1 ∧
          t = { s1 with actChunk := some c1, actAddress := pc }) ∨
        (x = -1 ∧ ∃ er, t = { s1 with asmError := er })) := by
  unfold assembleLine at h
  simp only at h
  repeat' first | split at h | dsimp only at h
  all_goals first
    | (simp only [Option.some.injEq, Prod.mk.injEq] at h; exact Or.inl h.1.symm)
    | exact Or.inr (assembleParsed_outcome u s _ _ n t x h)

/-- What a line that passes does to `lines` and to the table of the
references. -/
theorem processLine_step (u : Uninit) (s : Asm) (raw : Str) (k : Nat) (t : Asm)
    (h : processLine u s raw k = some (t, 0)) :
    t.lines = s.lines ++ [trimLine raw] ∧ RefStep k s t := by
  unfold processLine at h
  unfold trimLine
  dsimp only at h
  generalize globalReplace remove_trailing_space (fun _ => [])
    (globalReplace remove_leading_space (fun g => capGet g 1) raw) = line0 at h ⊢
  cases hcd : checkDirectives u { s with lines := s.lines ++ [line0] } line0 with
  | none => simp [hcd] at h
  | some y =>
    obtain ⟨s1, d, l1⟩ := y
    simp only [hcd] at h
    obtain ⟨⟨hl1, hu1⟩, hline⟩ := table_checkDirectives u _ line0 s1 d l1 hcd
    simp only at hl1 hu1
    obtain ⟨hl2, hu2⟩ := table_detectLabelDefinition s1 l1
    have hc2 := detectLabelDefinition_chunks s1 l1
    cases hal : assembleLine u (detectLabelDefinition s1 l1).1 l1 k with
    | none => simp [hal] at h
    | some z =>
      obtain ⟨s3, a⟩ := z
      simp only [hal] at h
      have ht : t = s3 ∧ ¬ (a == -1) = true := by
        split at h
        · simp only [Option.some.injEq, Prod.mk.injEq] at h
          exact absurd h.2 (by decide)
        · split at h
          · simp only [Option.some.injEq, Prod.mk.injEq] at h
            exact absurd h.2 (by decide)
          · rename_i hn
            simp only [Option.some.injEq, Prod.mk.injEq, and_true] at h
            refine ⟨h.symm, ?_⟩
            intro ha
            apply hn
            simp [ha]
      obtain ⟨rfl, ha⟩ := ht
      have unchanged : t = (detectLabelDefinition s1 l1).1 →
          t.lines = s.lines ++ [line0] ∧ RefStep k s t := by
        intro e
        rw [e]
        exact ⟨hl2.trans hl1, Or.inl (hu2.trans hu1)⟩
      cases hsd : fullMatch searchDirective line0 with
      | some d0 =>
        obtain ⟨ws, rest, e0, hws⟩ := searchDirective_shape line0 (by rw [hsd]; rfl)
        have hshape : ∃ rest1, l1 = ws ++ 46 :: rest1 := by
          rcases hline with e1 | e1
          · exact ⟨rest, e1.trans e0⟩
          · obtain ⟨rest1, e2⟩ := remove_comments_directive (fun _ => []) ws rest hws
            exact ⟨rest1, by rw [e1, e0, e2]⟩
        obtain ⟨rest1, e1⟩ := hshape
        rw [e1, assembleLine_directive u _ k ws rest1 hws] at hal
        simp only [Option.some.injEq, Prod.mk.injEq] at hal
        exact unchanged (by rw [e1]; exact hal.1.symm)
      | none =>
        have hcd0 : checkDirectives u { s with lines := s.lines ++ [line0] } line0
            = some ({ s with lines := s.lines ++ [line0] }, 1, line0) := by
          unfold checkDirectives
          rw [hsd]
        rw [hcd0] at hcd
        simp only [Option.some.injEq, Prod.mk.injEq] at hcd
        obtain ⟨rfl, -, rfl⟩ := hcd
        simp only at hc2
        rcases assembleLine_outcome u _ _ k t a hal with e | ⟨s2, hs2, hout⟩
        · exact unchanged e
        · rcases hout with ⟨c, bs, c1, pc, hc, hbs, hadd, e⟩ | ⟨hx, -⟩
          · rcases hs2 with rfl | ⟨key, fx, rfl, hfx⟩
            · rw [e]
              exact ⟨hl2.trans hl1, Or.inl (hu2.trans hu1)⟩
            · rw [e]
              refine ⟨hl2.trans hl1, Or.inr ⟨key, fx, ?_, ?_, hc2.1, c1, rfl, ?_⟩⟩
              · simp only
                rw [hu2]
              · rw [hfx, hc2.1]
              · exact addBytes_data c c1 bs hadd (Or.inl hbs)
          · rw [hx] at ha
            exact absurd rfl ha

/-- The entry of a label after a reference to it is recorded on the line
`line`: its field `line` is that line. -/
theorem entryOf_unresolvedAdd_same (key : Str) (a : UnresolvedAddress) (line : Nat)
    (m : List (Str × UnresolvedLabel)) :
    ∃ ul, entryOf (unresolvedAdd key a line m) key = some ul ∧ ul.line = line := by
  induction m with
  | nil => exact ⟨{ addresses := [a], line := line }, by simp [unresolvedAdd, entryOf], rfl⟩
  | cons e rest ih =>
    obtain ⟨k, l⟩ := e
    unfold unresolvedAdd
    by_cases hk : (k == key) = true
    · simp only [hk, if_true]
      exact ⟨{ addresses := l.addresses ++ [a], line := line }, by simp [entryOf, hk], rfl⟩
    · simp only [hk, Bool.false_eq_true, if_false]
      split
      · exact ⟨{ addresses := [a], line := line }, by simp [entryOf], rfl⟩
      · obtain ⟨ul, h1, h2⟩ := ih
        refine ⟨ul, ?_, h2⟩
        simp only [entryOf, List.find?_cons, hk] at h1 ⊢
        exact h1

/-- The entries of the other labels stay as they are. -/
theorem entryOf_unresolvedAdd_other (key : Str) (a : UnresolvedAddress) (line : Nat)
    (m : List (Str × UnresolvedLabel)) (name : Str) (hne : name ≠ key) :
    entryOf (unresolvedAdd key a line m) name = entryOf m name := by
  have hkey : (key == name) = false := by
    simp only [beq_eq_false_iff_ne, ne_eq]
    exact fun e => hne e.symm
  induction m with
  | nil => simp [unresolvedAdd, entryOf, hkey]
  | cons e rest ih =>
    obtain ⟨k, l⟩ := e
    unfold unresolvedAdd
    by_cases hk : (k == key) = true
    · have e1 : k = key := by simpa using hk
      simp only [hk, if_true]
      simp [entryOf, List.find?_cons, e1, hkey]
    · simp only [hk, Bool.false_eq_true, if_false]
      split
      · simp [entryOf, List.find?_cons, hkey]
      · simp only [entryOf, List.find?_cons] at ih ⊢
        cases hkn : k == name with
        | true => rfl
        | false => exact ih

/-- The references of the table after one is added: the new one and the
old ones. -/
theorem mem_unresolvedAdd (key : Str) (a : UnresolvedAddress) (line : Nat)
    (m : List (Str × UnresolvedLabel)) (e : Str × UnresolvedLabel)
    (he : e ∈ unresolvedAdd key a line m) (b : UnresolvedAddress) (hb : b ∈ e.2.addresses) :
    b = a ∨ ∃ e0 ∈ m, b ∈ e0.2.addresses := by
  induction m with
  | nil =>
    simp only [unresolvedAdd, List.mem_singleton] at he
    subst he
    simp only [List.mem_singleton] at hb
    exact Or.inl hb
  | cons e1 rest ih =>
    obtain ⟨k, l⟩ := e1
    unfold unresolvedAdd at he
    by_cases hk : (k == key) = true
    · simp only [hk, if_true, List.mem_cons] at he
      rcases he with rfl | he
      · simp only [List.mem_append, List.mem_singleton] at hb
        rcases hb with hb | hb
        · exact Or.inr ⟨(k, l), by simp, hb⟩
        · exact Or.inl hb
      · exact Or.inr ⟨e, by simp [he], hb⟩
    · simp only [hk, Bool.false_eq_true, if_false] at he
      split at he
      · simp only [List.mem_cons] at he
        rcases he with rfl | rfl | he
        · simp only [List.mem_singleton] at hb
          exact Or.inl hb
        · exact Or.inr ⟨(k, l), by simp, hb⟩
        · exact Or.inr ⟨e, by simp [he], hb⟩
      · simp only [List.mem_cons] at he
        rcases he with rfl | he
        · exact Or.inr ⟨(k, l), by simp, hb⟩
        · rcases ih he with h | ⟨e0, h0, h1⟩
          · exact Or.inl h
          · exact Or.inr ⟨e0, by simp [h0], h1⟩

theorem finalize_data (c : MemChunk) (h : c.data.isSome = true) :
    c.finalize.data.isSome = true := by
  unfold MemChunk.finalize
  split
  · exact h
  · rfl

theorem get?_append_of_some (l l2 : List MemChunk) (i : Nat) (c : MemChunk)
    (h : l.get? i = some c) : (l ++ l2).get? i = some c := by
  induction l generalizing i with
  | nil => cases h
  | cons x xs ih =>
    cases i with
    | zero => exact h
    | succ j => exact ih j h

theorem get?_append_length (l : List MemChunk) (x : MemChunk) :
    (l ++ [x]).get? l.length = some x := by
  induction l with
  | nil => rfl
  | cons y ys ih => exact ih

/-- A line that passes keeps every recorded reference pointing to a chunk with
a buffer. -/
theorem fixupsOk_step (u : Uninit) (s : Asm) (raw : Str) (k : Nat) (t : Asm)
    (hok : FixupsOk s) (h : processLine u s raw k = some (t, 0)) : FixupsOk t := by
  obtain ⟨-, hstep⟩ := processLine_step u s raw k t h
  cases hpc : isPcLine raw with
  | true =>
    obtain ⟨hch, hact, -⟩ := processLine_pc u s raw k t hpc h
    have htab : t.unresolvedLabels = s.unresolvedLabels := by
      rcases hstep with e | ⟨_, _, _, _, _, c, hc, hd⟩
      · exact e
      · rw [hact] at hc
        simp only [Option.some.injEq] at hc
        rw [← hc] at hd
        cases hd
    refine ⟨Or.inr (by rw [hact]; rfl), ?_⟩
    intro e he a ha
    rw [htab] at he
    rcases hok.2 e he a ha with ⟨c, hget, hd⟩ | ⟨hidx, c, hc, hd⟩
    · exact Or.inl ⟨c, by rw [hch]; exact get?_append_of_some _ _ _ _ hget, hd⟩
    · refine Or.inl ⟨c.finalize, ?_, finalize_data c hd⟩
      rw [hch, hc, hidx]
      exact get?_append_length _ _
  | false =>
    obtain ⟨hch, hsome, bs, hact⟩ := processLine_other u s raw k hpc t 0 h
    have hmono : ∀ c, s.actChunk = some c → c.data.isSome = true →
        ∃ c1, t.actChunk = some c1 ∧ c1.data.isSome = true := by
      intro c hc hd
      rw [hc] at hact hsome
      simp only [Option.some_bind] at hact
      cases hadd : c.addBytes bs with
      | none =>
        rw [hadd] at hact
        rw [hact] at hsome
        cases hsome
      | some c1 =>
        rw [hadd] at hact
        exact ⟨c1, hact, addBytes_data c c1 bs hadd (Or.inr hd)⟩
    have hold : ∀ e ∈ s.unresolvedLabels, ∀ a ∈ e.2.addresses,
        (∃ c, t.chunks.get? a.memChunk = some c ∧ c.data.isSome = true) ∨
        (a.memChunk = t.chunks.length ∧ ∃ c, t.actChunk = some c ∧ c.data.isSome = true) := by
      intro e he a ha
      rcases hok.2 e he a ha with ⟨c, hget, hd⟩ | ⟨hidx, c, hc, hd⟩
      · exact Or.inl ⟨c, by rw [hch]; exact hget, hd⟩
      · exact Or.inr ⟨by rw [hch]; exact hidx, hmono c hc hd⟩
    rcases hstep with e | ⟨key, fx, htab, hfx, -, c, hc, hd⟩
    · refine ⟨?_, ?_⟩
      · rcases hok.1 with h0 | h0
        · exact Or.inl (e.trans h0)
        · exact Or.inr (hsome.trans h0)
      · intro e1 he1 a ha
        rw [e] at he1
        exact hold e1 he1 a ha
    · refine ⟨Or.inr (by rw [hc]; rfl), ?_⟩
      intro e1 he1 a ha
      rw [htab] at he1
      rcases mem_unresolvedAdd key fx k _ e1 he1 a ha with rfl | ⟨e0, he0, ha0⟩
      · exact Or.inr ⟨by rw [hch]; exact hfx, c, hc, hd⟩
      · exact hold e0 he0 a ha0

theorem take_succ_split (ls : List Str) (k : Nat) (h : k < ls.length) :
    ∃ raw post, ls = ls.take k ++ raw :: post ∧ ls.take (k + 1) = ls.take k ++ [raw] := by
  induction ls generalizing k with
  | nil => simp at h
  | cons x xs ih =>
    cases k with
    | zero => exact ⟨x, xs, rfl, rfl⟩
    | succ j =>
      obtain ⟨raw, post, e1, e2⟩ := ih j (by simpa using h)
      refine ⟨raw, post, ?_, ?_⟩
      · simp only [List.take_succ_cons, List.cons_append]
        rw [← e1]
      · simp only [List.take_succ_cons, List.cons_append]
        rw [e2]

/-- The state of the first pass after each number of lines of a run that
passes: the lines recorded are the lines read, every recorded reference points
to a chunk with a buffer, and the entry of a label holds the number of the
last line that referenced it. -/
theorem run_invariant (u : Nat → Uninit) (ls : List Str) (sfin : Asm)
    (hrun : firstPass u ls = some (sfin, 0)) :
    ∀ k, k ≤ ls.length → ∃ s, firstPass u (ls.take k) = some (s, 0) ∧
      s.lines = (ls.take k).map trimLine ∧ FixupsOk s ∧
      ∀ name,
        (∀ ul, entryOf s.unresolvedLabels name = some ul →
          1 ≤ ul.line ∧ ul.line ≤ k ∧ recordsRef u ls ul.line name) ∧
        (∀ j, j ≤ k → recordsRef u ls j name →
          ∃ ul, entryOf s.unresolvedLabels name = some ul ∧ j ≤ ul.line) := by
  intro k
  induction k with
  | zero =>
    intro _
    refine ⟨Asm.init, rfl, rfl, ⟨Or.inl rfl, ?_⟩, ?_⟩
    · intro e he
      cases he
    · intro name
      refine ⟨?_, ?_⟩
      · intro ul h
        cases h
      · intro j hj hr
        have := hr.1
        omega
  | succ k ih =>
    intro hk
    obtain ⟨s, hs, hlines, hfix, hent⟩ := ih (by omega)
    obtain ⟨raw, post, hsplit, htake⟩ := take_succ_split ls k (by omega)
    have hrun2 : firstPass u (ls.take k ++ raw :: post) = some (sfin, 0) := by
      rw [← hsplit]
      exact hrun
    obtain ⟨sp, sq, h1, h2, h3, -⟩ := firstPass_line u (ls.take k) raw post sfin hrun2
    have hsp : sp = s := by
      rw [hs] at h1
      simp only [Option.some.injEq, Prod.mk.injEq, and_true] at h1
      exact h1.symm
    subst hsp
    have hlen : (ls.take k).length = k := by
      rw [List.length_take]
      omega
    rw [hlen] at h3
    obtain ⟨hl, hstep⟩ := processLine_step (u (1 + k)) sp raw (1 + k) sq h3
    have hq : firstPass u (ls.take (k + 1)) = some (sq, 0) := by
      rw [htake]
      exact h2
    refine ⟨sq, hq, ?_, fixupsOk_step _ sp raw _ sq hfix h3, ?_⟩
    · rw [hl, hlines, htake]
      simp
    · intro name
      have eA0 : entryAfter u ls k name = some (entryOf sp.unresolvedLabels name) := by
        unfold entryAfter
        rw [hs]
        rfl
      have eA1 : entryAfter u ls (k + 1) name = some (entryOf sq.unresolvedLabels name) := by
        unfold entryAfter
        rw [hq]
        rfl
      have hrec : recordsRef u ls (k + 1) name ↔
          entryOf sp.unresolvedLabels name ≠ entryOf sq.unresolvedLabels name := by
        unfold recordsRef
        rw [Nat.add_sub_cancel, eA0, eA1]
        constructor
        · intro h e
          exact h.2.2 (by rw [e])
        · intro h
          exact ⟨by omega, hk, fun e => h (Option.some.inj e)⟩
      have same : entryOf sq.unresolvedLabels name = entryOf sp.unresolvedLabels name →
          (∀ ul, entryOf sq.unresolvedLabels name = some ul →
            1 ≤ ul.line ∧ ul.line ≤ k + 1 ∧ recordsRef u ls ul.line name) ∧
          (∀ j, j ≤ k + 1 → recordsRef u ls j name →
            ∃ ul, entryOf sq.unresolvedLabels name = some ul ∧ j ≤ ul.line) := by
        intro e
        rw [e]
        refine ⟨?_, ?_⟩
        · intro ul hul
          obtain ⟨a1, a2, a3⟩ := (hent name).1 ul hul
          exact ⟨a1, by omega, a3⟩
        · intro j hj hr
          by_cases hjk : j = k + 1
          · subst hjk
            exact absurd e.symm (hrec.mp hr)
          · exact (hent name).2 j (by omega) hr
      rcases hstep with e | ⟨key, fx, htab, -, -, -⟩
      · exact same (by rw [e])
      · by_cases hn : name = key
        · subst hn
          obtain ⟨ul1, hu1, hline1⟩ := entryOf_unresolvedAdd_same name fx (1 + k)
            sp.unresolvedLabels
          rw [← htab] at hu1
          have hne : entryOf sp.unresolvedLabels name ≠ entryOf sq.unresolvedLabels name := by
            intro e
            rw [hu1] at e
            have := ((hent name).1 ul1 e).2.1
            omega
          have hr := hrec.mpr hne
          refine ⟨?_, ?_⟩
          · intro ul hul
            rw [hu1] at hul
            simp only [Option.some.injEq] at hul
            subst hul
            have e1 : ul1.line = k + 1 := by omega
            rw [e1]
            exact ⟨by omega, by omega, hr⟩
          · intro j hj _
            exact ⟨ul1, hu1, by omega⟩
        · exact same (by rw [htab]; exact entryOf_unresolvedAdd_other key fx _ _ name hn)

/-! ## The second pass on a label that reads 0 -/

theorem inBuffer_iff (chunks : List MemChunk) (a : UnresolvedAddress) :
    inBuffer chunks a = true ↔ ∃ c buf, chunks.get? a.memChunk = some c ∧ c.data = some buf ∧
      (a.address + 65536 - c.startAddress % 65536) % 65536 +
        (if a.isOneByteAddr || a.isBranch then 0 else 1) < buf.length := by
  unfold inBuffer
  cases hg : chunks.get? a.memChunk with
  | none => simp
  | some c =>
    cases hd : c.data with
    | none => simp [hd]
    | some buf => simp [hd]

/-- A fix-up whose write is inside the buffer goes through and leaves the
start address and the size of the buffer as they were. -/
theorem patchChunk_inBuffer (c : MemChunk) (a : UnresolvedAddress) (r : Nat) (buf : List Nat)
    (hd : c.data = some buf)
    (hin : (a.address + 65536 - c.startAddress % 65536) % 65536 +
        (if a.isOneByteAddr || a.isBranch then 0 else 1) < buf.length) :
    ∃ c1 buf1, patchChunk c a r = some c1 ∧ c1.data = some buf1 ∧ buf1.length = buf.length ∧
      c1.startAddress = c.startAddress := by
  unfold patchChunk MemChunk.rewriteByteAtAddress MemChunk.rewriteWordAtAddress
  simp only [hd]
  by_cases h1 : a.isOneByteAddr = true
  · simp only [h1, Bool.true_or, ↓reduceIte, Nat.add_zero] at hin
    simp only [h1, ↓reduceIte, hin]
    split <;> exact ⟨_, _, rfl, rfl, by simp [bufWrite], rfl⟩
  · by_cases h2 : a.isBranch = true
    · simp only [h2, Bool.or_true, ↓reduceIte, Nat.add_zero] at hin
      simp only [h1, h2, ↓reduceIte, hin]
      exact ⟨_, _, rfl, rfl, by simp [bufWrite], rfl⟩
    · have e1 : a.isOneByteAddr = false := by simpa using h1
      have e2 : a.isBranch = false := by simpa using h2
      simp only [e1, e2, Bool.or_false, Bool.false_eq_true, ↓reduceIte] at hin
      simp only [e1, e2, Bool.false_eq_true, ↓reduceIte, hin]
      exact ⟨_, _, rfl, rfl, by simp [bufWrite], rfl⟩

theorem inBuffer_set (chunks : List MemChunk) (j : Nat) (c c1 : MemChunk) (buf buf1 : List Nat)
    (hg : chunks.get? j = some c) (hd : c.data = some buf) (hd1 : c1.data = some buf1)
    (hl : buf1.length = buf.length) (hs : c1.startAddress = c.startAddress)
    (b : UnresolvedAddress) (hb : inBuffer chunks b = true) :
    inBuffer (chunks.set j c1) b = true := by
  rw [inBuffer_iff] at hb ⊢
  obtain ⟨c0, buf0, h0, hd0, hin⟩ := hb
  by_cases e : b.memChunk = j
  · rw [e] at h0 ⊢
    rw [hg] at h0
    simp only [Option.some.injEq] at h0
    subst h0
    rw [hd] at hd0
    simp only [Option.some.injEq] at hd0
    subst hd0
    refine ⟨c1, buf1, ?_, hd1, by rw [hs, hl]; exact hin⟩
    have hlt : j < chunks.length := by
      by_contra hcon
      have : chunks.get? j = none := by simp [List.get?_eq_getElem?]; omega
      rw [this] at hg
      cases hg
    simp [List.get?_eq_getElem?, List.getElem?_set, hlt]
  · refine ⟨c0, buf0, ?_, hd0, hin⟩
    have : (chunks.set j c1).get? b.memChunk = chunks.get? b.memChunk := by
      simp only [List.get?_eq_getElem?]
      rw [List.getElem?_set_ne (fun h => e h.symm)]
    rw [this]
    exact h0

/-- The fix-ups of one label all go through when the write of each is inside
the buffer of its chunk, and they leave the writes of the others inside. -/
theorem patchAll_ok (r : Nat) (l : List UnresolvedAddress) (chunks : List MemChunk)
    (h : ∀ a ∈ l, inBuffer chunks a = true) :
    ∃ chunks1, patchAll r l chunks = some chunks1 ∧
      ∀ b, inBuffer chunks b = true → inBuffer chunks1 b = true := by
  induction l generalizing chunks with
  | nil => exact ⟨chunks, rfl, fun b hb => hb⟩
  | cons a rest ih =>
    obtain ⟨c, buf, hg, hd, hin⟩ := (inBuffer_iff chunks a).1 (h a (by simp))
    obtain ⟨c1, buf1, hp, hd1, hl, hs⟩ := patchChunk_inBuffer c a r buf hd hin
    have hset : ∀ b, inBuffer chunks b = true → inBuffer (chunks.set a.memChunk c1) b = true :=
      fun b hb => inBuffer_set chunks a.memChunk c c1 buf buf1 hg hd hd1 hl hs b hb
    obtain ⟨chunks1, h1, h2⟩ := ih (chunks.set a.memChunk c1)
      (fun b hb => hset b (h b (by simp [hb])))
    refine ⟨chunks1, ?_, fun b hb => h2 b (hset b hb)⟩
    unfold patchAll
    rw [hg]
    simp only
    rw [hp]
    exact h1

/-- The second pass stops at the first label of the table that reads 0, with
the line that its entry holds, when the writes of the fix-ups are inside the
buffers. -/
theorem resolveLoop_report (before after : List (Str × UnresolvedLabel)) (name : Str)
    (ul : UnresolvedLabel) (s : Asm)
    (hok : ∀ e ∈ before ++ (name, ul) :: after, ∀ a ∈ e.2.addresses,
      inBuffer s.chunks a = true)
    (hbefore : ∀ e ∈ before, labelsGet s.labels e.1 ≠ 0)
    (hname : labelsGet s.labels name = 0) :
    ∃ chunks1, resolveLoop (before ++ (name, ul) :: after) s =
      some ({ s with
        chunks := chunks1,
        asmError := { s.asmError with
          errorString := S "Unresolved label definition '" ++ name ++ S "'",
          errorLineNumber := ul.line,
          lineContent := s.lines.getD (ul.line - 1) [] } }, -1) := by
  induction before generalizing s with
  | nil =>
    obtain ⟨chunks1, h1, -⟩ := patchAll_ok (labelsGet s.labels name) ul.addresses s.chunks
      (hok (name, ul) (by simp))
    refine ⟨chunks1, ?_⟩
    rw [hname] at h1
    simp only [List.nil_append, resolveLoop, hname, h1, beq_self_eq_true, if_true]
  | cons e rest ih =>
    obtain ⟨n0, u0⟩ := e
    obtain ⟨chunks1, h1, h2⟩ := patchAll_ok (labelsGet s.labels n0) u0.addresses s.chunks
      (hok (n0, u0) (by simp))
    have hn0 : (labelsGet s.labels n0 == 0) = false := by
      simp only [beq_eq_false_iff_ne, ne_eq]
      exact hbefore (n0, u0) (by simp)
    obtain ⟨chunks2, h3⟩ := ih { s with chunks := chunks1 }
      (fun e he a ha => h2 a (hok e (by simp [List.mem_cons] at he ⊢; tauto) a ha))
      (fun e he => hbefore e (by simp [he]))
      hname
    refine ⟨chunks2, ?_⟩
    simp only [List.cons_append, resolveLoop, h1, hn0, Bool.false_eq_true, if_false]
    exact h3

theorem entryOf_skip (before after : List (Str × UnresolvedLabel)) (name : Str)
    (ul : UnresolvedLabel) (h : ∀ e ∈ before, e.1 ≠ name) :
    entryOf (before ++ (name, ul) :: after) name = some ul := by
  induction before with
  | nil => simp [entryOf]
  | cons e rest ih =>
    have he : (e.1 == name) = false := by
      simp only [beq_eq_false_iff_ne, ne_eq]
      exact h e (by simp)
    have := ih (fun x hx => h x (by simp [hx]))
    simp only [entryOf, List.cons_append, List.find?_cons, he] at this ⊢
    exact this

/-- C17, undefined label, as the code has it.  Let every line of the source
pass the first pass, let the write of every recorded reference be inside the
buffer of its chunk, and let `name` be the first label, in the order of the
table of the references, that reads 0 in `labels` when the first pass is over
(a label that is defined nowhere reads 0).  Then `assemble` returns -1 with the
message "Unresolved label definition 'name'"; the line number reported is the
one held in the entry of the label, which is the number of the LAST line that
referenced the label (that line recorded a reference, and no line after it
did); and the line content reported is the text of that line without the
blanks around it. -/
theorem unresolved_label_report (u : Nat → Uninit) (src : Str) (s : Asm)
    (before after : List (Str × UnresolvedLabel)) (name : Str) (ul : UnresolvedLabel)
    (hrun : firstPass u (getlines src) = some (s, 0))
    (hin : ∀ c, s.actChunk = some c → ∀ e ∈ s.unresolvedLabels, ∀ a ∈ e.2.addresses,
      inBuffer (s.chunks ++ [c.finalize]) a = true)
    (hm : s.unresolvedLabels = before ++ (name, ul) :: after)
    (hbefore : ∀ e ∈ before, labelsGet s.labels e.1 ≠ 0)
    (hname : labelsGet s.labels name = 0) :
    ∃ t, assemble u Asm.init src = some (t, -1) ∧
      t.asmError.errorString = S "Unresolved label definition '" ++ name ++ S "'" ∧
      t.asmError.errorLineNumber = ul.line ∧
      t.asmError.lineContent = ((getlines src).map trimLine).getD (ul.line - 1) [] ∧
      recordsRef u (getlines src) ul.line name ∧
      ∀ j, recordsRef u (getlines src) j name → j ≤ ul.line := by
  obtain ⟨s1, h1, hlines, hfix, hent⟩ :=
    run_invariant u (getlines src) s hrun (getlines src).length (Nat.le_refl _)
  rw [List.take_length, hrun] at h1
  simp only [Option.some.injEq, Prod.mk.injEq, and_true] at h1
  subst h1
  rw [List.take_length] at hlines
  have hentry : entryOf s.unresolvedLabels name = some ul := by
    rw [hm]
    apply entryOf_skip
    intro e he e1
    apply hbefore e he
    rw [e1]
    exact hname
  obtain ⟨c, hc⟩ : ∃ c, s.actChunk = some c := by
    rcases hfix.1 with h0 | h0
    · rw [hm] at h0
      cases before <;> cases h0
    · exact Option.isSome_iff_exists.mp h0
  have hok : ∀ e ∈ before ++ (name, ul) :: after, ∀ a ∈ e.2.addresses,
      inBuffer (s.chunks ++ [c.finalize]) a = true := by
    intro e he a ha
    rw [← hm] at he
    exact hin c hc e he a ha
  obtain ⟨chunks1, hres⟩ := resolveLoop_report before after name ul
    { s with actChunk := some c.finalize, chunks := s.chunks ++ [c.finalize] } hok hbefore hname
  have hasm := assemble_of_loop u Asm.init s src hrun
  simp only [hc] at hasm
  rw [← hm] at hres
  rw [hres] at hasm
  refine ⟨_, hasm, rfl, rfl, ?_, ((hent name).1 ul hentry).2.2, ?_⟩
  · simp only
    rw [hlines]
  · intro j hj
    obtain ⟨ul1, hu1, hle⟩ := (hent name).2 j hj.2.1 hj
    rw [hentry] at hu1
    simp only [Option.some.injEq] at hu1
    rw [hu1]
    exact hle

/-- An instance of `unresolved_label_report`: the source `undefinedVal`, whose
lines 2 and 3 reference `VAL`; line 3 is reported. -/
theorem unresolved_label_report_witness :
    firstPass (fun _ => quiet) (getlines undefinedVal) = some (undefinedValState, 0) ∧
    ∃ t, assemble (fun _ => quiet) Asm.init undefinedVal = some (t, -1) ∧
      t.asmError.errorString = S "Unresolved label definition '" ++ S "VAL" ++ S "'" ∧
      t.asmError.errorLineNumber = 3 ∧
      t.asmError.lineContent = S "STA VAL" ∧
      recordsRef (fun _ => quiet) (getlines undefinedVal) 3 (S "VAL") ∧
      ∀ j, recordsRef (fun _ => quiet) (getlines undefinedVal) j (S "VAL") → j ≤ 3 := by
  have h := unresolved_label_report (fun _ => quiet) undefinedVal undefinedValState [] []
    (S "VAL") valEntry (by decide) (by decide) rfl (by simp) (by decide)
  have e : ((getlines undefinedVal).map trimLine).getD (valEntry.line - 1) [] = S "STA VAL" := by
    decide
  rw [e] at h
  exact ⟨by decide, h⟩

/-- C17, counterexample: the label `FOO` is referenced on line 2 and on line 3
and defined nowhere; the error cites line 3, `LDA FOO`, not line 2. -/
theorem unresolved_label_cites_last_line :
    reportOf (assemble (fun _ => quiet) Asm.init (S ".pc = $1000\nJMP FOO\nLDA FOO\nNOP")) =
      some (-1, S "Unresolved label definition 'FOO'", 3, S "LDA FOO") := by
  decide

/-! ## Keywords, numbers and addressing modes at concrete inputs -/

/-- C21, the code at a failing input: the keyword is put in lower case before
it is compared, but the pattern of the `.pc` directive asks for the letters `pc`
as they are, so `.PC = $1000` fails with "Syntax error" where `.pc = $1000`
opens a chunk at 0x1000; the other keywords are taken in either case. -/
theorem pc_keyword_upper_case_rejected :
    reportOf (assemble (fun _ => quiet) Asm.init (S ".PC = $1000\nNOP"))
      = some (-1, S "Syntax error", 1, S ".PC = $1000") ∧
    chunksOf (assemble (fun _ => quiet) Asm.init (S ".pc = $1000\nNOP"))
      = some (0, [(0x1000, [0xea])]) ∧
    chunksOf (assemble (fun _ => quiet) Asm.init
        (S ".pc = $1000\n.BYTE 1\n.Word 2\n.PETSCII\n.TEXT \"a\"\n.Ascii\n.text \"a\""))
      = chunksOf (assemble (fun _ => quiet) Asm.init
        (S ".pc = $1000\n.byte 1\n.word 2\n.petscii\n.text \"a\"\n.ascii\n.text \"a\"")) := by
  decide

/-- C23, the code at a failing input: the pattern of a hexadecimal number takes
the letters `G` to `Z` for digits and `findChar` gives 0 for each of them, so
`LDA #$GZ` is assembled as `A9 00` (and `LDA #$1G` as `A9 10`), where a text
with a letter in a decimal number fails with "Invalid number type". -/
theorem immediate_hex_letters_accepted :
    convertIntoDecimal (S "$GZ") = 0 ∧
    chunksOf (assemble (fun _ => quiet) Asm.init (S ".pc = $1000\nLDA #$GZ"))
      = some (0, [(0x1000, [0xa9, 0x00])]) ∧
    chunksOf (assemble (fun _ => quiet) Asm.init (S ".pc = $1000\nLDA #$1G"))
      = some (0, [(0x1000, [0xa9, 0x10])]) ∧
    reportOf (assemble (fun _ => quiet) Asm.init (S ".pc = $1000\nLDA #12AB"))
      = some (-1, S "Invalid number type: #12AB", 2, S "LDA #12AB") := by
  decide

/-- C24 (amended). The table that `initOpcodeTable` builds holds exactly 55
mnemonics, the 56 of the 6502 without `BRK`: the keys are distinct, each is
three upper-case letters, and each is mapped to the entry whose name is the
key. -/
theorem opcode_table_entries :
    opcodeTable.length = 55 ∧
    (opcodeTable.map (fun o => o.name)).Nodup ∧
    (∀ o ∈ opcodeTable, o.name.length = 3 ∧ o.name.all isUpper = true ∧
      opcodeMap o.name = o ∧ (opcodeMap o.name).name = o.name) ∧
    S "BRK" ∉ opcodeTable.map (fun o => o.name) ∧
    (opcodeMap (S "BRK")).name = [] := by
  decide

/-- C24, counterexample to the claim as stated: the table does not hold 56
mnemonics, `BRK` has no entry. -/
theorem opcode_table_lacks_brk :
    opcodeTable.length ≠ 56 ∧ S "BRK" ∉ opcodeTable.map (fun o => o.name) := by
  decide

/-- C25, the code at failing inputs: the blocks for `,X`, `,Y` and `(,X)`
append the slot that the size of the address selects without a look at it, so
`LDA $10,Y`, `STX $1234,Y`, `STY $1234,X` and `JMP ($10,X)` return 0 with the
opcode byte 00. -/
theorem unsupported_mode_encoded_as_00 :
    (opcodeMap (S "LDA")).code 3 = 0 ∧ (opcodeMap (S "STX")).code 6 = 0 ∧
    (opcodeMap (S "STY")).code 5 = 0 ∧ (opcodeMap (S "JMP")).code 7 = 0 ∧
    chunksOf (assemble (fun _ => quiet) Asm.init (S ".pc = $1000\nLDA $10,Y"))
      = some (0, [(0x1000, [0x00, 0x10])]) ∧
    chunksOf (assemble (fun _ => quiet) Asm.init (S ".pc = $1000\nSTX $1234,Y"))
      = some (0, [(0x1000, [0x00, 0x34, 0x12])]) ∧
    chunksOf (assemble (fun _ => quiet) Asm.init (S ".pc = $1000\nSTY $1234,X"))
      = some (0, [(0x1000, [0x00, 0x34, 0x12])]) ∧
    chunksOf (assemble (fun _ => quiet) Asm.init (S ".pc = $1000\nJMP ($10,X)"))
      = some (0, [(0x1000, [0x00, 0x10])]) :=
  ⟨by decide, by decide, by decide, by decide, by decide, by decide, by decide, by decide⟩

/-- C30, the code at failing inputs: an address below 0x100 selects the
zero-page slot, which `JMP` and `JSR` do not have, so `JMP $0010` and
`JSR $0010` fail with "Unknown instruction", and so does `JMP *` at 0x10;
`JMP $1234` gives `4C 34 12` and `JMP *` at 0x1000 gives `4C 00 10`. -/
theorem jmp_below_page_one_rejected :
    reportOf (assemble (fun _ => quiet) Asm.init (S ".pc = $1000\nJMP $0010"))
      = some (-1, S "Unknown instruction", 2, S "JMP $0010") ∧
    reportOf (assemble (fun _ => quiet) Asm.init (S ".pc = $1000\nJSR $0010"))
      = some (-1, S "Unknown instruction", 2, S "JSR $0010") ∧
    reportOf (assemble (fun _ => quiet) Asm.init (S ".pc = $10\nJMP *"))
      = some (-1, S "Unknown instruction", 2, S "JMP *") ∧
    chunksOf (assemble (fun _ => quiet) Asm.init (S ".pc = $1000\nJMP $1234"))
      = some (0, [(0x1000, [0x4c, 0x34, 0x12])]) ∧
    chunksOf (assemble (fun _ => quiet) Asm.init (S ".pc = $1000\nJMP *"))
      = some (0, [(0x1000, [0x4c, 0x00, 0x10])]) :=
  ⟨by decide, by decide, by decide, by decide, by decide⟩

/-- C28, counterexample to the claim as stated: the source `.pc = $1000`,
`L: NOP` returns 0 on a fresh assembler and -1 with "Label already defined: L"
when `assemble` is called with it again on the same assembler. -/
theorem second_call_differs :
    chunksOf (assemble (fun _ => quiet) Asm.init (S ".pc = $1000\nL: NOP"))
      = some (0, [(0x1000, [0xea])]) ∧
    secondCallReport (fun _ => quiet)
        (assemble (fun _ => quiet) Asm.init (S ".pc = $1000\nL: NOP")) (S ".pc = $1000\nL: NOP")
      = some (-1, S "Label already defined: L", 2, S "L: NOP") :=
  ⟨by decide, by decide⟩

/-! ## The program counter -/

/-- C26. The program-counter invariant: on a fresh assembler, after the lines
`pre` have passed and the line `raw` has been processed, with whatever outcome
`x`, the program counter is the start address of the current chunk plus its
length, modulo 65536; and when `raw` is no `.pc` directive, the chunk is the
one before the line with bytes `bs` appended and the program counter has
advanced by the number of these bytes. -/
theorem pc_invariant (u : Nat → Uninit) (pre : List Str) (raw : Str) (s t : Asm) (x : Int)
    (hpre : firstPass u pre = some (s, 0))
    (hline : processLine (u (1 + pre.length)) s raw (1 + pre.length) = some (t, x)) :
    (∀ c, t.actChunk = some c → t.actAddress = (c.startAddress + c.length) % 65536) ∧
    (isPcLine raw = false → ∀ c, s.actChunk = some c →
      ∃ bs c1, c.addBytes bs = some c1 ∧ t.actChunk = some c1 ∧ t.chunks = s.chunks ∧
        t.actAddress = (s.actAddress + bs.length) % 65536) := by
  have hs : PcInv s := pcInv_firstPass u pre s 0 hpre
  have ht : PcInv t := pcInv_processLine (u (1 + pre.length)) s raw (1 + pre.length) hs t x hline
  refine ⟨ht.2, ?_⟩
  intro hpc c hc
  obtain ⟨h1, h2, bs, h3⟩ := processLine_other (u (1 + pre.length)) s raw (1 + pre.length) hpc t x
    hline
  rw [hc, Option.some_bind] at h3
  cases hb : c.addBytes bs with
  | none =>
    rw [hb] at h3
    rw [h3, hc] at h2
    simp at h2
  | some c1 =>
    rw [hb] at h3
    refine ⟨bs, c1, hb, h3, h1, ?_⟩
    rw [ht.2 c1 h3, addBytes_length c c1 bs hb, hs.2 c hc]
    omega

/-- An instance of `pc_invariant`: the line `LDA #$01` after `.pc = $1000`
appends two bytes and leaves the program counter at 0x1002. -/
theorem pc_invariant_witness :
    firstPass (fun _ => quiet) [S ".pc = $1000"] = some (afterPc1000, 0) ∧
    processLine quiet afterPc1000 (S "LDA #$01") 2 = some (afterLda, 0) ∧
    (∀ c, afterLda.actChunk = some c →
      afterLda.actAddress = (c.startAddress + c.length) % 65536) ∧
    (isPcLine (S "LDA #$01") = false → ∀ c, afterPc1000.actChunk = some c →
      ∃ bs c1, c.addBytes bs = some c1 ∧ afterLda.actChunk = some c1 ∧
        afterLda.chunks = afterPc1000.chunks ∧
        afterLda.actAddress = (afterPc1000.actAddress + bs.length) % 65536) :=
  ⟨by decide, by decide,
    pc_invariant (fun _ => quiet) [S ".pc = $1000"] (S "LDA #$01") afterPc1000 afterLda 0
      (by decide) (by decide)⟩

/-! ## Numbers in the three notations -/

theorem digitsValue_ofDigits (base : Nat) (ds : Str) :
    digitsValue base ds = Nat.ofDigits base (ds.reverse.map digitVal) := by
  induction ds using List.reverseRecOn with
  | nil => simp [digitsValue]
  | append_singleton xs y ih =>
    rw [digitsValue_append, ih]
    simp only [List.reverse_append, List.reverse_cons, List.reverse_nil, List.nil_append,
      List.singleton_append, List.map_cons, Nat.ofDigits_cons]
    ring

theorem digitVal_upperDigit (d : Nat) (h : d < 16) : digitVal (upperDigit d) = d := by
  unfold digitVal upperDigit isDigit isLower
  by_cases h1 : d < 10
  · simp only [h1, if_true]
    have e : (decide (48 ≤ 48 + d) && decide (48 + d ≤ 57)) = true := by
      simp only [Bool.and_eq_true, decide_eq_true_eq]
      omega
    rw [if_pos e]
    omega
  · simp only [h1, if_false]
    have e : (decide (48 ≤ 55 + d) && decide (55 + d ≤ 57)) = false := by
      simp only [Bool.and_eq_false_iff, decide_eq_false_iff_not]
      omega
    have e2 : (decide (97 ≤ 55 + d) && decide (55 + d ≤ 122)) = false := by
      simp only [Bool.and_eq_false_iff, decide_eq_false_iff_not]
      omega
    rw [e, e2]
    simp only [Bool.false_eq_true, if_false]
    omega

theorem upperDigit_digitVal (x : Nat) (h : isHexUpper x = true) : upperDigit (digitVal x) = x := by
  unfold isHexUpper isDigit at h
  simp only [Bool.or_eq_true, Bool.and_eq_true, decide_eq_true_eq] at h
  unfold digitVal upperDigit isDigit isLower
  by_cases h1 : 48 ≤ x ∧ x ≤ 57
  · have e : (decide (48 ≤ x) && decide (x ≤ 57)) = true := by
      simp only [Bool.and_eq_true, decide_eq_true_eq]
      exact h1
    rw [if_pos e, if_pos (by omega)]
    omega
  · have e : (decide (48 ≤ x) && decide (x ≤ 57)) = false := by
      simp only [Bool.and_eq_false_iff, decide_eq_false_iff_not]
      omega
    have e2 : (decide (97 ≤ x) && decide (x ≤ 122)) = false := by
      simp only [Bool.and_eq_false_iff, decide_eq_false_iff_not]
      omega
    rw [e, e2]
    simp only [Bool.false_eq_true, if_false]
    rw [if_neg (by omega)]
    omega

theorem digitVal_lt (base : Nat) (x : Nat) (hb : base = 16 ∨ base = 10 ∨ base = 2)
    (h : if base = 16 then isHexUpper x = true else if base = 10 then isDigit x = true
      else isBin x = true) :
    isHexUpper x = true ∧ digitVal x < base := by
  unfold isHexUpper isDigit isBin at h
  unfold isHexUpper digitVal isDigit isLower
  rcases hb with hb | hb | hb <;> subst hb <;>
    simp only [Nat.reduceEqDiff, if_true, if_false, Bool.or_eq_true, Bool.and_eq_true,
      decide_eq_true_eq, beq_iff_eq] at h ⊢
  · refine ⟨h, ?_⟩
    split
    · omega
    · split <;> omega
  · refine ⟨Or.inl h, ?_⟩
    rw [if_pos h]
    omega
  · refine ⟨Or.inl (by omega), ?_⟩
    rw [if_pos (by omega)]
    omega

theorem digitsValue_zeros (base k : Nat) (t : Str) :
    digitsValue base (List.replicate k 48 ++ t) = digitsValue base t := by
  induction k with
  | zero => rfl
  | succ k ih =>
    have e : digitsValue base (48 :: (List.replicate k 48 ++ t)) =
        digitsValue base (List.replicate k 48 ++ t) := by
      simp [digitsValue, digitVal, isDigit]
    rw [List.replicate_succ, List.cons_append, e, ih]

theorem digitsValue_digitText (base n : Nat) (hb : 2 ≤ base) (hb16 : base ≤ 16) :
    digitsValue base (digitText base n) = n := by
  unfold digitText
  by_cases h0 : n = 0
  · subst h0
    simp [digitsValue, digitVal, isDigit]
  · rw [if_neg h0, digitsValue_ofDigits, ← List.map_reverse, List.reverse_reverse, List.map_map]
    have e : (Nat.digits base n).map (digitVal ∘ upperDigit) = Nat.digits base n := by
      conv_rhs => rw [← List.map_id (Nat.digits base n)]
      apply List.map_congr_left
      intro d hd
      have := Nat.digits_lt_base (by omega) hd
      simp only [Function.comp_apply, id_eq]
      exact digitVal_upperDigit d (by omega)
    rw [e, Nat.ofDigits_digits]

theorem digitText_ne_nil (base n : Nat) : digitText base n ≠ [] := by
  unfold digitText
  by_cases h0 : n = 0
  · simp [h0]
  · rw [if_neg h0]
    intro h
    simp only [List.map_eq_nil_iff, List.reverse_eq_nil_iff] at h
    exact h0 (Nat.digits_eq_nil_iff_eq_zero.1 h)

theorem digitText_class (base n x : Nat) (hb : 2 ≤ base) (hx : x ∈ digitText base n) :
    ∃ d, d < base ∧ x = upperDigit d := by
  unfold digitText at hx
  by_cases h0 : n = 0
  · rw [if_pos h0] at hx
    simp only [List.mem_singleton] at hx
    exact ⟨0, by omega, by rw [hx]; rfl⟩
  · rw [if_neg h0] at hx
    obtain ⟨d, hd, rfl⟩ := List.mem_map.1 hx
    exact ⟨d, Nat.digits_lt_base (by omega) (List.mem_reverse.1 hd), rfl⟩

theorem numeral_class (base k n x : Nat) (hb : 2 ≤ base)
    (hx : x ∈ List.replicate k 48 ++ digitText base n) : ∃ d, d < base ∧ x = upperDigit d := by
  rcases List.mem_append.1 hx with h | h
  · exact ⟨0, by omega, by rw [(List.mem_replicate.1 h).2]; rfl⟩
  · exact digitText_class base n x hb h

theorem upperDigit_hex (d : Nat) (h : d < 16) : isHexUpper (upperDigit d) = true := by
  unfold isHexUpper isDigit upperDigit
  simp only [Bool.or_eq_true, Bool.and_eq_true, decide_eq_true_eq]
  split <;> omega

theorem upperDigit_dec (d : Nat) (h : d < 10) : isDigit (upperDigit d) = true := by
  unfold isDigit upperDigit
  simp only [Bool.and_eq_true, decide_eq_true_eq]
  split <;> omega

theorem upperDigit_bin (d : Nat) (h : d < 2) : isBin (upperDigit d) = true := by
  unfold isBin upperDigit
  simp only [Bool.or_eq_true, beq_iff_eq]
  split <;> omega

/-- A text of digits without leading zeros is the digit text of its value. -/
theorem digitText_unique (base : Nat) (ds : Str) (hb : 2 ≤ base) (hne : ds ≠ [])
    (hcl : ∀ x ∈ ds, isHexUpper x = true ∧ digitVal x < base) (hz : noLeadingZero ds) :
    ds = digitText base (digitsValue base ds) := by
  rcases hz with hz | hz
  · subst hz
    have e : digitsValue base [48] = 0 := by simp [digitsValue, digitVal, isDigit]
    rw [e]
    rfl
  · cases ds with
    | nil => exact absurd rfl hne
    | cons x xs =>
      have hx : x ≠ 48 := by
        intro h
        apply hz
        rw [h]
        rfl
      have hcx := hcl x (by simp)
      have hdx : digitVal x ≠ 0 := by
        intro h0
        have := upperDigit_digitVal x hcx.1
        rw [h0] at this
        exact hx this.symm
      have hL : Nat.digits base (Nat.ofDigits base ((x :: xs).reverse.map digitVal)) =
          (x :: xs).reverse.map digitVal := by
        apply Nat.digits_ofDigits base (by omega)
        · intro l hl
          obtain ⟨y, hy, rfl⟩ := List.mem_map.1 hl
          exact (hcl y (List.mem_reverse.1 hy)).2
        · intro h
          simp only [List.reverse_cons, List.map_append, List.map_cons, List.map_nil,
            List.getLast_append_singleton] at h ⊢
          exact hdx
      have hv : digitsValue base (x :: xs) ≠ 0 := by
        intro h0
        rw [digitsValue_ofDigits] at h0
        rw [h0] at hL
        simp at hL
      unfold digitText
      rw [if_neg hv, digitsValue_ofDigits, hL, ← List.map_reverse, List.reverse_reverse,
        List.map_map]
      conv_lhs => rw [← List.map_id (x :: xs)]
      apply List.map_congr_left
      intro y hy
      simp only [Function.comp_apply, id_eq]
      exact (upperDigit_digitVal y (hcl y hy).1).symm

theorem wrap32_nat_small (v : Nat) (h : v ≤ 65535) : wrap32 (v : Int) = (v : Int) :=
  wrap32_of_range (by omega) (by omega)

/-- C22. The round trip of the numbers: for every `n` in [0, 65535] and every
number `k` of leading zeros, `convertIntoDecimal` returns `n` on `$` and the
upper-case hexadecimal digits of `n`, on `%` and the binary digits of `n`, and
on the decimal digits of `n`; and in each base a text of digits without
leading zeros whose value is in range and which is mapped to the same number
as the digits of `n` is the digits of `n`. -/
theorem number_round_trip (n k : Nat) (hn : n ≤ 65535) :
    convertIntoDecimal (36 :: (List.replicate k 48 ++ digitText 16 n)) = (n : Int) ∧
    convertIntoDecimal (37 :: (List.replicate k 48 ++ digitText 2 n)) = (n : Int) ∧
    convertIntoDecimal (List.replicate k 48 ++ digitText 10 n) = (n : Int) ∧
    (∀ ds, ds ≠ [] → (∀ x ∈ ds, isHexUpper x = true) → noLeadingZero ds →
      digitsValue 16 ds ≤ 65535 →
      convertIntoDecimal (36 :: ds) = convertIntoDecimal (36 :: digitText 16 n) →
      ds = digitText 16 n) ∧
    (∀ ds, ds ≠ [] → (∀ x ∈ ds, isBin x = true) → noLeadingZero ds →
      digitsValue 2 ds ≤ 65535 →
      convertIntoDecimal (37 :: ds) = convertIntoDecimal (37 :: digitText 2 n) →
      ds = digitText 2 n) ∧
    (∀ ds, ds ≠ [] → (∀ x ∈ ds, isDigit x = true) → noLeadingZero ds →
      digitsValue 10 ds ≤ 65535 →
      convertIntoDecimal ds = convertIntoDecimal (digitText 10 n) →
      ds = digitText 10 n) := by
  have hne : ∀ base j, List.replicate j 48 ++ digitText base n ≠ [] := by
    intro base j h
    exact digitText_ne_nil base n (List.append_eq_nil.1 h).2
  have h16 : ∀ j, convertIntoDecimal (36 :: (List.replicate j 48 ++ digitText 16 n)) = (n : Int) := by
    intro j
    rw [convertIntoDecimal_hex _ (hne 16 j), digitsValue_zeros,
      digitsValue_digitText 16 n (by omega) (by omega)]
    · exact wrap32_nat_small n hn
    · intro x hx
      obtain ⟨d, hd, rfl⟩ := numeral_class 16 j n x (by omega) hx
      exact upperDigit_hex d hd
  have h2 : ∀ j, convertIntoDecimal (37 :: (List.replicate j 48 ++ digitText 2 n)) = (n : Int) := by
    intro j
    rw [convertIntoDecimal_bin _ (hne 2 j), digitsValue_zeros,
      digitsValue_digitText 2 n (by omega) (by omega)]
    · exact wrap32_nat_small n hn
    · intro x hx
      obtain ⟨d, hd, rfl⟩ := numeral_class 2 j n x (by omega) hx
      exact upperDigit_bin d hd
  have h10 : ∀ j, convertIntoDecimal (List.replicate j 48 ++ digitText 10 n) = (n : Int) := by
    intro j
    rw [convertIntoDecimal_dec _ (hne 10 j), digitsValue_zeros,
      digitsValue_digitText 10 n (by omega) (by omega)]
    · exact wrap32_nat_small n hn
    · intro x hx
      obtain ⟨d, hd, rfl⟩ := numeral_class 10 j n x (by omega) hx
      exact upperDigit_dec d hd
  refine ⟨h16 k, h2 k, h10 k, ?_, ?_, ?_⟩
  · intro ds hds hcl hz hv he
    have e0 := h16 0
    simp only [List.replicate_zero, List.nil_append] at e0
    rw [e0, convertIntoDecimal_hex ds hds hcl, wrap32_nat_small _ hv] at he
    have hu := digitText_unique 16 ds (by omega) hds
      (fun x hx => digitVal_lt 16 x (Or.inl rfl) (by simpa using hcl x hx)) hz
    rw [Nat.cast_inj.1 he] at hu
    exact hu
  · intro ds hds hcl hz hv he
    have e0 := h2 0
    simp only [List.replicate_zero, List.nil_append] at e0
    rw [e0, convertIntoDecimal_bin ds hds hcl, wrap32_nat_small _ hv] at he
    have hu := digitText_unique 2 ds (by omega) hds
      (fun x hx => digitVal_lt 2 x (Or.inr (Or.inr rfl)) (by simpa using hcl x hx)) hz
    rw [Nat.cast_inj.1 he] at hu
    exact hu
  · intro ds hds hcl hz hv he
    have e0 := h10 0
    simp only [List.replicate_zero, List.nil_append] at e0
    rw [e0, convertIntoDecimal_dec ds hds hcl, wrap32_nat_small _ hv] at he
    have hu := digitText_unique 10 ds (by omega) hds
      (fun x hx => digitVal_lt 10 x (Or.inr (Or.inl rfl)) (by simpa using hcl x hx)) hz
    rw [Nat.cast_inj.1 he] at hu
    exact hu

/-- An instance of `number_round_trip`: the value 0xABCD with two leading
zeros. -/
theorem number_round_trip_witness :
    (43981 : Nat) ≤ 65535 ∧
    digitText 16 43981 = S "ABCD" ∧
    digitText 2 43981 = S "1010101111001101" ∧
    digitText 10 43981 = S "43981" ∧
    convertIntoDecimal (S "$00ABCD") = 43981 ∧
    (convertIntoDecimal (36 :: (List.replicate 2 48 ++ digitText 16 43981)) = ((43981 : Nat) : Int) ∧
    convertIntoDecimal (37 :: (List.replicate 2 48 ++ digitText 2 43981)) = ((43981 : Nat) : Int) ∧
    convertIntoDecimal (List.replicate 2 48 ++ digitText 10 43981) = ((43981 : Nat) : Int) ∧
    (∀ ds, ds ≠ [] → (∀ x ∈ ds, isHexUpper x = true) → noLeadingZero ds →
      digitsValue 16 ds ≤ 65535 →
      convertIntoDecimal (36 :: ds) = convertIntoDecimal (36 :: digitText 16 43981) →
      ds = digitText 16 43981) ∧
    (∀ ds, ds ≠ [] → (∀ x ∈ ds, isBin x = true) → noLeadingZero ds →
      digitsValue 2 ds ≤ 65535 →
      convertIntoDecimal (37 :: ds) = convertIntoDecimal (37 :: digitText 2 43981) →
      ds = digitText 2 43981) ∧
    (∀ ds, ds ≠ [] → (∀ x ∈ ds, isDigit x = true) → noLeadingZero ds →
      digitsValue 10 ds ≤ 65535 →
      convertIntoDecimal ds = convertIntoDecimal (digitText 10 43981) →
      ds = digitText 10 43981)) := by
  refine ⟨by decide, ?_, ?_, ?_, by decide, number_round_trip 43981 2 (by decide)⟩
  · simp only [digitText]
    norm_num [upperDigit]
    decide
  · simp only [digitText]
    norm_num [upperDigit]
    decide
  · simp only [digitText]
    norm_num [upperDigit]
    decide

/-! ## Operands that are indexed label references -/

theorem split_suffix (C : Nat → Bool) (hC : C 44 = false) (K : Nat) (pre : Str) :
    ∀ (ls t : Str), (∀ x ∈ pre, C x = true) → (∀ x ∈ ls, C x = true) →
      ls ++ [44, K] = pre ++ t → ∃ a, t = a ++ [44, K] ∧ ∀ x ∈ a, C x = true := by
  induction pre with
  | nil =>
    intro ls t _ hls h
    exact ⟨ls, by simpa using h.symm, hls⟩
  | cons x pre ih =>
    intro ls t hpre hls h
    cases ls with
    | nil =>
      simp only [List.nil_append, List.cons_append, List.cons.injEq] at h
      have := hpre x (by simp)
      rw [← h.1, hC] at this
      cases this
    | cons y ls =>
      simp only [List.cons_append, List.cons.injEq] at h
      exact ih ls t (fun z hz => hpre z (by simp [hz])) (fun z hz => hls z (by simp [hz])) h.2

theorem star_tail_none (C : Nat → Bool) (hC : C 44 = false) (K : Nat)
    (k : Str → Option MatchRes) (ls : Str) (hls : ∀ x ∈ ls, C x = true)
    (hk : ∀ a, (∀ x ∈ a, C x = true) → k (a ++ [44, K]) = none) :
    starGo C k (ls ++ [44, K]) = none := by
  apply starGo_eq_none
  intro pre t h hpre
  obtain ⟨a, rfl, ha⟩ := split_suffix C hC K pre ls t hpre hls h
  exact hk a ha

theorem label_tail_none (K : Nat) (k : Str → Option MatchRes) (ls : Str)
    (hls : ∀ x ∈ ls, isLabelChar x = true)
    (hk : ∀ a, (∀ x ∈ a, isLabelChar x = true) → k (a ++ [44, K]) = none) :
    starGo isUpper (fun t => starGo isLabelChar k t) (ls ++ [44, K]) = none := by
  apply starGo_eq_none
  intro pre t h hpre
  obtain ⟨a, rfl, ha⟩ := split_suffix isLabelChar (by decide) K pre ls t
    (fun x hx => (isUpper_facts (hpre x hx)).2.2.1) hls h
  exact star_tail_none isLabelChar (by decide) K k a ha hk

theorem label_tail_some (K : Nat) (k : Str → Option MatchRes) (r : MatchRes) (ls : Str)
    (hls : ∀ x ∈ ls, isLabelChar x = true) (hk : k [44, K] = some r) :
    starGo isUpper (fun t => starGo isLabelChar k t) (ls ++ [44, K]) = some r := by
  have h0 : starGo isLabelChar k [44, K] = some r := by
    rw [starGo_stop isLabelChar k 44 [K] (by decide)]
    exact hk
  induction ls with
  | nil =>
    rw [List.nil_append, starGo_stop isUpper _ 44 [K] (by decide)]
    exact h0
  | cons x xs ih =>
    have ih1 := ih (fun y hy => hls y (by simp [hy]))
    rw [List.cons_append, starGo_cons]
    by_cases hx : isUpper x = true
    · rw [if_pos hx, ih1]
      rfl
    · rw [if_neg hx]
      exact starGo_append isLabelChar k (x :: xs) [44, K] r hls h0

theorem labelForm_indexed (l : Nat) (ls : Str) (K : Nat) (hK : K = 88 ∨ K = 89)
    (hl : isUpper l = true) (hls : ∀ x ∈ ls, isLabelChar x = true) :
    labelForm (l :: (ls ++ [44, K])) = some (if K = 88 then 1 else 2, l :: ls) := by
  obtain ⟨-, -, -, -, -, hang, -, -, -, h35, -⟩ := isUpper_facts hl
  have hsimple : fullMatch checkSimpleLabelReference (l :: (ls ++ [44, K])) = none := by
    have hn := fun k => label_tail_none K k ls hls
    simp [fullMatch, checkSimpleLabelReference, labelName, RE.cat, RE.opt, RE.ch,
      RE.plus, matchK, isCh, hl, hang, h35]
    rw [hn]
    intro a _
    simp
  have htake : List.take ((ls ++ [44, K]).length + 1 - 2) (l :: (ls ++ [44, K])) = l :: ls := by
    have e : (ls ++ [44, K]).length + 1 - 2 = (l :: ls).length := by simp
    rw [e, ← List.cons_append, List.take_left]
  rcases hK with hK | hK
  · subst hK
    have hx : fullMatch checkXIndexedLabelReference (l :: (ls ++ [44, 88])) =
        some [(1, l :: ls)] := by
      have hs := fun k r => label_tail_some 88 k r ls hls
      simp [fullMatch, checkXIndexedLabelReference, labelName, RE.cat, RE.ch,
        RE.plus, matchK, isCh, hl]
      rw [hs _ ([(1, l :: ls)], [])]
      simp [starGo, isSpace, htake]
    simp [labelForm, hsimple, hx, capGet]
  · subst hK
    have hx : fullMatch checkXIndexedLabelReference (l :: (ls ++ [44, 89])) = none := by
      have hn := fun k => label_tail_none 89 k ls hls
      simp [fullMatch, checkXIndexedLabelReference, labelName, RE.cat, RE.ch,
        RE.plus, matchK, isCh, hl]
      rw [hn]
      intro a ha
      cases a with
      | nil => simp [starGo, isSpace]
      | cons y ys =>
        have hy := isLabelChar_facts (ha y (by simp))
        have h44 : y ≠ 44 := by
          intro e
          have := ha y (by simp)
          rw [e] at this
          revert this
          decide
        simp [starGo, hy.2.2.2, h44]
    have hy : fullMatch checkYIndexedLabelReference (l :: (ls ++ [44, 89])) =
        some [(1, l :: ls)] := by
      have hs := fun k r => label_tail_some 89 k r ls hls
      simp [fullMatch, checkYIndexedLabelReference, labelName, RE.cat, RE.ch,
        RE.plus, matchK, isCh, hl]
      rw [hs _ ([(1, l :: ls)], [])]
      simp [starGo, isSpace, htake]
    simp [labelForm, hsimple, hx, hy, capGet]

theorem hex_tail_some (K : Nat) (k : Str → Option MatchRes) (r : MatchRes) (ds : Str)
    (hds : ∀ x ∈ ds, isHexUpper x = true) (hk : k [44, K] = some r) :
    starGo isHexUpper k (ds ++ [44, K]) = some r := by
  apply starGo_append isHexUpper k ds [44, K] r hds
  rw [starGo_stop isHexUpper k 44 [K] (by decide)]
  exact hk

/-- The blocks of `assembleLine` on `$`, hexadecimal digits and `,X` or `,Y`:
the block of the index is reached with the digits as its address. -/
theorem encode_indexed (s : Asm) (c : MemChunk) (o : Opcode) (ds : Str) (K : Nat)
    (hK : K = 88 ∨ K = 89) (hne : ds ≠ []) (h : ∀ x ∈ ds, isHexUpper x = true) :
    encode s c o o.name (36 :: (ds ++ [44, K])) =
      encodeIndexed s c o (if K = 88 then 2 else 3) (if K = 88 then 5 else 6) (36 :: ds)
        (36 :: (ds ++ [44, K])) := by
  cases ds with
  | nil => exact absurd rfl hne
  | cons d ds =>
    have hd := h d (by simp)
    have hds : ∀ x ∈ ds, isHexUpper x = true := fun x hx => h x (by simp [hx])
    have hzp : fullMatch checkZPorAbsolute (36 :: d :: (ds ++ [44, K])) = none := by
      have hn := fun k => star_tail_none isHexUpper (by decide) K k ds hds
      simp [fullMatch, checkZPorAbsolute, RE.cat, RE.ch, RE.opt, RE.plus, matchK, isCh, hd]
      rw [hn]
      · simp [isHexUpper, isDigit]
      · intro a _
        simp
    have htake : List.take ((ds ++ [44, K]).length + 1 + 1 - 2) (36 :: d :: (ds ++ [44, K])) =
        36 :: d :: ds := by
      have e : (ds ++ [44, K]).length + 1 + 1 - 2 = (36 :: d :: ds).length := by simp
      rw [e, ← List.cons_append, ← List.cons_append, List.take_left]
    rcases hK with hK | hK
    · subst hK
      have hx : fullMatch checkZPXorAbsoluteX (36 :: d :: (ds ++ [44, 88])) =
          some [(1, 36 :: d :: ds)] := by
        have hs := fun k r => hex_tail_some 88 k r ds hds
        simp [fullMatch, checkZPXorAbsoluteX, hexOperand, RE.cat, RE.ch, RE.plus, matchK, isCh, hd]
        rw [hs _ ([(1, 36 :: d :: ds)], [])]
        simp [starGo, isSpace, htake]
      show encode s c o o.name (36 :: d :: (ds ++ [44, 88])) = _
      simp only [encode, checkImmediateAddr_dollar, encodeZPAbs, hzp, encodeXY, hx, capGet]
      rfl
    · subst hK
      have hx : fullMatch checkZPXorAbsoluteX (36 :: d :: (ds ++ [44, 89])) = none := by
        have hn := fun k => star_tail_none isHexUpper (by decide) 89 k ds hds
        simp [fullMatch, checkZPXorAbsoluteX, hexOperand, RE.cat, RE.ch, RE.plus, matchK, isCh, hd]
        rw [hn]
        intro a ha
        cases a with
        | nil => simp [starGo, isSpace]
        | cons y ys =>
          have hy := isHexUpper_facts (ha y (by simp))
          have h44 : y ≠ 44 := by
            intro e
            have := ha y (by simp)
            rw [e] at this
            revert this
            decide
          simp [starGo, hy.2.2.2.1, h44]
      have hy : fullMatch checkZPYorAbsoluteY (36 :: d :: (ds ++ [44, 89])) =
          some [(1, 36 :: d :: ds)] := by
        have hs := fun k r => hex_tail_some 89 k r ds hds
        simp [fullMatch, checkZPYorAbsoluteY, hexOperand, RE.cat, RE.ch, RE.plus, matchK, isCh, hd]
        rw [hs _ ([(1, 36 :: d :: ds)], [])]
        simp [starGo, isSpace, htake]
      show encode s c o o.name (36 :: d :: (ds ++ [44, 89])) = _
      simp only [encode, checkImmediateAddr_dollar, encodeZPAbs, hzp, encodeXY, hx, hy, capGet]
      rfl

/-! ## References to labels in the absolute modes -/

theorem opcodeTable_nonbranch : ∀ o ∈ opcodeTable, o.code 10 = 0 → isBranchName o.name = false := by
  decide

theorem opcodeTable_indexed : ∀ o ∈ opcodeTable, (o.code 5 ≠ 0 ∨ o.code 6 ≠ 0) →
    hasSub o.name singleByteInstructions = false ∧ isBranchName o.name = false := by
  decide

/-- The line `M L` for a label that is defined: the address of the label
stands for it, and the mode follows from its size. -/
theorem assembleLine_label_defined (u : Uninit) (s : Asm) (c : MemChunk) (n : Nat) (o : Opcode)
    (name : Str) (A : Nat) (ho : o ∈ opcodeTable) (hnb : o.code 10 = 0)
    (hm : o.code 1 ≠ 0 ∨ o.code 4 ≠ 0) (hc : s.actChunk = some c)
    (hname : isLabelName name = true) (hget : labelsGet s.labels name = A) (hA0 : A ≠ 0)
    (hA : A ≤ 0xFFFF) :
    assembleLine u s (o.name ++ 32 :: name) n =
      if A < 256 then
        (if o.code 1 != 0 then s.emit c [o.code 1, A] 2
         else encodeXY s c o o.name (36 :: upperStr (hexStr A)))
      else
        (if o.code 4 != 0 then s.emit c [o.code 4, A % 256, A / 256] 3
         else encodeXY s c o o.name (36 :: upperStr (hexStr A))) := by
  have hsb := opcodeTable_addressed o ho
    (hm.elim (fun h => Or.inr (Or.inl h)) (fun h => Or.inr (Or.inr (Or.inl h))))
  obtain ⟨x, y, z, hxyz, hx, hy, hz⟩ := opcodeTable_letters o ho
  obtain ⟨hmap, hlen, -⟩ := opcodeTable_names o ho
  cases name with
  | nil => simp [isLabelName] at hname
  | cons l ls =>
    simp only [isLabelName, Bool.and_eq_true, List.all_eq_true] at hname
    obtain ⟨hl, hls⟩ := hname
    have hlc : ∀ w ∈ l :: ls, isLabelChar w = true := by
      intro w hw
      rcases List.mem_cons.mp hw with rfl | hw
      · exact (isUpper_facts hl).2.2.1
      · exact hls w hw
    have h59 : 59 ∉ l :: ls := fun h => (isLabelChar_facts (hlc 59 h)).2.1 rfl
    have h10 : 10 ∉ l :: ls := fun h => (isLabelChar_facts (hlc 10 h)).2.2.1 rfl
    have hhead : ∀ w ws, l :: ls = w :: ws → isSpace w = false := by
      intro w ws h
      simp only [List.cons.injEq] at h
      rw [← h.1]
      exact (isUpper_facts hl).1
    have hup : upperStr (l :: ls) = l :: ls :=
      upperStr_eq_self _ (fun w hw => (isLabelChar_facts (hlc w hw)).1)
    have hline : o.name ++ 32 :: (l :: ls) = x :: y :: z :: 32 :: (l :: ls) := by
      rw [hxyz]
      rfl
    obtain ⟨hup2, hne, hxs, hconv⟩ := hexOperand_facts (hexStr A) A (numberValue_hexStr _ hA)
    have hS : S "$" = [36] := by decide
    have hne0 : (o.name == []) = false := by rw [hxyz]; rfl
    have hget0 : (labelsGet s.labels (l :: ls) == 0) = false := by
      rw [hget]
      simpa using hA0
    have hb10 : (o.code 10 != 0) = false := by simp [hnb]
    rw [hline, assembleLine_operand u s n x y z (l :: ls) hx hy hz h59 h10 hhead, hup, ← hxyz]
    simp only [assembleParsed, hc, hmap, hne0, hsb, labelReference, labelForm_name l ls hl hls,
      hget0, hS, List.singleton_append, Bool.false_eq_true, ↓reduceIte]
    rw [hget, hup2, asterisk_plain _ 36 _ (by decide : (36 : Nat) ≠ 42)]
    simp only []
    rw [encode_address _ c o _ A hne hxs hconv hA]
    simp only [hb10, Bool.false_eq_true, ↓reduceIte]

/-- The line `M L` for a label that is not defined yet, at a program counter
of 0x100 or more: the fix-up that is recorded and the placeholder that is
assembled in the absolute mode. -/
theorem assembleLine_label_forward (u : Uninit) (s : Asm) (c : MemChunk) (n : Nat) (o : Opcode)
    (name : Str) (ho : o ∈ opcodeTable) (hnb : o.code 10 = 0) (h4 : o.code 4 ≠ 0)
    (hc : s.actChunk = some c) (hname : isLabelName name = true)
    (hget : labelsGet s.labels name = 0) (hlo : 0x100 ≤ s.actAddress)
    (hpc : s.actAddress ≤ 0xFFFF) :
    assembleLine u s (o.name ++ 32 :: name) n =
      ({ s with unresolvedLabels :=
          unresolvedAdd name (addressFixup s.actAddress s.chunks.length) n s.unresolvedLabels }
        : Asm).emit c [o.code 4, s.actAddress % 256, s.actAddress / 256] 3 := by
  have hsb := opcodeTable_addressed o ho (Or.inr (Or.inr (Or.inl h4)))
  obtain ⟨x, y, z, hxyz, hx, hy, hz⟩ := opcodeTable_letters o ho
  obtain ⟨hmap, hlen, -⟩ := opcodeTable_names o ho
  cases name with
  | nil => simp [isLabelName] at hname
  | cons l ls =>
    simp only [isLabelName, Bool.and_eq_true, List.all_eq_true] at hname
    obtain ⟨hl, hls⟩ := hname
    have hlc : ∀ w ∈ l :: ls, isLabelChar w = true := by
      intro w hw
      rcases List.mem_cons.mp hw with rfl | hw
      · exact (isUpper_facts hl).2.2.1
      · exact hls w hw
    have h59 : 59 ∉ l :: ls := fun h => (isLabelChar_facts (hlc 59 h)).2.1 rfl
    have h10 : 10 ∉ l :: ls := fun h => (isLabelChar_facts (hlc 10 h)).2.2.1 rfl
    have h60 : 60 ∉ l :: ls := fun h => (isLabelChar_not_angle (hlc 60 h)).1 rfl
    have h62 : 62 ∉ l :: ls := fun h => (isLabelChar_not_angle (hlc 62 h)).2 rfl
    have hhead : ∀ w ws, l :: ls = w :: ws → isSpace w = false := by
      intro w ws h
      simp only [List.cons.injEq] at h
      rw [← h.1]
      exact (isUpper_facts hl).1
    have hup : upperStr (l :: ls) = l :: ls :=
      upperStr_eq_self _ (fun w hw => (isLabelChar_facts (hlc w hw)).1)
    have hline : o.name ++ 32 :: (l :: ls) = x :: y :: z :: 32 :: (l :: ls) := by
      rw [hxyz]
      rfl
    obtain ⟨hup2, hne, hxs, hconv⟩ :=
      hexOperand_facts (hexStr s.actAddress) s.actAddress (numberValue_hexStr _ hpc)
    have hS : S "$" = [36] := by decide
    have hlow : hasSub (S "#<") (l :: ls) = false := by
      have : S "#<" = [35, 60] := by decide
      rw [this]
      exact hasSub_of_not_mem 35 60 _ h60
    have hhigh : hasSub (S "#>") (l :: ls) = false := by
      have : S "#>" = [35, 62] := by decide
      rw [this]
      exact hasSub_of_not_mem 35 62 _ h62
    have hne0 : (o.name == []) = false := by rw [hxyz]; rfl
    have hget0 : (labelsGet s.labels (l :: ls) == 0) = true := by
      rw [hget]
      rfl
    have hb10 : (o.code 10 != 0) = false := by simp [hnb]
    have hb4 : (o.code 4 != 0) = true := by simp [h4]
    have hnz : ¬ s.actAddress < 256 := by omega
    rw [hline, assembleLine_operand u s n x y z (l :: ls) hx hy hz h59 h10 hhead, hup, ← hxyz]
    simp only [assembleParsed, hc, hmap, hne0, hsb, labelReference, labelForm_name l ls hl hls,
      hget0, hlow, hhigh, opcodeTable_nonbranch o ho hnb, hS, List.singleton_append, hup2,
      Bool.false_eq_true, ↓reduceIte, beq_self_eq_true]
    rw [asterisk_plain _ 36 _ (by decide : (36 : Nat) ≠ 42)]
    simp only []
    rw [encode_address _ c o _ s.actAddress hne hxs hconv hpc]
    simp only [hb10, hb4, hnz, Bool.false_eq_true, ↓reduceIte]
    rfl

/-- The second pass on the fix-up of one 16-bit operand: the two bytes after
the opcode are rewritten, in the chunk of the reference, and nothing else. -/
theorem patchAll_address (chunks : List MemChunk) (i p A : Nat) (cf : MemChunk) (buf : List Nat)
    (hp : p < 0xFFFF) (hi : chunks.get? i = some cf) (hd : cf.data = some buf)
    (hoff : (p + 1 + 65536 - cf.startAddress % 65536) % 65536 + 1 < buf.length) :
    patchAll A [addressFixup p i] chunks =
      some (chunks.set i (cf.withData
        ((buf.set ((p + 1 + 65536 - cf.startAddress % 65536) % 65536) (A % 256)).set
          ((p + 1 + 65536 - cf.startAddress % 65536) % 65536 + 1) (A / 256 % 256)))) := by
  have hm : (p + 1) % 65536 = p + 1 := Nat.mod_eq_of_lt (by omega)
  have h1 : (p + 1 + 65536 - cf.startAddress % 65536) % 65536 < buf.length := by omega
  have h2 : (p + 1 + 65536 - cf.startAddress % 65536) % 65536 + 1 <
      (buf.set ((p + 1 + 65536 - cf.startAddress % 65536) % 65536) (A % 256)).length := by
    rw [List.length_set]
    exact hoff
  simp only [patchAll, addressFixup, hi, patchChunk, Bool.false_eq_true, ↓reduceIte, hm,
    MemChunk.rewriteWordAtAddress, hd, bufWrite, hoff, MemChunk.withData]

/-- The line `M L,X` or `M L,Y` at a program counter of 0x100 or more, where
the table of the labels holds nothing for the text of the operand: the fix-up
that is recorded and the placeholder that is assembled in the absolute mode
of the index. -/
theorem assembleLine_label_indexed (u : Uninit) (s : Asm) (c : MemChunk) (n : Nat) (o : Opcode)
    (name : Str) (K : Nat) (hK : K = 88 ∨ K = 89) (ho : o ∈ opcodeTable)
    (hab : o.code (if K = 88 then 5 else 6) ≠ 0)
    (hc : s.actChunk = some c) (hname : isLabelName name = true)
    (hget : labelsGet s.labels (name ++ [44, K]) = 0) (hlo : 0x100 ≤ s.actAddress)
    (hpc : s.actAddress ≤ 0xFFFF) :
    assembleLine u s (o.name ++ 32 :: (name ++ [44, K])) n =
      ({ s with unresolvedLabels :=
          unresolvedAdd name (addressFixup s.actAddress s.chunks.length) n s.unresolvedLabels }
        : Asm).emit c [o.code (if K = 88 then 5 else 6), s.actAddress % 256,
          s.actAddress / 256] 3 := by
  have h56 : o.code 5 ≠ 0 ∨ o.code 6 ≠ 0 := by
    rcases hK with hK | hK
    · subst hK
      exact Or.inl hab
    · subst hK
      exact Or.inr hab
  obtain ⟨hsb, hbr⟩ := opcodeTable_indexed o ho h56
  obtain ⟨x, y, z, hxyz, hx, hy, hz⟩ := opcodeTable_letters o ho
  obtain ⟨hmap, hlen, -⟩ := opcodeTable_names o ho
  cases name with
  | nil => simp [isLabelName] at hname
  | cons l ls =>
    simp only [isLabelName, Bool.and_eq_true, List.all_eq_true] at hname
    obtain ⟨hl, hls⟩ := hname
    have hlc : ∀ w ∈ l :: ls, isLabelChar w = true := by
      intro w hw
      rcases List.mem_cons.mp hw with rfl | hw
      · exact (isUpper_facts hl).2.2.1
      · exact hls w hw
    have hmem : ∀ w ∈ l :: (ls ++ [44, K]), isLabelChar w = true ∨ w = 44 ∨ w = K := by
      intro w hw
      rw [← List.cons_append, List.mem_append] at hw
      rcases hw with hw | hw
      · exact Or.inl (hlc w hw)
      · simp only [List.mem_cons, List.mem_singleton, List.not_mem_nil, or_false] at hw
        exact Or.inr hw
    have hK2 : K ≠ 59 ∧ K ≠ 10 ∧ K ≠ 60 ∧ K ≠ 62 ∧ toupper K = K := by
      rcases hK with hK | hK <;> subst hK <;> decide
    have h59 : 59 ∉ l :: (ls ++ [44, K]) := by
      intro h
      rcases hmem 59 h with h | h | h
      · exact (isLabelChar_facts h).2.1 rfl
      · cases h
      · exact hK2.1 h.symm
    have h10 : 10 ∉ l :: (ls ++ [44, K]) := by
      intro h
      rcases hmem 10 h with h | h | h
      · exact (isLabelChar_facts h).2.2.1 rfl
      · cases h
      · exact hK2.2.1 h.symm
    have h60 : 60 ∉ l :: (ls ++ [44, K]) := by
      intro h
      rcases hmem 60 h with h | h | h
      · exact (isLabelChar_not_angle h).1 rfl
      · cases h
      · exact hK2.2.2.1 h.symm
    have h62 : 62 ∉ l :: (ls ++ [44, K]) := by
      intro h
      rcases hmem 62 h with h | h | h
      · exact (isLabelChar_not_angle h).2 rfl
      · cases h
      · exact hK2.2.2.2.1 h.symm
    have hhead : ∀ w ws, l :: (ls ++ [44, K]) = w :: ws → isSpace w = false := by
      intro w ws h
      simp only [List.cons.injEq] at h
      rw [← h.1]
      exact (isUpper_facts hl).1
    have hup : upperStr (l :: (ls ++ [44, K])) = l :: (ls ++ [44, K]) := by
      apply upperStr_eq_self
      intro w hw
      rcases hmem w hw with h | h | h
      · exact (isLabelChar_facts h).1
      · rw [h]
        rfl
      · rw [h]
        exact hK2.2.2.2.2
    have hline : o.name ++ 32 :: (l :: ls ++ [44, K]) =
        x :: y :: z :: 32 :: (l :: (ls ++ [44, K])) := by
      rw [hxyz]
      rfl
    obtain ⟨hup2, hne, hxs, hconv⟩ :=
      hexOperand_facts (hexStr s.actAddress) s.actAddress (numberValue_hexStr _ hpc)
    have hw : wrap32 (s.actAddress : Int) = s.actAddress := wrap32_of_range (by omega) (by omega)
    have hfake : upperStr (S "$" ++ hexStr s.actAddress ++ [44, K]) =
        36 :: (upperStr (hexStr s.actAddress) ++ [44, K]) := by
      have hS : S "$" = [36] := by decide
      have e : upperStr [44, K] = [44, K] := by
        rcases hK with hK | hK <;> subst hK <;> decide
      rw [hS, List.singleton_append, ← List.cons_append, upperStr_append, hup2, e]
      try rfl
    have hlow : hasSub (S "#<") (l :: (ls ++ [44, K])) = false := by
      have : S "#<" = [35, 60] := by decide
      rw [this]
      exact hasSub_of_not_mem 35 60 _ h60
    have hhigh : hasSub (S "#>") (l :: (ls ++ [44, K])) = false := by
      have : S "#>" = [35, 62] := by decide
      rw [this]
      exact hasSub_of_not_mem 35 62 _ h62
    have hne0 : (o.name == []) = false := by rw [hxyz]; rfl
    have hget0 : (labelsGet s.labels (l :: (ls ++ [44, K])) == 0) = true := by
      have : labelsGet s.labels (l :: (ls ++ [44, K])) = 0 := hget
      rw [this]
      rfl
    have hr1 : ¬ ((s.actAddress : Int) < 0) := by omega
    have hr2 : ¬ ((s.actAddress : Int) > 65535) := by omega
    have hr3 : ¬ ((s.actAddress : Int) < 256) := by omega
    have hm2 : ((s.actAddress : Int) % 65536).toNat = s.actAddress := by omega
    have e1 : s.actAddress / 256 % 256 = s.actAddress / 256 := Nat.mod_eq_of_lt (by omega)
    have hX : S ",X" = [44, 88] := by decide
    have hY : S ",Y" = [44, 89] := by decide
    rw [hline, assembleLine_operand u s n x y z (l :: (ls ++ [44, K])) hx hy hz h59 h10 hhead, hup,
      ← hxyz]
    simp only [assembleParsed, hc, hmap, hne0, hsb, labelReference,
      labelForm_indexed l ls K hK hl hls, hget0, hlow, hhigh, hbr,
      Bool.false_eq_true, ↓reduceIte]
    rcases hK with hK | hK
    · subst hK
      simp only [↓reduceIte, hX, hfake, Nat.reduceBEq, Bool.false_eq_true, beq_self_eq_true]
      rw [asterisk_plain _ 36 _ (by decide : (36 : Nat) ≠ 42)]
      simp only []
      rw [encode_indexed _ c o _ 88 (Or.inl rfl) hne hxs]
      simp only [↓reduceIte] at hab
      have hz : (o.code 2 == 0 && o.code 5 == 0) = false := by simp [hab]
      simp only [encodeIndexed, hconv, hw, hr1, hr2, hr3, hm2, e1, hz, ↓reduceIte,
        decide_False, Bool.or_self, Bool.false_eq_true]
      rfl
    · subst hK
      simp only [↓reduceIte, hY, hfake, Nat.reduceBEq, Bool.false_eq_true, beq_self_eq_true,
        Nat.reduceEqDiff]
      rw [asterisk_plain _ 36 _ (by decide : (36 : Nat) ≠ 42)]
      simp only []
      rw [encode_indexed _ c o _ 89 (Or.inr rfl) hne hxs]
      simp only [Nat.reduceEqDiff, ↓reduceIte] at hab
      have hz : (o.code 3 == 0 && o.code 6 == 0) = false := by simp [hab]
      simp only [encodeIndexed, hconv, hw, hr1, hr2, hr3, hm2, e1, hz, ↓reduceIte,
        decide_False, Bool.or_self, Bool.false_eq_true, Nat.reduceEqDiff]
      rfl

/-- C29, counterexample to the claim as stated: `LDA L` at 0x1000 for the
label `L` defined before at 0x10 is encoded in the zero-page mode, in the two
bytes `A5 10`, not in the three bytes `AD 10 00` of the absolute mode; and for
a label defined later the same line at 0x10 takes the zero-page form with the
placeholder, over which the second pass writes two bytes. -/
theorem label_reference_zero_page :
    (opcodeMap (S "LDA")).code 4 = 0xad ∧
    chunksOf (assemble (fun _ => quiet) Asm.init (S ".pc = $10\nL: NOP\n.pc = $1000\nLDA L"))
      = some (0, [(0x10, [0xea]), (0x1000, [0xa5, 0x10])]) ∧
    chunksOf (assemble (fun _ => quiet) Asm.init (S ".pc = $10\nLDA L\nNOP\n.pc = $2000\nL: NOP"))
      = some (0, [(0x10, [0xa5, 0x00, 0x20]), (0x2000, [0xea])]) :=
  ⟨by decide, by decide, by decide⟩

/-! ## The buffer of a chunk -/

theorem take_set_succ (buf : List Nat) (i b : Nat) (h : i < buf.length) :
    (buf.set i b).take (i + 1) = buf.take i ++ [b] := by
  induction buf generalizing i with
  | nil => simp at h
  | cons x xs ih =>
    cases i with
    | zero => simp
    | succ j =>
      simp only [List.length_cons, Nat.add_lt_add_iff_right] at h
      simp [ih j h]

theorem fresh_sized (a : Nat) : (MemChunk.fresh a).Sized := by
  simp [MemChunk.Sized, MemChunk.fresh]

/-- A call of `addByte` on a chunk with fewer than 512 bytes: the byte is
appended. -/
theorem addByte_sized (c : MemChunk) (b : Nat) (hs : c.Sized) (hl : c.length < 512) :
    ∃ c1, c.addByte b = some c1 ∧ c1.Sized ∧ c1.length = c.length + 1 ∧
      c1.startAddress = c.startAddress ∧ c1.bytes = c.bytes ++ [b] := by
  unfold MemChunk.Sized at hs
  cases hd : c.data with
  | none =>
    rw [hd] at hs
    simp only at hs
    refine ⟨{ c with data := some (bufWrite (List.replicate 256 0) 0 b), bufferSize := 256,
                     length := 1 }, ?_, ?_, ?_, rfl, ?_⟩
    · simp [MemChunk.addByte, hd, hs]
    · simp [MemChunk.Sized, bufWrite]
    · simp [hs]
    · simp [MemChunk.bytes, bufWrite, hd, hs]
  | some buf =>
    rw [hd] at hs
    simp only at hs
    obtain ⟨hb, hle, hsz⟩ := hs
    have hm : (c.length + 1) % 65536 = c.length + 1 := Nat.mod_eq_of_lt (by omega)
    by_cases h256 : c.length = 256
    · have hbl : buf.length = 256 := by omega
      have hlen : (List.take 256 buf ++ List.replicate 256 0).length = 512 := by
        simp [hbl]
      refine ⟨{ c with data := some (bufWrite (List.take 256 buf ++ List.replicate 256 0) 256 b),
                       length := 257 }, ?_, ?_, ?_, rfl, ?_⟩
      · simp [MemChunk.addByte, hd, hb, h256, hbl]
      · unfold MemChunk.Sized
        dsimp only
        rw [bufWrite, List.length_set, hlen]
        exact ⟨hb, by omega, Or.inr ⟨rfl, by omega⟩⟩
      · simp [h256]
      · simp only [MemChunk.bytes, bufWrite, Option.getD_some, hd, h256]
        rw [take_set_succ _ 256 b (by rw [hlen]; omega)]
        have : List.take 256 (List.take 256 buf ++ List.replicate 256 0) = List.take 256 buf := by
          rw [List.take_append_of_le_length (by simp [hbl])]
          simp
        rw [this]
    · have hlt : c.length < buf.length := by omega
      refine ⟨{ c with data := some (bufWrite buf c.length b), length := c.length + 1 },
        ?_, ?_, rfl, rfl, ?_⟩
      · simp [MemChunk.addByte, hd, hb, h256, hlt, hm]
      · unfold MemChunk.Sized
        dsimp only
        rw [bufWrite, List.length_set]
        refine ⟨hb, by omega, ?_⟩
        rcases hsz with e | ⟨e1, e2⟩
        · exact Or.inl e
        · exact Or.inr ⟨e1, by omega⟩
      · simp only [MemChunk.bytes, bufWrite, Option.getD_some, hd]
        rw [take_set_succ _ _ b hlt]

/-- A call of `addByte` on a chunk that holds 512 bytes writes past the
buffer of 512 cells, the largest that `addByte` makes: it has no outcome. -/
theorem addByte_full (c : MemChunk) (b : Nat) (hs : c.Sized) (hl : 512 ≤ c.length) :
    c.addByte b = none := by
  unfold MemChunk.Sized at hs
  cases hd : c.data with
  | none =>
    rw [hd] at hs
    simp only at hs
    omega
  | some buf =>
    rw [hd] at hs
    simp only at hs
    obtain ⟨hb, hle, hsz⟩ := hs
    have h256 : ¬ c.length = 256 := by omega
    have hlt : ¬ c.length < buf.length := by omega
    simp [MemChunk.addByte, hd, hb, h256, hlt]

/-- The bytes of a chunk go on with the bytes added while its length stays
within 512. -/
theorem addBytes_sized (bs : List Nat) : ∀ (c : MemChunk), c.Sized →
    c.length + bs.length ≤ 512 →
    ∃ c1, c.addBytes bs = some c1 ∧ c1.Sized ∧ c1.length = c.length + bs.length ∧
      c1.startAddress = c.startAddress ∧ c1.bytes = c.bytes ++ bs := by
  induction bs with
  | nil =>
    intro c hs _
    exact ⟨c, rfl, hs, rfl, rfl, by simp⟩
  | cons b bs ih =>
    intro c hs hl
    simp only [List.length_cons] at hl
    obtain ⟨c1, h1, hs1, hl1, ha1, hb1⟩ := addByte_sized c b hs (by omega)
    obtain ⟨c2, h2, hs2, hl2, ha2, hb2⟩ := ih c1 hs1 (by omega)
    refine ⟨c2, ?_, hs2, ?_, ?_, ?_⟩
    · simp [MemChunk.addBytes, h1, h2]
    · simp only [List.length_cons]
      omega
    · rw [ha2, ha1]
    · rw [hb2, hb1]
      simp

/-- A sequence of `addByte` calls that has an outcome stayed within 512
bytes. -/
theorem addBytes_some (bs : List Nat) : ∀ (c c1 : MemChunk), c.Sized →
    c.addBytes bs = some c1 →
    (bs = [] ∨ c.length + bs.length ≤ 512) ∧ c1.Sized ∧ c1.length = c.length + bs.length ∧
      c1.startAddress = c.startAddress ∧ c1.bytes = c.bytes ++ bs := by
  induction bs with
  | nil =>
    intro c c1 hs h
    simp only [MemChunk.addBytes, Option.some.injEq] at h
    subst h
    exact ⟨Or.inl rfl, hs, rfl, rfl, by simp⟩
  | cons b bs ih =>
    intro c c1 hs h
    have hlt : c.length < 512 := by
      by_contra hcon
      rw [MemChunk.addBytes, addByte_full c b hs (by omega)] at h
      cases h
    obtain ⟨c2, h1, hs1, hl1, ha1, hb1⟩ := addByte_sized c b hs hlt
    rw [MemChunk.addBytes, h1] at h
    simp only [Option.some_bind] at h
    obtain ⟨hor, hs2, hl2, ha2, hb2⟩ := ih c2 c1 hs1 h
    refine ⟨Or.inr ?_, hs2, ?_, ?_, ?_⟩
    · simp only [List.length_cons]
      rcases hor with e | e
      · subst e
        simp only [List.length_nil]
        omega
      · omega
    · simp only [List.length_cons]
      omega
    · rw [ha2, ha1]
    · rw [hb2, hb1]
      simp

/-- The chunk that holds the bytes `bs`: its start address, its length, its
bytes, and the bound that the buffer of 512 cells sets. -/
theorem holds_facts (c : MemChunk) (a : Nat) (bs : List Nat) (h : c.Holds a bs) :
    c.Sized ∧ c.startAddress = a ∧ c.length = bs.length ∧ c.bytes = bs ∧ bs.length ≤ 512 := by
  obtain ⟨hor, hs, hl, ha, hb⟩ := addBytes_some bs (MemChunk.fresh a) c (fresh_sized a) h
  have hl0 : (MemChunk.fresh a).length = 0 := rfl
  have hb0 : (MemChunk.fresh a).bytes = [] := rfl
  rw [hl0, Nat.zero_add] at hl
  rw [hb0, List.nil_append] at hb
  refine ⟨hs, ha, hl, hb, ?_⟩
  rcases hor with e | e
  · subst e
    simp
  · rw [hl0] at e
    omega

/-- Bytes added to the chunk that holds `bs`, within 512 bytes in all. -/
theorem holds_add (c : MemChunk) (a : Nat) (bs more : List Nat) (h : c.Holds a bs)
    (hroom : bs.length + more.length ≤ 512) :
    ∃ c1, c.addBytes more = some c1 ∧ c1.Holds a (bs ++ more) ∧ c1.bytes = bs ++ more ∧
      c1.startAddress = a ∧ c1.length = bs.length + more.length := by
  obtain ⟨hs, ha, hl, hb, -⟩ := holds_facts c a bs h
  obtain ⟨c1, h1, -, hl1, ha1, hb1⟩ := addBytes_sized more c hs (by omega)
  refine ⟨c1, h1, ?_, by rw [hb1, hb], by rw [ha1, ha], by rw [hl1, hl]⟩
  unfold MemChunk.Holds at h ⊢
  rw [addBytes_append, h]
  exact h1

/-- The end of an emitting path on the chunk that holds `bs`, within 512
bytes in all: the bytes are appended, the program counter advances. -/
theorem emit_holds (s : Asm) (c : MemChunk) (a : Nat) (bs more : List Nat) (n : Nat)
    (h : c.Holds a bs) (hroom : bs.length + more.length ≤ 512) :
    ∃ c1, s.emit c more n =
        some ({ s with actChunk := some c1, actAddress := (s.actAddress + n) % 65536 }, 0) ∧
      c1.Holds a (bs ++ more) ∧ c1.bytes = bs ++ more ∧ c1.startAddress = a ∧
      c1.length = bs.length + more.length := by
  obtain ⟨c1, h1, h2, h3, h4, h5⟩ := holds_add c a bs more h hroom
  exact ⟨c1, by simp [Asm.emit, h1], h2, h3, h4, h5⟩

/-! ## The end of the input, the indirect mode, the buffer of a chunk and the table -/

/-- C32, the code at failing inputs: for the empty source, and for a source
of a comment, a label, a charset directive and a blank line, every line
passes and no chunk is open at the end of the input; `assemble` then calls
`finalize` through the null `actChunk` and does not return. -/
theorem no_chunk_at_end_of_input :
    assemble (fun _ => quiet) Asm.init (S "") = none ∧
    (firstPass (fun _ => quiet) (getlines (S "; comment\nL:\n.petscii\n\n"))).map
      (fun r => (r.2, r.1.actChunk)) = some (0, none) ∧
    assemble (fun _ => quiet) Asm.init (S "; comment\nL:\n.petscii\n\n") = none :=
  ⟨by decide, by decide, by decide⟩

/-- C35, the code at failing inputs: the block of the indirect mode appends
the byte 6C whatever the mnemonic, so `LDA ($1234)` and `BNE ($1234)` return 0
with the bytes `6C 34 12` of `JMP ($1234)`. -/
theorem indirect_mode_for_every_mnemonic :
    chunksOf (assemble (fun _ => quiet) Asm.init (S ".pc = $1000\nJMP ($1234)"))
      = some (0, [(0x1000, [0x6c, 0x34, 0x12])]) ∧
    chunksOf (assemble (fun _ => quiet) Asm.init (S ".pc = $1000\nLDA ($1234)"))
      = some (0, [(0x1000, [0x6c, 0x34, 0x12])]) ∧
    chunksOf (assemble (fun _ => quiet) Asm.init (S ".pc = $1000\nBNE ($1234)"))
      = some (0, [(0x1000, [0x6c, 0x34, 0x12])]) :=
  ⟨by decide, by decide, by decide⟩

theorem nodup_map_injective {α β : Type} (f : α → β) (l : List α) (h : (l.map f).Nodup) :
    ∀ a ∈ l, ∀ b ∈ l, f a = f b → a = b :=
  fun _ ha _ hb e => List.inj_on_of_nodup_map h ha hb e

set_option maxRecDepth 100000 in
/-- C38, the table and the code at failing inputs: over all the mnemonics and
the eleven slots there are 149 slots that hold an opcode, no byte occurs in
two of them and none of them is 0x6C, so two slots with the same opcode byte
are the same mnemonic and the same slot; the bytes that `assembleLine`
appends do not keep to those slots: `LDA ($1234)` gets the opcode 6C of
`JMP ($1234)`, and `STX $1234,Y` and `STY $1234,X` both get the byte 00 of an
empty slot. -/
theorem emitted_opcode_shared :
    opcodeSlots.length = 149 ∧
    (opcodeSlots.map (fun e => e.2.2)).Nodup ∧
    0x6c ∉ opcodeSlots.map (fun e => e.2.2) ∧
    (∀ a ∈ opcodeSlots, ∀ b ∈ opcodeSlots, a.2.2 = b.2.2 → a.1 = b.1 ∧ a.2.1 = b.2.1) ∧
    chunksOf (assemble (fun _ => quiet) Asm.init (S ".pc = $1000\nJMP ($1234)"))
      = some (0, [(0x1000, [0x6c, 0x34, 0x12])]) ∧
    chunksOf (assemble (fun _ => quiet) Asm.init (S ".pc = $1000\nLDA ($1234)"))
      = some (0, [(0x1000, [0x6c, 0x34, 0x12])]) ∧
    chunksOf (assemble (fun _ => quiet) Asm.init (S ".pc = $1000\nSTX $1234,Y"))
      = some (0, [(0x1000, [0x00, 0x34, 0x12])]) ∧
    chunksOf (assemble (fun _ => quiet) Asm.init (S ".pc = $1000\nSTY $1234,X"))
      = some (0, [(0x1000, [0x00, 0x34, 0x12])]) := by
  have h : (opcodeSlots.map (fun e => e.2.2)).Nodup := by decide
  refine ⟨by decide, h, by decide, ?_, by decide, by decide, by decide, by decide⟩
  intro a ha b hb e
  have := nodup_map_injective (fun e : Str × Nat × Nat => e.2.2) opcodeSlots h a ha b hb e
  rw [this]
  exact ⟨rfl, rfl⟩

/-- C37, the code at failing inputs: `addByte` never stores the doubled size
in `bufferSize`, which stays at 256: after 257 bytes on a fresh chunk the
length is 257 and `bufferSize` 256; the buffer is replaced once, by one of 512
cells, so after 512 bytes the length is 512 in a buffer of 512 cells, and the
513th byte is written past it, where the claim has the buffer doubled. -/
theorem buffer_size_never_doubles :
    ((MemChunk.fresh 0x1000).addBytes (List.replicate 257 0xea)).map
      (fun c => (c.length, c.bufferSize)) = some (257, 256) ∧
    ((MemChunk.fresh 0x1000).addBytes (List.replicate 512 0xea)).map
      (fun c => (c.length, c.bufferSize, c.data.map List.length)) = some (512, 256, some 512) ∧
    (MemChunk.fresh 0x1000).addBytes (List.replicate 513 0xea) = none := by
  have key : ∀ n, 0 < n → n ≤ 512 →
      ∃ c, (MemChunk.fresh 0x1000).addBytes (List.replicate n 0xea) = some c ∧ c.Sized ∧
        c.length = n ∧ c.bufferSize = 256 ∧
        (256 < n → c.data.map List.length = some 512) := by
    intro n hn hle
    obtain ⟨c, h1, hs, hl, -, -⟩ := addBytes_sized (List.replicate n 0xea) (MemChunk.fresh 0x1000)
      (fresh_sized _) (by
        rw [List.length_replicate]
        exact (Nat.zero_add n).symm ▸ hle)
    rw [List.length_replicate] at hl
    have hl1 : c.length = n := by
      rw [hl]
      exact Nat.zero_add n
    refine ⟨c, h1, hs, hl1, ?_, ?_⟩
    · unfold MemChunk.Sized at hs
      cases hd : c.data with
      | none =>
        rw [hd] at hs
        simp only at hs
        omega
      | some buf =>
        rw [hd] at hs
        exact hs.1
    · intro hbig
      unfold MemChunk.Sized at hs
      cases hd : c.data with
      | none =>
        rw [hd] at hs
        simp only at hs
        omega
      | some buf =>
        rw [hd] at hs
        simp only at hs
        have : buf.length = 512 := by omega
        simp [this]
  obtain ⟨c1, h1, -, hl1, hb1, -⟩ := key 257 (by decide) (by decide)
  obtain ⟨c2, h2, hs2, hl2, hb2, hd2⟩ := key 512 (by decide) (by decide)
  refine ⟨by rw [h1, Option.map_some', hl1, hb1], ?_, ?_⟩
  · rw [h2, Option.map_some', hl2, hb2, hd2 (by decide)]
  · have e : List.replicate 513 0xea = List.replicate 512 0xea ++ [0xea] := by
      rw [← List.replicate_succ']
    rw [e, addBytes_append, h2]
    simp only [Option.some_bind, MemChunk.addBytes]
    rw [addByte_full c2 0xea hs2 (by omega)]
    rfl

/-- C31, the code at a failing input: the number of `*+N` is computed in an
`int`, and 4294967296 reads as 0 there; the test `value > 127` sees that
value and `BNE *+4294967296` is assembled as `BNE *+0`, where the claim says
it fails as `BNE *+200` does. -/
theorem star_expression_wraps :
    convertIntoDecimal (S "4294967296") = 0 ∧
    chunksOf (assemble (fun _ => quiet) Asm.init (S ".pc = $1000\nBNE *+4294967296"))
      = some (0, [(0x1000, [0xd0, 0xfe])]) ∧
    reportOf (assemble (fun _ => quiet) Asm.init (S ".pc = $1000\nBNE *+200"))
      = some (-1, S "Branch out of range", 2, S "BNE *+200") :=
  ⟨by decide, by decide, by decide⟩

/-- C34, the code at a failing input: the address of `($a,X)` is computed in
an `int`, and 0x100000010 reads as 0x10 there; the test `address>0xff` sees
that value and `LDA ($100000010,X)` is assembled as `A1 10`, where the claim
says it fails. -/
theorem indexed_indirect_wraps :
    convertIntoDecimal (S "$100000010") = 0x10 ∧
    chunksOf (assemble (fun _ => quiet) Asm.init (S ".pc = $1000\nLDA ($100000010,X)"))
      = some (0, [(0x1000, [0xa1, 0x10])]) ∧
    chunksOf (assemble (fun _ => quiet) Asm.init (S ".pc = $1000\nLDA ($100000010),Y"))
      = some (0, [(0x1000, [0xb1, 0x10])]) :=
  ⟨by decide, by decide, by decide⟩

/-! ## Operands with an index -/

theorem split_stop (C : Nat → Bool) (t0 : Nat) (ts : Str) (hC : C t0 = false) (pre : Str) :
    ∀ (ls t : Str), (∀ x ∈ pre, C x = true) → (∀ x ∈ ls, C x = true) →
      ls ++ t0 :: ts = pre ++ t → ∃ a, t = a ++ t0 :: ts ∧ ∀ x ∈ a, C x = true := by
  induction pre with
  | nil =>
    intro ls t _ hls h
    exact ⟨ls, by simpa using h.symm, hls⟩
  | cons x pre ih =>
    intro ls t hpre hls h
    cases ls with
    | nil =>
      simp only [List.nil_append, List.cons_append, List.cons.injEq] at h
      have := hpre x (by simp)
      rw [← h.1, hC] at this
      cases this
    | cons y ls =>
      simp only [List.cons_append, List.cons.injEq] at h
      exact ih ls t (fun z hz => hpre z (by simp [hz])) (fun z hz => hls z (by simp [hz])) h.2

/-- A star in front of a text of its class and a character that is not of
its class: no match when the rest of the pattern refuses every end of the
text of the class. -/
theorem star_stop_none (C : Nat → Bool) (t0 : Nat) (ts : Str) (hC : C t0 = false)
    (k : Str → Option MatchRes) (ls : Str) (hls : ∀ x ∈ ls, C x = true)
    (hk : ∀ a, (∀ x ∈ a, C x = true) → k (a ++ t0 :: ts) = none) :
    starGo C k (ls ++ t0 :: ts) = none := by
  apply starGo_eq_none
  intro pre t h hpre
  obtain ⟨a, rfl, ha⟩ := split_stop C t0 ts hC pre ls t hpre hls h
  exact hk a ha

/-- A star in front of a text of its class and a character that is not of
its class takes the text when the rest of the pattern accepts what follows. -/
theorem star_stop_some (C : Nat → Bool) (t0 : Nat) (ts : Str) (hC : C t0 = false)
    (k : Str → Option MatchRes) (r : MatchRes) (ls : Str) (hls : ∀ x ∈ ls, C x = true)
    (hk : k (t0 :: ts) = some r) : starGo C k (ls ++ t0 :: ts) = some r := by
  apply starGo_append C k ls (t0 :: ts) r hls
  rw [starGo_stop C k t0 ts hC]
  exact hk

theorem opcodeTable_indexed_modes : ∀ o ∈ opcodeTable,
    (o.code 2 ≠ 0 ∨ o.code 3 ≠ 0 ∨ o.code 5 ≠ 0 ∨ o.code 6 ≠ 0 ∨ o.code 7 ≠ 0 ∨ o.code 8 ≠ 0) →
    hasSub o.name singleByteInstructions = false := by
  decide

theorem labelForm_paren (xs : Str) : labelForm (40 :: 36 :: xs) = none := by
  have e1 : isAngle 40 = false := by decide
  have e2 : isUpper 40 = false := by decide
  have e3 : isSpace 36 = false := by decide
  have e4 : isUpper 36 = false := by decide
  simp [labelForm, fullMatch, checkSimpleLabelReference, checkXIndexedLabelReference,
    checkYIndexedLabelReference, checkIndirectLabelReference, labelName, RE.cat, RE.opt, RE.ch,
    RE.plus, matchK, isCh, e1, e2, e3, e4, starGo]

theorem isHexUpper_stops {x : Nat} (h : isHexUpper x = true) :
    x ≠ 41 ∧ x ≠ 44 ∧ isSpace x = false := by
  simp only [isHexUpper, isDigit, Bool.or_eq_true, Bool.and_eq_true, decide_eq_true_eq] at h
  simp [isSpace]
  omega

/-- The blocks of `assembleLine` that an operand `($digits,X)` or
`($digits),Y` passes before it reaches the blocks of the two indirect modes
with an index. -/
theorem encode_paren (s : Asm) (c : MemChunk) (o : Opcode) (ds tail : Str)
    (ht : tail = [44, 88, 41] ∨ tail = [41, 44, 89]) (hne : ds ≠ [])
    (h : ∀ x ∈ ds, isHexUpper x = true) :
    encode s c o o.name (40 :: 36 :: (ds ++ tail)) =
      if convertIntoDecimal (36 :: ds) < 0 ∨ convertIntoDecimal (36 :: ds) > 0xff then
        some (s.setError (S "Address out of range or invalid syntax" ++ 40 :: 36 :: (ds ++ tail))
          (S "Address must fall between $0 and $FF."), -1)
      else
        s.emit c [o.code (if tail = [44, 88, 41] then 7 else 8),
          (convertIntoDecimal (36 :: ds) % 256).toNat] 2 := by
  cases ds with
  | nil => exact absurd rfl hne
  | cons d ds =>
    have hd := h d (by simp)
    have hds : ∀ x ∈ ds, isHexUpper x = true := fun x hx => h x (by simp [hx])
    have hd36 : d ≠ 36 := by
      intro e
      rw [e] at hd
      revert hd
      decide
    have himm : fullMatch checkImmediateAddr (40 :: 36 :: d :: (ds ++ tail)) = none := by
      simp [fullMatch, checkImmediateAddr, RE.cat, RE.ch, RE.opt, matchK, isCh]
    have hzp : fullMatch checkZPorAbsolute (40 :: 36 :: d :: (ds ++ tail)) = none := by
      simp [fullMatch, checkZPorAbsolute, RE.cat, RE.ch, RE.opt, RE.plus, matchK, isCh,
        isHexUpper, isDigit]
    have hzx : fullMatch checkZPXorAbsoluteX (40 :: 36 :: d :: (ds ++ tail)) = none := by
      simp [fullMatch, checkZPXorAbsoluteX, hexOperand, RE.cat, RE.ch, RE.plus, matchK, isCh]
    have hzy : fullMatch checkZPYorAbsoluteY (40 :: 36 :: d :: (ds ++ tail)) = none := by
      simp [fullMatch, checkZPYorAbsoluteY, hexOperand, RE.cat, RE.ch, RE.plus, matchK, isCh]
    rcases ht with ht | ht
    · subst ht
      have hind : fullMatch checkIndirect (40 :: 36 :: d :: (ds ++ [44, 88, 41])) = none := by
        have hn := fun k => star_stop_none isHexUpper 44 [88, 41] (by decide) k ds hds
        simp [fullMatch, checkIndirect, hexOperand, RE.cat, RE.ch, RE.plus, matchK, isCh, hd]
        rw [hn]
        intro a ha
        cases a with
        | nil => simp
        | cons y ys =>
          have hy := isHexUpper_stops (ha y (by simp))
          simp [hy.1]
      have htake : List.take ((ds ++ [44, 88, 41]).length + 1 + 1 - 3)
          (36 :: d :: (ds ++ [44, 88, 41])) = 36 :: d :: ds := by
        have e : (ds ++ [44, 88, 41]).length + 1 + 1 - 3 = (36 :: d :: ds).length := by simp
        rw [e, ← List.cons_append, ← List.cons_append, List.take_left]
      have hix : fullMatch checkIndexedIndirect (40 :: 36 :: d :: (ds ++ [44, 88, 41])) =
          some [(1, 36 :: d :: ds)] := by
        have hs := fun k r => star_stop_some isHexUpper 44 [88, 41] (by decide) k r ds hds
        simp [fullMatch, checkIndexedIndirect, hexOperand, RE.cat, RE.ch, RE.plus, matchK, isCh,
          hd, starGo, isSpace]
        rw [hs _ ([(1, 36 :: d :: ds)], [])]
        simp [starGo, isSpace, htake]
      show encode s c o o.name (40 :: 36 :: d :: (ds ++ [44, 88, 41])) = _
      simp only [encode, himm, encodeZPAbs, hzp, encodeXY, hzx, hzy, encodeIndirect, hind,
        encodeIndexedIndirect, hix, capGet]
      simp
    · subst ht
      have hind : fullMatch checkIndirect (40 :: 36 :: d :: (ds ++ [41, 44, 89])) = none := by
        have hn := fun k => star_stop_none isHexUpper 41 [44, 89] (by decide) k ds hds
        simp [fullMatch, checkIndirect, hexOperand, RE.cat, RE.ch, RE.plus, matchK, isCh, hd]
        rw [hn]
        intro a ha
        cases a with
        | nil => simp
        | cons y ys =>
          have hy := isHexUpper_stops (ha y (by simp))
          simp [hy.1]
      have hix : fullMatch checkIndexedIndirect (40 :: 36 :: d :: (ds ++ [41, 44, 89])) =
          none := by
        have hn := fun k => star_stop_none isHexUpper 41 [44, 89] (by decide) k ds hds
        simp [fullMatch, checkIndexedIndirect, hexOperand, RE.cat, RE.ch, RE.plus, matchK, isCh,
          hd, starGo, isSpace]
        rw [hn]
        intro a ha
        cases a with
        | nil => simp [starGo, isSpace]
        | cons y ys =>
          have hy := isHexUpper_stops (ha y (by simp))
          simp [starGo, hy.2.2, hy.2.1]
      have htake : List.take ((ds ++ [41, 44, 89]).length + 1 + 1 - 3)
          (36 :: d :: (ds ++ [41, 44, 89])) = 36 :: d :: ds := by
        have e : (ds ++ [41, 44, 89]).length + 1 + 1 - 3 = (36 :: d :: ds).length := by simp
        rw [e, ← List.cons_append, ← List.cons_append, List.take_left]
      have hiy : fullMatch checkIndirectIndexed (40 :: 36 :: d :: (ds ++ [41, 44, 89])) =
          some [(1, 36 :: d :: ds)] := by
        have hs := fun k r => star_stop_some isHexUpper 41 [44, 89] (by decide) k r ds hds
        simp [fullMatch, checkIndirectIndexed, hexOperand, RE.cat, RE.ch, RE.plus, matchK, isCh,
          hd, starGo, isSpace]
        rw [hs _ ([(1, 36 :: d :: ds)], [])]
        simp [starGo, isSpace, htake]
      show encode s c o o.name (40 :: 36 :: d :: (ds ++ [41, 44, 89])) = _
      simp only [encode, himm, encodeZPAbs, hzp, encodeXY, hzx, hzy, encodeIndirect, hind,
        encodeIndexedIndirect, hix, hiy, capGet]
      simp

/-- The line `M ($digits` followed by `,X)` or `),Y` reaches the blocks of
`assembleLine` with the digits in upper case. -/
theorem assembleLine_paren (u : Uninit) (s : Asm) (c : MemChunk) (n : Nat) (o : Opcode)
    (ds tail : Str) (a : Nat) (ho : o ∈ opcodeTable)
    (hsb : hasSub o.name singleByteInstructions = false)
    (hds : numberValue (36 :: ds) = some a) (hc : s.actChunk = some c)
    (ht : tail = [44, 88, 41] ∨ tail = [41, 44, 89]) :
    assembleLine u s (o.name ++ S " ($" ++ ds ++ tail) n =
      encode s c o o.name (40 :: 36 :: (upperStr ds ++ tail))
    ∧ upperStr ds ≠ [] ∧ (∀ x ∈ upperStr ds, isHexUpper x = true)
    ∧ convertIntoDecimal (36 :: upperStr ds) = wrap32 a := by
  obtain ⟨x, y, z, hname, hx, hy, hz⟩ := opcodeTable_letters o ho
  obtain ⟨hup2, hne, hxs, hconv⟩ := hexOperand_facts ds a hds
  obtain ⟨h59d, h10d, -⟩ := numberValue_chars _ a hds
  have htail : 59 ∉ tail ∧ 10 ∉ tail ∧ upperStr tail = tail := by
    rcases ht with h | h <;> subst h <;> decide
  have hline : o.name ++ S " ($" ++ ds ++ tail =
      x :: y :: z :: 32 :: (40 :: 36 :: (ds ++ tail)) := by
    have : S " ($" = [32, 40, 36] := by decide
    rw [hname, this]
    simp
  have h59o : 59 ∉ 40 :: 36 :: (ds ++ tail) := by
    intro h
    rcases List.mem_cons.1 h with h | h
    · cases h
    · rw [← List.cons_append, List.mem_append] at h
      rcases h with h | h
      · exact h59d h
      · exact htail.1 h
  have h10o : 10 ∉ 40 :: 36 :: (ds ++ tail) := by
    intro h
    rcases List.mem_cons.1 h with h | h
    · cases h
    · rw [← List.cons_append, List.mem_append] at h
      rcases h with h | h
      · exact h10d h
      · exact htail.2.1 h
  have hhead : ∀ w ws, 40 :: 36 :: (ds ++ tail) = w :: ws → isSpace w = false := by
    intro w ws h
    simp only [List.cons.injEq] at h
    rw [← h.1]
    decide
  have hupo : upperStr (40 :: 36 :: (ds ++ tail)) = 40 :: 36 :: (upperStr ds ++ tail) := by
    rw [upperStr_cons, ← List.cons_append, upperStr_append, hup2, htail.2.2]
    rfl
  rw [hline, assembleLine_operand u s n x y z _ hx hy hz h59o h10o hhead, hupo, ← hname,
    assembleParsed_addressed u s c o _ n ho hsb hc (labelForm_paren _)
      (asterisk_plain s 40 _ (by decide))]
  exact ⟨rfl, hne, hxs, hconv⟩

/-- The two indirect modes with an index on a value of 32 bits: the operand has
to fit in one byte: for a mnemonic of the table and hexadecimal digits of
value `a` below 2^32, with an open chunk `c`, the line `M ($a,X)` for
`codes[7]` not zero appends `codes[7]`, `a` and advances the program counter by
2 when `a ≤ 0xFF`, and for `0xFF < a` it returns -1 with the message `Address
out of range or invalid syntax` and the chunk as it was; likewise `M ($a),Y`
with `codes[8]`. -/
theorem one_byte_indirect (u : Uninit) (s : Asm) (c : MemChunk) (n : Nat) (o : Opcode)
    (ds : Str) (a : Nat) (ho : o ∈ opcodeTable) (hds : numberValue (36 :: ds) = some a)
    (ha : a < 4294967296) (hc : s.actChunk = some c) :
    (o.code 7 ≠ 0 →
      (a ≤ 0xFF →
        assembleLine u s (o.name ++ S " ($" ++ ds ++ S ",X)") n = s.emit c [o.code 7, a] 2) ∧
      (0xFF < a →
        assembleLine u s (o.name ++ S " ($" ++ ds ++ S ",X)") n =
          some (s.setError
            (S "Address out of range or invalid syntax" ++ S "($" ++ upperStr ds ++ S ",X)")
            (S "Address must fall between $0 and $FF."), -1))) ∧
    (o.code 8 ≠ 0 →
      (a ≤ 0xFF →
        assembleLine u s (o.name ++ S " ($" ++ ds ++ S "),Y") n = s.emit c [o.code 8, a] 2) ∧
      (0xFF < a →
        assembleLine u s (o.name ++ S " ($" ++ ds ++ S "),Y") n =
          some (s.setError
            (S "Address out of range or invalid syntax" ++ S "($" ++ upperStr ds ++ S "),Y")
            (S "Address must fall between $0 and $FF."), -1))) := by
  have hX : S ",X)" = [44, 88, 41] := by decide
  have hY : S "),Y" = [41, 44, 89] := by decide
  have hP : S "($" = [40, 36] := by decide
  have hwlo : a ≤ 0xFF → wrap32 (a : Int) = a := fun h => wrap32_of_range (by omega) (by omega)
  have hwhi : 0xFF < a → wrap32 (a : Int) < 0 ∨ wrap32 (a : Int) > 255 := by
    intro h
    unfold wrap32
    omega
  have main : ∀ tail slot, (tail = [44, 88, 41] ∧ slot = 7) ∨ (tail = [41, 44, 89] ∧ slot = 8) →
      o.code slot ≠ 0 →
      (a ≤ 0xFF →
        assembleLine u s (o.name ++ S " ($" ++ ds ++ tail) n = s.emit c [o.code slot, a] 2) ∧
      (0xFF < a →
        assembleLine u s (o.name ++ S " ($" ++ ds ++ tail) n =
          some (s.setError
            (S "Address out of range or invalid syntax" ++ 40 :: 36 :: (upperStr ds ++ tail))
            (S "Address must fall between $0 and $FF."), -1)) := by
    intro tail slot hts hz
    have ht : tail = [44, 88, 41] ∨ tail = [41, 44, 89] :=
      hts.elim (fun h => Or.inl h.1) (fun h => Or.inr h.1)
    have hsel : (if tail = [44, 88, 41] then 7 else 8) = slot := by
      rcases hts with ⟨h1, h2⟩ | ⟨h1, h2⟩ <;> subst h1 <;> subst h2 <;> decide
    have hsb : hasSub o.name singleByteInstructions = false := by
      apply opcodeTable_indexed_modes o ho
      rcases hts with ⟨-, h2⟩ | ⟨-, h2⟩
      · subst h2
        exact Or.inr (Or.inr (Or.inr (Or.inr (Or.inl hz))))
      · subst h2
        exact Or.inr (Or.inr (Or.inr (Or.inr (Or.inr hz))))
    obtain ⟨e, hne, hxs, hconv⟩ := assembleLine_paren u s c n o ds tail a ho hsb hds hc ht
    rw [e, encode_paren s c o _ tail ht hne hxs, hconv, hsel]
    constructor
    · intro hlo
      have hw := hwlo hlo
      have h1 : ¬ ((a : Int) < 0 ∨ (a : Int) > 255) := by omega
      have hm : ((a : Int) % 256).toNat = a := by omega
      rw [hw, if_neg h1, hm]
    · intro hhi
      rw [if_pos (hwhi hhi)]
  rw [hX, hY, hP]
  exact ⟨main _ 7 (Or.inl ⟨rfl, rfl⟩), main _ 8 (Or.inr ⟨rfl, rfl⟩)⟩

/-- An instance of `one_byte_indirect`: `LDA ($10,X)` and `LDA ($10),Y` at
0x1000, the failure of `LDA ($100,X)`, and a whole run. -/
theorem one_byte_indirect_witness :
    assembleLine quiet (opened 0x1000) (S "LDA ($10,X)") 2 =
      (opened 0x1000).emit (MemChunk.fresh 0x1000) [0xa1, 0x10] 2
    ∧ assembleLine quiet (opened 0x1000) (S "LDA ($100,X)") 2 =
      some ((opened 0x1000).setError (S "Address out of range or invalid syntax($100,X)")
        (S "Address must fall between $0 and $FF."), -1)
    ∧ assembleLine quiet (opened 0x1000) (S "LDA ($10),Y") 2 =
      (opened 0x1000).emit (MemChunk.fresh 0x1000) [0xb1, 0x10] 2
    ∧ assembleLine quiet (opened 0x1000) (S "LDA ($100),Y") 2 =
      some ((opened 0x1000).setError (S "Address out of range or invalid syntax($100),Y")
        (S "Address must fall between $0 and $FF."), -1)
    ∧ chunksOf (assemble (fun _ => quiet) Asm.init (S ".pc = $1000\nLDA ($10,X)\nLDA ($10),Y"))
      = some (0, [(0x1000, [0xa1, 0x10, 0xb1, 0x10])]) :=
  ⟨(((one_byte_indirect quiet (opened 0x1000) (MemChunk.fresh 0x1000) 2 ldaEntry (S "10") 0x10
      (by decide) (by decide) (by decide) rfl).1 (by decide)).1 (by decide)).trans (by decide),
   (((one_byte_indirect quiet (opened 0x1000) (MemChunk.fresh 0x1000) 2 ldaEntry (S "100") 0x100
      (by decide) (by decide) (by decide) rfl).1 (by decide)).2 (by decide)).trans (by decide),
   (((one_byte_indirect quiet (opened 0x1000) (MemChunk.fresh 0x1000) 2 ldaEntry (S "10") 0x10
      (by decide) (by decide) (by decide) rfl).2 (by decide)).1 (by decide)).trans (by decide),
   (((one_byte_indirect quiet (opened 0x1000) (MemChunk.fresh 0x1000) 2 ldaEntry (S "100") 0x100
      (by decide) (by decide) (by decide) rfl).2 (by decide)).2 (by decide)).trans (by decide),
   by decide⟩

/-! ## Operands that start with `*` -/

theorem labelForm_star (xs : Str) : labelForm (42 :: xs) = none := by
  have e1 : isAngle 42 = false := by decide
  have e2 : isUpper 42 = false := by decide
  simp [labelForm, fullMatch, checkSimpleLabelReference, checkXIndexedLabelReference,
    checkYIndexedLabelReference, checkIndirectLabelReference, labelName, RE.cat, RE.opt, RE.ch,
    RE.plus, matchK, isCh, e1, e2]

theorem isDigit_plain {x : Nat} (h : isDigit x = true) :
    isSpace x = false ∧ toupper x = x ∧ x ≠ 59 ∧ x ≠ 10 ∧ isHexUpper x = true := by
  simp only [isDigit, Bool.and_eq_true, decide_eq_true_eq] at h
  have hl : isLower x = false := by
    simp [isLower]
    omega
  refine ⟨?_, by simp [toupper, hl], by omega, by omega, ?_⟩
  · simp [isSpace]
    omega
  · simp [isHexUpper, isDigit]
    omega

/-- The pattern of the `*` expressions on `*`, a sign and decimal digits. -/
theorem detectAsterisk_signed (sign : Nat) (ds : Str) (hs : sign = 43 ∨ sign = 45)
    (hne : ds ≠ []) (h : ∀ x ∈ ds, isDigit x = true) :
    fullMatch detectAsteriskExpression (42 :: sign :: ds) = some [(2, ds), (1, [sign])] := by
  cases ds with
  | nil => exact absurd rfl hne
  | cons d ds =>
    have hd := h d (by simp)
    have hall := starGo_all_eq isDigit ds (fun x hx => h x (by simp [hx]))
    have hsp : isSpace sign = false ∧ isSign sign = true := by
      rcases hs with e | e <;> subst e <;> decide
    have hdsp := (isDigit_plain hd).1
    simp [fullMatch, detectAsteriskExpression, RE.cat, RE.ch, RE.plus, matchK, isCh, starGo,
      hsp.1, hsp.2, hdsp, hd, hall]

/-- The block of `assembleLine` for `*`, a sign and decimal digits of a value
that an `int` holds: the "Branch out of range" error above 127, the address
before or after the program counter otherwise. -/
theorem asterisk_signed (s : Asm) (sign : Nat) (ds : Str) (N : Nat)
    (hs : sign = 43 ∨ sign = 45) (hne : ds ≠ []) (h : ∀ x ∈ ds, isDigit x = true)
    (hN : digitsValue 10 ds = N) (hint : N < 2147483648) :
    asterisk s (42 :: sign :: ds) =
      if 127 < N then
        Except.error (s.setError (S "Branch out of range")
          (S "You can only jump +/-127 bytes with a branch instruction."), -1)
      else if sign = 43 then
        Except.ok (upperStr (S "$" ++ hexStr ((s.actAddress + N) % 65536)))
      else
        Except.ok (upperStr (S "$" ++ hexStr ((s.actAddress + 65536 - N) % 65536))) := by
  have hconv : convertIntoDecimal ds = (N : Int) := by
    rw [convertIntoDecimal_dec ds hne h, hN]
    exact wrap32_of_range (by omega) (by omega)
  have hstar : ((42 :: sign :: ds) == S "*") = false := by
    have : S "*" = [42] := by decide
    rw [this]
    simp
  have hplus : S "+" = [43] := by decide
  have hminus : S "-" = [45] := by decide
  simp only [asterisk, hstar, Bool.false_eq_true, ↓reduceIte,
    detectAsterisk_signed sign ds hs hne h, capGet, List.find?, hconv, hplus, hminus]
  by_cases hbig : 127 < N
  · have : (N : Int) > 127 := by omega
    simp [hbig, this, hconv]
  · have h1 : ¬ ((N : Int) > 127) := by omega
    have h2 : ((N : Int) % 65536).toNat = N := by omega
    rcases hs with e | e
    · subst e
      simp [hbig, h1, h2, hconv]
    · subst e
      simp [hbig, h1, h2, hconv]

/-- The branch block of `assembleLine` on the text that the `*` blocks put
in place of the operand for the address `t`. -/
theorem encode_branch_at (s : Asm) (c : MemChunk) (o : Opcode) (t : Nat) (hb : o.code 10 ≠ 0)
    (ht : t ≤ 0xFFFF) :
    encode s c o o.name (upperStr (S "$" ++ hexStr t)) =
      if -127 ≤ (t : Int) - ((s.actAddress : Int) + 2) ∧
          (t : Int) - ((s.actAddress : Int) + 2) ≤ 127 then
        s.emit c [o.code 10, (((t : Int) - ((s.actAddress : Int) + 2)) % 256).toNat] 2
      else
        some (s.setError (S "Branch out of range")
          (S "You can only jump +/-127 bytes with a branch instruction."), -1) := by
  obtain ⟨hup2, hne, hxs, hconv⟩ := hexOperand_facts (hexStr t) t (numberValue_hexStr _ ht)
  have hS : S "$" = [36] := by decide
  rw [hS, List.singleton_append, hup2]
  exact encode_branch s c o _ t hb hne hxs hconv ht

/-- The line `B *`, `B *+N` or `B *-N` of a branch mnemonic reaches the `*`
blocks of `assembleLine`. -/
theorem assembleLine_star (u : Uninit) (s : Asm) (c : MemChunk) (n : Nat) (o : Opcode)
    (rest : Str) (ho : o ∈ opcodeTable) (hb : o.code 10 ≠ 0) (hc : s.actChunk = some c)
    (h : ∀ x ∈ rest, x = 43 ∨ x = 45 ∨ isDigit x = true) :
    assembleLine u s (o.name ++ S " *" ++ rest) n =
      match asterisk s (42 :: rest) with
      | Except.error e => some e
      | Except.ok operandStr1 => encode s c o o.name operandStr1 := by
  have hsb := opcodeTable_addressed o ho (Or.inr (Or.inr (Or.inr hb)))
  obtain ⟨x, y, z, hxyz, hx, hy, hz⟩ := opcodeTable_letters o ho
  obtain ⟨hmap, hlen, -⟩ := opcodeTable_names o ho
  have hfacts : ∀ w ∈ 42 :: rest, w ≠ 59 ∧ w ≠ 10 ∧ toupper w = w := by
    intro w hw
    rcases List.mem_cons.1 hw with e | hw
    · subst e
      decide
    · rcases h w hw with e | e | e
      · subst e
        decide
      · subst e
        decide
      · have := isDigit_plain e
        exact ⟨this.2.2.1, this.2.2.2.1, this.2.1⟩
  have h59 : 59 ∉ 42 :: rest := fun hm => (hfacts 59 hm).1 rfl
  have h10 : 10 ∉ 42 :: rest := fun hm => (hfacts 10 hm).2.1 rfl
  have hhead : ∀ w ws, 42 :: rest = w :: ws → isSpace w = false := by
    intro w ws e
    simp only [List.cons.injEq] at e
    rw [← e.1]
    decide
  have hup : upperStr (42 :: rest) = 42 :: rest :=
    upperStr_eq_self _ (fun w hw => (hfacts w hw).2.2)
  have hline : o.name ++ S " *" ++ rest = x :: y :: z :: 32 :: (42 :: rest) := by
    have : S " *" = [32, 42] := by decide
    rw [hxyz, this]
    rfl
  have hne0 : (o.name == []) = false := by rw [hxyz]; rfl
  rw [hline, assembleLine_operand u s n x y z (42 :: rest) hx hy hz h59 h10 hhead, hup, ← hxyz]
  simp only [assembleParsed, hc, hmap, hne0, hsb, labelReference, labelForm_star,
    Bool.false_eq_true, ↓reduceIte]
  try exact (match asterisk s (42 :: rest) with
    | Except.error _ => rfl
    | Except.ok _ => rfl)

/-- The `*` expressions in branches, below the limit of an `int`: for a branch mnemonic of the
table at the program counter `pc ≤ 0xFFFF` of a state with an open chunk
and decimal digits of a value `N` that an `int` holds (`N < 2^31`), `B *+N` and
`B *-N` return -1 with "Branch out of range" when `127 < N`; `B *+N` appends
`codes[10]`, `(N - 2) mod 256` when `N ≤ 127` and `pc + N ≤ 0xFFFF`; `B *-N`
appends `codes[10]`, `(-N - 2) mod 256` when `N ≤ 125` and `N ≤ pc`; and `B *`
appends `codes[10]`, `0xFE`; the program counter advances by 2. -/
theorem star_expression_branch (u : Uninit) (s : Asm) (c : MemChunk) (n : Nat) (o : Opcode)
    (ds : Str) (N : Nat) (ho : o ∈ opcodeTable) (hb : o.code 10 ≠ 0)
    (hc : s.actChunk = some c) (hpc : s.actAddress ≤ 0xFFFF) (hne : ds ≠ [])
    (hds : ∀ x ∈ ds, isDigit x = true) (hN : digitsValue 10 ds = N) (hint : N < 2147483648) :
    (127 < N →
      assembleLine u s (o.name ++ S " *+" ++ ds) n =
        some (s.setError (S "Branch out of range")
          (S "You can only jump +/-127 bytes with a branch instruction."), -1) ∧
      assembleLine u s (o.name ++ S " *-" ++ ds) n =
        some (s.setError (S "Branch out of range")
          (S "You can only jump +/-127 bytes with a branch instruction."), -1)) ∧
    (N ≤ 127 → s.actAddress + N ≤ 0xFFFF →
      assembleLine u s (o.name ++ S " *+" ++ ds) n =
        s.emit c [o.code 10, (((N : Int) - 2) % 256).toNat] 2) ∧
    (N ≤ 125 → N ≤ s.actAddress →
      assembleLine u s (o.name ++ S " *-" ++ ds) n =
        s.emit c [o.code 10, ((-(N : Int) - 2) % 256).toNat] 2) ∧
    assembleLine u s (o.name ++ S " *") n = s.emit c [o.code 10, 0xfe] 2 := by
  have hP : o.name ++ S " *+" ++ ds = o.name ++ S " *" ++ (43 :: ds) := by
    have e1 : S " *+" = [32, 42, 43] := by decide
    have e2 : S " *" = [32, 42] := by decide
    rw [e1, e2]
    simp
  have hM : o.name ++ S " *-" ++ ds = o.name ++ S " *" ++ (45 :: ds) := by
    have e1 : S " *-" = [32, 42, 45] := by decide
    have e2 : S " *" = [32, 42] := by decide
    rw [e1, e2]
    simp
  have hrest : ∀ sign, sign = 43 ∨ sign = 45 →
      ∀ x ∈ sign :: ds, x = 43 ∨ x = 45 ∨ isDigit x = true := by
    intro sign hs x hx
    rcases List.mem_cons.1 hx with e | hx
    · rcases hs with h | h
      · exact Or.inl (e.trans h)
      · exact Or.inr (Or.inl (e.trans h))
    · exact Or.inr (Or.inr (hds x hx))
  have hstep : ∀ sign (hs : sign = 43 ∨ sign = 45),
      assembleLine u s (o.name ++ S " *" ++ (sign :: ds)) n =
        if 127 < N then
          some (s.setError (S "Branch out of range")
            (S "You can only jump +/-127 bytes with a branch instruction."), -1)
        else if sign = 43 then
          encode s c o o.name (upperStr (S "$" ++ hexStr ((s.actAddress + N) % 65536)))
        else
          encode s c o o.name
            (upperStr (S "$" ++ hexStr ((s.actAddress + 65536 - N) % 65536))) := by
    intro sign hs
    rw [assembleLine_star u s c n o (sign :: ds) ho hb hc (hrest sign hs),
      asterisk_signed s sign ds N hs hne hds hN hint]
    by_cases h1 : 127 < N
    · simp only [h1, ↓reduceIte]
    · by_cases h2 : sign = 43
      · simp only [h1, h2, ↓reduceIte]
      · simp only [h1, h2, ↓reduceIte]
  refine ⟨?_, ?_, ?_, ?_⟩
  · intro hbig
    rw [hP, hM, hstep 43 (Or.inl rfl), hstep 45 (Or.inr rfl), if_pos hbig, if_pos hbig]
    exact ⟨rfl, rfl⟩
  · intro hsmall hfit
    have hm : (s.actAddress + N) % 65536 = s.actAddress + N := Nat.mod_eq_of_lt (by omega)
    have hr : -127 ≤ ((s.actAddress + N : Nat) : Int) - ((s.actAddress : Int) + 2) ∧
        ((s.actAddress + N : Nat) : Int) - ((s.actAddress : Int) + 2) ≤ 127 := by omega
    have hv : ((s.actAddress + N : Nat) : Int) - ((s.actAddress : Int) + 2) = (N : Int) - 2 := by
      omega
    rw [hP, hstep 43 (Or.inl rfl), if_neg (by omega), if_pos rfl, hm,
      encode_branch_at s c o _ hb hfit, if_pos hr, hv]
  · intro hsmall hfit
    have hm : (s.actAddress + 65536 - N) % 65536 = s.actAddress - N := by omega
    have hr : -127 ≤ ((s.actAddress - N : Nat) : Int) - ((s.actAddress : Int) + 2) ∧
        ((s.actAddress - N : Nat) : Int) - ((s.actAddress : Int) + 2) ≤ 127 := by omega
    have hv : ((s.actAddress - N : Nat) : Int) - ((s.actAddress : Int) + 2) = -(N : Int) - 2 := by
      omega
    rw [hM, hstep 45 (Or.inr rfl), if_neg (by omega), if_neg (by decide), hm,
      encode_branch_at s c o _ hb (by omega), if_pos hr, hv]
  · have e2 : o.name ++ S " *" = o.name ++ S " *" ++ [] := by simp
    have hask : asterisk s [42] = Except.ok (upperStr (S "$" ++ hexStr s.actAddress)) := by
      obtain ⟨hup2, -, -, -⟩ :=
        hexOperand_facts (hexStr s.actAddress) s.actAddress (numberValue_hexStr _ hpc)
      have hS : S "$" = [36] := by decide
      have hstar : ([42] == S "*") = true := by decide
      have hnone : fullMatch detectAsteriskExpression (36 :: upperStr (hexStr s.actAddress)) =
          none := by
        simp [fullMatch, detectAsteriskExpression, RE.cat, RE.ch, matchK, isCh]
      simp only [asterisk, hstar, ↓reduceIte, hS, List.singleton_append, hup2, hnone]
    have hr : -127 ≤ (s.actAddress : Int) - ((s.actAddress : Int) + 2) ∧
        (s.actAddress : Int) - ((s.actAddress : Int) + 2) ≤ 127 := by omega
    have hv : (((s.actAddress : Int) - ((s.actAddress : Int) + 2)) % 256).toNat = 0xfe := by omega
    rw [e2, assembleLine_star u s c n o [] ho hb hc (by simp), hask]
    simp only []
    rw [encode_branch_at s c o _ hb hpc, if_pos hr, hv]

/-- An instance of `star_expression_branch`: `BNE *+200`, `BNE *-200`,
`BNE *+5`, `BNE *-5` and `BNE *` at 0x1000, and a whole run. -/
theorem star_expression_branch_witness :
    assembleLine quiet (opened 0x1000) (S "BNE *+200") 2 =
      some ((opened 0x1000).setError (S "Branch out of range")
        (S "You can only jump +/-127 bytes with a branch instruction."), -1)
    ∧ assembleLine quiet (opened 0x1000) (S "BNE *-200") 2 =
      some ((opened 0x1000).setError (S "Branch out of range")
        (S "You can only jump +/-127 bytes with a branch instruction."), -1)
    ∧ assembleLine quiet (opened 0x1000) (S "BNE *+5") 2 =
      (opened 0x1000).emit (MemChunk.fresh 0x1000) [0xd0, 0x03] 2
    ∧ assembleLine quiet (opened 0x1000) (S "BNE *-5") 2 =
      (opened 0x1000).emit (MemChunk.fresh 0x1000) [0xd0, 0xf9] 2
    ∧ assembleLine quiet (opened 0x1000) (S "BNE *") 2 =
      (opened 0x1000).emit (MemChunk.fresh 0x1000) [0xd0, 0xfe] 2
    ∧ chunksOf (assemble (fun _ => quiet) Asm.init (S ".pc = $1000\nBNE *+5\nBNE *-5\nBNE *"))
      = some (0, [(0x1000, [0xd0, 0x03, 0xd0, 0xf9, 0xd0, 0xfe])]) :=
  ⟨((star_expression_branch quiet (opened 0x1000) (MemChunk.fresh 0x1000) 2 bneEntry (S "200") 200
      (by decide) (by decide) rfl (by decide) (by decide) (by decide) (by decide)
      (by decide)).1 (by decide)).1,
   ((star_expression_branch quiet (opened 0x1000) (MemChunk.fresh 0x1000) 2 bneEntry (S "200") 200
      (by decide) (by decide) rfl (by decide) (by decide) (by decide) (by decide)
      (by decide)).1 (by decide)).2,
   ((star_expression_branch quiet (opened 0x1000) (MemChunk.fresh 0x1000) 2 bneEntry (S "5") 5
      (by decide) (by decide) rfl (by decide) (by decide) (by decide) (by decide)
      (by decide)).2.1 (by decide) (by decide)).trans (by decide),
   ((star_expression_branch quiet (opened 0x1000) (MemChunk.fresh 0x1000) 2 bneEntry (S "5") 5
      (by decide) (by decide) rfl (by decide) (by decide) (by decide) (by decide)
      (by decide)).2.2.1 (by decide) (by decide)).trans (by decide),
   ((star_expression_branch quiet (opened 0x1000) (MemChunk.fresh 0x1000) 2 bneEntry (S "5") 5
      (by decide) (by decide) rfl (by decide) (by decide) (by decide) (by decide)
      (by decide)).2.2.2).trans (by decide),
   by decide⟩

/-! ## The comment at the end of a line -/

/-- The leftmost match of a search: the pattern matches at `m` and at no
place before it. -/
theorem searchFrom_at (r : RE) (total : Nat) (m : Str) (c : Caps) (t : Str)
    (hm : matchAt r total m = some (c, t)) (pre : Str)
    (hno : ∀ p1 x p2, pre = p1 ++ x :: p2 → matchAt r total (x :: p2 ++ m) = none) :
    searchFrom r total (pre ++ m) = some (pre, c, t) := by
  induction pre with
  | nil =>
    cases m with
    | nil => simp [searchFrom, hm]
    | cons y ys => simp [searchFrom, hm]
  | cons x xs ih =>
    have h0 := hno [] x xs rfl
    have ih1 := ih (fun p1 y p2 e => hno (x :: p1) y p2 (by rw [e]; rfl))
    simp only [List.cons_append] at h0 ⊢
    simp [searchFrom, h0, ih1]

/-- A replacement whose one match reaches the end of the text. -/
theorem globalReplace_cut (r : RE) (f : Caps → Str) (s pre : Str) (c : Caps)
    (h : searchFrom r s.length s = some (pre, c, []))
    (hnil : ∀ fuel b, (globalReplaceLoop r f s.length fuel b []).1 = []) :
    globalReplace r f s = pre ++ f c := by
  unfold globalReplace
  have : 2 * s.length + 2 = (2 * s.length + 1) + 1 := by omega
  rw [this, globalReplaceLoop_search r f s.length _ s pre [] c h, hnil]
  simp

/-- A text has no blank at its end. -/
theorem noTrail_suffix (L : Str) (hL : ∀ p x, L = p ++ [x] → isSpace x = false)
    (p1 : Str) (x : Nat) (p2 : Str) (e : L = p1 ++ x :: p2) :
    ∃ q z, x :: p2 = q ++ [z] ∧ isSpace z = false := by
  have hne : x :: p2 ≠ [] := by simp
  refine ⟨(x :: p2).dropLast, (x :: p2).getLast hne, (List.dropLast_append_getLast hne).symm, ?_⟩
  apply hL (p1 ++ (x :: p2).dropLast)
  rw [List.append_assoc, List.dropLast_append_getLast hne]
  exact e

theorem remove_comments_matchAt_before (total : Nat) (q : Str) (z : Nat) (M : Str)
    (h59 : 59 ∉ q ++ [z]) (hz : isSpace z = false) :
    matchAt remove_comments total (q ++ [z] ++ M) = none := by
  simp only [matchAt, remove_comments, RE.cat, RE.ch, matchK]
  apply starGo_eq_none
  intro pre t1 ht hpre
  cases t1 with
  | nil => rfl
  | cons y ys =>
    have hy : y ≠ 59 := by
      intro hy
      subst hy
      rcases List.append_eq_append_iff.1 ht with ⟨a, e1, e2⟩ | ⟨b, e1, e2⟩
      · have hzp : z ∈ pre := by
          rw [e1]
          simp
        have := hpre z hzp
        rw [hz] at this
        cases this
      · cases b with
        | nil =>
          simp only [List.append_nil] at e1
          have hzp : z ∈ pre := by
            rw [← e1]
            simp
          have := hpre z hzp
          rw [hz] at this
          cases this
        | cons b0 bs =>
          simp only [List.cons_append, List.cons.injEq] at e2
          apply h59
          rw [e1, e2.1]
          simp
    simp [isCh, hy]

theorem remove_comments_matchAt_comment (total : Nat) (ws c : Str)
    (hws : ∀ x ∈ ws, isSpace x = true) (hc : 10 ∉ c) :
    matchAt remove_comments total (ws ++ 59 :: c) = some ([], []) := by
  simp only [matchAt, remove_comments, RE.cat, RE.ch, matchK]
  apply star_stop_some isSpace 59 c (by decide) _ _ ws hws
  have hd : ∀ x ∈ c, isDot x = true := by
    intro x hx
    simp only [isDot, bne_iff_ne, ne_eq]
    intro e
    exact hc (e ▸ hx)
  have := starGo_all_eq isDot c hd (fun t => some (([] : Caps), t)) rfl
  simp [isCh, this]

/-- The comment of a line is cut off: for a text `L` without `;` and without
a blank at its end, blanks `ws` and a text `c` without a newline,
`remove_comments` turns `L ws ; c` into `L`. -/
theorem remove_comments_trailing (L ws c : Str) (h59 : 59 ∉ L)
    (hL : ∀ p x, L = p ++ [x] → isSpace x = false) (hws : ∀ x ∈ ws, isSpace x = true)
    (hc : 10 ∉ c) :
    globalReplace remove_comments (fun _ => []) (L ++ (ws ++ 59 :: c)) = L := by
  have hs : searchFrom remove_comments (L ++ (ws ++ 59 :: c)).length (L ++ (ws ++ 59 :: c)) =
      some (L, [], []) := by
    apply searchFrom_at _ _ _ _ _ (remove_comments_matchAt_comment _ ws c hws hc)
    intro p1 x p2 e
    obtain ⟨q, z, e2, hz⟩ := noTrail_suffix L hL p1 x p2 e
    rw [e2]
    apply remove_comments_matchAt_before _ q z _ _ hz
    intro hm
    apply h59
    rw [e, List.mem_append]
    right
    rw [e2]
    exact hm
  rw [globalReplace_cut _ _ _ L [] hs (fun fuel b => remove_comments_loop_nil _ _ fuel b)]
  simp

/-! ## The patterns of a directive on a line with a comment -/

/-- A text is a run of characters of a class and a rest that does not start
with a character of the class. -/
theorem run_split (C : Nat → Bool) (X : Str) :
    ∃ a b, X = a ++ b ∧ (∀ x ∈ a, C x = true) ∧ ∀ y ys, b = y :: ys → C y = false := by
  induction X with
  | nil => exact ⟨[], [], rfl, by simp, by simp⟩
  | cons x xs ih =>
    by_cases hx : C x = true
    · obtain ⟨a, b, e, ha, hb⟩ := ih
      refine ⟨x :: a, b, by rw [e]; rfl, ?_, hb⟩
      intro y hy
      rcases List.mem_cons.1 hy with h | h
      · rw [h]
        exact hx
      · exact ha y h
    · refine ⟨[], x :: xs, rfl, by simp, ?_⟩
      intro y ys e
      simp only [List.cons.injEq] at e
      rw [← e.1]
      simpa using hx

/-- A star whose class the rest of the pattern refuses at its start takes the
whole run in front of a text that does not start with the class. -/
theorem star_skip (C : Nat → Bool) (k : Str → Option MatchRes) (sp t : Str)
    (hsp : ∀ x ∈ sp, C x = true) (ht : ∀ y ys, t = y :: ys → C y = false)
    (hk : ∀ y ys, C y = true → k (y :: ys) = none) : starGo C k (sp ++ t) = k t := by
  induction sp with
  | nil => exact starGo_of_head C t ht k
  | cons x xs ih =>
    have hx := hsp x (by simp)
    rw [List.cons_append, starGo_cons, if_pos hx, ih (fun y hy => hsp y (by simp [hy])),
      hk x (xs ++ t) hx]
    cases k t <;> rfl

theorem isDot_of_not_mem (c : Str) (h : 10 ∉ c) : ∀ x ∈ c, isDot x = true := by
  intro x hx
  simp only [isDot, bne_iff_ne, ne_eq]
  intro e
  exact h (e ▸ hx)

/-- The pattern `searchDirective` on a text without a newline: it matches
when a dot follows the blanks at the start. -/
theorem searchDirective_eval (sp rest : Str) (hsp : ∀ x ∈ sp, isSpace x = true)
    (hrest : ∀ y ys, rest = y :: ys → isSpace y = false) (h10 : 10 ∉ rest) :
    fullMatch searchDirective (sp ++ rest) =
      match rest with
      | [] => none
      | y :: _ => if y = 46 then some [] else none := by
  simp only [fullMatch, searchDirective, RE.cat, RE.ch, matchK]
  rw [star_skip isSpace _ sp rest hsp hrest]
  · cases rest with
    | nil => rfl
    | cons y ys =>
      by_cases hy : y = 46
      · subst hy
        have hd := isDot_of_not_mem ys (fun h => h10 (by simp [h]))
        have : starGo isDot (fun t => if t = [] then some (([] : Caps), t) else none) ys =
            some ([], []) :=
          starGo_all_eq isDot ys hd (fun t => if t = [] then some (([] : Caps), t) else none) rfl
        simp [isCh, this]
      · simp [isCh, hy]
  · intro y ys hy
    have := (isSpace_facts hy).2.2.1
    simp [isCh, this]

theorem isWord_plain {x : Nat} (h : isWord x = true) :
    isSpace x = false ∧ x ≠ 59 ∧ x ≠ 10 ∧ isDot x = true := by
  simp only [isWord, isAlpha, isUpper, isLower, isDigit, Bool.or_eq_true, Bool.and_eq_true,
    decide_eq_true_eq, beq_iff_eq] at h
  simp only [isSpace, isDot, Bool.or_eq_false_iff, Bool.and_eq_false_iff,
    decide_eq_false_iff_not, beq_eq_false_iff_ne, bne_iff_ne]
  omega

/-- The pattern `extractKeyword` on blanks, a dot, a run `w` of word
characters and a rest that does not start with one: the keyword is `w`. -/
theorem extractKeyword_eval (sp w zs : Str) (hsp : ∀ x ∈ sp, isSpace x = true)
    (hw : ∀ x ∈ w, isWord x = true) (hzs : ∀ y ys, zs = y :: ys → isWord y = false)
    (h10 : 10 ∉ zs) :
    fullMatch extractKeyword (sp ++ 46 :: (w ++ zs)) =
      if w = [] then none else some [(1, w)] := by
  simp only [fullMatch, extractKeyword, RE.cat, RE.ch, RE.plus, matchK]
  rw [star_skip isSpace _ sp (46 :: (w ++ zs)) hsp]
  · cases w with
    | nil =>
      cases zs with
      | nil => simp [isCh]
      | cons z zs1 => simp [isCh, hzs z zs1 rfl]
    | cons w0 ws =>
      have hw0 := hw w0 (by simp)
      have hws : ∀ x ∈ ws, isWord x = true := fun x hx => hw x (by simp [hx])
      have hd := isDot_of_not_mem zs h10
      have hk : ∀ (pre : Caps), starGo isDot
          (fun t => if t = [] then some ((pre, t) : MatchRes) else none) zs
            = some (pre, []) := by
        intro pre
        exact starGo_all_eq isDot zs hd
          (fun t => if t = [] then some ((pre, t) : MatchRes) else none) rfl
      have htake : List.take ((w0 :: (ws ++ zs)).length - zs.length) (w0 :: (ws ++ zs)) =
          w0 :: ws := by
        have e : (w0 :: (ws ++ zs)).length - zs.length = (w0 :: ws).length := by
          simp only [List.length_cons, List.length_append]
          omega
        rw [e, ← List.cons_append, List.take_left]
      cases zs with
      | nil =>
        have := starGo_all_eq isWord ws hws
        simp [isCh, hw0, this, starGo]
      | cons z zs1 =>
        have hz := hzs z zs1 rfl
        have hs := fun k r => star_stop_some isWord z zs1 hz k r ws hws
        simp only [isCh, List.cons_append, beq_self_eq_true, ↓reduceIte, hw0]
        rw [hs _ ([(1, w0 :: ws)], [])]
        · simp
        · have hk2 : ∀ (pre : Caps), starGo isDot
              (fun t => if (t == []) = true then some ((pre, t) : MatchRes) else none) (z :: zs1)
                = some (pre, []) := by
            intro pre
            exact starGo_all_eq isDot (z :: zs1) hd
              (fun t => if (t == []) = true then some ((pre, t) : MatchRes) else none) rfl
          simp only [List.cons_append] at htake
          simp only [hk2, List.length_cons, List.length_append] at htake ⊢
          rw [htake]
  · intro y ys e
    simp only [List.cons.injEq] at e
    rw [← e.1]
    decide
  · intro y ys hy
    have := (isSpace_facts hy).2.2.1
    simp [isCh, this]

/-! ## The three line functions on a line with a comment -/

theorem comment_head_not_word (ws c : Str) (hws : ∀ x ∈ ws, isSpace x = true) :
    ∀ y ys, ws ++ 59 :: c = y :: ys → isWord y = false ∧ y ≠ 46 := by
  intro y ys e
  cases ws with
  | nil =>
    simp only [List.nil_append, List.cons.injEq] at e
    rw [← e.1]
    decide
  | cons w ws1 =>
    simp only [List.cons_append, List.cons.injEq] at e
    rw [← e.1]
    have h := hws w (by simp)
    have h1 : (9 ≤ w ∧ w ≤ 13) ∨ w = 32 := by
      simp only [isSpace, Bool.or_eq_true, Bool.and_eq_true, decide_eq_true_eq, beq_iff_eq] at h
      omega
    refine ⟨?_, by omega⟩
    simp only [isWord, isAlpha, isUpper, isLower, isDigit, Bool.or_eq_false_iff,
      Bool.and_eq_false_iff, decide_eq_false_iff_not, beq_eq_false_iff_ne]
    omega

theorem not_mem_comment (ws c : Str) (hws10 : 10 ∉ ws) (hc : 10 ∉ c) : 10 ∉ ws ++ 59 :: c := by
  intro h
  rcases List.mem_append.1 h with h | h
  · exact hws10 h
  · rcases List.mem_cons.1 h with h | h
    · cases h
    · exact hc h

/-- The two patterns that `checkDirectives` tries first give the same on a
line and on the line with a comment after it. -/
theorem directive_patterns_comment (L ws c : Str) (h10 : 10 ∉ L)
    (hL : ∀ p x, L = p ++ [x] → isSpace x = false) (hws : ∀ x ∈ ws, isSpace x = true)
    (hws10 : 10 ∉ ws) (hc : 10 ∉ c) :
    fullMatch searchDirective (L ++ (ws ++ 59 :: c)) = fullMatch searchDirective L ∧
    ((fullMatch searchDirective L).isSome = true →
      fullMatch extractKeyword (L ++ (ws ++ 59 :: c)) = fullMatch extractKeyword L) := by
  have hM10 := not_mem_comment ws c hws10 hc
  obtain ⟨sp, rest, e, hsp, hrest⟩ := run_split isSpace L
  cases rest with
  | nil =>
    have hnil : L = [] := by
      rw [List.append_nil] at e
      cases hl : L.reverse with
      | nil => simpa using hl
      | cons z zs =>
        have e2 : L = zs.reverse ++ [z] := by
          have := congrArg List.reverse hl
          simpa using this
        have h1 := hL _ _ e2
        have h2 := hsp z (by rw [← e, e2]; simp)
        rw [h1] at h2
        cases h2
    subst hnil
    have e1 : fullMatch searchDirective ([] ++ (ws ++ 59 :: c)) = none := by
      have := searchDirective_eval ws (59 :: c) hws (fun y ys e => by
        simp only [List.cons.injEq] at e
        rw [← e.1]
        decide) (fun h => hM10 (by simp [h]))
      rw [List.nil_append, this]
      rfl
    have e2 : fullMatch searchDirective [] = none := by decide
    rw [e1, e2]
    exact ⟨rfl, fun h => by cases h⟩
  | cons y ys =>
    subst e
    have hy := hrest y ys rfl
    have h10r : 10 ∉ y :: ys := fun h => h10 (by simp [h])
    have hLM : (sp ++ y :: ys) ++ (ws ++ 59 :: c) = sp ++ ((y :: ys) ++ (ws ++ 59 :: c)) := by
      rw [List.append_assoc]
    have s1 := searchDirective_eval sp (y :: ys) hsp hrest h10r
    have s2 := searchDirective_eval sp ((y :: ys) ++ (ws ++ 59 :: c)) hsp
      (fun z zs e => by
        simp only [List.cons_append, List.cons.injEq] at e
        rw [← e.1]
        exact hy)
      (fun h => by
        rcases List.mem_append.1 h with h | h
        · exact h10r h
        · exact hM10 h)
    refine ⟨?_, ?_⟩
    · rw [hLM, s2, s1]
      rfl
    · intro hsome
      rw [s1] at hsome
      have hy46 : y = 46 := by
        by_contra hne
        simp [hne] at hsome
      subst hy46
      obtain ⟨w, zs, e3, hw, hzs⟩ := run_split isWord ys
      have h10z : 10 ∉ zs := fun h => h10r (by rw [e3]; simp [h])
      have k1 := extractKeyword_eval sp w zs hsp hw hzs h10z
      have k2 := extractKeyword_eval sp w (zs ++ (ws ++ 59 :: c)) hsp hw
        (fun z zs1 e => by
          cases zs with
          | nil => exact (comment_head_not_word ws c hws z zs1 (by simpa using e)).1
          | cons z0 zs0 =>
            simp only [List.cons_append, List.cons.injEq] at e
            rw [← e.1]
            exact hzs z0 zs0 rfl)
        (fun h => by
          rcases List.mem_append.1 h with h | h
          · exact h10z h
          · exact hM10 h)
      have hLM2 : (sp ++ 46 :: ys) ++ (ws ++ 59 :: c) =
          sp ++ 46 :: (w ++ (zs ++ (ws ++ 59 :: c))) := by
        rw [e3]
        simp
      rw [hLM2, k2, e3, k1]

/-- The line functions and a comment: `detectLabelDefinition` and `assembleLine`
give the same on a line and on the line with a comment after it. -/
theorem line_functions_comment (u : Uninit) (s : Asm) (n : Nat) (L ws c : Str) (h59 : 59 ∉ L)
    (hL : ∀ p x, L = p ++ [x] → isSpace x = false) (hws : ∀ x ∈ ws, isSpace x = true)
    (hc : 10 ∉ c) :
    detectLabelDefinition s (L ++ (ws ++ 59 :: c)) = detectLabelDefinition s L ∧
    assembleLine u s (L ++ (ws ++ 59 :: c)) n = assembleLine u s L n := by
  have e1 := remove_comments_trailing L ws c h59 hL hws hc
  have e2 := remove_comments_eq_self (fun _ => []) L h59
  constructor
  · unfold detectLabelDefinition
    rw [e1, e2]
  · unfold assembleLine
    rw [e1, e2]

/-- The directives and a comment: for a line whose keyword is not `text`, the
state and the returned value are the same on the line and on the line with a
comment after it, and so is the line that is handed on, once its comment is
removed. -/
theorem checkDirectives_comment (u : Uninit) (s : Asm) (L ws c : Str) (h59 : 59 ∉ L)
    (h10 : 10 ∉ L) (hL : ∀ p x, L = p ++ [x] → isSpace x = false)
    (hws : ∀ x ∈ ws, isSpace x = true) (hws10 : 10 ∉ ws) (hc : 10 ∉ c)
    (htext : notTextLine L) :
    (checkDirectives u s (L ++ (ws ++ 59 :: c))).map
        (fun r => (r.1, r.2.1, globalReplace remove_comments (fun _ => []) r.2.2)) =
      (checkDirectives u s L).map
        (fun r => (r.1, r.2.1, globalReplace remove_comments (fun _ => []) r.2.2)) := by
  have e1 := remove_comments_trailing L ws c h59 hL hws hc
  have e2 := remove_comments_eq_self (fun _ => []) L h59
  obtain ⟨p1, p2⟩ := directive_patterns_comment L ws c h10 hL hws hws10 hc
  unfold checkDirectives
  rw [p1]
  cases hsd : fullMatch searchDirective L with
  | none =>
    simp only [Option.map_some', e1, e2]
  | some d =>
    rw [p2 (by rw [hsd]; rfl)]
    cases hk : fullMatch extractKeyword L with
    | none =>
      simp only [Option.map_some', e1, e2]
    | some g =>
      have ht : (lowerStr (capGet g 1) == S "text") = false := by
        have := htext g hk
        simpa using this
      simp only [ht, Bool.false_eq_true, ↓reduceIte, e1, e2]
      repeat' split
      all_goals simp only [Option.map_some', e1, e2]

/-! ## The list of the lines is carried along -/

theorem emit_withLines (X : List Str) (s : Asm) (c : MemChunk) (bs : List Nat) (n : Nat) :
    (s.withLines X).emit c bs n = withLinesR X (s.emit c bs n) := by
  unfold Asm.emit withLinesR
  cases c.addBytes bs <;> rfl

theorem encodeImplied_withLines (X : List Str) (s : Asm) (c : MemChunk) (o : Opcode)
    (opc op : Str) :
    encodeImplied (s.withLines X) c o opc op = withLinesR X (encodeImplied s c o opc op) := by
  unfold encodeImplied
  split
  · exact emit_withLines X s c _ _
  · rfl

theorem encodeIndexedIndirect_withLines (X : List Str) (s : Asm) (c : MemChunk) (o : Opcode)
    (opc op : Str) :
    encodeIndexedIndirect (s.withLines X) c o opc op =
      withLinesR X (encodeIndexedIndirect s c o opc op) := by
  unfold encodeIndexedIndirect
  repeat' first | split | dsimp only
  all_goals first
    | exact emit_withLines X s c _ _
    | exact encodeImplied_withLines X s c o opc op
    | rfl

theorem encodeIndirect_withLines (X : List Str) (s : Asm) (c : MemChunk) (o : Opcode)
    (opc op : Str) :
    encodeIndirect (s.withLines X) c o opc op = withLinesR X (encodeIndirect s c o opc op) := by
  unfold encodeIndirect
  repeat' first | split | dsimp only
  all_goals first
    | exact emit_withLines X s c _ _
    | exact encodeIndexedIndirect_withLines X s c o opc op
    | rfl

theorem encodeIndexed_withLines (X : List Str) (s : Asm) (c : MemChunk) (o : Opcode)
    (zp ab : Nat) (v op : Str) :
    encodeIndexed (s.withLines X) c o zp ab v op =
      withLinesR X (encodeIndexed s c o zp ab v op) := by
  unfold encodeIndexed
  repeat' first | split | dsimp only
  all_goals first
    | exact emit_withLines X s c _ _
    | rfl

theorem encodeXY_withLines (X : List Str) (s : Asm) (c : MemChunk) (o : Opcode)
    (opc op : Str) :
    encodeXY (s.withLines X) c o opc op = withLinesR X (encodeXY s c o opc op) := by
  unfold encodeXY
  repeat' first | split | dsimp only
  all_goals first
    | exact encodeIndexed_withLines X s c o _ _ _ _
    | exact encodeIndirect_withLines X s c o opc op

theorem encodeZPAbs_withLines (X : List Str) (s : Asm) (c : MemChunk) (o : Opcode)
    (opc op : Str) :
    encodeZPAbs (s.withLines X) c o opc op = withLinesR X (encodeZPAbs s c o opc op) := by
  unfold encodeZPAbs
  have ha : (s.withLines X).actAddress = s.actAddress := rfl
  rw [ha]
  repeat' first | split | dsimp only
  all_goals first
    | exact emit_withLines X s c _ _
    | exact encodeXY_withLines X s c o opc op
    | rfl

theorem encode_withLines (X : List Str) (s : Asm) (c : MemChunk) (o : Opcode)
    (opc op : Str) :
    encode (s.withLines X) c o opc op = withLinesR X (encode s c o opc op) := by
  unfold encode
  repeat' first | split | dsimp only
  all_goals first
    | exact emit_withLines X s c _ _
    | exact encodeZPAbs_withLines X s c o opc op
    | rfl

theorem labelReference_withLines (u : Uninit) (X : List Str) (s : Asm) (opc op : Str) (n : Nat) :
    labelReference u (s.withLines X) opc op n =
      ((labelReference u s opc op n).1.withLines X, (labelReference u s opc op n).2) := by
  unfold labelReference
  have ha : (s.withLines X).actAddress = s.actAddress := rfl
  have hl : (s.withLines X).labels = s.labels := rfl
  rw [ha, hl]
  repeat' first | split | dsimp only
  all_goals rfl

theorem asterisk_withLines (X : List Str) (s : Asm) (op : Str) :
    asterisk (s.withLines X) op =
      (asterisk s op).mapError (fun e => (e.1.withLines X, e.2)) := by
  unfold asterisk
  have ha : (s.withLines X).actAddress = s.actAddress := rfl
  rw [ha]
  dsimp only
  cases fullMatch detectAsteriskExpression
      (if (op == S "*") = true then upperStr (S "$" ++ hexStr s.actAddress) else op) with
  | none => rfl
  | some g =>
    dsimp only
    split_ifs <;> rfl

theorem assembleParsed_withLines (u : Uninit) (X : List Str) (s : Asm) (opc op : Str) (n : Nat) :
    assembleParsed u (s.withLines X) opc op n = withLinesR X (assembleParsed u s opc op n) := by
  unfold assembleParsed
  have hc : (s.withLines X).actChunk = s.actChunk := rfl
  rw [hc, labelReference_withLines]
  cases s.actChunk with
  | none => rfl
  | some c =>
    dsimp only
    rw [asterisk_withLines]
    split_ifs
    · rfl
    · rfl
    · exact emit_withLines X s c _ _
    · cases asterisk (labelReference u s opc op n).1 (labelReference u s opc op n).2 with
      | error e => rfl
      | ok v => exact encode_withLines X _ c _ opc v

theorem assembleLine_withLines (u : Uninit) (X : List Str) (s : Asm) (line : Str) (n : Nat) :
    assembleLine u (s.withLines X) line n = withLinesR X (assembleLine u s line n) := by
  unfold assembleLine
  dsimp only
  cases fullMatch isEmptyLine (globalReplace remove_comments (fun _ => []) line) with
  | some g => rfl
  | none =>
    dsimp only
    cases fullMatch getInstructionElements
        (globalReplace removeLabelDefinition (fun g => capGet g 1)
          (upperStr (globalReplace remove_comments (fun _ => []) line))) with
    | none => rfl
    | some g => exact assembleParsed_withLines u X s _ _ n

theorem detectLabelDefinition_withLines (X : List Str) (s : Asm) (line : Str) :
    detectLabelDefinition (s.withLines X) line =
      ((detectLabelDefinition s line).1.withLines X, (detectLabelDefinition s line).2) := by
  unfold detectLabelDefinition
  have hl : (s.withLines X).labels = s.labels := rfl
  have ha : (s.withLines X).actAddress = s.actAddress := rfl
  rw [hl, ha]
  repeat' first | split | dsimp only
  all_goals rfl

theorem dataLoop_withLines (X : List Str) (keyword : Str) (vs : List Str) :
    ∀ (s : Asm) (c : MemChunk),
      dataLoop keyword vs (s.withLines X) c = withLinesR X (dataLoop keyword vs s c) := by
  induction vs with
  | nil =>
    intro s c
    rfl
  | cons v vs ih =>
    intro s c
    unfold dataLoop
    have ha : (s.withLines X).actAddress = s.actAddress := rfl
    dsimp only
    rw [ha]
    repeat' first | split | dsimp only
    all_goals first
      | rfl
      | exact ih { s with actAddress := (s.actAddress + 1) % 65536 } _
      | exact ih { s with actAddress := (s.actAddress + 2) % 65536 } _
      | exact ih s _

theorem directiveText_withLines (X : List Str) (s : Asm) (line : Str) :
    directiveText (s.withLines X) line = withLinesR X (directiveText s line) := by
  unfold directiveText
  have hc : (s.withLines X).actChunk = s.actChunk := rfl
  have hs : (s.withLines X).charset = s.charset := rfl
  rw [hc, hs]
  repeat' first | split | dsimp only
  all_goals first
    | rfl
    | exact emit_withLines X s _ _ _

theorem directivePc_withLines (u : Uninit) (X : List Str) (s : Asm) (line : Str) :
    directivePc u (s.withLines X) line = withLinesR X (directivePc u s line) := by
  unfold directivePc
  repeat' first | split | dsimp only
  all_goals first
    | rfl
    | simp_all [Asm.withLines, withLinesR]

theorem directiveData_withLines (X : List Str) (s : Asm) (keyword line : Str) :
    directiveData (s.withLines X) keyword line = withLinesR X (directiveData s keyword line) := by
  unfold directiveData
  have hc : (s.withLines X).actChunk = s.actChunk := rfl
  rw [hc]
  dsimp only
  split_ifs
  · rfl
  · cases s.actChunk with
    | none => rfl
    | some c => exact dataLoop_withLines X keyword _ s c

theorem checkDirectives_withLines (u : Uninit) (X : List Str) (s : Asm) (line : Str) :
    checkDirectives u (s.withLines X) line =
      (checkDirectives u s line).map (fun r => (r.1.withLines X, r.2.1, r.2.2)) := by
  unfold checkDirectives
  cases fullMatch searchDirective line with
  | none => rfl
  | some d =>
    dsimp only
    cases fullMatch extractKeyword line with
    | none => rfl
    | some g =>
      dsimp only
      split_ifs
      · rw [directiveText_withLines]
        cases directiveText s line <;> rfl
      · rfl
      · rfl
      · rfl
      · rw [directivePc_withLines]
        cases directivePc u s (globalReplace remove_comments (fun _ => []) line) <;> rfl
      · rw [directiveData_withLines]
        cases directiveData s (lowerStr (capGet g 1))
          (globalReplace remove_comments (fun _ => []) line) <;> rfl
      · rfl

/-! ## The two trims at the top of the loop of `assemble` -/

theorem leading_loop_nil (f : Caps → Str) (total fuel : Nat) (b : Bool) :
    (globalReplaceLoop remove_leading_space f total fuel b []).1 = [] := by
  cases fuel with
  | zero => rfl
  | succ n =>
    cases b <;>
      simp [globalReplaceLoop, matchAtNonEmpty, searchFrom, matchAt, remove_leading_space,
        RE.cat, RE.plus, matchK]

theorem trailing_loop_nil (f : Caps → Str) (total fuel : Nat) (b : Bool) :
    (globalReplaceLoop remove_trailing_space f total fuel b []).1 = [] := by
  cases fuel with
  | zero => rfl
  | succ n =>
    cases b <;>
      simp [globalReplaceLoop, matchAtNonEmpty, searchFrom, matchAt, remove_trailing_space,
        RE.cat, RE.plus, matchK]

/-- The pattern `^\s+(.+)` at the start of a line without a line feed after
its leading blanks: the group is the text after the blanks. -/
theorem leading_matchAt (x0 : Nat) (sp : Str) (x : Nat) (rest : Str)
    (h0 : isSpace x0 = true) (hsp : ∀ y ∈ sp, isSpace y = true) (hx : isSpace x = false)
    (h10 : 10 ∉ x :: rest) :
    matchAt remove_leading_space (x0 :: (sp ++ x :: rest)).length (x0 :: (sp ++ x :: rest)) =
      some ([(1, x :: rest)], []) := by
  have hxd : isDot x = true := by
    simp only [isDot, bne_iff_ne, ne_eq]
    intro e
    exact h10 (by simp [e])
  have hd : ∀ y ∈ rest, isDot y = true := by
    intro y hy
    simp only [isDot, bne_iff_ne, ne_eq]
    intro e
    exact h10 (by simp [← e, hy])
  simp only [matchAt, remove_leading_space, RE.cat, RE.plus, matchK, beq_self_eq_true, ↓reduceIte,
    h0]
  rw [starGo_run isSpace sp (x :: rest) hsp]
  · simp only [hxd, ↓reduceIte]
    rw [starGo_all_eq isDot rest hd]
    · simp
    · rfl
  · intro y ys e
    simp only [List.cons.injEq] at e
    rw [← e.1]
    exact hx
  · simp only [hxd, ↓reduceIte]
    rw [starGo_all_eq isDot rest hd]
    · rfl
    · rfl

/-- The first trim of `assemble` takes the blanks before the text of a line. -/
theorem leading_trim (sp : Str) (x : Nat) (rest : Str) (hsp : ∀ y ∈ sp, isSpace y = true)
    (hx : isSpace x = false) (h10 : 10 ∉ x :: rest) :
    globalReplace remove_leading_space (fun g => capGet g 1) (sp ++ x :: rest) = x :: rest := by
  cases sp with
  | nil =>
    apply globalReplace_eq_self
    apply searchFrom_eq_none
    intro pre t e
    simp only [matchAt, remove_leading_space, RE.cat, RE.plus, matchK]
    split
    · rename_i hlen
      have hl : t.length = (pre ++ t).length := by
        rw [← e]
        simpa using hlen
      have hp : pre = [] := by
        rw [List.length_append] at hl
        exact List.length_eq_zero.1 (by omega)
      subst hp
      simp only [List.nil_append, List.append_eq] at e
      rw [← e]
      simp [hx]
    · rfl
  | cons x0 sp =>
    have h0 : isSpace x0 = true := hsp x0 (by simp)
    have hsp1 : ∀ y ∈ sp, isSpace y = true := fun y hy => hsp y (by simp [hy])
    have hm := leading_matchAt x0 sp x rest h0 hsp1 hx h10
    have hs : searchFrom remove_leading_space (x0 :: sp ++ x :: rest).length
        (x0 :: sp ++ x :: rest) = some ([], [(1, x :: rest)], []) := by
      simp only [List.cons_append] at hm ⊢
      simp only [searchFrom, hm]
    rw [globalReplace_cut _ _ _ _ _ hs (fun fuel b => leading_loop_nil _ _ fuel b)]
    rfl

/-- The pattern `\s+$` finds nothing where a character that is no blank
follows. -/
theorem trailing_matchAt_before (total : Nat) (a : Str) (z : Nat) (b : Str)
    (hz : isSpace z = false) :
    matchAt remove_trailing_space total (a ++ z :: b) = none := by
  simp only [matchAt, remove_trailing_space, RE.cat, RE.plus, matchK]
  cases a with
  | nil => simp [hz]
  | cons a0 a1 =>
    simp only [List.cons_append]
    split
    · apply starGo_eq_none
      intro pre t e hpre
      have hzt : z ∈ t := by
        have : z ∈ pre ++ t := by
          rw [← e]
          simp
        rcases List.mem_append.1 this with h | h
        · have := hpre z h
          rw [hz] at this
          cases this
        · exact h
      cases t with
      | nil => simp at hzt
      | cons t0 t1 =>
        cases t1 with
        | nil =>
          simp only [List.mem_singleton] at hzt
          subst hzt
          have h10 : z ≠ 10 := by
            intro e1
            rw [e1] at hz
            revert hz
            decide
          simp [h10]
        | cons t2 t3 => simp
    · rfl

/-- The pattern `\s+$` at the start of the blanks that end a text. -/
theorem trailing_matchAt_run (total : Nat) (x0 : Nat) (tr : Str) (h0 : isSpace x0 = true)
    (htr : ∀ y ∈ tr, isSpace y = true) :
    matchAt remove_trailing_space total (x0 :: tr) = some ([], []) := by
  simp only [matchAt, remove_trailing_space, RE.cat, RE.plus, matchK, h0, ↓reduceIte]
  rw [starGo_all_eq isSpace tr htr]
  · rfl
  · rfl

/-- The second trim of `assemble` takes the blanks at the end of a line. -/
theorem trailing_trim (body tr : Str) (hb : ∀ p x, body = p ++ [x] → isSpace x = false)
    (htr : ∀ y ∈ tr, isSpace y = true) :
    globalReplace remove_trailing_space (fun _ => []) (body ++ tr) = body := by
  have hno : ∀ p1 x p2 (M : Str), body = p1 ++ x :: p2 →
      matchAt remove_trailing_space (body ++ tr).length (x :: p2 ++ M) = none := by
    intro p1 x p2 M e
    obtain ⟨q, z, e2, hz⟩ := noTrail_suffix body hb p1 x p2 e
    rw [e2, List.append_assoc]
    exact trailing_matchAt_before _ q z M hz
  cases tr with
  | nil =>
    rw [List.append_nil]
    apply globalReplace_eq_self
    apply searchFrom_eq_none
    intro pre t e
    cases t with
    | nil => simp [matchAt, remove_trailing_space, RE.cat, RE.plus, matchK]
    | cons x p2 =>
      have := hno pre x p2 [] e
      rw [List.append_nil, List.append_nil] at this
      exact this
  | cons x0 tr =>
    have h0 : isSpace x0 = true := htr x0 (by simp)
    have htr1 : ∀ y ∈ tr, isSpace y = true := fun y hy => htr y (by simp [hy])
    have hs : searchFrom remove_trailing_space (body ++ x0 :: tr).length (body ++ x0 :: tr) =
        some (body, [], []) :=
      searchFrom_at _ _ _ _ _ (trailing_matchAt_run _ x0 tr h0 htr1) body
        (fun p1 x p2 e => hno p1 x p2 (x0 :: tr) e)
    rw [globalReplace_cut _ _ _ _ _ hs (fun fuel b => trailing_loop_nil _ _ fuel b)]
    simp

/-- The text that `assemble` hands on for a line: the line without the blanks
before and after it. -/
theorem trimLine_eq (sp : Str) (x : Nat) (rest tr : Str) (hsp : ∀ y ∈ sp, isSpace y = true)
    (hx : isSpace x = false) (h10 : 10 ∉ x :: rest) (h10t : 10 ∉ tr)
    (hb : ∀ p z, x :: rest = p ++ [z] → isSpace z = false)
    (htr : ∀ y ∈ tr, isSpace y = true) :
    trimLine (sp ++ (x :: rest ++ tr)) = x :: rest := by
  unfold trimLine
  have e : sp ++ (x :: rest ++ tr) = sp ++ x :: (rest ++ tr) := rfl
  rw [e, leading_trim sp x (rest ++ tr) hsp hx]
  · exact trailing_trim (x :: rest) tr hb htr
  · intro h
    rcases List.mem_cons.1 h with h | h
    · exact h10 (by simp [← h])
    · rcases List.mem_append.1 h with h | h
      · exact h10 (by simp [h])
      · exact h10t h

/-! ## A line and the same line with a comment after it -/

/-- The two line functions after `checkDirectives` read a line only through
the text that is left once its comment is removed. -/
theorem line_functions_comment_free (u : Uninit) (s : Asm) (n : Nat) (a b : Str)
    (h : globalReplace remove_comments (fun _ => []) a =
      globalReplace remove_comments (fun _ => []) b) :
    detectLabelDefinition s a = detectLabelDefinition s b ∧
    assembleLine u s a n = assembleLine u s b n := by
  constructor
  · unfold detectLabelDefinition
    rw [h]
  · unfold assembleLine
    rw [h]

theorem processLine_comment_core (u : Uninit) (s : Asm) (n : Nat) (raw1 raw2 L ws c : Str)
    (e1 : trimLine raw1 = L) (e2 : trimLine raw2 = L ++ (ws ++ 59 :: c))
    (h59 : 59 ∉ L) (h10 : 10 ∉ L) (hL : ∀ p x, L = p ++ [x] → isSpace x = false)
    (hws : ∀ x ∈ ws, isSpace x = true) (hws10 : 10 ∉ ws) (hc : 10 ∉ c) (htext : notTextLine L) :
    (processLine u s raw2 n).map forgetLine = (processLine u s raw1 n).map forgetLine := by
  have hcd := checkDirectives_comment u s L ws c h59 h10 hL hws hws10 hc htext
  have t1 : globalReplace remove_trailing_space (fun _ => [])
      (globalReplace remove_leading_space (fun g => capGet g 1) raw1) = L := e1
  have t2 : globalReplace remove_trailing_space (fun _ => [])
      (globalReplace remove_leading_space (fun g => capGet g 1) raw2) = L ++ (ws ++ 59 :: c) := e2
  have f1 := checkDirectives_withLines u (s.lines ++ [L]) s L
  have f2 := checkDirectives_withLines u (s.lines ++ [L ++ (ws ++ 59 :: c)]) s
    (L ++ (ws ++ 59 :: c))
  unfold Asm.withLines at f1 f2
  unfold processLine
  simp only [t1, t2]
  rw [f1, f2]
  cases h1 : checkDirectives u s L with
  | none =>
    cases h2 : checkDirectives u s (L ++ (ws ++ 59 :: c)) with
    | none => rfl
    | some r2 => simp [h1, h2] at hcd
  | some r1 =>
    cases h2 : checkDirectives u s (L ++ (ws ++ 59 :: c)) with
    | none => simp [h1, h2] at hcd
    | some r2 =>
      obtain ⟨s1, d1, l1⟩ := r1
      obtain ⟨s2, d2, l2⟩ := r2
      simp only [h1, h2, Option.map_some', Option.some.injEq, Prod.mk.injEq] at hcd
      obtain ⟨hs, hd, hl⟩ := hcd
      subst hs hd
      simp only [Option.map_some']
      have g1 := detectLabelDefinition_withLines (s.lines ++ [L]) s2 l1
      have g2 := detectLabelDefinition_withLines (s.lines ++ [L ++ (ws ++ 59 :: c)]) s2 l2
      rw [(line_functions_comment_free u s2 n l2 l1 hl).1] at g2
      have a1 := assembleLine_withLines u (s.lines ++ [L]) (detectLabelDefinition s2 l1).1 l1 n
      have a2 : assembleLine u
          ((detectLabelDefinition s2 l1).1.withLines (s.lines ++ [L ++ (ws ++ 59 :: c)])) l2 n =
          withLinesR (s.lines ++ [L ++ (ws ++ 59 :: c)])
            (assembleLine u (detectLabelDefinition s2 l1).1 l1 n) := by
        rw [assembleLine_withLines,
          (line_functions_comment_free u (detectLabelDefinition s2 l1).1 n l2 l1 hl).2]
      unfold Asm.withLines at g1 g2 a1 a2
      rw [g1, g2]
      dsimp only
      rw [a1, a2]
      cases assembleLine u (detectLabelDefinition s2 l1).1 l1 n with
      | none => rfl
      | some y =>
        obtain ⟨s3, a⟩ := y
        simp only [withLinesR, Option.map_some', Asm.withLines]
        split_ifs <;> rfl

/-! ## The blanks around the text of a line -/

theorem lead_split (l : Str) (hl : ∃ x ∈ l, isSpace x = false) :
    ∃ sp x m, l = sp ++ x :: m ∧ (∀ y ∈ sp, isSpace y = true) ∧ isSpace x = false := by
  induction l with
  | nil =>
    obtain ⟨x, hx, _⟩ := hl
    cases hx
  | cons a l ih =>
    by_cases ha : isSpace a = true
    · have h1 : ∃ x ∈ l, isSpace x = false := by
        obtain ⟨x, hx, h⟩ := hl
        rcases List.mem_cons.1 hx with e | e
        · subst e
          rw [ha] at h
          cases h
        · exact ⟨x, e, h⟩
      obtain ⟨sp, x, m, e, hsp, hx⟩ := ih h1
      refine ⟨a :: sp, x, m, by rw [e]; rfl, ?_, hx⟩
      intro y hy
      rcases List.mem_cons.1 hy with e | e
      · subst e
        exact ha
      · exact hsp y e
    · exact ⟨[], a, l, rfl, by simp, by simpa using ha⟩

theorem trail_split (l : Str) (hl : ∃ x ∈ l, isSpace x = false) :
    ∃ b z tr, l = b ++ z :: tr ∧ isSpace z = false ∧ (∀ y ∈ tr, isSpace y = true) := by
  obtain ⟨sp, x, m, e, hsp, hx⟩ := lead_split l.reverse (by
    obtain ⟨x, hx, h⟩ := hl
    exact ⟨x, List.mem_reverse.2 hx, h⟩)
  refine ⟨m.reverse, x, sp.reverse, ?_, hx, ?_⟩
  · have h1 := congrArg List.reverse e
    simpa using h1
  · intro y hy
    exact hsp y (List.mem_reverse.1 hy)

/-- A text that starts with a character other than a blank: the text up to
its last such character, and the blanks after it. -/
theorem body_split (x : Nat) (m : Str) (hx : isSpace x = false) :
    ∃ rest tr, x :: m = x :: rest ++ tr ∧ (∀ p z, x :: rest = p ++ [z] → isSpace z = false) ∧
      (∀ y ∈ tr, isSpace y = true) := by
  obtain ⟨b, z, tr, e, hz, htr⟩ := trail_split (x :: m) ⟨x, by simp, hx⟩
  have hlast : ∀ (rest : Str), b ++ [z] = x :: rest →
      ∀ p z1, x :: rest = p ++ [z1] → isSpace z1 = false := by
    intro rest h p z1 h1
    rw [← h] at h1
    have := List.append_inj_right' h1 rfl
    simp only [List.cons.injEq, and_true] at this
    rw [← this]
    exact hz
  cases b with
  | nil =>
    simp only [List.nil_append, List.cons.injEq] at e
    refine ⟨[], tr, by rw [e.2]; rfl, hlast [] (by rw [e.1]; rfl), htr⟩
  | cons b0 b1 =>
    simp only [List.cons_append, List.cons.injEq] at e
    refine ⟨b1 ++ [z], tr, by rw [e.2]; simp, hlast (b1 ++ [z]) (by rw [e.1]; rfl), htr⟩

/-- The loop body of `assemble` on the empty line. -/
theorem processLine_empty (u : Uninit) (s : Asm) (n : Nat) :
    (processLine u s [] n).map forgetLine = some (forgetLine (s, 0)) := by
  rfl

theorem not_mem_parts (a : Nat) (sp : Str) (x : Nat) (rest tr : Str)
    (h : a ∉ sp ++ (x :: rest ++ tr)) : a ∉ x :: rest ∧ a ∉ tr := by
  constructor
  · intro h1
    apply h
    rw [List.mem_append, List.mem_append]
    exact Or.inr (Or.inl h1)
  · intro h1
    apply h
    rw [List.mem_append, List.mem_append]
    exact Or.inr (Or.inr h1)

/-- C36: a trailing comment is ignored.  For every line `l` without `;` and
without a line feed that holds a character other than a blank and is no
`.text` directive, every text `ws` of blanks and every text `c` without a line
feed, the loop body of `assemble` gives on `l` followed by `ws`, `;` and `c`
what it gives on `l` alone: the same return value, chunks, current chunk,
program counter, labels, fix-ups, character set and error message, up to the
text of the line that it records; and on a line that is only a comment it
returns 0 and changes nothing but the list of the lines. -/
theorem trailing_comment_ignored (u : Uninit) (s : Asm) (n : Nat) (l ws c : Str)
    (h59 : 59 ∉ l) (h10 : 10 ∉ l) (hl : ∃ x ∈ l, isSpace x = false)
    (htext : notTextLine (trimLine l))
    (hws : ∀ x ∈ ws, isSpace x = true) (hws10 : 10 ∉ ws) (hc : 10 ∉ c) :
    (processLine u s (l ++ (ws ++ 59 :: c)) n).map forgetLine =
      (processLine u s l n).map forgetLine ∧
    (processLine u s (ws ++ 59 :: c) n).map forgetLine = some (forgetLine (s, 0)) := by
  obtain ⟨c1, ctr, ec, hcb, hctr⟩ := body_split 59 c (by decide)
  have ec1 : c = c1 ++ ctr := by
    simp only [List.cons_append, List.cons.injEq, true_and] at ec
    exact ec
  have hc1 : 10 ∉ c1 := fun h => hc (by rw [ec1]; exact List.mem_append_left _ h)
  have hctr10 : 10 ∉ ctr := fun h => hc (by rw [ec1]; exact List.mem_append_right _ h)
  constructor
  · obtain ⟨sp, x, m, e, hsp, hx⟩ := lead_split l hl
    obtain ⟨rest, tr, em, hb, htr⟩ := body_split x m hx
    have el : l = sp ++ (x :: rest ++ tr) := by rw [e, em]
    have h10p := not_mem_parts 10 sp x rest tr (el ▸ h10)
    have h59p := not_mem_parts 59 sp x rest tr (el ▸ h59)
    have t1 : trimLine l = x :: rest := by
      rw [el]
      exact trimLine_eq sp x rest tr hsp hx h10p.1 h10p.2 hb htr
    have hws2 : ∀ y ∈ tr ++ ws, isSpace y = true := by
      intro y hy
      rcases List.mem_append.1 hy with h | h
      · exact htr y h
      · exact hws y h
    have hws210 : 10 ∉ tr ++ ws := by
      intro h
      rcases List.mem_append.1 h with h | h
      · exact h10p.2 h
      · exact hws10 h
    have eraw : l ++ (ws ++ 59 :: c) =
        sp ++ (x :: (rest ++ ((tr ++ ws) ++ 59 :: c1)) ++ ctr) := by
      rw [el, ec1]
      simp
    have t2 : trimLine (l ++ (ws ++ 59 :: c)) = (x :: rest) ++ ((tr ++ ws) ++ 59 :: c1) := by
      rw [eraw]
      apply trimLine_eq sp x (rest ++ ((tr ++ ws) ++ 59 :: c1)) ctr hsp hx _ hctr10 _ hctr
      · intro h
        rcases List.mem_cons.1 h with h | h
        · exact h10p.1 (by rw [← h]; simp)
        · rcases List.mem_append.1 h with h | h
          · exact h10p.1 (List.mem_cons_of_mem _ h)
          · rcases List.mem_append.1 h with h | h
            · exact hws210 h
            · rcases List.mem_cons.1 h with h | h
              · cases h
              · exact hc1 h
      · intro p z hp
        have hne : (59 :: c1) ≠ [] := by simp
        have e1 : x :: (rest ++ ((tr ++ ws) ++ 59 :: c1)) =
            (x :: (rest ++ (tr ++ ws)) ++ (59 :: c1).dropLast) ++ [(59 :: c1).getLast hne] := by
          have h0 := List.dropLast_append_getLast hne
          calc x :: (rest ++ ((tr ++ ws) ++ 59 :: c1))
              = (x :: (rest ++ (tr ++ ws))) ++ (59 :: c1) := by simp
            _ = (x :: (rest ++ (tr ++ ws))) ++
                ((59 :: c1).dropLast ++ [(59 :: c1).getLast hne]) := by rw [h0]
            _ = _ := (List.append_assoc _ _ _).symm
        rw [e1] at hp
        have e2 := List.append_inj_right' hp rfl
        simp only [List.cons.injEq, and_true] at e2
        rw [← e2]
        exact hcb (59 :: c1).dropLast _ (List.dropLast_append_getLast hne).symm
    exact processLine_comment_core u s n l (l ++ (ws ++ 59 :: c)) (x :: rest) (tr ++ ws) c1 t1 t2
      h59p.1 h10p.1 hb hws2 hws210 hc1 (t1 ▸ htext)
  · have t2 : trimLine (ws ++ 59 :: c) = [] ++ ([] ++ 59 :: c1) := by
      rw [ec1]
      exact trimLine_eq ws 59 c1 ctr hws (by decide)
        (by
          intro h
          rcases List.mem_cons.1 h with h | h
          · cases h
          · exact hc1 h) hctr10 hcb hctr
    have hcore := processLine_comment_core u s n [] (ws ++ 59 :: c) [] [] c1 rfl t2
      (by simp) (by simp) (by intro p x h; simp at h) (by simp) (by simp) hc1
      (by
        intro g hg
        cases hg)
    rw [hcore]
    exact processLine_empty u s n

/-- An instance of `trailing_comment_ignored`: `LDA #$10` and `.byte 1, 2`
with blanks and a comment around them at 0x1000, a line that is only a
comment, and a whole run. -/
theorem trailing_comment_ignored_witness :
    (processLine quiet (opened 0x1000) (S "  LDA #$10 " ++ (S "  " ++ 59 :: S " load ")) 2).map
        forgetLine =
      ((opened 0x1000).emit (MemChunk.fresh 0x1000) [0xa9, 0x10] 2).map forgetLine
    ∧ (processLine quiet (opened 0x1000) (S "  " ++ 59 :: S " load ") 2).map forgetLine =
      some (forgetLine (opened 0x1000, 0))
    ∧ (processLine quiet (opened 0x1000) (S ".byte 1, 2" ++ (S " " ++ 59 :: S "data")) 2).map
        forgetLine =
      ((opened 0x1000).emit (MemChunk.fresh 0x1000) [1, 2] 2).map forgetLine
    ∧ chunksOf (assemble (fun _ => quiet) Asm.init
        (S ".pc = $1000 ; start\nLDA #$10 ; load\n  ; only\n.byte 1, 2 ;data")) =
      some (0, [(0x1000, [0xa9, 0x10, 1, 2])]) :=
  ⟨((trailing_comment_ignored quiet (opened 0x1000) 2 (S "  LDA #$10 ") (S "  ") (S " load ")
      (by decide) (by decide) ⟨76, by decide, by decide⟩
      (fun g h => by
        have e : fullMatch extractKeyword (trimLine (S "  LDA #$10 ")) = none := by decide
        rw [e] at h
        cases h)
      (by decide) (by decide) (by decide)).1).trans (by decide),
   (trailing_comment_ignored quiet (opened 0x1000) 2 (S "  LDA #$10 ") (S "  ") (S " load ")
      (by decide) (by decide) ⟨76, by decide, by decide⟩
      (fun g h => by
        have e : fullMatch extractKeyword (trimLine (S "  LDA #$10 ")) = none := by decide
        rw [e] at h
        cases h)
      (by decide) (by decide) (by decide)).2,
   ((trailing_comment_ignored quiet (opened 0x1000) 2 (S ".byte 1, 2") (S " ") (S "data")
      (by decide) (by decide) ⟨46, by decide, by decide⟩
      (fun g h => by
        have e : (fullMatch extractKeyword (trimLine (S ".byte 1, 2"))).map
            (fun g => lowerStr (capGet g 1)) = some (S "byte") := by decide
        rw [h] at e
        simp only [Option.map_some', Option.some.injEq] at e
        rw [e]
        decide)
      (by decide) (by decide) (by decide)).1).trans (by decide),
   by decide⟩

/-! ## The encodings with the bytes of the chunk -/

/-- The end of an emitting path on a chunk that holds `bs`, with room for the
bytes in the buffer of 512 cells. -/
theorem emit_appends (s : Asm) (c : MemChunk) (a : Nat) (bs more : List Nat) (n : Nat)
    (h : c.Holds a bs) (hroom : bs.length + more.length ≤ 512) (hn : n = more.length) :
    Appends s a bs more (s.emit c more n) := by
  obtain ⟨c1, h1, h2, h3, h4, h5⟩ := emit_holds s c a bs more n h hroom
  subst hn
  exact ⟨c1, h1, h2, h4, h5, h3⟩

/-- C4 (amended). Branch encoding and range: for every branch mnemonic
(`codes[10]` not zero) at the program counter `pc` of a state with an open
chunk that holds the bytes `bs`, and a target `t ≤ 0xFFFF` written as `$` and
hexadecimal digits or as a label that is already defined with the non-zero
address `t`, let `offset = t - (pc + 2)`.  When `-127 ≤ offset ≤ 127` and the
buffer has room for two bytes, the line returns 0 with `codes[10]` and
`offset mod 256` appended to the chunk and the program counter advanced by 2;
otherwise (the offset -128 included) it returns -1 with "Branch out of range"
and the chunk as it was. -/
theorem branch_encoding (u : Uninit) (s : Asm) (c : MemChunk) (n : Nat) (o : Opcode)
    (a : Nat) (bs : List Nat) (ho : o ∈ opcodeTable) (hb : o.code 10 ≠ 0)
    (hc : s.actChunk = some c) (hh : c.Holds a bs) :
    (∀ ds t, numberValue (36 :: ds) = some t → t ≤ 0xFFFF →
      (-127 ≤ (t : Int) - ((s.actAddress : Int) + 2) ∧
          (t : Int) - ((s.actAddress : Int) + 2) ≤ 127 → bs.length + 2 ≤ 512 →
        Appends s a bs [o.code 10, (((t : Int) - ((s.actAddress : Int) + 2)) % 256).toNat]
          (assembleLine u s (o.name ++ S " $" ++ ds) n)) ∧
      (¬ (-127 ≤ (t : Int) - ((s.actAddress : Int) + 2) ∧
          (t : Int) - ((s.actAddress : Int) + 2) ≤ 127) →
        assembleLine u s (o.name ++ S " $" ++ ds) n =
          some (s.setError (S "Branch out of range")
            (S "You can only jump +/-127 bytes with a branch instruction."), -1))) ∧
    (∀ name t, isLabelName name = true → labelsGet s.labels name = t → t ≠ 0 → t ≤ 0xFFFF →
      (-127 ≤ (t : Int) - ((s.actAddress : Int) + 2) ∧
          (t : Int) - ((s.actAddress : Int) + 2) ≤ 127 → bs.length + 2 ≤ 512 →
        Appends s a bs [o.code 10, (((t : Int) - ((s.actAddress : Int) + 2)) % 256).toNat]
          (assembleLine u s (o.name ++ 32 :: name) n)) ∧
      (¬ (-127 ≤ (t : Int) - ((s.actAddress : Int) + 2) ∧
          (t : Int) - ((s.actAddress : Int) + 2) ≤ 127) →
        assembleLine u s (o.name ++ 32 :: name) n =
          some (s.setError (S "Branch out of range")
            (S "You can only jump +/-127 bytes with a branch instruction."), -1))) := by
  obtain ⟨h1, h2⟩ := branch_encoding_emit u s c n o ho hb hc
  constructor
  · intro ds t hds ht
    have e := h1 ds t hds ht
    constructor
    · intro hr hroom
      rw [e, if_pos hr]
      exact emit_appends s c a bs _ 2 hh hroom rfl
    · intro hr
      rw [e, if_neg hr]
  · intro name t hname hget ht0 ht
    have e := h2 name t hname hget ht0 ht
    constructor
    · intro hr hroom
      rw [e, if_pos hr]
      exact emit_appends s c a bs _ 2 hh hroom rfl
    · intro hr
      rw [e, if_neg hr]

/-- An instance of `branch_encoding`: `BNE LOOP` at 0x1003 with `LOOP` at
0x1002 (offset -3), `BNE $1084` (offset 127) and `BNE $1085` (offset 128) at
0x1003, and the whole scenario 3. -/
theorem branch_encoding_witness :
    Appends loopState 0x1000 [0xa2, 0, 0xe8] [0xd0, 0xfd]
      (assembleLine quiet loopState (S "BNE LOOP") 4)
    ∧ Appends loopState 0x1000 [0xa2, 0, 0xe8] [0xd0, 0x7f]
      (assembleLine quiet loopState (S "BNE $1084") 4)
    ∧ assembleLine quiet loopState (S "BNE $1085") 4 =
        some (loopState.setError (S "Branch out of range")
          (S "You can only jump +/-127 bytes with a branch instruction."), -1)
    ∧ chunksOf (assemble (fun _ => quiet) Asm.init
        (S ".pc = $1000\n  LDX #$00\nLOOP: INX\n  BNE LOOP\n  RTS"))
      = some (0, [(4096, [0xa2, 0, 0xe8, 0xd0, 0xfd, 0x60])]) :=
  ⟨((branch_encoding quiet loopState loopChunk 4 bneEntry 0x1000 [0xa2, 0, 0xe8]
      (by decide) (by decide) rfl
      (by decide : (MemChunk.fresh 0x1000).addBytes [0xa2, 0, 0xe8] = some loopChunk)).2
      (S "LOOP") 0x1002 (by decide) (by decide) (by decide) (by decide)).1
      (by decide) (by decide),
   ((branch_encoding quiet loopState loopChunk 4 bneEntry 0x1000 [0xa2, 0, 0xe8]
      (by decide) (by decide) rfl
      (by decide : (MemChunk.fresh 0x1000).addBytes [0xa2, 0, 0xe8] = some loopChunk)).1
      (S "1084") 0x1084 (by decide) (by decide)).1 (by decide) (by decide),
   ((branch_encoding quiet loopState loopChunk 4 bneEntry 0x1000 [0xa2, 0, 0xe8]
      (by decide) (by decide) rfl
      (by decide : (MemChunk.fresh 0x1000).addBytes [0xa2, 0, 0xe8] = some loopChunk)).1
      (S "1085") 0x1085 (by decide) (by decide)).2 (by decide),
   by decide⟩

theorem labels_dataLoop (L : List (Str × Nat)) (keyword : Str)
    (vs : List Str) (s : Asm) (c : MemChunk) (h : s.labels = L) :
    Keeps (fun t => t.labels = L) (dataLoop keyword vs s c) := by
  induction vs generalizing s c with
  | nil =>
    unfold dataLoop
    exact keeps_some _ _ _ h
  | cons v vs ih =>
    unfold dataLoop
    dsimp only
    repeat' first | split | dsimp only
    all_goals first
      | exact keeps_none _
      | exact keeps_some _ _ _ h
      | exact ih _ _ h

theorem labels_directiveText (s : Asm) (line : Str) :
    Keeps (fun t => t.labels = s.labels) (directiveText s line) := by
  unfold directiveText
  repeat' first | split | dsimp only
  all_goals first
    | exact keeps_some _ _ _ rfl
    | exact labels_emit _ _ _ _ _ rfl

theorem labels_directiveData (s : Asm) (keyword line : Str) :
    Keeps (fun t => t.labels = s.labels) (directiveData s keyword line) := by
  unfold directiveData
  dsimp only
  split
  · exact keeps_some _ _ _ rfl
  · cases s.actChunk with
    | none => exact keeps_some _ _ _ rfl
    | some c => exact labels_dataLoop _ _ _ _ _ rfl

theorem labels_directivePc (u : Uninit) (s : Asm) (line : Str) :
    Keeps (fun t => t.labels = s.labels) (directivePc u s line) := by
  unfold directivePc
  repeat' first | split | dsimp only
  all_goals exact keeps_some _ _ _ rfl

/-- The source's `checkDirectives` leaves the labels as they are. -/
theorem labels_checkDirectives (u : Uninit) (s : Asm) (line : Str)
    (s1 : Asm) (x : Int) (l1 : Str) (e : checkDirectives u s line = some (s1, x, l1)) :
    s1.labels = s.labels := by
  have same : ∀ {t : Asm} {y : Int} {l : Str}, some (t, y, l) = some (s1, x, l1) →
      t.labels = s.labels → s1.labels = s.labels := by
    intro t y l e1 ht
    simp only [Option.some.injEq, Prod.mk.injEq] at e1
    obtain ⟨rfl, -, -⟩ := e1
    exact ht
  have viaMap : ∀ (r : Option (Asm × Int)) (l : Str),
      Keeps (fun t => t.labels = s.labels) r →
      r.map (fun r => (r.1, r.2, l)) = some (s1, x, l1) → s1.labels = s.labels := by
    intro r l hk e1
    cases r with
    | none => cases e1
    | some y =>
      obtain ⟨t, z⟩ := y
      simp only [Option.map_some', Option.some.injEq, Prod.mk.injEq] at e1
      obtain ⟨rfl, -, -⟩ := e1
      exact hk t z rfl
  unfold checkDirectives at e
  repeat' first | split at e | dsimp only at e
  all_goals first
    | exact same e rfl
    | exact viaMap _ _ (labels_directiveText s _) e
    | exact viaMap _ _ (labels_directivePc u s _) e
    | exact viaMap _ _ (labels_directiveData s _ _) e

theorem labelsGet_labelsSet_other (m : List (Str × Nat)) (k key : Str) (v : Nat)
    (hne : key ≠ k) : labelsGet (labelsSet m k v) key = labelsGet m key := by
  have hk : (k == key) = false := by
    simp only [beq_eq_false_iff_ne, ne_eq]
    exact fun e => hne e.symm
  have hf : ∀ m : List (Str × Nat),
      (m.filter (fun e => !(e.1 == k))).find? (fun e => e.1 == key)
        = m.find? (fun e => e.1 == key) := by
    intro m
    induction m with
    | nil => rfl
    | cons e rest ih =>
      by_cases h1 : (e.1 == k) = true
      · have h2 : (e.1 == key) = false := by
          simp only [beq_iff_eq] at h1
          simp only [beq_eq_false_iff_ne, ne_eq]
          rw [h1]
          exact fun e => hne e.symm
        simp [List.filter_cons, h1, List.find?_cons, h2, ih]
      · have h1f : (e.1 == k) = false := by simpa using h1
        by_cases h2 : (e.1 == key) = true
        · simp [List.filter_cons, h1f, List.find?_cons, h2]
        · have h2f : (e.1 == key) = false := by simpa using h2
          simp [List.filter_cons, h1f, List.find?_cons, h2f, ih]
  unfold labelsGet labelsSet
  rw [List.find?_cons]
  simp only [hk]
  rw [hf]

/-- The source's `detectLabelDefinition` leaves a label that has an address
as it is. -/
theorem defined_detectLabelDefinition (s : Asm) (line key : Str)
    (hv : labelsGet s.labels key ≠ 0) :
    labelsGet (detectLabelDefinition s line).1.labels key = labelsGet s.labels key := by
  have hset : ∀ label : Str, ¬ (labelsGet s.labels label != 0) = true →
      labelsGet (labelsSet s.labels label s.actAddress) key = labelsGet s.labels key := by
    intro label hl
    apply labelsGet_labelsSet_other
    intro e
    subst e
    apply hl
    simpa using hv
  unfold detectLabelDefinition
  simp only
  repeat' first | split | dsimp only
  all_goals first
    | rfl
    | exact hset _ (by assumption)

/-- A line of the loop, whatever its outcome, leaves a label that has an
address as it is. -/
theorem defined_processLine (u : Uninit) (s t : Asm) (raw key : Str) (n : Nat) (x : Int)
    (hv : labelsGet s.labels key ≠ 0) (h : processLine u s raw n = some (t, x)) :
    labelsGet t.labels key = labelsGet s.labels key := by
  unfold processLine at h
  dsimp only at h
  generalize globalReplace remove_trailing_space (fun _ => [])
    (globalReplace remove_leading_space (fun g => capGet g 1) raw) = line0 at h
  cases hcd : checkDirectives u { s with lines := s.lines ++ [line0] } line0 with
  | none => simp [hcd] at h
  | some y =>
    obtain ⟨s1, d, l1⟩ := y
    simp only [hcd] at h
    have h1 : s1.labels = s.labels :=
      labels_checkDirectives u { s with lines := s.lines ++ [line0] } line0 s1 d l1 hcd
    have h2 := defined_detectLabelDefinition s1 l1 key (by rw [h1]; exact hv)
    cases hal : assembleLine u (detectLabelDefinition s1 l1).1 l1 n with
    | none => simp [hal] at h
    | some z =>
      obtain ⟨s3, a⟩ := z
      simp only [hal] at h
      have h3 : s3.labels = (detectLabelDefinition s1 l1).1.labels :=
        labels_assembleLine u _ l1 n s3 a hal
      have ht : t.labels = s3.labels := by
        split at h
        · cases h
          rfl
        · split at h
          · cases h
            rfl
          · cases h
            rfl
      rw [ht, h3, h2, h1]

theorem defined_assembleLoop (u : Nat → Uninit) (ls : List Str) (k : Nat) (s t : Asm) (key : Str)
    (x : Int) (hv : labelsGet s.labels key ≠ 0) (h : assembleLoop u ls k s = some (t, x)) :
    labelsGet t.labels key = labelsGet s.labels key := by
  induction ls generalizing k s with
  | nil =>
    simp only [assembleLoop, Option.some.injEq, Prod.mk.injEq] at h
    rw [← h.1]
  | cons raw ls ih =>
    simp only [assembleLoop] at h
    cases hp : processLine (u k) s raw k with
    | none => simp [hp] at h
    | some y =>
      obtain ⟨s1, r⟩ := y
      simp only [hp] at h
      have h1 := defined_processLine (u k) s s1 raw key k r hv hp
      split at h
      · rw [ih (k + 1) s1 (by rw [h1]; exact hv) h, h1]
      · simp only [Option.some.injEq, Prod.mk.injEq] at h
        rw [← h.1, h1]

/-- The definition of a label that has an address already: the line fails
with "Label already defined". -/
theorem processLine_defined_label (u : Uninit) (s : Asm) (raw name : Str) (n : Nat)
    (htrim : trimLine raw = name ++ [58]) (hname : isLabelName (upperStr name) = true)
    (hv : labelsGet s.labels (upperStr name) ≠ 0) :
    reportOf (processLine u s raw n)
      = some (-1, S "Label already defined: " ++ upperStr name, n, name ++ [58]) := by
  have hline0 : globalReplace remove_trailing_space (fun _ => [])
      (globalReplace remove_leading_space (fun g => capGet g 1) raw) = name ++ [58] := htrim
  unfold processLine
  simp only [hline0]
  rw [checkDirectives_label u _ name [58] hname]
  simp only
  rw [detectLabelDefinition_start _ name [] hname (by simp)]
  obtain ⟨l, ls, hu, hl, hls, -, -⟩ := labelName_shape name hname
  rw [hu] at hv ⊢
  have e2 := detectLabelDefCorrectness_name l ls (upperStr []) hl hls (by intro x hx; cases hx)
  have e1 := detectLabelDef_alone l ls hl hls
  have hcap1 : capGet [((1 : Nat), l :: ls)] 1 = l :: ls := by simp [capGet]
  have hun : upperStr [] = [] := rfl
  rw [hun] at e2 ⊢
  simp only [List.cons_append] at e1 e2 ⊢
  simp only [e1, e2, hcap1]
  have hne : (labelsGet s.labels (l :: ls) != 0) = true := by simpa using hv
  simp only [hne, ↓reduceIte]
  have hal := assembleLine_label_alone u
    (({ s with lines := s.lines ++ [name ++ [58]] } : Asm).setErrorString
      (S "Label already defined: " ++ l :: ls)) name n hname
  simp only [List.cons_append] at hal
  rw [hal]
  rfl

/-- C28 (amended). What a call of `assemble` takes over from the state `s`
that earlier calls on the same assembler left.  The error record is reset at
the start, so nothing of it is taken over.  The chunks are: the list that a
successful call returns starts with the chunks of `s`, with their start
addresses and lengths, and has at least one more.  The labels are: when a label
has an address in `s` and the lines `pre` pass, a line after them that defines
that label (`NAME:`) makes the call fail with "Label already defined: NAME",
citing that line. -/
theorem state_carries_over (u : Nat → Uninit) (s : Asm) (source : Str) :
    (∀ e : AssemblyError, assemble u { s with asmError := e } source = assemble u s source) ∧
    (∀ t, assemble u s source = some (t, 0) →
      ∃ new, new ≠ [] ∧
        t.chunks.map (fun c => (c.startAddress, c.length)) =
          s.chunks.map (fun c => (c.startAddress, c.length)) ++ new) ∧
    (∀ (pre post : List Str) (raw name : Str) (sp : Asm),
      getlines source = pre ++ raw :: post → trimLine raw = name ++ [58] →
      isLabelName (upperStr name) = true → labelsGet s.labels (upperStr name) ≠ 0 →
      assembleLoop u pre 1 { s with asmError :=
        { lineContent := [], errorString := [], errorStringVerbose := [],
          errorLineNumber := 0 } } = some (sp, 0) →
      reportOf (assemble u s source) =
        some (-1, S "Label already defined: " ++ upperStr name, 1 + pre.length,
          name ++ [58])) := by
  refine ⟨fun e => rfl, ?_, ?_⟩
  · intro t h
    unfold assemble at h
    dsimp only at h
    cases hl : assembleLoop u (getlines source) 1 { s with asmError :=
        { lineContent := [], errorString := [], errorStringVerbose := [],
          errorLineNumber := 0 } } with
    | none => simp [hl] at h
    | some y =>
      obtain ⟨s1, r⟩ := y
      simp only [hl] at h
      by_cases hr : r = 0
      · subst hr
        simp only [bne_self_eq_false, Bool.false_eq_true, ↓reduceIte] at h
        cases ha : s1.actChunk with
        | none => simp [ha] at h
        | some c =>
          simp only [ha] at h
          obtain ⟨hlay, -, -⟩ := resolveLoop_layout _ _ t 0 h
          obtain ⟨-, ⟨new, hnew⟩, -⟩ := assembleLoop_count u _ 1 _ s1 hl
          refine ⟨(new ++ [c.finalize]).map (fun c => (c.startAddress, c.length)), by simp, ?_⟩
          have h2 := congrArg (List.map (fun x : Nat × Nat × Nat => (x.1, x.2.1))) hlay
          simp only [List.map_map] at h2
          have e : ((fun x : Nat × Nat × Nat => (x.1, x.2.1)) ∘
              fun c : MemChunk => (c.startAddress, c.length, c.bufferSize)) =
              fun c : MemChunk => (c.startAddress, c.length) := rfl
          rw [e] at h2
          rw [h2]
          show List.map _ (s1.chunks ++ [c.finalize]) = _
          rw [hnew]
          simp only [List.map_append, List.append_assoc]
      · have hb : (r != 0) = true := by simpa using hr
        simp only [hb, ↓reduceIte, Option.some.injEq, Prod.mk.injEq] at h
        exact absurd h.2 hr
  · intro pre post raw name sp hsrc htrim hname hv hpre
    have hsp : labelsGet sp.labels (upperStr name) ≠ 0 := by
      rw [defined_assembleLoop u pre 1 { s with asmError :=
        { lineContent := [], errorString := [], errorStringVerbose := [],
          errorLineNumber := 0 } } sp _ 0 hv hpre]
      exact hv
    have hr := processLine_defined_label (u (1 + pre.length)) sp raw name (1 + pre.length)
      htrim hname hsp
    unfold assemble
    dsimp only
    rw [hsrc, assembleLoop_append u pre (raw :: post) 1 _ sp hpre]
    simp only [assembleLoop]
    cases hp : processLine (u (1 + pre.length)) sp raw (1 + pre.length) with
    | none =>
      rw [hp] at hr
      cases hr
    | some y =>
      obtain ⟨st, r⟩ := y
      rw [hp] at hr
      simp only [reportOf, Option.map_some', Option.some.injEq, Prod.mk.injEq] at hr
      obtain ⟨rfl, h1, h2, h3⟩ := hr
      have hb : ((-1 : Int) == 0) = false := by decide
      have hb2 : ((-1 : Int) != 0) = true := by decide
      simp only [hb, hb2, Bool.false_eq_true, ↓reduceIte, reportOf, Option.map_some', h1, h2, h3]

/-- An instance of `state_carries_over`: after the call for `.pc = $1000`,
`L: NOP`, a call for `.pc = $2000`, `L:` fails on its second line, and a call
for `.pc = $2000`, `NOP` returns the chunk of the first call, the same chunk
pushed a second time, and its own. -/
theorem state_carries_over_witness :
    assemble (fun _ => quiet) Asm.init (S ".pc = $1000\nL: NOP") = some (afterLabelRun, 0) ∧
    reportOf (assemble (fun _ => quiet) afterLabelRun (S ".pc = $2000\nL:"))
      = some (-1, S "Label already defined: L", 2, S "L:") ∧
    assemble (fun _ => quiet) afterLabelRun (S ".pc = $2000\nNOP") = some (afterSecondRun, 0) ∧
    ∃ new, new ≠ [] ∧
      afterSecondRun.chunks.map (fun c => (c.startAddress, c.length)) =
        afterLabelRun.chunks.map (fun c => (c.startAddress, c.length)) ++ new :=
  ⟨by decide,
   (state_carries_over (fun _ => quiet) afterLabelRun (S ".pc = $2000\nL:")).2.2
     [S ".pc = $2000"] [] (S "L:") (S "L") afterSecondPc
     (by decide) (by decide) (by decide) (by decide) (by decide),
   by decide,
   (state_carries_over (fun _ => quiet) afterLabelRun (S ".pc = $2000\nNOP")).2.1
     afterSecondRun (by decide)⟩

/-! ## The second pass, cell by cell -/

theorem bytes_set_ne (c : MemChunk) (buf : List Nat) (i v q : Nat) (hd : c.data = some buf)
    (hne : q ≠ i) :
    ({ c with data := some (bufWrite buf i v) } : MemChunk).bytes.get? q = c.bytes.get? q := by
  unfold MemChunk.bytes bufWrite
  simp only [hd, Option.getD_some, List.get?_eq_getElem?, List.getElem?_take]
  split
  · rw [List.getElem?_set_ne (Ne.symm hne)]
  · rfl

theorem bytes_set_eq (c : MemChunk) (buf : List Nat) (i v : Nat)
    (hi : i < buf.length) (hl : i < c.length) :
    ({ c with data := some (bufWrite buf i v) } : MemChunk).bytes.get? i = some v := by
  unfold MemChunk.bytes bufWrite
  simp only [Option.getD_some, List.get?_eq_getElem?, List.getElem?_take, hl, ↓reduceIte]
  rw [List.getElem?_set_self hi]

/-- The rewrite for one recorded reference changes no cell but its own. -/
theorem patchChunk_cell (c c1 : MemChunk) (a : UnresolvedAddress) (r : Nat)
    (h : patchChunk c a r = some c1) :
    c1.startAddress = c.startAddress ∧ c1.length = c.length ∧
    ∀ q, q ∉ a.cells c.startAddress → c1.bytes.get? q = c.bytes.get? q := by
  have hbyte : ∀ v, c.rewriteByteAtAddress v a.address = some c1 →
      c1.startAddress = c.startAddress ∧ c1.length = c.length ∧
      ∀ q, q ≠ (a.address + 65536 - c.startAddress % 65536) % 65536 →
        c1.bytes.get? q = c.bytes.get? q := by
    intro v hv
    unfold MemChunk.rewriteByteAtAddress at hv
    cases hd : c.data with
    | none => simp [hd] at hv
    | some buf =>
      simp only [hd] at hv
      split at hv
      · simp only [Option.some.injEq] at hv
        subst hv
        refine ⟨rfl, rfl, ?_⟩
        intro q hq
        exact bytes_set_ne c buf _ v q hd hq
      · cases hv
  unfold patchChunk at h
  unfold UnresolvedAddress.cells
  by_cases h1 : a.isOneByteAddr = true
  · simp only [h1, ↓reduceIte] at h
    simp only [h1, Bool.true_or, ↓reduceIte, List.mem_singleton]
    split at h
    · exact hbyte _ h
    · exact hbyte _ h
  · have h1f : a.isOneByteAddr = false := by simpa using h1
    simp only [h1f, Bool.false_eq_true, ↓reduceIte] at h
    by_cases h2 : a.isBranch = true
    · simp only [h2, ↓reduceIte] at h
      simp only [h1f, h2, Bool.or_true, ↓reduceIte, List.mem_singleton]
      exact hbyte _ h
    · have h2f : a.isBranch = false := by simpa using h2
      simp only [h2f, Bool.false_eq_true, ↓reduceIte] at h
      simp only [h1f, h2f, Bool.or_self, Bool.false_eq_true, ↓reduceIte, List.mem_cons,
        List.mem_singleton, List.not_mem_nil, or_false, not_or]
      unfold MemChunk.rewriteWordAtAddress at h
      cases hd : c.data with
      | none => simp [hd] at h
      | some buf =>
        simp only [hd] at h
        split at h
        · simp only [Option.some.injEq] at h
          subst h
          refine ⟨rfl, rfl, ?_⟩
          intro q hq
          have e1 := bytes_set_ne
            ({ c with data := some (bufWrite buf
              ((a.address + 65536 - c.startAddress % 65536) % 65536) (r % 256)) } : MemChunk)
            (bufWrite buf ((a.address + 65536 - c.startAddress % 65536) % 65536) (r % 256))
            ((a.address + 65536 - c.startAddress % 65536) % 65536 + 1) (r / 256 % 256) q rfl hq.2
          have e2 := bytes_set_ne c buf
            ((a.address + 65536 - c.startAddress % 65536) % 65536) (r % 256) q hd hq.1
          exact e1.trans e2
        · cases h

/-- The fix-ups of one label and one cell of a chunk: the cell keeps its
value when no reference of the label points to it, and holds `v` when one
does and every one that does writes `v`. -/
theorem patchAll_cell (r : Nat) (l : List UnresolvedAddress) (j q v : Nat) :
    ∀ (chunks chunks1 : List MemChunk) (cj : MemChunk),
    patchAll r l chunks = some chunks1 → chunks.get? j = some cj →
    (∀ x ∈ l, x.memChunk = j → q ∈ x.cells cj.startAddress → Writes x r cj.startAddress q v) →
    ∃ cj1, chunks1.get? j = some cj1 ∧ cj1.startAddress = cj.startAddress ∧
      cj1.length = cj.length ∧
      (q < cj.length → (∃ x ∈ l, x.memChunk = j ∧ q ∈ x.cells cj.startAddress) →
        cj1.bytes.get? q = some v) ∧
      ((∀ x ∈ l, x.memChunk = j → q ∉ x.cells cj.startAddress) →
        cj1.bytes.get? q = cj.bytes.get? q) ∧
      (q < cj.length → cj.bytes.get? q = some v → cj1.bytes.get? q = some v) := by
  induction l with
  | nil =>
    intro chunks chunks1 cj h hj hw
    simp only [patchAll, Option.some.injEq] at h
    subst h
    refine ⟨cj, hj, rfl, rfl, ?_, fun _ => rfl, fun _ e => e⟩
    rintro - ⟨x, hx, -⟩
    cases hx
  | cons a rest ih =>
    intro chunks chunks1 cj h hj hw
    unfold patchAll at h
    cases hg : chunks.get? a.memChunk with
    | none =>
      rw [hg] at h
      cases h
    | some c =>
      rw [hg] at h
      dsimp only at h
      cases hp : patchChunk c a r with
      | none =>
        rw [hp] at h
        cases h
      | some c1 =>
        rw [hp] at h
        dsimp only at h
        have hwr : ∀ st, st = cj.startAddress → ∀ x ∈ rest, x.memChunk = j →
            q ∈ x.cells st → Writes x r st q v := by
          intro st e x hx hm hc
          subst e
          exact hw x (List.mem_cons_of_mem _ hx) hm hc
        by_cases hm : a.memChunk = j
        · rw [hm] at hg h
          rw [hj] at hg
          cases hg
          obtain ⟨f1, f2, f3⟩ := patchChunk_cell cj c1 a r hp
          have hlt : j < chunks.length := by
            rw [List.get?_eq_getElem?] at hj
            exact (List.getElem?_eq_some_iff.mp hj).1
          have hj1 : (chunks.set j c1).get? j = some c1 := by
            rw [List.get?_eq_getElem?, List.getElem?_set_self hlt]
          obtain ⟨cj1, g1, g2, g3, g4, g5, g6⟩ := ih (chunks.set j c1) chunks1 c1 h hj1
            (hwr c1.startAddress f1)
          have hself : q < cj.length → q ∈ a.cells cj.startAddress → c1.bytes.get? q = some v :=
            fun hq hc => hw a (List.mem_cons_self _ _) hm hc cj c1 rfl hq hp
          refine ⟨cj1, g1, g2.trans f1, g3.trans f2, ?_, ?_, ?_⟩
          · rintro hq ⟨x, hx, hxm, hxc⟩
            have hq1 : q < c1.length := by rw [f2]; exact hq
            by_cases hr : ∃ y ∈ rest, y.memChunk = j ∧ q ∈ y.cells c1.startAddress
            · exact g4 hq1 hr
            · rcases List.mem_cons.mp hx with e | hx1
              · subst e
                exact g6 hq1 (hself hq hxc)
              · exact absurd ⟨x, hx1, hxm, by rw [f1]; exact hxc⟩ hr
          · intro hno
            rw [g5 (fun x hx hxm => by rw [f1]; exact hno x (List.mem_cons_of_mem _ hx) hxm)]
            exact f3 q (hno a (List.mem_cons_self _ _) hm)
          · intro hq hv
            have hq1 : q < c1.length := by rw [f2]; exact hq
            apply g6 hq1
            by_cases hc : q ∈ a.cells cj.startAddress
            · exact hself hq hc
            · rw [f3 q hc]
              exact hv
        · have hj1 : (chunks.set a.memChunk c1).get? j = some cj := by
            rw [List.get?_eq_getElem?, List.getElem?_set_ne hm, ← List.get?_eq_getElem?]
            exact hj
          obtain ⟨cj1, g1, g2, g3, g4, g5, g6⟩ := ih (chunks.set a.memChunk c1) chunks1 cj h hj1
            (hwr cj.startAddress rfl)
          refine ⟨cj1, g1, g2, g3, ?_, ?_, g6⟩
          · rintro hq ⟨x, hx, hxm, hxc⟩
            rcases List.mem_cons.mp hx with e | hx1
            · subst e
              exact absurd hxm hm
            · exact g4 hq ⟨x, hx1, hxm, hxc⟩
          · intro hno
            exact g5 (fun x hx hxm => hno x (List.mem_cons_of_mem _ hx) hxm)

/-- The second pass, when it succeeds, and one cell of a chunk: the cell
keeps its value when no recorded reference points to it, and holds `v` when
one does and every one that does writes `v`; the labels stay as they are. -/
theorem resolveLoop_cell (j q v : Nat) (l : List (Str × UnresolvedLabel)) :
    ∀ (s t : Asm) (cj : MemChunk),
    resolveLoop l s = some (t, 0) → s.chunks.get? j = some cj →
    (∀ e ∈ l, ∀ x ∈ e.2.addresses, x.memChunk = j → q ∈ x.cells cj.startAddress →
      Writes x (labelsGet s.labels e.1) cj.startAddress q v) →
    ∃ cj1, t.chunks.get? j = some cj1 ∧ cj1.startAddress = cj.startAddress ∧
      cj1.length = cj.length ∧
      (q < cj.length →
        (∃ e ∈ l, ∃ x ∈ e.2.addresses, x.memChunk = j ∧ q ∈ x.cells cj.startAddress) →
        cj1.bytes.get? q = some v) ∧
      ((∀ e ∈ l, ∀ x ∈ e.2.addresses, x.memChunk = j → q ∉ x.cells cj.startAddress) →
        cj1.bytes.get? q = cj.bytes.get? q) ∧
      (q < cj.length → cj.bytes.get? q = some v → cj1.bytes.get? q = some v) ∧
      t.labels = s.labels := by
  induction l with
  | nil =>
    intro s t cj h hj hw
    simp only [resolveLoop, Option.some.injEq, Prod.mk.injEq, and_true] at h
    subst h
    refine ⟨cj, hj, rfl, rfl, ?_, fun _ => rfl, fun _ e => e, rfl⟩
    rintro - ⟨e, he, -⟩
    cases he
  | cons e0 rest ih =>
    intro s t cj h hj hw
    obtain ⟨name, ul⟩ := e0
    simp only [resolveLoop] at h
    cases hp : patchAll (labelsGet s.labels name) ul.addresses s.chunks with
    | none => simp [hp] at h
    | some chunks1 =>
      simp only [hp] at h
      split at h
      · simp only [Option.some.injEq, Prod.mk.injEq] at h
        exact absurd h.2 (by decide)
      · obtain ⟨c1, f1, f2, f3, f4, f5, f6⟩ := patchAll_cell (labelsGet s.labels name)
          ul.addresses j q v s.chunks chunks1 cj hp hj
          (fun x hx hm hc => hw (name, ul) (List.mem_cons_self _ _) x hx hm hc)
        obtain ⟨cj1, g1, g2, g3, g4, g5, g6, g7⟩ := ih { s with chunks := chunks1 } t c1 h f1
          (fun e he x hx hm hc => by
            rw [f2] at hc ⊢
            exact hw e (List.mem_cons_of_mem _ he) x hx hm hc)
        refine ⟨cj1, g1, g2.trans f2, g3.trans f3, ?_, ?_, ?_, g7⟩
        · rintro hq ⟨e, he, x, hx, hxm, hxc⟩
          have hq1 : q < c1.length := by rw [f3]; exact hq
          by_cases hr : ∃ e ∈ rest, ∃ x ∈ e.2.addresses,
              x.memChunk = j ∧ q ∈ x.cells c1.startAddress
          · exact g4 hq1 hr
          · rcases List.mem_cons.mp he with e1 | he1
            · subst e1
              exact g6 hq1 (f4 hq ⟨x, hx, hxm, hxc⟩)
            · exact absurd ⟨e, he1, x, hx, hxm, by rw [f2]; exact hxc⟩ hr
        · intro hno
          rw [g5 (fun e he x hx hxm => by
            rw [f2]
            exact hno e (List.mem_cons_of_mem _ he) x hx hxm)]
          exact f5 (fun x hx hxm => hno (name, ul) (List.mem_cons_self _ _) x hx hxm)
        · intro hq hv
          have hq1 : q < c1.length := by rw [f3]; exact hq
          exact g6 hq1 (f6 hq hv)

/-- The fix-up of a branch writes the offset into the cell after the
opcode. -/
theorem writes_branch (p i r start : Nat) (hp : p < 0xFFFF) :
    Writes (branchFixup p i) r start ((p + 1 + 65536 - start % 65536) % 65536)
      (((r : Int) - ((p : Int) + 2)) % 256).toNat := by
  intro c c1 hs hq h
  have hm : (p + 1) % 65536 = p + 1 := Nat.mod_eq_of_lt (by omega)
  have hv : ((r : Int) - ((p + 1 : Nat) : Int) - 1) = (r : Int) - ((p : Int) + 2) := by
    push_cast
    ring
  simp only [patchChunk, branchFixup, Bool.false_eq_true, ↓reduceIte, hm, hv,
    MemChunk.rewriteByteAtAddress, hs] at h
  cases hd : c.data with
  | none => simp [hd] at h
  | some buf =>
    simp only [hd] at h
    split at h
    · rename_i hlt
      simp only [Option.some.injEq] at h
      subst h
      exact bytes_set_eq c buf _ _ hlt hq
    · cases h

/-- The fix-up of a 16-bit operand writes the low byte of the address into
the cell after the opcode and the high byte into the next one. -/
theorem writes_word (p i r start : Nat) (hp : p < 0xFFFF) :
    Writes (addressFixup p i) r start ((p + 1 + 65536 - start % 65536) % 65536) (r % 256) ∧
    Writes (addressFixup p i) r start ((p + 1 + 65536 - start % 65536) % 65536 + 1)
      (r / 256 % 256) := by
  have hm : (p + 1) % 65536 = p + 1 := Nat.mod_eq_of_lt (by omega)
  refine ⟨?_, ?_⟩
  · intro c c1 hs hq h
    simp only [patchChunk, addressFixup, Bool.false_eq_true, ↓reduceIte, hm,
      MemChunk.rewriteWordAtAddress, hs] at h
    cases hd : c.data with
    | none => simp [hd] at h
    | some buf =>
      simp only [hd] at h
      split at h
      · rename_i hlt
        simp only [Option.some.injEq] at h
        subst h
        have e1 := bytes_set_ne
          ({ c with data := some (bufWrite buf
            ((p + 1 + 65536 - start % 65536) % 65536) (r % 256)) } : MemChunk)
          (bufWrite buf ((p + 1 + 65536 - start % 65536) % 65536) (r % 256))
          ((p + 1 + 65536 - start % 65536) % 65536 + 1) (r / 256 % 256)
          ((p + 1 + 65536 - start % 65536) % 65536) rfl (by omega)
        exact e1.trans (bytes_set_eq c buf _ _ (by omega) hq)
      · cases h
  · intro c c1 hs hq h
    simp only [patchChunk, addressFixup, Bool.false_eq_true, ↓reduceIte, hm,
      MemChunk.rewriteWordAtAddress, hs] at h
    cases hd : c.data with
    | none => simp [hd] at h
    | some buf =>
      simp only [hd] at h
      split at h
      · rename_i hlt
        simp only [Option.some.injEq] at h
        subst h
        exact bytes_set_eq
          ({ c with data := some (bufWrite buf
            ((p + 1 + 65536 - start % 65536) % 65536) (r % 256)) } : MemChunk)
          (bufWrite buf ((p + 1 + 65536 - start % 65536) % 65536) (r % 256)) _ _
          (by rw [bufWrite, List.length_set]; exact hlt) hq
      · cases h

/-! ## A reference to a label in a run: the first pass -/

/-- A line that starts with three letters and is no label definition: the
loop does not return when `assembleLine` does not, and the line passes when
`assembleLine` returns 0 on it. -/
theorem processLine_mnemonic_ok (u : Uninit) (s : Asm) (raw : Str) (k : Nat)
    (hline : isMnemonicLine (trimLine raw)) :
    (assembleLine u { s with lines := s.lines ++ [trimLine raw] } (trimLine raw) k = none →
      processLine u s raw k = none) ∧
    ∀ t, assembleLine u { s with lines := s.lines ++ [trimLine raw] } (trimLine raw) k
        = some (t, 0) → processLine u s raw k = some (t, 0) := by
  obtain ⟨a, b, c, rest, ha, hb, hc, e, h10, hcol⟩ := hline
  have hline0 : globalReplace remove_trailing_space (fun _ => [])
      (globalReplace remove_leading_space (fun g => capGet g 1) raw) = a :: b :: c :: rest := e
  rw [e] at hcol ⊢
  have h10l : 10 ∉ a :: b :: c :: rest := by
    simp only [List.mem_cons, not_or]
    exact ⟨fun x => (isAlpha_facts ha).2.2.1 x.symm, fun x => (isAlpha_facts hb).2.2.1 x.symm,
      fun x => (isAlpha_facts hc).2.2.1 x.symm, h10⟩
  have hcd : ∀ t : Asm, checkDirectives u t (a :: b :: c :: rest)
      = some (t, 1, a :: b :: c :: rest) := by
    intro t
    unfold checkDirectives
    rw [searchDirective_head a _ (isAlpha_facts ha).1 (isAlpha_facts ha).2.1]
  refine ⟨?_, ?_⟩
  · intro hal
    unfold processLine
    simp only [hline0]
    rw [hcd]
    simp only
    rcases detectLabelDefinition_unchanged
        { s with lines := s.lines ++ [a :: b :: c :: rest] } (a :: b :: c :: rest) h10l hcol
      with hd | hd
    all_goals
      rw [hd]
      simp only
      rw [hal]
  · intro t hal
    unfold processLine
    simp only [hline0]
    rw [hcd]
    simp only
    rcases detectLabelDefinition_unchanged
        { s with lines := s.lines ++ [a :: b :: c :: rest] } (a :: b :: c :: rest) h10l hcol
      with hd | hd
    all_goals
      rw [hd]
      simp only
      rw [hal]
      rfl

theorem mem_unresolvedAdd_self (key : Str) (a : UnresolvedAddress) (line : Nat)
    (m : List (Str × UnresolvedLabel)) :
    ∃ e ∈ unresolvedAdd key a line m, e.1 = key ∧ a ∈ e.2.addresses := by
  induction m with
  | nil => exact ⟨_, List.mem_singleton.mpr rfl, rfl, List.mem_singleton.mpr rfl⟩
  | cons e rest ih =>
    obtain ⟨k, l⟩ := e
    unfold unresolvedAdd
    split
    · rename_i hk
      exact ⟨_, List.mem_cons_self _ _, by simpa using hk, by simp⟩
    · split
      · exact ⟨_, List.mem_cons_self _ _, rfl, List.mem_singleton.mpr rfl⟩
      · obtain ⟨e, he, h1, h2⟩ := ih
        exact ⟨e, List.mem_cons_of_mem _ he, h1, h2⟩

theorem mem_unresolvedAdd_mono (key : Str) (a : UnresolvedAddress) (line : Nat)
    (m : List (Str × UnresolvedLabel)) (e0 : Str × UnresolvedLabel) (he0 : e0 ∈ m)
    (b : UnresolvedAddress) (hb : b ∈ e0.2.addresses) :
    ∃ e ∈ unresolvedAdd key a line m, e.1 = e0.1 ∧ b ∈ e.2.addresses := by
  induction m with
  | nil => cases he0
  | cons e rest ih =>
    obtain ⟨k, l⟩ := e
    unfold unresolvedAdd
    split
    · rcases List.mem_cons.mp he0 with h | h
      · subst h
        exact ⟨_, List.mem_cons_self _ _, rfl, List.mem_append_left _ hb⟩
      · exact ⟨e0, List.mem_cons_of_mem _ h, rfl, hb⟩
    · split
      · exact ⟨e0, List.mem_cons_of_mem _ he0, rfl, hb⟩
      · rcases List.mem_cons.mp he0 with h | h
        · subst h
          exact ⟨_, List.mem_cons_self _ _, rfl, hb⟩
        · obtain ⟨e, he, h1, h2⟩ := ih h
          exact ⟨e, List.mem_cons_of_mem _ he, h1, h2⟩

/-- A recorded reference stays recorded, under its label, in the lines that
pass after it. -/
theorem recorded_assembleLoop (u : Nat → Uninit) (ls : List Str) (k : Nat) (s t : Asm)
    (key : Str) (b : UnresolvedAddress) (h : assembleLoop u ls k s = some (t, 0))
    (hb : ∃ e ∈ s.unresolvedLabels, e.1 = key ∧ b ∈ e.2.addresses) :
    ∃ e ∈ t.unresolvedLabels, e.1 = key ∧ b ∈ e.2.addresses := by
  induction ls generalizing k s with
  | nil =>
    simp only [assembleLoop, Option.some.injEq, Prod.mk.injEq, and_true] at h
    subst h
    exact hb
  | cons raw ls ih =>
    obtain ⟨s1, hp, hr⟩ := assembleLoop_cons_ok u raw ls k s t h
    apply ih (k + 1) s1 hr
    obtain ⟨-, hstep⟩ := processLine_step (u k) s raw k s1 hp
    rcases hstep with h1 | ⟨key1, a1, h1, -⟩
    · rw [h1]
      exact hb
    · obtain ⟨e0, he0, hk0, hb0⟩ := hb
      obtain ⟨e, he, h2, h3⟩ := mem_unresolvedAdd_mono key1 a1 k s.unresolvedLabels e0 he0 b hb0
      rw [h1]
      exact ⟨e, he, h2.trans hk0, h3⟩

theorem split_at_pc (post : List Str) :
    ∃ seg post2, post = seg ++ post2 ∧ pcCount seg = 0 ∧
      ∀ r, post2.head? = some r → isPcLine r = true := by
  induction post with
  | nil => exact ⟨[], [], rfl, rfl, fun r h => by cases h⟩
  | cons x rest ih =>
    by_cases hx : isPcLine x = true
    · refine ⟨[], x :: rest, rfl, rfl, ?_⟩
      intro r h
      simp only [List.head?_cons, Option.some.injEq] at h
      rw [← h]
      exact hx
    · obtain ⟨seg, post2, e, h0, hh⟩ := ih
      refine ⟨x :: seg, post2, by rw [e]; rfl, ?_, hh⟩
      rw [pcCount_cons]
      simp [hx, h0]

/-- The first pass on a line that records a reference and appends a
placeholder, in a run that passes: the chunk of the line, as the first pass
leaves it, holds the bytes before the line, the placeholder and the bytes of
the lines after it, and the reference is in the table at the end. -/
theorem reference_first_pass (u : Nat → Uninit) (pre post : List Str) (raw line key : Str)
    (fx : UnresolvedAddress) (ph : List Nat) (s s1 : Asm) (c c1 : MemChunk) (a : Nat)
    (bs : List Nat) (htrim : trimLine raw = line) (hmn : isMnemonicLine line)
    (hpre : firstPass u pre = some (s, 0)) (hh : c.Holds a bs)
    (hal : assembleLine (u (1 + pre.length)) { s with lines := s.lines ++ [line] } line
        (1 + pre.length) =
      ({ s with lines := s.lines ++ [line],
                unresolvedLabels := unresolvedAdd key fx (1 + pre.length) s.unresolvedLabels }
        : Asm).emit c ph ph.length)
    (hfirst : firstPass u (pre ++ raw :: post) = some (s1, 0)) (hc1 : s1.actChunk = some c1) :
    bs.length + ph.length ≤ 512 ∧
    (∃ e ∈ s1.unresolvedLabels, e.1 = key ∧ fx ∈ e.2.addresses) ∧
    ∃ cfp more, (s1.chunks ++ [c1.finalize]).get? s.chunks.length = some cfp ∧
      cfp.startAddress = a ∧ cfp.length = bs.length + ph.length + more.length ∧
      cfp.bytes = bs ++ ph ++ more := by
  subst htrim
  obtain ⟨sp, sq, h1, -, h3, h4⟩ := firstPass_line u pre raw post s1 hfirst
  rw [hpre] at h1
  simp only [Option.some.injEq, Prod.mk.injEq, and_true] at h1
  subst h1
  obtain ⟨hnone, hsome⟩ := processLine_mnemonic_ok (u (1 + pre.length)) s raw (1 + pre.length) hmn
  obtain ⟨hsz, hst, hlen, hby, hle⟩ := holds_facts c a bs hh
  have hadd : ∃ c2, c.addBytes ph = some c2 := by
    cases hx : c.addBytes ph with
    | some c2 => exact ⟨c2, rfl⟩
    | none =>
      have : processLine (u (1 + pre.length)) s raw (1 + pre.length) = none := by
        apply hnone
        rw [hal]
        simp [Asm.emit, hx]
      rw [this] at h3
      cases h3
  obtain ⟨c2, hc2⟩ := hadd
  have hroom : bs.length + ph.length ≤ 512 := by
    rcases (addBytes_some ph c c2 hsz hc2).1 with e | e
    · subst e
      simpa using hle
    · omega
  obtain ⟨c3, he3, hh3, -, -, -⟩ := emit_holds
    ({ s with lines := s.lines ++ [trimLine raw],
               unresolvedLabels := unresolvedAdd key fx (1 + pre.length) s.unresolvedLabels }
      : Asm) c a bs ph ph.length hh hroom
  have hq := hsome _ (hal.trans he3)
  rw [hq] at h3
  simp only [Option.some.injEq, Prod.mk.injEq, and_true] at h3
  subst h3
  refine ⟨hroom, ?_, ?_⟩
  · exact recorded_assembleLoop u post _ _ s1 key fx h4 (mem_unresolvedAdd_self key fx _ _)
  · obtain ⟨seg, post2, e, hseg, hhead⟩ := split_at_pc post
    subst e
    obtain ⟨sg, g1, g2⟩ := assembleLoop_prefix u seg post2 _ _ s1 h4
    obtain ⟨g3, more, g4⟩ := assembleLoop_segment u seg _ _ sg g1 hseg
    simp only [Option.some_bind] at g4
    obtain ⟨-, -, g5⟩ := assembleLoop_count u seg _ _ sg g1
    have g6 := g5 (Or.inr rfl)
    cases hcg : c3.addBytes more with
    | none =>
      rw [g4, hcg] at g6
      cases g6
    | some cg =>
      rw [hcg] at g4
      have hhg : cg.Holds a (bs ++ ph ++ more) := by
        unfold MemChunk.Holds at hh3 ⊢
        rw [addBytes_append, hh3]
        exact hcg
      obtain ⟨-, k1, k2, k3, -⟩ := holds_facts cg a _ hhg
      have hseg2 := segment_chunk u post2 _ sg s1 cg c1 g2 g4 hc1 hhead
      refine ⟨cg.finalize, more, ?_, ?_, ?_, ?_⟩
      · rw [List.get?_eq_getElem?, ← hseg2, g3]
      · rw [(finalize_layout cg).1, k1]
      · rw [(finalize_layout cg).2, k2]
        simp only [List.length_append]
      · rw [finalize_bytes, k3]

/-! ## A reference to a label in a run: the second pass -/

theorem resolveLoop_labels (l : List (Str × UnresolvedLabel)) :
    ∀ (s t : Asm) (x : Int), resolveLoop l s = some (t, x) → t.labels = s.labels := by
  induction l with
  | nil =>
    intro s t x h
    simp only [resolveLoop, Option.some.injEq, Prod.mk.injEq] at h
    rw [← h.1]
  | cons e0 rest ih =>
    intro s t x h
    obtain ⟨name, ul⟩ := e0
    simp only [resolveLoop] at h
    cases hp : patchAll (labelsGet s.labels name) ul.addresses s.chunks with
    | none => simp [hp] at h
    | some chunks1 =>
      simp only [hp] at h
      split at h
      · simp only [Option.some.injEq, Prod.mk.injEq] at h
        rw [← h.1]
      · exact ih { s with chunks := chunks1 } t x h

/-- The second pass, when it succeeds, changes no start address, no length,
and no byte but those that a recorded reference points to. -/
theorem resolveLoop_frame (l : List (Str × UnresolvedLabel)) (s t : Asm) (j : Nat)
    (cj : MemChunk) (h : resolveLoop l s = some (t, 0)) (hj : s.chunks.get? j = some cj) :
    ∃ cj1, t.chunks.get? j = some cj1 ∧ cj1.startAddress = cj.startAddress ∧
      cj1.length = cj.length ∧
      ∀ q, (∀ e ∈ l, ∀ x ∈ e.2.addresses, x.memChunk = j → q ∉ x.cells cj.startAddress) →
        cj1.bytes.get? q = cj.bytes.get? q := by
  obtain ⟨hl, -, -⟩ := resolveLoop_layout l s t 0 h
  obtain ⟨cj1, h1, h2, h3, -⟩ := layout_getElem t.chunks s.chunks j cj hl
    (by rw [← List.get?_eq_getElem?]; exact hj)
  rw [← List.get?_eq_getElem?] at h1
  refine ⟨cj1, h1, h2, h3, ?_⟩
  intro q hno
  obtain ⟨cj2, g1, -, -, -, g5, -, -⟩ := resolveLoop_cell j q 0 l s t cj h hj
    (fun e he x hx hm hc => absurd hc (hno e he x hx hm))
  rw [h1] at g1
  cases g1
  exact g5 hno

/-- The second pass, when it succeeds, leaves `v` in a cell to which a
recorded reference points when every reference that points to it writes `v`. -/
theorem resolveLoop_hit (l : List (Str × UnresolvedLabel)) (s t : Asm) (j q v : Nat)
    (cj : MemChunk) (h : resolveLoop l s = some (t, 0)) (hj : s.chunks.get? j = some cj)
    (hq : q < cj.length)
    (hw : ∀ e ∈ l, ∀ x ∈ e.2.addresses, x.memChunk = j → q ∈ x.cells cj.startAddress →
      Writes x (labelsGet s.labels e.1) cj.startAddress q v)
    (hex : ∃ e ∈ l, ∃ x ∈ e.2.addresses, x.memChunk = j ∧ q ∈ x.cells cj.startAddress) :
    ∃ cj1, t.chunks.get? j = some cj1 ∧ cj1.bytes.get? q = some v := by
  obtain ⟨cj1, g1, -, -, g4, -, -, -⟩ := resolveLoop_cell j q v l s t cj h hj hw
  exact ⟨cj1, g1, g4 hq hex⟩

/-- A successful run of `assemble` on a fresh assembler, with the labels and
the table of the references that the first pass left. -/
theorem assemble_second_pass (u : Nat → Uninit) (source : Str) (t : Asm)
    (h : assemble u Asm.init source = some (t, 0)) :
    ∃ s1 c1, firstPass u (getlines source) = some (s1, 0) ∧ s1.actChunk = some c1 ∧
      t.labels = s1.labels ∧ t.unresolvedLabels = s1.unresolvedLabels ∧
      resolveLoop s1.unresolvedLabels
        { s1 with actChunk := some c1.finalize, chunks := s1.chunks ++ [c1.finalize] } =
        some (t, 0) := by
  obtain ⟨s1, c1, h1, h2, h3⟩ := assemble_ok u source t h
  obtain ⟨-, h4, -⟩ := resolveLoop_layout _ _ t 0 h3
  exact ⟨s1, c1, h1, h2, resolveLoop_labels _
    { s1 with actChunk := some c1.finalize, chunks := s1.chunks ++ [c1.finalize] } t 0 h3, h4, h3⟩

/-- A mnemonic of the table, a blank and an operand without a colon and
without a line feed make a line that starts with three letters and is no label
definition. -/
theorem isMnemonicLine_opcode (o : Opcode) (ho : o ∈ opcodeTable) (operand : Str)
    (h10 : 10 ∉ operand) (h58 : 58 ∉ operand) : isMnemonicLine (o.name ++ 32 :: operand) := by
  obtain ⟨x, y, z, hn, hx, hy, hz⟩ := opcodeTable_letters o ho
  refine ⟨x, y, z, 32 :: operand, (isUpper_facts hx).2.1, (isUpper_facts hy).2.1,
    (isUpper_facts hz).2.1, by rw [hn]; rfl, ?_, ?_⟩
  · simp only [List.mem_cons, not_or]
    exact ⟨by decide, h10⟩
  · intro p q e
    exfalso
    have hm : (58 : Nat) ∈ o.name ++ 32 :: operand := by
      rw [e]
      simp
    rw [hn] at hm
    simp only [List.cons_append, List.nil_append, List.mem_cons] at hm
    rcases hm with h | h | h | h | h
    · exact (isUpper_facts hx).2.2.2.2.2.2.2.2.1 h.symm
    · exact (isUpper_facts hy).2.2.2.2.2.2.2.2.1 h.symm
    · exact (isUpper_facts hz).2.2.2.2.2.2.2.2.1 h.symm
    · exact absurd h (by decide)
    · exact h58 h

/-- A line that records a reference and appends a placeholder, in a run that
succeeds: the chunk of the line in the returned list holds, in every cell that
no recorded reference points to, the byte that the first pass left, and in a
cell that this reference alone points to the value that its rewrite writes;
the second pass changes no other start address, length or byte. -/
theorem reference_run (u : Nat → Uninit) (source : Str) (pre post : List Str)
    (raw line key : Str) (fx : UnresolvedAddress) (ph : List Nat) (s t : Asm) (c : MemChunk)
    (a : Nat) (bs : List Nat) (hsrc : getlines source = pre ++ raw :: post)
    (htrim : trimLine raw = line) (hmn : isMnemonicLine line)
    (hpre : firstPass u pre = some (s, 0)) (hh : c.Holds a bs)
    (hal : assembleLine (u (1 + pre.length)) { s with lines := s.lines ++ [line] } line
        (1 + pre.length) =
      ({ s with lines := s.lines ++ [line],
                unresolvedLabels := unresolvedAdd key fx (1 + pre.length) s.unresolvedLabels }
        : Asm).emit c ph ph.length)
    (hfx : fx.memChunk = s.chunks.length)
    (hrun : assemble u Asm.init source = some (t, 0)) :
    ∃ s1 c1 cf more,
      firstPass u (getlines source) = some (s1, 0) ∧ s1.actChunk = some c1 ∧
      bs.length + ph.length ≤ 512 ∧
      t.chunks.get? s.chunks.length = some cf ∧ cf.startAddress = a ∧
      cf.length = bs.length + ph.length + more.length ∧
      (∀ q, (∀ e ∈ t.unresolvedLabels, ∀ x ∈ e.2.addresses, x.memChunk = s.chunks.length →
          q ∉ x.cells a) → cf.bytes.get? q = (bs ++ ph ++ more).get? q) ∧
      (∀ q v, q < bs.length + ph.length + more.length → q ∈ fx.cells a →
        (∀ e ∈ t.unresolvedLabels, ∀ x ∈ e.2.addresses, x.memChunk = s.chunks.length →
          q ∈ x.cells a → x = fx ∧ e.1 = key) →
        Writes fx (labelsGet t.labels key) a q v → cf.bytes.get? q = some v) ∧
      (∀ j cj, (s1.chunks ++ [c1.finalize]).get? j = some cj →
        ∃ cj1, t.chunks.get? j = some cj1 ∧ cj1.startAddress = cj.startAddress ∧
          cj1.length = cj.length ∧
          ∀ q, (∀ e ∈ t.unresolvedLabels, ∀ x ∈ e.2.addresses, x.memChunk = j →
              q ∉ x.cells cj.startAddress) → cj1.bytes.get? q = cj.bytes.get? q) := by
  obtain ⟨s1, c1, h1, h2, h3, h4, h5⟩ := assemble_second_pass u source t hrun
  have hfirst : firstPass u (pre ++ raw :: post) = some (s1, 0) := by
    rw [← hsrc]
    exact h1
  obtain ⟨hroom, hrec, cfp, more, g1, g2, g3, g4⟩ := reference_first_pass u pre post raw line key
    fx ph s s1 c c1 a bs htrim hmn hpre hh hal hfirst h2
  rw [← h4] at h5 hrec
  obtain ⟨cf, f1, f2, f3, f4⟩ := resolveLoop_frame _ _ t s.chunks.length cfp h5 g1
  refine ⟨s1, c1, cf, more, h1, h2, hroom, f1, f2.trans g2, f3.trans g3, ?_, ?_, ?_⟩
  · intro q hno
    rw [f4 q (by rw [g2]; exact hno), g4]
  · intro q v hq hqc hsole hW
    obtain ⟨cf2, k1, k2⟩ := resolveLoop_hit _ _ t s.chunks.length q v cfp h5 g1
      (by rw [g3]; exact hq)
      (by
        intro e he x hx hm hc
        rw [g2] at hc ⊢
        obtain ⟨rfl, hk⟩ := hsole e he x hx hm hc
        have hl : labelsGet s1.labels e.1 = labelsGet t.labels key := by rw [hk, h3]
        show Writes x (labelsGet s1.labels e.1) a q v
        rw [hl]
        exact hW)
      (by
        obtain ⟨e, he, -, hm⟩ := hrec
        exact ⟨e, he, fx, hm, hfx, by rw [g2]; exact hqc⟩)
    rw [f1] at k1
    cases k1
    exact k2
  · intro j cj hj
    exact resolveLoop_frame _ _ t j cj h5 hj

/-! ## The fix-up of a forward branch in a run -/

theorem isLabelName_chars (name : Str) (h : isLabelName name = true) :
    10 ∉ name ∧ 58 ∉ name := by
  cases name with
  | nil => simp [isLabelName] at h
  | cons l ls =>
    simp only [isLabelName, Bool.and_eq_true, List.all_eq_true] at h
    obtain ⟨hl, hls⟩ := h
    have hall : ∀ w ∈ l :: ls, isLabelChar w = true := by
      intro w hw
      rcases List.mem_cons.mp hw with rfl | hw
      · exact (isUpper_facts hl).2.2.1
      · exact hls w hw
    have h58 : isLabelChar 58 = false := by decide
    refine ⟨fun hm => (isLabelChar_facts (hall 10 hm)).2.2.1 rfl, fun hm => ?_⟩
    have := hall 58 hm
    rw [h58] at this
    cases this

theorem getElem_after (bs : List Nat) (x : Nat) (rest : List Nat) :
    (bs ++ x :: rest).get? bs.length = some x := by
  induction bs with
  | nil => rfl
  | cons b bs ih => simpa using ih

/-- The cell that the fix-up of a branch points to, in a chunk that holds
`n` bytes before the branch. -/
theorem branchFixup_cells (p i a n : Nat) (hp : p = (a + n) % 65536) (hpc : p < 0xFFFF)
    (hn : n + 2 ≤ 512) : (branchFixup p i).cells a = [n + 1] := by
  unfold UnresolvedAddress.cells branchFixup
  simp only [Bool.or_true, ↓reduceIte, List.cons.injEq, and_true]
  omega

/-- C7 (amended). Forward branch fix-up in a run.  The line `raw` of the
source is a branch mnemonic and a label name; before it the first pass passed
the lines `pre` and left the chunk numbered `i` open with the bytes `bs` at the
start address `a`, the label without an address, and the program counter `p`
below 0xFFFF; the call of `assemble` returns 0; and no recorded reference other
than the one of this branch points to the two cells of the branch.  Then
`p = (a + |bs|) mod 65536`, the reference of the branch points to the one cell
after the opcode, and the chunk numbered `i` of the returned list starts at `a`
and holds `codes[10]` at the place of `p` and `(A - (p + 2)) mod 256` at the
next place, where `A` is the address of the label at the end of the run.  The
second pass changes no start address, no length, and no byte but those that a
recorded reference points to.  For `-127 ≤ A - (p + 2) ≤ 127` the two bytes are
the ones that the reference to the literal address `A` appends at the same
place. -/
theorem forward_branch_fixup (u : Nat → Uninit) (source : Str) (pre post : List Str)
    (raw : Str) (o : Opcode) (name : Str) (s t : Asm) (c : MemChunk) (a : Nat) (bs : List Nat)
    (ho : o ∈ opcodeTable) (hb : o.code 10 ≠ 0) (hname : isLabelName name = true)
    (hsrc : getlines source = pre ++ raw :: post)
    (htrim : trimLine raw = o.name ++ 32 :: name)
    (hpre : firstPass u pre = some (s, 0)) (hc : s.actChunk = some c) (hh : c.Holds a bs)
    (hget : labelsGet s.labels name = 0) (hpc : s.actAddress < 0xFFFF)
    (hrun : assemble u Asm.init source = some (t, 0))
    (hsole : ∀ e ∈ t.unresolvedLabels, ∀ x ∈ e.2.addresses, x.memChunk = s.chunks.length →
      (bs.length ∈ x.cells a ∨ bs.length + 1 ∈ x.cells a) →
      x = branchFixup s.actAddress s.chunks.length ∧ e.1 = name) :
    s.actAddress = (a + bs.length) % 65536 ∧
    (branchFixup s.actAddress s.chunks.length).cells a = [bs.length + 1] ∧
    (∃ s1 c1 cf, firstPass u (getlines source) = some (s1, 0) ∧ s1.actChunk = some c1 ∧
      t.chunks.get? s.chunks.length = some cf ∧ cf.startAddress = a ∧
      cf.bytes.get? bs.length = some (o.code 10) ∧
      cf.bytes.get? (bs.length + 1) =
        some ((((labelsGet t.labels name : Nat) : Int) - ((s.actAddress : Int) + 2)) % 256).toNat ∧
      ∀ j cj, (s1.chunks ++ [c1.finalize]).get? j = some cj →
        ∃ cj1, t.chunks.get? j = some cj1 ∧ cj1.startAddress = cj.startAddress ∧
          cj1.length = cj.length ∧
          ∀ q, (∀ e ∈ t.unresolvedLabels, ∀ x ∈ e.2.addresses, x.memChunk = j →
              q ∉ x.cells cj.startAddress) → cj1.bytes.get? q = cj.bytes.get? q) ∧
    (∀ (ds : Str) (A : Nat), numberValue (36 :: ds) = some A → A ≤ 0xFFFF →
      -127 ≤ (A : Int) - ((s.actAddress : Int) + 2) →
      (A : Int) - ((s.actAddress : Int) + 2) ≤ 127 →
      Appends s a bs [o.code 10, (((A : Int) - ((s.actAddress : Int) + 2)) % 256).toNat]
        (assembleLine (u (1 + pre.length)) s (o.name ++ S " $" ++ ds) (1 + pre.length))) := by
  obtain ⟨-, hst, hlen, -, -⟩ := holds_facts c a bs hh
  have hp : s.actAddress = (a + bs.length) % 65536 := by
    rw [(pcInv_firstPass u pre s 0 hpre).2 c hc, hst, hlen]
  obtain ⟨h10, h58⟩ := isLabelName_chars name hname
  have hmn := isMnemonicLine_opcode o ho name h10 h58
  have hal := assembleLine_forward_branch (u (1 + pre.length))
    { s with lines := s.lines ++ [o.name ++ 32 :: name] } c (1 + pre.length) o name ho hb hc
    hname hget (Nat.le_of_lt hpc)
  obtain ⟨s1, c1, cf, more, r1, r2, r3, r4, r5, r6, r7, r8, r9⟩ := reference_run u source pre
    post raw (o.name ++ 32 :: name) name (branchFixup s.actAddress s.chunks.length)
    [o.code 10, 0xfe] s t c a bs hsrc htrim hmn hpre hh hal rfl hrun
  have hroom : bs.length + 2 ≤ 512 := r3
  have hcells := branchFixup_cells s.actAddress s.chunks.length a bs.length hp hpc hroom
  refine ⟨hp, hcells, ⟨s1, c1, cf, r1, r2, r4, r5, ?_, ?_, r9⟩, ?_⟩
  · rw [r7 bs.length]
    · have e : bs ++ [o.code 10, 254] ++ more = bs ++ o.code 10 :: (254 :: more) := by simp
      rw [e]
      exact getElem_after bs _ _
    · intro e he x hx hm hcx
      obtain ⟨rfl, -⟩ := hsole e he x hx hm (Or.inl hcx)
      rw [hcells] at hcx
      simp at hcx
  · apply r8 (bs.length + 1)
    · simp only [List.length_cons, List.length_nil]
      omega
    · rw [hcells]
      exact List.mem_singleton.mpr rfl
    · intro e he x hx hm hcx
      exact hsole e he x hx hm (Or.inr hcx)
    · have hw := writes_branch s.actAddress s.chunks.length (labelsGet t.labels name) a hpc
      have hq : (s.actAddress + 1 + 65536 - a % 65536) % 65536 = bs.length + 1 := by omega
      rw [hq] at hw
      exact hw
  · intro ds A hds hA h1 h2
    rw [(branch_encoding_emit (u (1 + pre.length)) s c (1 + pre.length) o ho hb hc).1 ds A hds
      hA, if_pos ⟨h1, h2⟩]
    exact emit_appends s c a bs _ 2 hh hroom rfl

/-- An instance of `forward_branch_fixup`: the run of `.pc = $1000`,
`BNE FWD`, `NOP`, `FWD: RTS`, where the branch is the first line of its chunk
and `FWD` ends at 0x1003: the chunk holds `D0` and the offset 1 in its first
two places. -/
theorem forward_branch_fixup_witness :
    assemble (fun _ => quiet) Asm.init (S ".pc = $1000\nBNE FWD\nNOP\nFWD: RTS")
      = some (forwardBranchRun, 0) ∧
    chunksOf (assemble (fun _ => quiet) Asm.init (S ".pc = $1000\nBNE FWD\nNOP\nFWD: RTS"))
      = some (0, [(0x1000, [0xd0, 0x01, 0xea, 0x60])]) ∧
    (afterPc1000.actAddress = (0x1000 + ([] : List Nat).length) % 65536 ∧
    (branchFixup afterPc1000.actAddress afterPc1000.chunks.length).cells 0x1000
      = [([] : List Nat).length + 1] ∧
    (∃ s1 c1 cf,
      firstPass (fun _ => quiet) (getlines (S ".pc = $1000\nBNE FWD\nNOP\nFWD: RTS"))
        = some (s1, 0) ∧ s1.actChunk = some c1 ∧
      forwardBranchRun.chunks.get? afterPc1000.chunks.length = some cf ∧
      cf.startAddress = 0x1000 ∧
      cf.bytes.get? ([] : List Nat).length = some (bneEntry.code 10) ∧
      cf.bytes.get? (([] : List Nat).length + 1) =
        some ((((labelsGet forwardBranchRun.labels (S "FWD") : Nat) : Int) -
          ((afterPc1000.actAddress : Int) + 2)) % 256).toNat ∧
      ∀ j cj, (s1.chunks ++ [c1.finalize]).get? j = some cj →
        ∃ cj1, forwardBranchRun.chunks.get? j = some cj1 ∧
          cj1.startAddress = cj.startAddress ∧ cj1.length = cj.length ∧
          ∀ q, (∀ e ∈ forwardBranchRun.unresolvedLabels, ∀ x ∈ e.2.addresses, x.memChunk = j →
              q ∉ x.cells cj.startAddress) → cj1.bytes.get? q = cj.bytes.get? q) ∧
    (∀ (ds : Str) (A : Nat), numberValue (36 :: ds) = some A → A ≤ 0xFFFF →
      -127 ≤ (A : Int) - ((afterPc1000.actAddress : Int) + 2) →
      (A : Int) - ((afterPc1000.actAddress : Int) + 2) ≤ 127 →
      Appends afterPc1000 0x1000 []
        [bneEntry.code 10, (((A : Int) - ((afterPc1000.actAddress : Int) + 2)) % 256).toNat]
        (assembleLine quiet afterPc1000 (bneEntry.name ++ S " $" ++ ds)
          (1 + [S ".pc = $1000"].length)))) :=
  ⟨by decide, by decide,
   forward_branch_fixup (fun _ => quiet) (S ".pc = $1000\nBNE FWD\nNOP\nFWD: RTS")
     [S ".pc = $1000"] [S "NOP", S "FWD: RTS"] (S "BNE FWD") bneEntry (S "FWD") afterPc1000
     forwardBranchRun (MemChunk.fresh 0x1000) 0x1000 [] (by decide) (by decide) (by decide)
     (by decide) (by decide) (by decide) (by decide) rfl (by decide) (by decide) (by decide)
     (by decide)⟩

/-! ## The fix-up of a 16-bit operand in a run -/

/-- The cells that the fix-up of a 16-bit operand points to, in a chunk that
holds `n` bytes before the instruction. -/
theorem addressFixup_cells (p i a n : Nat) (hp : p = (a + n) % 65536) (hpc : p < 0xFFFF)
    (hn : n + 3 ≤ 512) : (addressFixup p i).cells a = [n + 1, n + 2] := by
  unfold UnresolvedAddress.cells addressFixup
  simp only [Bool.or_self, Bool.false_eq_true, ↓reduceIte, List.cons.injEq, and_true]
  omega

/-- A line that appends an opcode and the program counter as the placeholder
of a 16-bit operand, and records the fix-up of the operand, in a run that
succeeds. -/
theorem address_reference_run (u : Nat → Uninit) (source : Str) (pre post : List Str)
    (raw line name : Str) (code : Nat) (s t : Asm) (c : MemChunk) (a : Nat) (bs : List Nat)
    (hsrc : getlines source = pre ++ raw :: post) (htrim : trimLine raw = line)
    (hmn : isMnemonicLine line) (hpre : firstPass u pre = some (s, 0))
    (hc : s.actChunk = some c) (hh : c.Holds a bs) (hpc : s.actAddress < 0xFFFF)
    (hal : assembleLine (u (1 + pre.length)) { s with lines := s.lines ++ [line] } line
        (1 + pre.length) =
      ({ s with lines := s.lines ++ [line],
                unresolvedLabels := unresolvedAdd name
                  (addressFixup s.actAddress s.chunks.length) (1 + pre.length)
                  s.unresolvedLabels }
        : Asm).emit c [code, s.actAddress % 256, s.actAddress / 256] 3)
    (hrun : assemble u Asm.init source = some (t, 0))
    (hsole : ∀ e ∈ t.unresolvedLabels, ∀ x ∈ e.2.addresses, x.memChunk = s.chunks.length →
      (bs.length ∈ x.cells a ∨ bs.length + 1 ∈ x.cells a ∨ bs.length + 2 ∈ x.cells a) →
      x = addressFixup s.actAddress s.chunks.length ∧ e.1 = name) :
    s.actAddress = (a + bs.length) % 65536 ∧
    (addressFixup s.actAddress s.chunks.length).cells a = [bs.length + 1, bs.length + 2] ∧
    ∃ s1 c1 cf, firstPass u (getlines source) = some (s1, 0) ∧ s1.actChunk = some c1 ∧
      t.chunks.get? s.chunks.length = some cf ∧ cf.startAddress = a ∧
      cf.bytes.get? bs.length = some code ∧
      cf.bytes.get? (bs.length + 1) = some (labelsGet t.labels name % 256) ∧
      cf.bytes.get? (bs.length + 2) = some (labelsGet t.labels name / 256 % 256) ∧
      ∀ j cj, (s1.chunks ++ [c1.finalize]).get? j = some cj →
        ∃ cj1, t.chunks.get? j = some cj1 ∧ cj1.startAddress = cj.startAddress ∧
          cj1.length = cj.length ∧
          ∀ q, (∀ e ∈ t.unresolvedLabels, ∀ x ∈ e.2.addresses, x.memChunk = j →
              q ∉ x.cells cj.startAddress) → cj1.bytes.get? q = cj.bytes.get? q := by
  obtain ⟨-, hst, hlen, -, -⟩ := holds_facts c a bs hh
  have hp : s.actAddress = (a + bs.length) % 65536 := by
    rw [(pcInv_firstPass u pre s 0 hpre).2 c hc, hst, hlen]
  obtain ⟨s1, c1, cf, more, r1, r2, r3, r4, r5, r6, r7, r8, r9⟩ := reference_run u source pre
    post raw line name (addressFixup s.actAddress s.chunks.length)
    [code, s.actAddress % 256, s.actAddress / 256] s t c a bs hsrc htrim hmn hpre hh hal rfl
    hrun
  have hroom : bs.length + 3 ≤ 512 := r3
  have hcells := addressFixup_cells s.actAddress s.chunks.length a bs.length hp hpc hroom
  obtain ⟨hw1, hw2⟩ := writes_word s.actAddress s.chunks.length (labelsGet t.labels name) a hpc
  have hq : (s.actAddress + 1 + 65536 - a % 65536) % 65536 = bs.length + 1 := by omega
  rw [hq] at hw1 hw2
  refine ⟨hp, hcells, s1, c1, cf, r1, r2, r4, r5, ?_, ?_, ?_, r9⟩
  · rw [r7 bs.length]
    · have e : bs ++ [code, s.actAddress % 256, s.actAddress / 256] ++ more
          = bs ++ code :: (s.actAddress % 256 :: s.actAddress / 256 :: more) := by simp
      rw [e]
      exact getElem_after bs _ _
    · intro e he x hx hm hcx
      obtain ⟨rfl, -⟩ := hsole e he x hx hm (Or.inl hcx)
      rw [hcells] at hcx
      simp at hcx
  · apply r8 (bs.length + 1)
    · simp only [List.length_cons, List.length_nil]
      omega
    · rw [hcells]
      simp
    · intro e he x hx hm hcx
      exact hsole e he x hx hm (Or.inr (Or.inl hcx))
    · exact hw1
  · apply r8 (bs.length + 2)
    · simp only [List.length_cons, List.length_nil]
      omega
    · rw [hcells]
      simp
    · intro e he x hx hm hcx
      exact hsole e he x hx hm (Or.inr (Or.inr hcx))
    · exact hw2

/-- C29 (amended). References to labels in the absolute modes, for a mnemonic
of the table, a label name and a state whose open chunk holds the bytes `bs` at
the start address `a`, with the program counter `p` below 0xFFFF.  A label
defined before the use stands for its address: `M L` appends the absolute-mode
opcode, `A & 0xFF`, `A >> 8` for `0x100 ≤ A`, and the zero-page opcode and `A`
for `0 < A < 0x100`.  A label that is not defined yet in `M L`, and the label
in `M L,X` and `M L,Y`, where the table of the labels holds nothing for the
text of the operand, at `0x100 ≤ p`: when the line `raw` is such a line in a
source, the first pass left the state before it, the call of `assemble` returns
0, and no other recorded reference points to the three cells of the
instruction, then `p = (a + |bs|) mod 65536`, the reference points to the two
cells after the opcode, and the chunk of the instruction in the returned list
starts at `a` and holds the opcode of the absolute mode of the form at the place
of `p` and `A & 0xFF`, `A >> 8` at the next two places, where `A` is the
address of the label at the end of the run; the second pass changes no start
address, no length, and no byte but those that a recorded reference points
to. -/
theorem label_reference_absolute (u : Nat → Uninit) (k : Nat) (s : Asm) (c : MemChunk)
    (o : Opcode) (name : Str) (a : Nat) (bs : List Nat) (ho : o ∈ opcodeTable)
    (hname : isLabelName name = true) (hc : s.actChunk = some c) (hh : c.Holds a bs)
    (hpc : s.actAddress < 0xFFFF) :
    (∀ A, labelsGet s.labels name = A → 0x100 ≤ A → A ≤ 0xFFFF → o.code 10 = 0 →
      o.code 4 ≠ 0 → bs.length + 3 ≤ 512 →
      Appends s a bs [o.code 4, A % 256, A / 256]
        (assembleLine (u k) s (o.name ++ 32 :: name) k)) ∧
    (∀ A, labelsGet s.labels name = A → 0 < A → A < 0x100 → o.code 10 = 0 → o.code 1 ≠ 0 →
      bs.length + 2 ≤ 512 →
      Appends s a bs [o.code 1, A] (assembleLine (u k) s (o.name ++ 32 :: name) k)) ∧
    (∀ (source : Str) (pre post : List Str) (raw : Str) (t : Asm),
      labelsGet s.labels name = 0 → 0x100 ≤ s.actAddress → o.code 10 = 0 → o.code 4 ≠ 0 →
      getlines source = pre ++ raw :: post → trimLine raw = o.name ++ 32 :: name →
      firstPass u pre = some (s, 0) → assemble u Asm.init source = some (t, 0) →
      (∀ e ∈ t.unresolvedLabels, ∀ x ∈ e.2.addresses, x.memChunk = s.chunks.length →
        (bs.length ∈ x.cells a ∨ bs.length + 1 ∈ x.cells a ∨ bs.length + 2 ∈ x.cells a) →
        x = addressFixup s.actAddress s.chunks.length ∧ e.1 = name) →
      s.actAddress = (a + bs.length) % 65536 ∧
      (addressFixup s.actAddress s.chunks.length).cells a = [bs.length + 1, bs.length + 2] ∧
      ∃ s1 c1 cf, firstPass u (getlines source) = some (s1, 0) ∧ s1.actChunk = some c1 ∧
        t.chunks.get? s.chunks.length = some cf ∧ cf.startAddress = a ∧
        cf.bytes.get? bs.length = some (o.code 4) ∧
        cf.bytes.get? (bs.length + 1) = some (labelsGet t.labels name % 256) ∧
        cf.bytes.get? (bs.length + 2) = some (labelsGet t.labels name / 256 % 256) ∧
        ∀ j cj, (s1.chunks ++ [c1.finalize]).get? j = some cj →
          ∃ cj1, t.chunks.get? j = some cj1 ∧ cj1.startAddress = cj.startAddress ∧
            cj1.length = cj.length ∧
            ∀ q, (∀ e ∈ t.unresolvedLabels, ∀ x ∈ e.2.addresses, x.memChunk = j →
                q ∉ x.cells cj.startAddress) → cj1.bytes.get? q = cj.bytes.get? q) ∧
    (∀ (K : Nat) (source : Str) (pre post : List Str) (raw : Str) (t : Asm),
      K = 88 ∨ K = 89 → labelsGet s.labels (name ++ [44, K]) = 0 → 0x100 ≤ s.actAddress →
      o.code (if K = 88 then 5 else 6) ≠ 0 →
      getlines source = pre ++ raw :: post → trimLine raw = o.name ++ 32 :: (name ++ [44, K]) →
      firstPass u pre = some (s, 0) → assemble u Asm.init source = some (t, 0) →
      (∀ e ∈ t.unresolvedLabels, ∀ x ∈ e.2.addresses, x.memChunk = s.chunks.length →
        (bs.length ∈ x.cells a ∨ bs.length + 1 ∈ x.cells a ∨ bs.length + 2 ∈ x.cells a) →
        x = addressFixup s.actAddress s.chunks.length ∧ e.1 = name) →
      s.actAddress = (a + bs.length) % 65536 ∧
      (addressFixup s.actAddress s.chunks.length).cells a = [bs.length + 1, bs.length + 2] ∧
      ∃ s1 c1 cf, firstPass u (getlines source) = some (s1, 0) ∧ s1.actChunk = some c1 ∧
        t.chunks.get? s.chunks.length = some cf ∧ cf.startAddress = a ∧
        cf.bytes.get? bs.length = some (o.code (if K = 88 then 5 else 6)) ∧
        cf.bytes.get? (bs.length + 1) = some (labelsGet t.labels name % 256) ∧
        cf.bytes.get? (bs.length + 2) = some (labelsGet t.labels name / 256 % 256) ∧
        ∀ j cj, (s1.chunks ++ [c1.finalize]).get? j = some cj →
          ∃ cj1, t.chunks.get? j = some cj1 ∧ cj1.startAddress = cj.startAddress ∧
            cj1.length = cj.length ∧
            ∀ q, (∀ e ∈ t.unresolvedLabels, ∀ x ∈ e.2.addresses, x.memChunk = j →
                q ∉ x.cells cj.startAddress) → cj1.bytes.get? q = cj.bytes.get? q) := by
  obtain ⟨h10, h58⟩ := isLabelName_chars name hname
  refine ⟨?_, ?_, ?_, ?_⟩
  · intro A hget h1 h2 hnb h4 hroom
    rw [assembleLine_label_defined (u k) s c k o name A ho hnb (Or.inr h4) hc hname hget
      (by omega) h2, if_neg (by omega)]
    have hb4 : (o.code 4 != 0) = true := by simp [h4]
    rw [if_pos hb4]
    exact emit_appends s c a bs _ 3 hh hroom rfl
  · intro A hget h1 h2 hnb hz hroom
    rw [assembleLine_label_defined (u k) s c k o name A ho hnb (Or.inl hz) hc hname hget
      (by omega) (by omega), if_pos h2]
    have hb1 : (o.code 1 != 0) = true := by simp [hz]
    rw [if_pos hb1]
    exact emit_appends s c a bs _ 2 hh hroom rfl
  · intro source pre post raw t hget hlo hnb h4 hsrc htrim hpre hrun hsole
    have hmn := isMnemonicLine_opcode o ho name h10 h58
    have hal := assembleLine_label_forward (u (1 + pre.length))
      { s with lines := s.lines ++ [o.name ++ 32 :: name] } c (1 + pre.length) o name ho hnb h4
      hc hname hget hlo (Nat.le_of_lt hpc)
    exact address_reference_run u source pre post raw _ name (o.code 4) s t c a bs hsrc htrim
      hmn hpre hc hh hpc hal hrun hsole
  · intro K source pre post raw t hK hget hlo hab hsrc htrim hpre hrun hsole
    have hmn := isMnemonicLine_opcode o ho (name ++ [44, K])
      (by
        simp only [List.mem_append, List.mem_cons, List.not_mem_nil, or_false, not_or]
        refine ⟨h10, by decide, ?_⟩
        rcases hK with e | e <;> omega)
      (by
        simp only [List.mem_append, List.mem_cons, List.not_mem_nil, or_false, not_or]
        refine ⟨h58, by decide, ?_⟩
        rcases hK with e | e <;> omega)
    have hal := assembleLine_label_indexed (u (1 + pre.length))
      { s with lines := s.lines ++ [o.name ++ 32 :: (name ++ [44, K])] } c (1 + pre.length) o
      name K hK ho hab hc hname hget hlo (Nat.le_of_lt hpc)
    exact address_reference_run u source pre post raw _ name _ s t c a bs hsrc htrim
      hmn hpre hc hh hpc hal hrun hsole

/-- An instance of `label_reference_absolute`: `LDA L` at 0x1000 with the
label `L` at 0x2000 and at 0x10, and the runs of `.pc = $1000`, `LDA FWD`,
`NOP`, `FWD: RTS` and of the same lines with `LDA FWD,X`, where `FWD` ends at
0x1004: the chunk holds `AD 04 10`, and `BD 04 10`, in its first three
places. -/
theorem label_reference_absolute_witness :
    Appends (openedWith 0x1000 (S "L") 0x2000) 0x1000 [] [ldaEntry.code 4, 0x2000 % 256, 0x2000 / 256]
      (assembleLine quiet (openedWith 0x1000 (S "L") 0x2000) (ldaEntry.name ++ 32 :: S "L") 2) ∧
    Appends (openedWith 0x1000 (S "L") 0x10) 0x1000 [] [ldaEntry.code 1, 0x10]
      (assembleLine quiet (openedWith 0x1000 (S "L") 0x10) (ldaEntry.name ++ 32 :: S "L") 2) ∧
    chunksOf (assemble (fun _ => quiet) Asm.init (S ".pc = $1000\nLDA FWD\nNOP\nFWD: RTS"))
      = some (0, [(0x1000, [0xad, 0x04, 0x10, 0xea, 0x60])]) ∧
    (afterPc1000.actAddress = (0x1000 + ([] : List Nat).length) % 65536 ∧
      (addressFixup afterPc1000.actAddress afterPc1000.chunks.length).cells 0x1000
        = [([] : List Nat).length + 1, ([] : List Nat).length + 2] ∧
      ∃ s1 c1 cf,
        firstPass (fun _ => quiet) (getlines (S ".pc = $1000\nLDA FWD\nNOP\nFWD: RTS")) = some (s1, 0) ∧
        s1.actChunk = some c1 ∧
        forwardAddressRun.chunks.get? afterPc1000.chunks.length = some cf ∧ cf.startAddress = 0x1000 ∧
        cf.bytes.get? ([] : List Nat).length = some (ldaEntry.code 4) ∧
        cf.bytes.get? (([] : List Nat).length + 1)
          = some (labelsGet forwardAddressRun.labels (S "FWD") % 256) ∧
        cf.bytes.get? (([] : List Nat).length + 2)
          = some (labelsGet forwardAddressRun.labels (S "FWD") / 256 % 256) ∧
        ∀ j cj, (s1.chunks ++ [c1.finalize]).get? j = some cj →
          ∃ cj1, forwardAddressRun.chunks.get? j = some cj1 ∧ cj1.startAddress = cj.startAddress ∧
            cj1.length = cj.length ∧
            ∀ q, (∀ e ∈ forwardAddressRun.unresolvedLabels, ∀ x ∈ e.2.addresses, x.memChunk = j →
                q ∉ x.cells cj.startAddress) → cj1.bytes.get? q = cj.bytes.get? q) ∧
    chunksOf (assemble (fun _ => quiet) Asm.init (S ".pc = $1000\nLDA FWD,X\nNOP\nFWD: RTS"))
      = some (0, [(0x1000, [0xbd, 0x04, 0x10, 0xea, 0x60])]) ∧
    (afterPc1000.actAddress = (0x1000 + ([] : List Nat).length) % 65536 ∧
      (addressFixup afterPc1000.actAddress afterPc1000.chunks.length).cells 0x1000
        = [([] : List Nat).length + 1, ([] : List Nat).length + 2] ∧
      ∃ s1 c1 cf,
        firstPass (fun _ => quiet) (getlines (S ".pc = $1000\nLDA FWD,X\nNOP\nFWD: RTS")) = some (s1, 0) ∧
        s1.actChunk = some c1 ∧
        forwardIndexedRun.chunks.get? afterPc1000.chunks.length = some cf ∧ cf.startAddress = 0x1000 ∧
        cf.bytes.get? ([] : List Nat).length = some (ldaEntry.code (if 88 = 88 then 5 else 6)) ∧
        cf.bytes.get? (([] : List Nat).length + 1)
          = some (labelsGet forwardIndexedRun.labels (S "FWD") % 256) ∧
        cf.bytes.get? (([] : List Nat).length + 2)
          = some (labelsGet forwardIndexedRun.labels (S "FWD") / 256 % 256) ∧
        ∀ j cj, (s1.chunks ++ [c1.finalize]).get? j = some cj →
          ∃ cj1, forwardIndexedRun.chunks.get? j = some cj1 ∧ cj1.startAddress = cj.startAddress ∧
            cj1.length = cj.length ∧
            ∀ q, (∀ e ∈ forwardIndexedRun.unresolvedLabels, ∀ x ∈ e.2.addresses, x.memChunk = j →
                q ∉ x.cells cj.startAddress) → cj1.bytes.get? q = cj.bytes.get? q) :=
  ⟨(label_reference_absolute (fun _ => quiet) 2 (openedWith 0x1000 (S "L") 0x2000)
      (MemChunk.fresh 0x1000) ldaEntry (S "L") 0x1000 [] (by decide) (by decide) rfl rfl
      (by decide)).1 0x2000 (by decide) (by decide) (by decide) (by decide) (by decide)
      (by decide),
   (label_reference_absolute (fun _ => quiet) 2 (openedWith 0x1000 (S "L") 0x10)
      (MemChunk.fresh 0x1000) ldaEntry (S "L") 0x1000 [] (by decide) (by decide) rfl rfl
      (by decide)).2.1 0x10 (by decide) (by decide) (by decide) (by decide) (by decide)
      (by decide),
   by decide,
   (label_reference_absolute (fun _ => quiet) 2 afterPc1000 (MemChunk.fresh 0x1000) ldaEntry
      (S "FWD") 0x1000 [] (by decide) (by decide) rfl rfl (by decide)).2.2.1
      (S ".pc = $1000\nLDA FWD\nNOP\nFWD: RTS") [S ".pc = $1000"] [S "NOP", S "FWD: RTS"] (S "LDA FWD") forwardAddressRun
      (by decide) (by decide) (by decide) (by decide) (by decide) (by decide) (by decide)
      (by decide) (by decide),
   by decide,
   (label_reference_absolute (fun _ => quiet) 2 afterPc1000 (MemChunk.fresh 0x1000) ldaEntry
      (S "FWD") 0x1000 [] (by decide) (by decide) rfl rfl (by decide)).2.2.2 88
      (S ".pc = $1000\nLDA FWD,X\nNOP\nFWD: RTS") [S ".pc = $1000"] [S "NOP", S "FWD: RTS"] (S "LDA FWD,X") forwardIndexedRun
      (by decide) (by decide) (by decide) (by decide) (by decide) (by decide) (by decide)
      (by decide) (by decide)⟩

end BASS
